import Mathlib

set_option autoImplicit false

/-!
The CFG+LM chart decoder, the tuning code and the incremental LM composer of travatar.

A shallow embedding of
* `src/lib/lookup-table-cfglm.cc`: `CFGChartItem`, `CFGCollection`,
  `LookupTableCFGLM::Consume`, `AddToChart`, `CubePrune` and `TransformGraph`;
* `src/lib/eval-measure.cc`: the n-gram model of the reference and the choice of the oracle
  sentence in `EvalMeasure::CalculateOracle`;
* `src/lib/tuning-example-forest.cc`: `CalculateOracle`, `CalculateMertHull` and
  `CalculateConvexHull` of `TuningExampleForest`;
* `src/lib/lm-composer-incremental.cc`: the constructor of `LMComposerIncremental`,
  `Forest::Complete` and `CalculateVertex`;
* `src/include/travatar/cfg-data.h`: `CfgData::AppendChild` and `GetNontermPositions`;

followed by theorems about them.

Conventions of the embedding.

* Pointers to hypergraph nodes and edges are natural numbers, the positions in the
  node and edge arrays of the graph they point into (every node and edge that is created is
  handed to the graph at once, which numbers them in order of arrival).
* `Real` scores are exact integers; the part on `Forest::Complete`, which divides by the
  weight of the language model, keeps its scores in the rationals.
* A computation that trips an `assert` or reads a vector out of range ends in
  `Err.assertion`; a loop that is cut off by its iteration budget ends in
  `Err.fuel`.
* A `std::map` is an association list in order of insertion.
* The language models, the tries of the rule tables, the Viterbi routine of
  `HyperNode`, the `std::sort` of the library, the evaluation measure, the n-best extraction
  and the algebra of `MertHull` are not part of the files under study: they are fields of the
  records that use them or arguments, and every theorem holds for all of them.
-/

namespace Travatar

/-! ## Data model -/

abbrev WordId := Int
abbrev Sentence := List WordId
abbrev Real := Int
abbrev HieroHeadLabels := List WordId
abbrev ChartState := Nat
abbrev FeatId := Nat

/-- The two ways a run of the model can stop without a result. -/
inductive Err where
  | assertion
  | fuel
deriving DecidableEq

/-- By `cfg-data.h`: target (or source) words with negative slot markers, head label, child labels. -/
structure CfgData where
  words : Sentence
  label : WordId := -1
  syms : Sentence := []
deriving DecidableEq

abbrev CfgDataVector := List CfgData

/-- Modelled from the spec: SparseVector, "mapping from feature id to double; missing
entries are zero". It is kept as the list of its contributions; the value of a
feature is the sum of the contributions filed under it. -/
abbrev SparseVector := List (FeatId × Real)

/-- Value of a feature in a sparse vector. -/
def SparseVector.value (v : SparseVector) (k : FeatId) : Real :=
  ((v.filter (fun p => p.1 = k)).map (fun p => p.2)).sum

/-- Modelled from the spec: dot product of the weights with a feature vector. -/
def dot (w v : SparseVector) : Real :=
  (v.map (fun p => SparseVector.value w p.1 * p.2)).sum

/-- Modelled from the spec: TranslationRule (`translation-rule-hiero.h` is not among the
sources): source pattern, per-factor target data, features, head labels and child head labels. -/
structure TranslationRuleHiero where
  src_data : CfgData
  trg_data : CfgDataVector
  features : SparseVector
  head_labels : HieroHeadLabels
  child_head_labels : List HieroHeadLabels
deriving DecidableEq

/-- Modelled from the spec: HyperEdge. `score = none` means that `SetScore` was never called
on the edge, so it still holds whatever its constructor put there. -/
structure HyperEdge where
  id : Nat
  head : Option Nat
  tails : List Nat
  features : SparseVector
  score : Option Real
  trg_data : CfgDataVector
deriving DecidableEq

/-- Modelled from the spec: HyperNode. `sym = none` means that `SetSym` was never called. The
memoised Viterbi score of a node is kept in a table beside the graph (`ViterbiMemo`). -/
structure HyperNode where
  id : Nat
  span : Nat × Nat
  sym : Option WordId
  edges : List Nat
deriving DecidableEq

/-- Modelled from the spec: HyperGraph, owner of its nodes and edges; node 0 is the root. -/
structure HyperGraph where
  nodes : List HyperNode
  edges : List HyperEdge
  words : Sentence
deriving DecidableEq

/-- The graph made by `new HyperGraph`. -/
def HyperGraph.empty : HyperGraph := { nodes := [], edges := [], words := [] }

/-- Stored Viterbi scores, by node. -/
abbrev ViterbiMemo := List (Nat × Real)

/-- A chart entry: the node and one LM state per language model. -/
abbrev StatefulNode := Nat × List ChartState

/-- The class `CFGChartItem`: buckets of stateful nodes by head labels, and the populated flag. -/
structure CFGChartItem where
  nodes_ : List (HieroHeadLabels × List StatefulNode) := []
  populated_ : Bool := false
deriving DecidableEq

/-- The class `CFGCollection`: three parallel vectors. -/
structure CFGCollection where
  rules_ : List TranslationRuleHiero := []
  spans_ : List (List (Nat × Nat)) := []
  labels_ : List (List HieroHeadLabels) := []
deriving DecidableEq

/-- Modelled from the spec: CFGPath, "an opaque trie agent plus the accumulated child-span and
child-label vectors consumed so far"; the agent is represented by its query, the sequence of
word ids fed to the trie. -/
structure CFGPath where
  agent : List WordId := []
  spans : List (Nat × Nat) := []
  labels : List HieroHeadLabels := []
deriving DecidableEq

/-- One language model with its scoring functions (`lm_data_[k]` together with `funcs_[k]`).
`CalcNontermScore words states lm_id` gives the log-probability, the OOV count and the
resulting chart state. -/
structure LMData where
  weight : Real
  unk_weight : Real
  feature_name : FeatId
  unk_feature_name : FeatId
  factor : Nat
  CalcNontermScore : Sentence → List (List ChartState) → Nat → (Real × Int) × ChartState
  CalcFinalScore : ChartState → Real

/-- A rule table: the trie (exact lookup gives the key id, predictive search tells whether
some key extends the query) and the rule buckets by key id. -/
structure RuleFSM where
  lookup : List WordId → Option Nat
  predictive_search : List WordId → Bool
  rules : Nat → List TranslationRuleHiero

/-- The library function `std::sort` as `FinalizeNodes` calls it (line 73), on a vector of
stateful nodes with a comparator "the score of `x` is greater than the score of `y`"; `key`
gives the score that the comparator reads. All that the library promises is that the result is
a rearrangement of the vector in which no element stands after one that scores less; the order
of elements with equal scores is not specified, and a second sort need not keep it. -/
structure StdSort where
  sort : (StatefulNode → Real) → List StatefulNode → List StatefulNode
  perm : ∀ key l, (sort key l).Perm l
  sorted : ∀ key l, (sort key l).Pairwise (fun x y => key y ≤ key x)

/-- One `std::sort`: insertion sort, which keeps the order of elements with equal scores. -/
def insertionStdSort : StdSort :=
  { sort := fun key l => l.insertionSort (fun x y => key y ≤ key x)
    perm := fun key l => List.perm_insertionSort (fun x y => key y ≤ key x) l
    sorted := fun key l =>
      have : IsTotal StatefulNode (fun x y => key y ≤ key x) :=
        ⟨fun a b => le_total (key b) (key a)⟩
      have : IsTrans StatefulNode (fun x y => key y ≤ key x) :=
        ⟨fun _ _ _ hab hbc => le_trans hbc hab⟩
      List.sorted_insertionSort (fun x y => key y ≤ key x) l }

/-- The class `LookupTableCFGLM`. The last three fields are not members of the class: they are
the constant `REAL_MAX`, the method `HyperNode::CalcViterbiScore`, which reads the graph,
updates the stored scores and returns the score of the node, and the `std::sort` of the
library. -/
structure LookupTableCFGLM where
  pop_limit_ : Int := -1
  chart_limit_ : Int := -1
  trg_factors : Nat := 1
  root_symbol_ : HieroHeadLabels
  rule_fsms_ : List RuleFSM
  unary_rules_ : List TranslationRuleHiero
  unary_ids_ : List (HieroHeadLabels × List Nat)
  lm_data_ : List LMData
  weights_ : SparseVector
  REAL_MAX : Real
  CalcViterbiScore : HyperGraph → ViterbiMemo → Nat → ViterbiMemo × Real
  std_sort : StdSort

/-! ## Small helpers: maps as association lists, failing reads -/

/-- Lookup in an association list standing for a `std::map`: `find`. -/
def assocFind {κ β : Type} [DecidableEq κ] : List (κ × β) → κ → Option β
  | [], _ => none
  | (l, b) :: rest, k => if l = k then some b else assocFind rest k

/-- The operation `m[k].push_back(v)` on a map of vectors. -/
def assocPush {κ β : Type} [DecidableEq κ] : List (κ × List β) → κ → β → List (κ × List β)
  | [], k, v => [(k, [v])]
  | (l, b) :: rest, k, v =>
    if l = k then (l, b ++ [v]) :: rest else (l, b) :: assocPush rest k v

/-- A read that must succeed. -/
def must {α : Type} : Option α → Except Err α
  | some a => .ok a
  | none => .error Err.assertion

/-- Index of a vector by a C `int`. -/
def atInt {α : Type} (xs : List α) (k : Int) : Option α :=
  if 0 ≤ k then xs[k.toNat]? else none

/-! ## HyperGraph operations -/

/-- The stored Viterbi score of a node (`GetViterbiScore`). -/
def GetViterbiScore (t : LookupTableCFGLM) (m : ViterbiMemo) (n : Nat) : Real :=
  (assocFind m n).getD (-t.REAL_MAX)

/-- Appends a node to the graph (`AddNode`), numbering it. -/
def HyperGraph.AddNode (g : HyperGraph) (span : Nat × Nat) (sym : Option WordId)
    (edges : List Nat) : HyperGraph :=
  { g with nodes := g.nodes ++ [{ id := g.nodes.length, span := span, sym := sym, edges := edges }] }

/-- Appends an edge to the graph (`AddEdge`), numbering it. -/
def HyperGraph.AddEdge (g : HyperGraph) (head : Option Nat) (tails : List Nat)
    (features : SparseVector) (score : Option Real) (trg : CfgDataVector) : HyperGraph :=
  { g with edges := g.edges ++ [{ id := g.edges.length, head := head, tails := tails,
                                   features := features, score := score, trg_data := trg }] }

/-- The call `node->AddEdge(edge)` on the node at `n`. -/
def HyperGraph.NodeAddEdge (g : HyperGraph) (n : Nat) (e : Nat) : HyperGraph :=
  { g with nodes := g.nodes.modify (fun nd => { nd with edges := nd.edges ++ [e] }) n }

/-! ## CFGChartItem -/

/-- The method `CFGChartItem::GetHypScore`. -/
def GetHypScore (t : LookupTableCFGLM) (g : HyperGraph) (m : ViterbiMemo) (c : CFGChartItem)
    (label : HieroHeadLabels) (pos : Int) : Except Err (ViterbiMemo × Real) :=
  match assocFind c.nodes_ label with
  | none => .error Err.assertion
  | some bucket =>
    if pos < 0 then .error Err.assertion
    else match bucket[pos.toNat]? with
      | some sn => .ok (t.CalcViterbiScore g m sn.1)
      | none => .ok (m, -t.REAL_MAX)

/-- Modelled from the spec: `score_diff(label, rank)` of a chart cell (declared in
`lookup-table-cfglm.h`, which is not among the sources): the score at `rank` minus the score
at the rank before. -/
def GetHypScoreDiff (t : LookupTableCFGLM) (g : HyperGraph) (m : ViterbiMemo) (c : CFGChartItem)
    (label : HieroHeadLabels) (pos : Int) : Except Err (ViterbiMemo × Real) := do
  let (m1, a) ← GetHypScore t g m c label pos
  let (m2, b) ← GetHypScore t g m1 c label (pos - 1)
  pure (m2, a - b)

/-- The method `CFGChartItem::AddStatefulNode`. -/
def AddStatefulNode (c : CFGChartItem) (label : HieroHeadLabels) (node : Nat)
    (state : List ChartState) : CFGChartItem :=
  { c with nodes_ := assocPush c.nodes_ label (node, state) }

/-- The method `CFGChartItem::GetStatefulNode`. -/
def GetStatefulNode (c : CFGChartItem) (label : HieroHeadLabels) (pos : Int) :
    Except Err StatefulNode :=
  match assocFind c.nodes_ label with
  | none => .error Err.assertion
  | some bucket => must (atInt bucket pos)

/-- The method `CFGChartItem::FinalizeNodes`. The comparator `StatefulNodeScoresMore` of lines
63-68 is `x > y` on the scores stored in the nodes (`GetViterbiScore`); the sort is the
`std::sort` of the decoder. -/
def FinalizeNodes (t : LookupTableCFGLM) (m : ViterbiMemo) (c : CFGChartItem) : CFGChartItem :=
  { nodes_ := c.nodes_.map (fun node_set =>
      if node_set.2.length > 1 then
        (node_set.1, t.std_sort.sort (fun x => GetViterbiScore t m x.1) node_set.2)
      else node_set),
    populated_ := true }

/-! ## CubePrune -/

/-- The order `<` of `std::vector<int>`: lexicographic. -/
def vecLt : List Int → List Int → Bool
  | [], [] => false
  | [], _ :: _ => true
  | _ :: _, [] => false
  | a :: as, b :: bs => if a < b then true else if b < a then false else vecLt as bs

/-- The order `<` of `std::pair<Real, vector<int> >`. -/
def hypLt (x y : Real × List Int) : Bool :=
  if x.1 < y.1 then true else if y.1 < x.1 then false else vecLt x.2 y.2

/-- The greatest element of the queue (`priority_queue::top`); elements that compare equal
are equal, so it does not matter which of them is taken. -/
def pqTop : List (Real × List Int) → Option (Real × List Int)
  | [] => none
  | x :: rest =>
    match pqTop rest with
    | none => some x
    | some y => if hypLt x y then some y else some x

/-- Removes one copy of the top (`priority_queue::pop`). -/
def pqPop (q : List (Real × List Int)) : List (Real × List Int) :=
  match pqTop q with
  | none => q
  | some x => q.erase x

/-- The key of a recombination: head labels of the rule and the LM states of the edge. -/
abbrev RecombIndex := HieroHeadLabels × List ChartState

/-- The variables of `CubePrune` that change while it runs, together with the chart, the
output graph and the stored Viterbi scores. -/
structure PruneState where
  hypo_queue : List (Real × List Int)
  finished_hyps : List (List Int)
  recomb_map : List (RecombIndex × Nat)
  chart : List CFGChartItem
  ret : HyperGraph
  viterbi : ViterbiMemo
  num_popped : Nat

/-- Inner loop of lines 186-189: adds the top score of every child to the base score, as
long as the score has not fallen to `-REAL_MAX`. -/
def baseScore (t : LookupTableCFGLM) (N : Nat) (chart : List CFGChartItem) (g : HyperGraph) :
    List (Nat × Nat) → List HieroHeadLabels → ViterbiMemo → Real → Except Err (ViterbiMemo × Real)
  | [], _, m, score => .ok (m, score)
  | sp :: path, lab, m, score =>
    if score = -t.REAL_MAX then .ok (m, score)
    else do
      let l ← must lab.head?
      let cell ← must chart[sp.1 * N + sp.2]?
      let (m1, v) ← GetHypScore t g m cell l 0
      baseScore t N chart g path lab.tail m1 (score + v)

/-- Lines 180-194: the best hypothesis of every rule of the collection is queued. -/
def scoreRules (t : LookupTableCFGLM) (N : Nat) (chart : List CFGChartItem) (g : HyperGraph)
    (coll : CFGCollection) :
    List TranslationRuleHiero → Nat → ViterbiMemo → List (Real × List Int) →
      Except Err (ViterbiMemo × List (Real × List Int))
  | [], _, m, q => .ok (m, q)
  | rule :: rules, rid, m, q => do
    let path ← must coll.spans_[rid]?
    let lab ← must coll.labels_[rid]?
    if lab.length ≠ path.length then .error Err.assertion
    else do
      let (m1, score) ← baseScore t N chart g path lab m (dot t.weights_ rule.features)
      if score ≠ -t.REAL_MAX then
        scoreRules t N chart g coll rules (rid + 1) m1
          (q ++ [(score, (rid : Int) :: List.replicate path.length 0)])
      else scoreRules t N chart g coll rules (rid + 1) m1 q

/-- Lines 237-242: the tails of the new edge and the LM states of the children. -/
def gatherTails (N : Nat) (chart : List CFGChartItem) (rule : TranslationRuleHiero)
    (id_str : List Int) : List (Nat × Nat) → Nat → Except Err (List Nat × List (List ChartState))
  | [], _ => .ok ([], [])
  | my_span :: path, pid => do
    let cell ← must chart[my_span.1 * N + my_span.2]?
    let label ← must rule.child_head_labels[pid]?
    let pos ← must id_str[pid + 1]?
    let node ← GetStatefulNode cell label pos
    let (tails, states) ← gatherTails N chart rule id_str path (pid + 1)
    pure (node.1 :: tails, node.2 :: states)

/-- What the LM loop of lines 244-255 has accumulated: `total_score`, `lm_features`, `my_state`. -/
structure LMAcc where
  total_score : Real := 0
  lm_features : SparseVector := []
  my_state : List ChartState := []
deriving DecidableEq

/-- Lines 246-255: scores the edge with every language model. -/
def lmScores (trg : CfgDataVector) (states : List (List ChartState)) :
    List LMData → Nat → LMAcc → Except Err LMAcc
  | [], _, acc => .ok acc
  | data :: lms, lm_id, acc => do
    let d ← must trg[data.factor]?
    let r := data.CalcNontermScore d.words states lm_id
    let f1 := if r.1.1 ≠ 0 then [(data.feature_name, r.1.1)] else []
    let f2 := if r.1.2 ≠ 0 then [(data.unk_feature_name, r.1.2)] else []
    lmScores trg states lms (lm_id + 1)
      { total_score := acc.total_score + (r.1.1 * data.weight + r.1.2 * data.unk_weight),
        lm_features := acc.lm_features ++ f1 ++ f2,
        my_state := acc.my_state ++ [r.2] }

/-- Lines 275-282: the neighbours of the popped hypothesis are queued. -/
def advance (t : LookupTableCFGLM) (N : Nat) (chart : List CFGChartItem) (g : HyperGraph)
    (rule : TranslationRuleHiero) (top_score : Real) (id_str : List Int) :
    List (Nat × Nat) → Nat → ViterbiMemo → List (Real × List Int) →
      Except Err (ViterbiMemo × List (Real × List Int))
  | [], _, m, q => .ok (m, q)
  | my_span :: path, j, m, q => do
    let cell ← must chart[my_span.1 * N + my_span.2]?
    let label ← must rule.child_head_labels[j]?
    let pos ← must id_str[j + 1]?
    let (m1, diff) ← GetHypScoreDiff t g m cell label (pos + 1)
    let my_score := top_score + diff
    if -t.REAL_MAX < 2 * my_score then
      advance t N chart g rule top_score id_str path (j + 1) m1
        (q ++ [(my_score, id_str.set (j + 1) (pos + 1))])
    else advance t N chart g rule top_score id_str path (j + 1) m1 q

/-- Lines 286-291: one hypothesis per unary rule that applies to the head labels. -/
def unaryExpand (t : LookupTableCFGLM) (top_score : Real) :
    List Nat → List (Real × List Int) → Except Err (List (Real × List Int))
  | [], q => .ok q
  | urid :: rest, q => do
    let u ← must t.unary_rules_[urid]?
    unaryExpand t top_score rest (q ++ [(top_score + dot t.weights_ u.features, [-1 - (urid : Int), 0])])

/-- The condition of the main loop (lines 206-208). -/
def loopCond (t : LookupTableCFGLM) (s : PruneState) : Bool :=
  decide (s.hypo_queue.length ≠ 0) &&
  (decide (t.pop_limit_ < 0) || decide ((s.num_popped : Int) < t.pop_limit_)) &&
  (decide (t.chart_limit_ < 0) || decide ((s.recomb_map.length : Int) < t.chart_limit_))

/-- Lines 216-229: the rule and the child spans that a hypothesis stands for. A first entry
`r >= 0` is rule `r` of the collection; a first entry `r < 0` is the unary rule `-1-r`, whose
only child is the span under construction. -/
def resolveRule (t : LookupTableCFGLM) (i j : Nat) (coll : CFGCollection) (id_str : List Int) :
    Except Err (List (Nat × Nat) × TranslationRuleHiero) :=
  match id_str.head? with
  | none => .error Err.assertion
  | some first =>
    if 0 ≤ first then
      match coll.spans_[first.toNat]?, coll.rules_[first.toNat]? with
      | some p, some r => .ok (p, r)
      | _, _ => .error Err.assertion
    else
      match t.unary_rules_[(-1 - first).toNat]? with
      | some r => .ok ([(i, j)], r)
      | none => .error Err.assertion

/-- The edge under construction at line 256: its rule, the child spans, its tails and what
the language models gave. -/
structure EdgeDraft where
  rule : TranslationRuleHiero
  path : List (Nat × Nat)
  tails : List Nat
  acc : LMAcc
deriving DecidableEq

/-- Lines 216-256: the edge of a popped hypothesis. -/
def buildEdge (t : LookupTableCFGLM) (N i j : Nat) (coll : CFGCollection)
    (chart : List CFGChartItem) (id_str : List Int) : Except Err EdgeDraft :=
  match resolveRule t i j coll id_str with
  | .error e => .error e
  | .ok pr =>
    match gatherTails N chart pr.2 id_str pr.1 0 with
    | .error e => .error e
    | .ok ts =>
      match lmScores pr.2.trg_data ts.2 t.lm_data_ 0 {} with
      | .error e => .error e
      | .ok acc => .ok { rule := pr.2, path := pr.1, tails := ts.1, acc := acc }

/-- The recombination key of an edge (line 258). -/
def EdgeDraft.ridx (dr : EdgeDraft) : RecombIndex := (dr.rule.head_labels, dr.acc.my_state)

/-- The features of an edge (lines 232 and 256). -/
def EdgeDraft.features (dr : EdgeDraft) : SparseVector := dr.rule.features ++ dr.acc.lm_features

/-- The graph, the chart and the recombination map after lines 257-273. -/
structure Merged where
  ret : HyperGraph
  chart : List CFGChartItem
  recomb_map : List (RecombIndex × Nat)

/-- Lines 257-273: the edge joins the node of its key, or a new node is made for it. The score
of the edge is not set anywhere in `CubePrune`. -/
def recombine (N i j : Nat) (s : PruneState) (dr : EdgeDraft) : Except Err Merged :=
  match assocFind s.recomb_map dr.ridx with
  | some node =>
    .ok { ret := (s.ret.AddEdge (some node) dr.tails dr.features none dr.rule.trg_data).NodeAddEdge
                   node s.ret.edges.length,
          chart := s.chart,
          recomb_map := s.recomb_map }
  | none =>
    match s.chart[i * N + j]? with
    | none => .error Err.assertion
    | some cell =>
      .ok { ret := (s.ret.AddEdge (some s.ret.nodes.length) dr.tails dr.features none
                      dr.rule.trg_data).AddNode
                     (i, j + 1) (some dr.rule.src_data.label) [s.ret.edges.length],
            chart := s.chart.set (i * N + j)
                       (AddStatefulNode cell dr.rule.head_labels s.ret.nodes.length dr.acc.my_state),
            recomb_map := s.recomb_map ++ [(dr.ridx, s.ret.nodes.length)] }

/-- Lines 274-292: the neighbours and the unary expansions of the popped hypothesis. -/
def enqueue (t : LookupTableCFGLM) (N : Nat) (mg : Merged) (dr : EdgeDraft) (top_score : Real)
    (id_str : List Int) (m : ViterbiMemo) (queue : List (Real × List Int)) :
    Except Err (ViterbiMemo × List (Real × List Int)) :=
  match advance t N mg.chart mg.ret dr.rule top_score id_str dr.path 0 m queue with
  | .error e => .error e
  | .ok mq =>
    match assocFind t.unary_ids_ dr.rule.head_labels with
    | some ids =>
      match unaryExpand t top_score ids mq.2 with
      | .error e => .error e
      | .ok q2 => .ok (mq.1, q2)
    | none => .ok mq

/-- One turn of the main loop (lines 209-292) followed by `num_popped++`. -/
def cubeStep (t : LookupTableCFGLM) (N i j : Nat) (coll : CFGCollection) (s : PruneState) :
    Except Err PruneState :=
  match pqTop s.hypo_queue with
  | none => .error Err.assertion
  | some top =>
    if top.2 ∈ s.finished_hyps then
      .ok { s with hypo_queue := pqPop s.hypo_queue, num_popped := s.num_popped + 1 }
    else
      match buildEdge t N i j coll s.chart top.2 with
      | .error e => .error e
      | .ok dr =>
        match recombine N i j s dr with
        | .error e => .error e
        | .ok mg =>
          match enqueue t N mg dr top.1 top.2 s.viterbi (pqPop s.hypo_queue) with
          | .error e => .error e
          | .ok mq =>
            .ok { hypo_queue := mq.2, finished_hyps := top.2 :: s.finished_hyps,
                  recomb_map := mg.recomb_map, chart := mg.chart, ret := mg.ret,
                  viterbi := mq.1, num_popped := s.num_popped + 1 }

/-- The main loop of `CubePrune` (lines 206-293), with a budget of turns. -/
def cubeLoop (t : LookupTableCFGLM) (N i j : Nat) (coll : CFGCollection) :
    Nat → PruneState → Except Err PruneState
  | 0, s => if loopCond t s then .error Err.fuel else .ok s
  | fuel + 1, s =>
    if loopCond t s then
      match cubeStep t N i j coll s with
      | .ok s1 => cubeLoop t N i j coll fuel s1
      | .error e => .error e
    else .ok s

/-- The state of `CubePrune` when it enters its main loop (lines 166-203). -/
def cubeInit (t : LookupTableCFGLM) (N i j : Nat) (collection : List CFGCollection)
    (chart : List CFGChartItem) (ret : HyperGraph) (m : ViterbiMemo) :
    Except Err (CFGCollection × PruneState) := do
  let cell ← must chart[i * N + j]?
  if cell.populated_ then .error Err.assertion
  else do
    let coll ← must collection[i * N + j]?
    if coll.rules_.length ≠ coll.spans_.length then .error Err.assertion
    else do
      let (m1, q) ← scoreRules t N chart ret coll coll.rules_ 0 m []
      pure (coll, { hypo_queue := q, finished_hyps := [], recomb_map := [], chart := chart,
                    ret := ret, viterbi := m1, num_popped := 0 })

/-- What `CubePrune` leaves behind: the chart, the output graph and the stored scores. -/
structure Decode where
  chart : List CFGChartItem
  collections : List CFGCollection
  ret : HyperGraph
  viterbi : ViterbiMemo

/-- The last statement of `CubePrune` (line 297): the cell is sorted and marked populated. -/
def cubeFinish (t : LookupTableCFGLM) (N i j : Nat) (s : PruneState) : Except Err (List CFGChartItem) := do
  let cell ← must s.chart[i * N + j]?
  pure (s.chart.set (i * N + j) (FinalizeNodes t s.viterbi cell))

/-- The method `LookupTableCFGLM::CubePrune`. -/
def CubePrune (t : LookupTableCFGLM) (fuel N i j : Nat) (d : Decode) : Except Err Decode := do
  let (coll, s0) ← cubeInit t N i j d.collections d.chart d.ret d.viterbi
  let s ← cubeLoop t N i j coll fuel s0
  let chart ← cubeFinish t N i j s
  pure { chart := chart, collections := d.collections, ret := s.ret, viterbi := s.viterbi }

/-! ## Collecting rules: CFGCollection, Consume, AddToChart -/

/-- The method `CFGCollection::AddRules`. -/
def AddRules (c : CFGCollection) (path : CFGPath) (rules : List TranslationRuleHiero) :
    CFGCollection :=
  { rules_ := c.rules_ ++ rules,
    spans_ := c.spans_ ++ List.replicate rules.length path.spans,
    labels_ := c.labels_ ++ List.replicate rules.length path.labels }

/-- Modelled from the spec: the CFGPath that extends `prev` by the terminal `w` (the constructor
`CFGPath(prev, sent, j)` with `w = sent[j]`). -/
def CFGPath.withWord (prev : CFGPath) (w : WordId) : CFGPath :=
  { prev with agent := prev.agent ++ [w] }

/-- Modelled from the spec: the CFGPath that extends `prev` by a non-terminal with head labels
`heads` covering the words `j..k`; the labels enter the query negative-encoded, as in
`AddRuleFSM`. -/
def CFGPath.withLabels (prev : CFGPath) (heads : HieroHeadLabels) (j k : Nat) : CFGPath :=
  { agent := prev.agent ++ heads.map (fun h => -1 - h),
    spans := prev.spans ++ [(j, k)],
    labels := prev.labels ++ [heads] }

/-- The method `LookupTableCFGLM::PredictiveSearch`, on the query of the agent. -/
def PredictiveSearch (t : LookupTableCFGLM) (query : List WordId) : Bool :=
  t.rule_fsms_.any (fun fsm => fsm.predictive_search query)

/-- A `for` loop over a list whose body may fail. -/
def forEachE {α σ : Type} (f : α → σ → Except Err σ) : List α → σ → Except Err σ
  | [], s => .ok s
  | x :: xs, s =>
    match f x s with
    | .ok s1 => forEachE f xs s1
    | .error e => .error e

/-- The loop over the rule tables that deposits the rules of an exact match into
`collections[idx]` (lines 153-156 and 325-328). -/
def depositRules (a : CFGPath) (idx : Nat) :
    List RuleFSM → List CFGCollection → Except Err (List CFGCollection)
  | [], cs => .ok cs
  | fsm :: rest, cs =>
    match fsm.lookup a.agent with
    | some key =>
      match cs[idx]? with
      | some c => depositRules a idx rest (cs.set idx (AddRules c a (fsm.rules key)))
      | none => .error Err.assertion
    | none => depositRules a idx rest cs

/-- The body of `LookupTableCFGLM::AddToChart`, given the function it calls back. -/
def AddToChartWith (t : LookupTableCFGLM) (N : Nat)
    (consume : CFGPath → Nat → Nat → Nat → List CFGCollection → Except Err (List CFGCollection))
    (a : CFGPath) (i j : Nat) (u : Bool) (cs : List CFGCollection) :
    Except Err (List CFGCollection) :=
  let first : Except Err (List CFGCollection) :=
    if u then .ok cs else depositRules a (i * N + j) t.rule_fsms_ cs
  match first with
  | .error e => .error e
  | .ok cs1 =>
    if PredictiveSearch t a.agent then
      forEachE (fun k c => consume a i (j + 1) k c) (List.range' (j + 1) (N - (j + 1))) cs1
    else .ok cs1

/-- The method `LookupTableCFGLM::Consume`; the first argument bounds the depth of the
recursion through `AddToChart`. -/
def Consume (t : LookupTableCFGLM) (sent : Sentence) (N : Nat) (chart : List CFGChartItem) :
    Nat → CFGPath → Nat → Nat → Nat → List CFGCollection → Except Err (List CFGCollection)
  | 0, _, _, _, _, _ => .error Err.fuel
  | fuel + 1, a, i, j, k, cs =>
    let unary := decide (i = j)
    let first : Except Err (List CFGCollection) :=
      if j = k then
        match sent[j]? with
        | none => .error Err.assertion
        | some w =>
          if PredictiveSearch t (a.withWord w).agent then
            AddToChartWith t N (Consume t sent N chart fuel) (a.withWord w) i k unary cs
          else .ok cs
      else .ok cs
    match first with
    | .error e => .error e
    | .ok cs1 =>
      match chart[j * N + k]? with
      | none => .error Err.assertion
      | some cell =>
        forEachE (fun (sym : HieroHeadLabels × List StatefulNode) (c : List CFGCollection) =>
            if PredictiveSearch t (a.withLabels sym.1 j k).agent then
              AddToChartWith t N (Consume t sent N chart fuel) (a.withLabels sym.1 j k) i k unary c
            else .ok c) cell.nodes_ cs1

/-- The method `LookupTableCFGLM::AddToChart`. -/
def AddToChart (t : LookupTableCFGLM) (sent : Sentence) (N : Nat) (chart : List CFGChartItem)
    (fuel : Nat) (a : CFGPath) (i j : Nat) (u : Bool) (cs : List CFGCollection) :
    Except Err (List CFGCollection) :=
  AddToChartWith t N (Consume t sent N chart fuel) a i j u cs

/-! ## TransformGraph -/

/-- The body of the loops of `TransformGraph` for the span `i..j` (lines 322-335). -/
def spanStep (t : LookupTableCFGLM) (fuel : Nat) (sent : Sentence) (N i j : Nat) (d : Decode) :
    Except Err Decode :=
  let collected : Except Err (List CFGCollection) :=
    if i = j then
      match sent[i]? with
      | none => .error Err.assertion
      | some w => depositRules (CFGPath.withWord {} w) (i * N + j) t.rule_fsms_ d.collections
    else Consume t sent N d.chart N {} i i (j - 1) d.collections
  match collected with
  | .error e => .error e
  | .ok cs => CubePrune t fuel N i j { d with collections := cs }

/-- The spans in the order in which `TransformGraph` visits them: `i` from `N-1` down to `0`,
and for each `i`, `j` from `i` up to `N-1`. -/
def spanOrder (N : Nat) : List (Nat × Nat) :=
  (List.range N).reverse.flatMap (fun i => (List.range' i (N - i)).map (fun j => (i, j)))

/-- Lines 303-337 of `TransformGraph`: the root node is added and every span is decoded. -/
def mainLoops (t : LookupTableCFGLM) (fuel : Nat) (sent : Sentence) : Except Err Decode :=
  let N := sent.length
  forEachE (fun sp d => spanStep t fuel sent N sp.1 sp.2 d) (spanOrder N)
    { chart := List.replicate (N * N) {},
      collections := List.replicate (N * N) {},
      ret := HyperGraph.AddNode { nodes := [], edges := [], words := sent } (0, N) none [],
      viterbi := [] }

/-- What the loop over the language models of lines 347-354 has accumulated. -/
structure FinalAcc where
  total_score : Real := 0
  features : SparseVector := []
deriving DecidableEq

/-- Lines 348-354: the final LM score of a root edge. -/
def finalScores (state : List ChartState) : List LMData → Nat → FinalAcc → Except Err FinalAcc
  | [], _, acc => .ok acc
  | data :: lms, lm_id, acc =>
    match state[lm_id]? with
    | none => .error Err.assertion
    | some st =>
      let my_score := data.CalcFinalScore st
      finalScores state lms (lm_id + 1)
        { total_score := acc.total_score + my_score * data.weight,
          features := if my_score ≠ 0 then acc.features ++ [(data.feature_name, my_score)]
                      else acc.features }

/-- Lines 342-358: one root edge per stateful node of the root bucket. -/
def rootEdges (t : LookupTableCFGLM) : List StatefulNode → HyperGraph → Except Err HyperGraph
  | [], g => .ok g
  | sn :: rest, g =>
    match finalScores sn.2 t.lm_data_ 0 {} with
    | .error e => .error e
    | .ok acc =>
      rootEdges t rest
        ((g.AddEdge (some 0) [sn.1] acc.features (some acc.total_score)
            (List.replicate t.trg_factors { words := [-1] })).NodeAddEdge 0 g.edges.length)

/-- Lines 339-365 of `TransformGraph`: the root edges are built, or the graph is dropped. -/
def buildFinal (t : LookupTableCFGLM) (N : Nat) (d : Decode) : Except Err (HyperGraph × ViterbiMemo) :=
  match atInt d.chart ((N : Int) - 1) with
  | none => .error Err.assertion
  | some cell =>
    match assocFind cell.nodes_ t.root_symbol_ with
    | some bucket =>
      match rootEdges t bucket d.ret with
      | .error e => .error e
      | .ok g => .ok (g, (t.CalcViterbiScore g d.viterbi 0).1)
    | none => .ok (HyperGraph.empty, [])

/-- The method `LookupTableCFGLM::TransformGraph`: the output graph and the stored Viterbi
scores of its nodes. `fuel` is the budget of turns given to the main loop of each `CubePrune`. -/
def TransformGraph (t : LookupTableCFGLM) (fuel : Nat) (graph : HyperGraph) :
    Except Err (HyperGraph × ViterbiMemo) :=
  match mainLoops t fuel graph.words with
  | .error e => .error e
  | .ok d => buildFinal t graph.words.length d

/-! ## Invariants of the main loop of CubePrune -/

/-- The entries of a cell, bucket after bucket: recombination key (head labels and LM states)
and node. -/
def cellKeys (c : CFGChartItem) : List (RecombIndex × Nat) :=
  c.nodes_.flatMap (fun lb => lb.2.map (fun sn => ((lb.1, sn.2), sn.1)))

/-- The nodes held by a cell. -/
def cellPtrs (c : CFGChartItem) : List Nat := (cellKeys c).map Prod.snd

/-- The child spans of a collection never name the cell `id`, the cells of the chart only hold
nodes from `1` to below `n0`, and there is no unary rule. -/
def OldTails (t : LookupTableCFGLM) (N id n0 : Nat) (coll : CFGCollection)
    (chart0 : List CFGChartItem) : Prop :=
  t.unary_rules_ = [] ∧
  (∀ p ∈ coll.spans_, ∀ sp ∈ p, sp.1 * N + sp.2 ≠ id) ∧
  (∀ (k : Nat) (c : CFGChartItem), chart0[k]? = some c → ∀ p ∈ cellPtrs c, 1 ≤ p ∧ p < n0)

/-- The invariant of the main loop of `CubePrune`, relative to the chart and the graph with
which the loop was entered. -/
structure PruneInv (t : LookupTableCFGLM) (N i j : Nat) (coll : CFGCollection)
    (chart0 : List CFGChartItem) (ret0 : HyperGraph) (s : PruneState) : Prop where
  chart_len : s.chart.length = chart0.length
  others : ∀ k, k ≠ i * N + j → s.chart[k]? = chart0[k]?
  cell : ∃ c0 c, chart0[i * N + j]? = some c0 ∧ s.chart[i * N + j]? = some c ∧
    c.populated_ = c0.populated_ ∧ (cellKeys c).Perm (cellKeys c0 ++ s.recomb_map)
  keys_nodup : (s.recomb_map.map Prod.fst).Nodup
  ptrs : ∀ p ∈ s.recomb_map, ret0.nodes.length ≤ p.2 ∧ p.2 < s.ret.nodes.length
  states : ∀ p ∈ s.recomb_map, p.1.2.length = t.lm_data_.length
  nodes_len : s.ret.nodes.length = ret0.nodes.length + s.recomb_map.length
  nodes_old : s.ret.nodes.take ret0.nodes.length = ret0.nodes
  edges : ∃ new, s.ret.edges = ret0.edges ++ new ∧ new.length ≤ s.num_popped ∧
    ∀ e ∈ new, e.score = none ∧
      (∃ h, e.head = some h ∧ ret0.nodes.length ≤ h ∧ h < s.ret.nodes.length) ∧
      (OldTails t N (i * N + j) ret0.nodes.length coll chart0 →
        ∀ x ∈ e.tails, 1 ≤ x ∧ x < ret0.nodes.length)
  words : s.ret.words = ret0.words

/-- The number of stateful nodes of a cell, over all its buckets. -/
def cellCount (c : CFGChartItem) : Nat := (c.nodes_.map (fun lb => lb.2.length)).sum

/-- The root node as `TransformGraph` makes it (lines 313-315). -/
def rootNode (N : Nat) : HyperNode := { id := 0, span := (0, N), sym := none, edges := [] }

/-- The invariant of the loops of `TransformGraph`. -/
structure DecodeInv (t : LookupTableCFGLM) (sent : Sentence) (d : Decode) : Prop where
  chart_len : d.chart.length = sent.length * sent.length
  root : d.ret.nodes.take 1 = [rootNode sent.length]
  words : d.ret.words = sent
  states : ∀ c ∈ d.chart, ∀ k ∈ cellKeys c, k.1.2.length = t.lm_data_.length
  ptrs : ∀ c ∈ d.chart, ∀ p ∈ cellPtrs c, 1 ≤ p ∧ p < d.ret.nodes.length
  buckets : ∀ c ∈ d.chart, ∀ lb ∈ c.nodes_, lb.2 ≠ []
  edges : ∀ e ∈ d.ret.edges, e.score = none ∧
    ∃ h, e.head = some h ∧ 1 ≤ h ∧ h < d.ret.nodes.length

/-- Modelled from the spec: the root edge attached for a StatefulNode of `chart[0,N)` under
`root_symbol`, "adding a final-state LM score (`CalcFinalScore`) for each LM"; `sn` is the
stateful node and `id` the number of the edge. Its score is the sum over the language
models of the final score of the node's state times the weight of the model, and a model
contributes its feature exactly when its final score is not zero. -/
def rootEdgeOf (t : LookupTableCFGLM) (id : Nat) (sn : StatefulNode) : HyperEdge :=
  { id := id, head := some 0, tails := [sn.1],
    features := (t.lm_data_.zip sn.2).filterMap (fun p =>
      if p.1.CalcFinalScore p.2 ≠ 0 then some (p.1.feature_name, p.1.CalcFinalScore p.2) else none),
    score := some ((t.lm_data_.zip sn.2).map (fun p => p.1.CalcFinalScore p.2 * p.1.weight)).sum,
    trg_data := List.replicate t.trg_factors { words := [-1] } }

/-- The list of stateful nodes that a cell holds under a label (empty if there is none). -/
def bucketOf (c : CFGChartItem) (label : HieroHeadLabels) : List StatefulNode :=
  (assocFind c.nodes_ label).getD []

/-- A collection all of whose entries are rules without children. -/
def IdleColl (c : CFGCollection) : Prop :=
  c.rules_.length = c.spans_.length ∧ c.rules_.length = c.labels_.length ∧
  (∀ p ∈ c.spans_, p = []) ∧ (∀ l ∈ c.labels_, l = [])

/-- The graph that holds the root node only. -/
def rootGraph (sent : Sentence) : HyperGraph :=
  HyperGraph.AddNode { nodes := [], edges := [], words := sent } (0, sent.length) none []

/-- The state of a decoding in which no span has produced a node. -/
structure IdleDecode (sent : Sentence) (d : Decode) : Prop where
  chart_len : d.chart.length = sent.length * sent.length
  coll_len : d.collections.length = sent.length * sent.length
  cells : ∀ c ∈ d.chart, c.nodes_ = []
  colls : ∀ c ∈ d.collections, IdleColl c
  ret : d.ret = rootGraph sent
  viterbi : d.viterbi = []

/-- No entry of a collection has the cell of its own span among its child spans. -/
def CollOK (N : Nat) (cs : List CFGCollection) : Prop :=
  ∀ (idx : Nat) (c : CFGCollection), cs[idx]? = some c →
    ∀ p ∈ c.spans_, ∀ sp ∈ p, sp.1 * N + sp.2 ≠ idx

/-- The child spans of a path that has consumed the words from `i` up to `j`, `j` excluded: each
lies in a later row of the chart or in row `i` before column `j`. -/
def PathOK (N i j : Nat) (a : CFGPath) : Prop :=
  ∀ sp ∈ a.spans, sp.1 * N + sp.2 < i * N + j ∨ (i + 1) * N ≤ sp.1 * N + sp.2

/-- Every tail of an edge of the graph is a node other than the root, made before the head. -/
def TailsBelow (g : HyperGraph) : Prop :=
  ∀ e ∈ g.edges, ∀ h, e.head = some h → ∀ x ∈ e.tails, 1 ≤ x ∧ x < h

/-- The relation "`b` is a tail of an edge whose head is `a`". -/
def tailOf (g : HyperGraph) (a b : Nat) : Prop :=
  ∃ e ∈ g.edges, e.head = some a ∧ b ∈ e.tails

/-- The rank of a node in the returned graph: the root is above every other node, the other
nodes are ranked by their number. -/
def rank (g : HyperGraph) (n : Nat) : Nat := if n = 0 then g.nodes.length else n

/-! ## A small grammar used for the worked examples

Source words `a = 0`, `b = 1`; target words `A = 10`, `B = 11`; labels `X = 100`, `S = 200`
(one target factor, so head labels have two entries). -/

namespace Example

/-- Head labels `X`. -/
def X : HieroHeadLabels := [100, 100]

/-- Head labels `S`. -/
def S : HieroHeadLabels := [200, 200]

/-- The rule `X → a / "A"`. -/
def ruleA : TranslationRuleHiero :=
  { src_data := { words := [0], label := 100 },
    trg_data := [{ words := [10], label := 100 }],
    features := [(1, 2)], head_labels := X, child_head_labels := [] }

/-- The rule `X → b / "B"`. -/
def ruleB : TranslationRuleHiero :=
  { src_data := { words := [1], label := 100 },
    trg_data := [{ words := [11], label := 100 }],
    features := [(1, 3)], head_labels := X, child_head_labels := [] }

/-- The rule `S → X X / "[X0] [X1]"`. -/
def ruleS : TranslationRuleHiero :=
  { src_data := { words := [-1, -2], label := 200, syms := [100, 100] },
    trg_data := [{ words := [-1, -2], label := 200, syms := [100, 100] }],
    features := [(1, 1)], head_labels := S, child_head_labels := [X, X] }

/-- The unary rule `X → X / "[X0]"`. -/
def ruleXX : TranslationRuleHiero :=
  { src_data := { words := [-1], label := 100, syms := [100] },
    trg_data := [{ words := [-1], label := 100, syms := [100] }],
    features := [], head_labels := X, child_head_labels := [X] }

/-- A rule table given by the list of its keys (source patterns) and their buckets. -/
def tableOf (keys : List (List WordId)) (buckets : List (List TranslationRuleHiero)) : RuleFSM :=
  { lookup := fun q => if q ∈ keys then some (keys.indexOf q) else none,
    predictive_search := fun q => keys.any (fun k => q.isPrefixOf k),
    rules := fun k => buckets.getD k [] }

/-- The rule table of `a`, `b` and `X X`. -/
def fsm : RuleFSM := tableOf [[0], [1], [-101, -101, -101, -101]] [[ruleA], [ruleB], [ruleS]]

/-- A toy language model: the chart state of an edge is the number of target words below it,
every word costs one unit of log-probability, nothing is out of vocabulary, and the end of
the sentence costs one more unit. -/
def wordCountLM : LMData :=
  { weight := 1, unk_weight := 1, feature_name := 7, unk_feature_name := 8, factor := 0,
    CalcNontermScore := fun ws st k =>
      ((-((ws.filter (fun w => 0 ≤ w)).length : Int), 0),
       (ws.filter (fun w => 0 ≤ w)).length + (st.map (fun s => s.getD k 0)).sum),
    CalcFinalScore := fun _ => -1 }

/-- Modelled from the spec: `calc_viterbi`, "V(n) = max over the incoming edges of score(e) plus
the sum of V over the tails; memoised". An edge whose score was never set counts `score0`, a
node without edges scores `low`; the first argument bounds the depth of the recursion. -/
def viterbiInside (score0 low : Real) (g : HyperGraph) : Nat → ViterbiMemo → Nat → ViterbiMemo × Real
  | 0, m, _ => (m, low)
  | depth + 1, m, n =>
    match assocFind m n with
    | some v => (m, v)
    | none =>
      match g.nodes[n]? with
      | none => (m, low)
      | some nd =>
        let r := nd.edges.foldl (fun (acc : ViterbiMemo × Real) (e : Nat) =>
          match g.edges[e]? with
          | none => acc
          | some ed =>
            let r2 := ed.tails.foldl (fun (a2 : ViterbiMemo × Real) (tl : Nat) =>
              let r3 := viterbiInside score0 low g depth a2.1 tl
              (r3.1, a2.2 + r3.2)) (acc.1, ed.score.getD score0)
            (r2.1, max acc.2 r2.2)) (m, low)
        ((n, r.2) :: r.1, r.2)

/-- The decoder of the examples: the rule table above, one language model, root symbol `S`;
its `std::sort` is insertion sort. -/
def decoder : LookupTableCFGLM :=
  { pop_limit_ := 100, chart_limit_ := -1, trg_factors := 1, root_symbol_ := S,
    rule_fsms_ := [fsm], unary_rules_ := [], unary_ids_ := [], lm_data_ := [wordCountLM],
    weights_ := [(1, 1), (7, 1)], REAL_MAX := 1000000,
    CalcViterbiScore := fun g m n => viterbiInside 0 (-1000000) g (g.nodes.length + 1) m n,
    std_sort := insertionStdSort }

/-- A source graph that carries the words of the sentence. -/
def source (words : Sentence) : HyperGraph := { nodes := [], edges := [], words := words }

/-- The rule `X → a / "C"`, a second translation of `a` with the same head labels. -/
def ruleC : TranslationRuleHiero :=
  { src_data := { words := [0], label := 100 },
    trg_data := [{ words := [12], label := 100 }],
    features := [(1, 1)], head_labels := X, child_head_labels := [] }

/-- The value of a run that has ended well, `dflt` otherwise. -/
def getOk {α : Type} (dflt : α) : Except Err α → α
  | .ok a => a
  | .error _ => dflt

/-- A decoder whose rule table holds `X → a / "A"` and the unary rule `X → X / "[X0]"`, the
latter registered in the unary index under `X`; root symbol `X`. -/
def decoderU : LookupTableCFGLM :=
  { decoder with
    root_symbol_ := X,
    rule_fsms_ := [tableOf [[0], [-101, -101]] [[ruleA], [ruleXX]]],
    unary_rules_ := [ruleXX],
    unary_ids_ := [(X, [0])] }

/-- A decoder whose rule table holds two translations of `a`, both with head `X`; root
symbol `X`. -/
def decoder2 : LookupTableCFGLM :=
  { decoder with root_symbol_ := X, rule_fsms_ := [tableOf [[0]] [[ruleA, ruleC]]] }

/-- The decoding of the sentence `a` by `decoder2` at the moment `CubePrune` is called for its
only span: the two rules are in the collection, the chart cell is empty. -/
def collected : Decode :=
  { chart := [{}],
    collections := [{ rules_ := [ruleA, ruleC], spans_ := [[], []], labels_ := [[], []] }],
    ret := rootGraph [0],
    viterbi := [] }

/-- The collection of the only span of `collected`. -/
def coll0 : CFGCollection :=
  { rules_ := [ruleA, ruleC], spans_ := [[], []], labels_ := [[], []] }

/-- The state in which `CubePrune` enters its main loop on `collected`. -/
def entry : PruneState :=
  { hypo_queue := [(2, [0]), (1, [1])], finished_hyps := [], recomb_map := [],
    chart := [{}], ret := rootGraph [0], viterbi := [], num_popped := 0 }

/-- The state after the first turn of the loop from `entry`: the hypothesis of `X → a / "A"`
has made node 1. -/
def afterFirst : PruneState :=
  getOk entry (cubeStep decoder2 1 0 0 coll0 entry)

/-- The state after the second turn: the hypothesis of `X → a / "C"` has the same key. -/
def afterSecond : PruneState :=
  getOk entry (cubeStep decoder2 1 0 0 coll0 afterFirst)

/-- The edge of the second hypothesis. -/
def secondDraft : EdgeDraft :=
  { rule := ruleC, path := [], tails := [],
    acc := { total_score := -1, lm_features := [(7, -1)], my_state := [1] } }

/-- What `CubePrune` leaves of `collected` with `decoder2`. -/
def pruned : Decode :=
  getOk collected (CubePrune decoder2 100 1 0 0 collected)

/-- The decoder `decoder2` with `chart_limit = 1`. -/
def decoderOne : LookupTableCFGLM := { decoder2 with chart_limit_ := 1 }

/-- The decoder `decoder2` with `chart_limit = 1` and `pop_limit = 0`. -/
def decoderOneNoPop : LookupTableCFGLM := { decoder2 with chart_limit_ := 1, pop_limit_ := 0 }

/-- The decoder `decoder` with `pop_limit = 0`. -/
def decoderNoPop : LookupTableCFGLM := { decoder with pop_limit_ := 0 }

/-- A chart cell as the chart is created: no bucket, not populated. -/
def emptyCell : CFGChartItem := { nodes_ := [], populated_ := false }

/-- What `CubePrune` leaves of `collected` with `chart_limit = 1`. -/
def prunedOne : Decode :=
  getOk collected (CubePrune decoderOne 100 1 0 0 collected)

/-- The state of the decoding of `a b` by `decoder` after the loops of `TransformGraph`. -/
def decoded : Decode :=
  getOk collected (mainLoops decoder 100 [0, 1])

/-- The graph and the stored scores that `TransformGraph` returns for `a b` with `decoder`. -/
def translated : HyperGraph × ViterbiMemo :=
  getOk (HyperGraph.empty, []) (TransformGraph decoder 100 (source [0, 1]))

end Example

/-! ## The oracle sentence of an evaluation measure (`eval-measure.cc`) -/

/-- The loop of lines 78-85 of `EvalMeasure::CalculateOracle` over the n-best list; the state is
`(ret, best_score)` and `score curr` stands for `CalculateStats(ref, curr)->ConvertToScore()`. -/
def oracleLoop (score : Sentence → Real) : List Sentence → Sentence × Real → Sentence × Real
  | [], st => st
  | curr :: rest, st =>
    if score curr > st.2 then oracleLoop score rest (curr, score curr)
    else oracleLoop score rest st

/-- Lines 75-87 of `EvalMeasure::CalculateOracle`: the choice among the sentences of the n-best
list (which lines 61-74 get from the LM composer and `GetNbest`, not among the sources). -/
def EvalMeasure.CalculateOracle (score : Sentence → Real) (nbest_list : List Sentence) : Sentence :=
  (oracleLoop score nbest_list ([], 0)).1

/-! ## Tuning examples over a forest (`tuning-example-forest.cc`) -/

/-- What a call can throw: a `std::runtime_error` (as `THROW_ERROR` does) or anything else. -/
inductive Thrown where
  | runtime_error
  | other
deriving DecidableEq

/-- The body of the `try` block of `TuningExampleForest::CalculateOracle` (lines 46-50):
`oracle` is the outcome of `measure_->CalculateOracle(*forest_, ref_)` and `score sent` that of
`measure_->CalculateStats(ref_, sent, id_)->ConvertToScore()`. -/
def oracleTry (mult_ : Real) (oracle : Except Thrown Sentence)
    (score : Sentence → Except Thrown Real) : Except Thrown Real :=
  match oracle with
  | .error e => .error e
  | .ok oracle_sent =>
    match score oracle_sent with
    | .error e => .error e
    | .ok oracle_score => .ok (oracle_score * mult_)

/-- The method `TuningExampleForest::CalculateOracle`: the value it leaves in `oracle_score_`,
or what it lets through. -/
def TuningExampleForest.CalculateOracle (mult_ : Real) (oracle : Except Thrown Sentence)
    (score : Sentence → Except Thrown Real) : Except Thrown Real :=
  match oracleTry mult_ oracle score with
  | .ok oracle_score => .ok oracle_score
  | .error Thrown.runtime_error => .ok mult_
  | .error Thrown.other => .error Thrown.other

/-! ## The incremental LM composer (`lm-composer-incremental.cc`) -/

/-- The members of `LMComposerIncremental` that its constructor sets. -/
structure LMComposerIncremental where
  lm_data_ : List LMData
  stack_pop_limit_ : Int
  edge_limit_ : Int

/-- The constructor `LMComposerIncremental::LMComposerIncremental`; `lm_data_` is what the
constructor of the base class `LMComposer` (not among the sources) has made of the
configuration strings, one entry per language model. -/
def LMComposerIncremental.construct (lm_data_ : List LMData) :
    Except Thrown LMComposerIncremental :=
  if lm_data_.length ≠ 1 then .error Thrown.runtime_error
  else .ok { lm_data_ := lm_data_, stack_pop_limit_ := 0, edge_limit_ := 1000 }

/-- A `SparseMap`: feature ids (word ids of the feature names) with their values. -/
abbrev SparseMap := List (WordId × Real)

/-- The operations of `MertHull` that `CalculateMertHull` uses (`mert-geometry.h` is not among
the sources): the hull made by `new MertHull`, `operator+=`, `operator*=`, and the hull
`func(edge)` that a `MertHullWeightFunction` gives for an edge. -/
structure MertOps (H : Type) where
  empty : H
  add : H → H → H
  mul : H → H → H
  func : HyperEdge → H

/-- The inner loop of `CalculateMertHull` over the tails of an edge (lines 87-88); `call` is
the recursive call, which reads and updates the memo `hulls`. -/
def mertTails {H : Type} (ops : MertOps H) (forest_ : HyperGraph)
    (call : List (Option H) → Nat → Except Err (List (Option H) × H)) :
    List Nat → List (Option H) → H → Except Err (List (Option H) × H)
  | [], hulls, my_hull => .ok (hulls, my_hull)
  | t :: rest, hulls, my_hull =>
    match must forest_.nodes[t]? with
    | .error e => .error e
    | .ok node =>
      match call hulls node.id with
      | .error e => .error e
      | .ok (hulls1, h) => mertTails ops forest_ call rest hulls1 (ops.mul my_hull h)

/-- The outer loop of `CalculateMertHull` over the edges of the node (lines 85-90). -/
def mertEdges {H : Type} (ops : MertOps H) (forest_ : HyperGraph)
    (call : List (Option H) → Nat → Except Err (List (Option H) × H)) (node_id : Nat) :
    List Nat → List (Option H) → Except Err (List (Option H))
  | [], hulls => .ok hulls
  | e :: rest, hulls =>
    match must forest_.edges[e]? with
    | .error err => .error err
    | .ok edge =>
      match mertTails ops forest_ call edge.tails hulls (ops.func edge) with
      | .error err => .error err
      | .ok (hulls1, my_hull) =>
        match must (hulls1[node_id]?).join with
        | .error err => .error err
        | .ok cur =>
          mertEdges ops forest_ call node_id rest (hulls1.set node_id (some (ops.add cur my_hull)))

/-- The method `TuningExampleForest::CalculateMertHull`. The memo `hulls` has one entry per
node, `none` for a null pointer; the result is the memo and the hull `*hulls[node_id]`. -/
def CalculateMertHull {H : Type} (ops : MertOps H) (forest_ : HyperGraph) :
    Nat → List (Option H) → Nat → Except Err (List (Option H) × H)
  | 0, _, _ => .error Err.fuel
  | fuel + 1, hulls, node_id =>
    match hulls[node_id]? with
    | none => .error Err.assertion
    | some (some h) => .ok (hulls, h)
    | some none =>
      match must forest_.nodes[node_id]? with
      | .error e => .error e
      | .ok node =>
        match mertEdges ops forest_ (CalculateMertHull ops forest_ fuel) node_id node.edges
            (hulls.set node_id (some ops.empty)) with
        | .error e => .error e
        | .ok hulls1 =>
          match must (hulls1[node_id]?).join with
          | .error e => .error e
          | .ok h => .ok (hulls1, h)

/-- The product of the recursion of the specification over the tails of an edge, in tail
order, starting from `func(edge)`. -/
def tailProduct {H : Type} (ops : MertOps H) (forest_ : HyperGraph) (hullOf : Nat → Option H) :
    List Nat → H → Option H
  | [], acc => some acc
  | t :: rest, acc =>
    match forest_.nodes[t]? with
    | none => none
    | some node =>
      match hullOf node.id with
      | none => none
      | some h => tailProduct ops forest_ hullOf rest (ops.mul acc h)

/-- The sum of the recursion of the specification over the incoming edges of a node, in edge
order, starting from the empty hull. -/
def edgeSum {H : Type} (ops : MertOps H) (forest_ : HyperGraph) (hullOf : Nat → Option H) :
    List Nat → H → Option H
  | [], acc => some acc
  | e :: rest, acc =>
    match forest_.edges[e]? with
    | none => none
    | some edge =>
      match tailProduct ops forest_ hullOf edge.tails (ops.func edge) with
      | none => none
      | some my_hull => edgeSum ops forest_ hullOf rest (ops.add acc my_hull)

/-- The recursion as the specification writes it, without memo:
`Hull(n) = Σ_{e ∈ in(n)} (LineOf(e) * Π_{tail} Hull(tail))`, unfolded to the given depth. -/
def Hull {H : Type} (ops : MertOps H) (forest_ : HyperGraph) : Nat → Nat → Option H
  | 0, _ => none
  | depth + 1, n =>
    match forest_.nodes[n]? with
    | none => none
    | some node => edgeSum ops forest_ (Hull ops forest_ depth) node.edges ops.empty

/-- The forest is acyclic and well linked: every edge pointer of a node and every tail pointer
of such an edge is valid, and the height `rk` of a node, a number below the number of nodes,
is strictly smaller at the tails of an edge than at its head. -/
def acyclicBy (forest_ : HyperGraph) (rk : Nat → Nat) : Bool :=
  (List.range forest_.nodes.length).all fun n =>
    match forest_.nodes[n]? with
    | none => false
    | some node =>
      decide (rk n < forest_.nodes.length) && node.edges.all fun e =>
        match forest_.edges[e]? with
        | none => false
        | some edge =>
          edge.tails.all fun t =>
            match forest_.nodes[t]? with
            | none => false
            | some tn => decide (tn.id < forest_.nodes.length) && decide (rk tn.id < rk n)

/-- The entries of the memo for nodes of rank below `r` are hulls of the specification. -/
def MemoBelow {H : Type} (ops : MertOps H) (forest_ : HyperGraph) (rk : Nat → Nat) (r : Nat)
    (hulls : List (Option H)) : Prop :=
  ∀ (k : Nat) (h : H), rk k < r → hulls[k]? = some (some h) → ∀ d, rk k < d → Hull ops forest_ d k = some h

/-- What a call for a node of rank below `r` does to a memo that is right below `r`. -/
def CallOK {H : Type} (ops : MertOps H) (forest_ : HyperGraph) (rk : Nat → Nat) (r : Nat)
    (call : List (Option H) → Nat → Except Err (List (Option H) × H)) : Prop :=
  ∀ hulls m, hulls.length = forest_.nodes.length → m < forest_.nodes.length → rk m < r →
    MemoBelow ops forest_ rk r hulls →
    ∃ hulls1 h, call hulls m = .ok (hulls1, h) ∧
      (∀ d, rk m < d → Hull ops forest_ d m = some h) ∧
      hulls1.length = forest_.nodes.length ∧
      MemoBelow ops forest_ rk r hulls1 ∧
      (∀ k, r ≤ rk k → hulls1[k]? = hulls[k]?) ∧
      (∀ (k : Nat) (h0 : H), hulls[k]? = some (some h0) → hulls1[k]? = some (some h0))

/-- The function `PosZero`; with exact numbers `-0.0` and `0.0` are the same number. -/
def PosZero (dub : Real) : Real := if dub = -0 then 0 else dub

abbrev Span := Real × Real
abbrev ScoredSpan (S : Type) := Span × S
abbrev ConvexHull (S : Type) := List (ScoredSpan S)

/-- The class `TuningExampleForest` with what `CalculateConvexHull` calls from outside the
file: `S` are the evaluation statistics, `H` the hulls and `L` the lines of a hull.
`GetNbest weights` is the 1-best list of the forest scored with the weights (the sentences of
`forest_->GetNbest(1, ...)` after `ResetViterbiScores` and `ScoreEdges`), `CalculateStats` is
`measure_->CalculateStats(ref_, sent, id_)`, `hull weights gradient` the hull operations with
`MertHullWeightFunction func(weights, gradient)`, `SortLines` is `MertHull::Sort` followed by
`GetLines`, `x` the field of `MertLine`; `DBL_MIN` and `DBL_MAX` are the constants of
`<cfloat>`. -/
structure TuningExampleForest (S H L : Type) where
  forest_ : HyperGraph
  active_ : List WordId
  mult_ : Real
  DBL_MIN : Real
  DBL_MAX : Real
  GetNbest : SparseMap → List Sentence
  CalculateStats : Sentence → S
  TimesEquals : S → Real → S
  hull : SparseMap → SparseMap → MertOps H
  SortLines : H → List L
  x : L → Real
  ConstructTranslation : L → Sentence

/-- Lines 102-112 of `CalculateConvexHull`: the flag `active`. -/
def TuningExampleForest.isActive {S H L : Type} (t : TuningExampleForest S H L)
    (gradient : SparseMap) : Bool :=
  t.active_.length == 0 || gradient.any fun val => decide (val.1 ∈ t.active_)

/-- Lines 113-119 of `CalculateConvexHull`: the statistics of the current best hypothesis. -/
def TuningExampleForest.currStats {S H L : Type} (t : TuningExampleForest S H L)
    (weights : SparseMap) : Except Err S :=
  match must (t.GetNbest weights)[0]? with
  | .error e => .error e
  | .ok sent => .ok (t.TimesEquals (t.CalculateStats sent) t.mult_)

/-- Line 137 of `CalculateConvexHull`: the start of the line after line `i`, or `DBL_MAX`
after the last line; `rest` are the lines after line `i`. -/
def TuningExampleForest.nextStart {S H L : Type} (t : TuningExampleForest S H L) :
    List L → Real
  | [] => t.DBL_MAX
  | line1 :: _ => t.x line1

/-- The loop of lines 131-153 of `CalculateConvexHull` over the lines of the sorted hull. -/
def TuningExampleForest.hullSpans {S H L : Type} (t : TuningExampleForest S H L)
    (curr_stats : S) : List L → ConvexHull S
  | [] => []
  | line :: rest =>
    let stats := t.TimesEquals (t.CalculateStats (t.ConstructTranslation line)) t.mult_
    let next := t.nextStart rest
    (if PosZero (t.x line) = 0 then [((-t.DBL_MIN, t.DBL_MIN), curr_stats)] else [])
      ++ ((PosZero (t.x line) + t.DBL_MIN, PosZero next - t.DBL_MIN), stats)
      :: TuningExampleForest.hullSpans t curr_stats rest

/-- Lines 126-130 of `CalculateConvexHull`: the sorted lines of the hull of node 0. The
recursion of `CalculateMertHull` marks a node before it descends, so it is never deeper than
the number of nodes. -/
def TuningExampleForest.topLines {S H L : Type} (t : TuningExampleForest S H L)
    (weights gradient : SparseMap) : Except Err (List L) :=
  match CalculateMertHull (t.hull weights gradient) t.forest_ (t.forest_.nodes.length + 1)
      (List.replicate t.forest_.nodes.length none) 0 with
  | .error e => .error e
  | .ok (hulls, _) =>
    match must (hulls[0]?).join with
    | .error e => .error e
    | .ok top_hull => .ok (t.SortLines top_hull)

/-- The method `TuningExampleForest::CalculateConvexHull`. -/
def TuningExampleForest.CalculateConvexHull {S H L : Type} (t : TuningExampleForest S H L)
    (weights gradient : SparseMap) : Except Err (ConvexHull S) :=
  match t.currStats weights with
  | .error e => .error e
  | .ok curr_stats =>
    if !t.isActive gradient then
      .ok [((-t.DBL_MAX, t.DBL_MAX), curr_stats)]
    else
      match t.topLines weights gradient with
      | .error e => .error e
      | .ok lines => .ok (t.hullSpans curr_stats lines)

/-! ## Small forests used for the worked examples of the tuning code -/

namespace Example

/-- A hull as the list of its derivations, each the list of the ids of its edges: sum is
concatenation, product joins every derivation of the left with every one of the right. -/
def derivations : MertOps (List (List Nat)) :=
  { empty := []
    add := fun a b => a ++ b
    mul := fun a b => a.flatMap fun u => b.map fun v => u ++ v
    func := fun edge => [[edge.id]] }

/-- A node of a forest, with the given edges. -/
def forestNode (id : Nat) (edges : List Nat) : HyperNode :=
  { id := id, span := (0, 1), sym := none, edges := edges }

/-- An edge of a forest, with the given head and tails. -/
def forestEdge (id head : Nat) (tails : List Nat) : HyperEdge :=
  { id := id, head := some head, tails := tails, features := [], score := none, trg_data := [] }

/-- A forest of three nodes: node 0 has the edges `0 → 1 2` and `0 → 2`, node 1 the edge
`1 → 2` and node 2 an edge without tails, so node 2 is reached three times from the root. -/
def forest : HyperGraph :=
  { nodes := [forestNode 0 [0, 1], forestNode 1 [2], forestNode 2 [3]]
    edges := [forestEdge 0 0 [1, 2], forestEdge 1 0 [2], forestEdge 2 1 [2], forestEdge 3 2 []]
    words := [] }

/-- Heights in `forest`. -/
def forestRank (n : Nat) : Nat := 2 - n

/-- A tuning example over a forest whose only node has one edge without tails per entry of
`xs`; the hull of edge `i` is the single line that starts at `xs[i]`, hulls are the lists of
the starts of their lines, already in order, and the statistics of a sentence are the sentence
itself. The line that starts at `x` stands for the translation `[x]`, the best translation
under the current weights is `[7]`, and `DBL_MIN = 1`, `DBL_MAX = 1000`. -/
def tuningOf (active : List WordId) (xs : List Int) : TuningExampleForest Sentence (List Int) Int :=
  { forest_ :=
      { nodes := [forestNode 0 (List.range xs.length)]
        edges := (List.range xs.length).map fun i => forestEdge i 0 []
        words := [] }
    active_ := active
    mult_ := 1
    DBL_MIN := 1
    DBL_MAX := 1000
    GetNbest := fun _ => [[7]]
    CalculateStats := fun sent => sent
    TimesEquals := fun stats _ => stats
    hull := fun _ _ =>
      { empty := []
        add := fun a b => a ++ b
        mul := fun a b => a ++ b
        func := fun edge => [xs.getD edge.id 0] }
    SortLines := fun h => h
    x := fun line => line
    ConstructTranslation := fun line => [line] }

end Example

/-! ## The n-gram model of the reference (`eval-measure.cc`, lines 22-59) -/

/-- The type `NgramMap`, a `std::map` from word sequences to counts, as an association list
in order of insertion; whoever walks the map sorts it by key first. -/
abbrev NgramMap := List (List WordId × Nat)

def NGRAM_ORDER : Nat := 5

/-- The statement `m[k]++`; a key that is not there yet comes in with count 0. -/
def ngramIncr : NgramMap → List WordId → NgramMap
  | [], k => [(k, 1)]
  | (l, c) :: rest, k => if l = k then (l, c + 1) :: rest else (l, c) :: ngramIncr rest k

/-- The variables `ngrams` and `act_order` of `CalculateOracle`. -/
structure NgramCounts where
  ngrams : List NgramMap
  act_order : Nat
deriving DecidableEq

/-- Lines 23-26 of `CalculateOracle`: the reference between `<s>` and `</s>`; `bos` and `eos`
are the ids that `Dict::WID` gives to the two markers. -/
def bordered (bos eos : WordId) (ref : Sentence) : Sentence :=
  [bos] ++ ref ++ [eos]

/-- The inner loop of lines 33-38, from `j` on, with `fuel` turns left until `j` passes
`NGRAM_ORDER`. -/
def countFrom (bord_ref : Sentence) (i : Nat) : Nat → Nat → List WordId → NgramCounts → NgramCounts
  | 0, _, _, st => st
  | fuel + 1, j, curr, st =>
    let st1 : NgramCounts :=
      { ngrams := st.ngrams.set j (ngramIncr (st.ngrams.getD j []) curr)
        act_order := max j st.act_order }
    if h : i + j < bord_ref.length then
      countFrom bord_ref i fuel (j + 1) (curr ++ [bord_ref[i + j]]) st1
    else st1

/-- The counting loop of lines 29-39. -/
def countNgrams (bord_ref : Sentence) : NgramCounts :=
  (List.range bord_ref.length).foldl
    (fun st i => countFrom bord_ref i (NGRAM_ORDER + 1) 0 [] st)
    { ngrams := List.replicate (NGRAM_ORDER + 1) [], act_order := 0 }

/-- The lines that the loop of lines 52-58 writes for the n-grams of order `n`, each as its
log-probability and its words; `logf` is `log` on counts, and `ngrams[n-1][context]` reads 0
for a context that is not in the map. -/
def arpaSection (logf : Nat → Real) (ngrams : List NgramMap) (n : Nat) :
    List (Real × List WordId) :=
  ((ngrams.getD n []).insertionSort fun a b => vecLt a.1 b.1 = true).map fun val =>
    (logf val.2 - logf ((assocFind (ngrams.getD (n - 1) []) val.1.dropLast).getD 0), val.1)

/-- The loop of lines 48-59 from order `n` on: the sections of the file, each with its order
and the lines of its n-grams (the line of `<unk>` and the back-off column, both constant, are
left out). -/
def arpaSections (logf : Nat → Real) (c : NgramCounts) : Nat → Nat → List (Nat × List (Real × List WordId))
  | 0, _ => []
  | fuel + 1, n =>
    if n ≠ 1 ∧ (c.ngrams.getD n []).length = 0 then []
    else (n, arpaSection logf c.ngrams n) :: arpaSections logf c fuel (n + 1)

/-- The n-gram part of `CalculateOracle`: the sections written for the reference. -/
def oracleArpa (logf : Nat → Real) (bos eos : WordId) (ref : Sentence) :
    List (Nat × List (Real × List WordId)) :=
  let c := countNgrams (bordered bos eos ref)
  arpaSections logf c c.act_order 1

/-- The number of start positions at which the sequence `g`, taken as an n-gram of order `n`,
occurs in the sentence: the positions `i` with `n` words from `i` on, which are `g`. -/
def occurrencesAt (sent : Sentence) (n : Nat) (g : List WordId) : Nat :=
  (List.range sent.length).countP fun i =>
    decide (i + n ≤ sent.length ∧ (sent.drop i).take n = g)

/-- The number of start positions at which `g` occurs in the sentence. -/
def occurrences (sent : Sentence) (g : List WordId) : Nat :=
  occurrencesAt sent g.length g

/-- A count as the map holds it: no entry for zero. -/
def ofCount (k : Nat) : Option Nat := if k = 0 then none else some k

/-! ## `Forest::Complete` of the incremental composer

The incremental composer divides scores by the weight of the language model, so this part
keeps scores and feature values in the rationals. -/

/-- Modelled from the spec: SparseVector, "mapping from feature id to double; missing entries
are zero", with rational values; `Add` files one more contribution at the end. -/
abbrev SparseVectorQ := List (FeatId × Rat)

/-- Modelled from the spec: HyperEdge, with rational score and features. -/
structure HyperEdgeQ where
  id : Nat
  head : Option Nat
  tails : List Nat
  features : SparseVectorQ
  score : Rat
  trg_data : CfgDataVector
deriving DecidableEq

/-- Modelled from the spec: HyperNode, with its Viterbi score, a rational. -/
structure HyperNodeQ where
  id : Nat
  span : Int × Int
  sym : WordId
  edges : List Nat
  viterbi_score : Rat
deriving DecidableEq

/-- Modelled from the spec: HyperGraph, owner of its nodes and edges. -/
structure HyperGraphQ where
  nodes : List HyperNodeQ
  edges : List HyperEdgeQ
deriving DecidableEq

/-- What `Complete` reads through the pointer `old_edge`: the edge of the parse, and the span
and the symbol of its head. -/
structure SourceEdge where
  edge : HyperEdgeQ
  head_span : Int × Int
  head_sym : WordId
deriving DecidableEq

/-- The class `search::PartialEdge` of the search library as far as `Complete` reads it: the
score, the note (the edge of the parse, null for the edge above the root) and, for every
child `k`, the node `NT()[k].End()` of the output graph. -/
structure PartialEdge where
  score : Rat
  note : Option SourceEdge
  nt : List Nat
deriving DecidableEq

/-- The class `Forest`: the output graph and the data of the language model. The last two
fields are not members: `GlobalVars::trg_factors`, and the score that a `HyperEdge` has when it
comes from `new HyperEdge`. -/
structure Forest where
  hg : HyperGraphQ
  lm_unks_ : List Int
  lm_id_ : FeatId
  lm_weight_ : Rat
  lm_unk_id_ : FeatId
  lm_unk_weight_ : Rat
  root_sym_ : WordId
  factor_ : Nat
  trg_factors : Nat
  new_edge_score : Rat

/-- The locals `tails`, `edge_score` and `node_id` of the loop body of `Complete`. -/
structure EdgeParts where
  tails : List Nat
  edge_score : Rat
  node_id : List Int
deriving DecidableEq

/-- The loop of lines 62-72 over the target words: every slot takes the output node of its
child as next tail, takes the Viterbi score of the child off the score and writes the id of the
child into the key. Children are nodes completed before, read in `nodes`. -/
def slotLoop (nodes : List HyperNodeQ) (add : PartialEdge) :
    List WordId → EdgeParts → Except Err EdgeParts
  | [], acc => .ok acc
  | wid :: rest, acc =>
    if wid < 0 then
      match must add.nt[(-1 - wid).toNat]? with
      | .error e => .error e
      | .ok child =>
        match must nodes[child]? with
        | .error e => .error e
        | .ok childNode =>
          if (-1 - wid).toNat < acc.node_id.length then
            slotLoop nodes add rest
              { tails := acc.tails ++ [child]
                edge_score := acc.edge_score - childNode.viterbi_score
                node_id := acc.node_id.set (-1 - wid).toNat (childNode.id : Int) }
          else .error Err.assertion
    else slotLoop nodes add rest acc

/-- Lines 47-72 of `Complete`: target words and key of the edge, then the loop over the
words. -/
def Forest.prepare (F : Forest) (nodes : List HyperNodeQ) (add : PartialEdge) :
    Except Err EdgeParts :=
  match add.note with
  | some old_edge =>
    match must old_edge.edge.trg_data[F.factor_]? with
    | .error e => .error e
    | .ok data =>
      slotLoop nodes add data.words
        { tails := []
          edge_score := add.score
          node_id := List.replicate old_edge.edge.tails.length 0 ++ [(old_edge.edge.id : Int)] }
  | none =>
    slotLoop nodes add [-1] { tails := [], edge_score := add.score, node_id := [0] }

/-- Lines 78-95 of `Complete`: the edge that is made for the hypothesis `add`, which gets the
id `eid` from `hg->AddEdge`. -/
def Forest.makeEdge (F : Forest) (node : Nat) (add : PartialEdge) (pr : EdgeParts) (eid : Nat) :
    Except Err HyperEdgeQ :=
  match add.note with
  | some old_edge =>
    match must F.lm_unks_[old_edge.edge.id]? with
    | .error e => .error e
    | .ok lm_unk =>
      .ok { id := eid
            head := some node
            tails := pr.tails
            features := old_edge.edge.features
              ++ [(F.lm_id_, (pr.edge_score - lm_unk * F.lm_unk_weight_ - old_edge.edge.score)
                    / F.lm_weight_)]
              ++ (if lm_unk ≠ 0 then [(F.lm_unk_id_, (lm_unk : Rat))] else [])
            score := pr.edge_score
            trg_data := old_edge.edge.trg_data }
  | none =>
    .ok { id := eid
          head := some node
          tails := pr.tails
          features := [(F.lm_id_, (pr.edge_score - 0 * F.lm_unk_weight_ - F.new_edge_score)
                    / F.lm_weight_)]
          score := pr.edge_score
          trg_data := List.replicate F.trg_factors { words := [-1] } }

/-- The variables that the loop of `Complete` changes: the edges of the graph, the edges of
the new node, `node_memo`, `best`, `old_edge` and `edge`. -/
structure CompleteState where
  edges : List HyperEdgeQ
  node_edges : List Nat
  node_memo : List (List Int × Nat)
  best : Option PartialEdge
  old_edge : Option SourceEdge
  edge : Option Nat
deriving DecidableEq

/-- Lines 45-46 of `Complete`: the best hypothesis so far. -/
def betterOf (best : Option PartialEdge) (add : PartialEdge) : Option PartialEdge :=
  match best with
  | none => some add
  | some b => if b.score < add.score then some add else some b

/-- One turn of the loop of `Complete` (lines 44-96). -/
def Forest.completeStep (F : Forest) (nodes : List HyperNodeQ) (node : Nat)
    (s : CompleteState) (add : PartialEdge) : Except Err CompleteState :=
  match F.prepare nodes add with
  | .error e => .error e
  | .ok pr =>
    match assocFind s.node_memo pr.node_id with
    | some _ => .ok { s with best := betterOf s.best add, old_edge := add.note }
    | none =>
      match F.makeEdge node add pr s.edges.length with
      | .error e => .error e
      | .ok edge =>
        .ok { edges := s.edges ++ [edge]
              node_edges := s.node_edges ++ [edge.id]
              node_memo := s.node_memo ++ [(pr.node_id, edge.id)]
              best := betterOf s.best add
              old_edge := add.note
              edge := some edge.id }

/-- The loop of `Complete` over the hypotheses. -/
def Forest.completeLoop (F : Forest) (nodes : List HyperNodeQ) (node : Nat) :
    List PartialEdge → CompleteState → Except Err CompleteState
  | [], s => .ok s
  | add :: rest, s =>
    match F.completeStep nodes node s add with
    | .error e => .error e
    | .ok s1 => Forest.completeLoop F nodes node rest s1

/-- Lines 98-105 of `Complete`: span and symbol of the new node. -/
def Forest.spanAndSym (F : Forest) (s : CompleteState) : Except Err ((Int × Int) × WordId) :=
  match s.old_edge with
  | some old_edge => .ok (old_edge.head_span, old_edge.head_sym)
  | none =>
    match must s.edge with
    | .error e => .error e
    | .ok edge =>
      match must s.edges[edge]? with
      | .error e => .error e
      | .ok e =>
        match must e.tails[0]? with
        | .error err => .error err
        | .ok t =>
          match must F.hg.nodes[t]? with
          | .error err => .error err
          | .ok tn => .ok (tn.span, F.root_sym_)

/-- The method `Forest::Complete`: the forest afterwards, the new node and its score. An empty
list of hypotheses fails at line 103, where `edge` is still null, so `best` is valid whenever
line 106 is reached. -/
def Forest.Complete (F : Forest) (hyps : List PartialEdge) :
    Except Err (Forest × Nat × Rat) :=
  match Forest.completeLoop F F.hg.nodes F.hg.nodes.length hyps
      { edges := F.hg.edges, node_edges := [], node_memo := [], best := none,
        old_edge := none, edge := none } with
  | .error e => .error e
  | .ok s =>
    match F.spanAndSym s with
    | .error e => .error e
    | .ok (span, sym) =>
      match s.best with
      | none => .error Err.assertion
      | some best =>
        .ok ({ F with
                hg :=
                  { nodes := F.hg.nodes ++
                      [{ id := F.hg.nodes.length, span := span, sym := sym,
                         edges := s.node_edges, viterbi_score := best.score }]
                    edges := s.edges } },
             F.hg.nodes.length, best.score)

/-- The hypotheses that are the first of their key, given the keys seen before: what is
left when every hypothesis with a key already seen is taken out. -/
def firstOfKey : List (List Int) → List (PartialEdge × EdgeParts) → List (PartialEdge × EdgeParts)
  | _, [] => []
  | seen, x :: rest =>
    if x.2.node_id ∈ seen then firstOfKey seen rest
    else x :: firstOfKey (seen ++ [x.2.node_id]) rest

/-- The Viterbi score stored at a node pointer. -/
def viterbiAt (nodes : List HyperNodeQ) (t : Nat) : Rat :=
  match nodes[t]? with
  | some n => n.viterbi_score
  | none => 0

/-! ## A small forest of the incremental composer used for the worked examples -/

namespace Example

/-- An edge of the parse with id 1 and two tails, whose target `[X1] 7 [X0]` names the second
child first; score 1, one feature. -/
def sourceEdge : SourceEdge :=
  { edge :=
      { id := 1, head := some 2, tails := [0, 1], features := [(5, 1)], score := 1,
        trg_data := [{ words := [-2, 7, -1] }] }
    head_span := (0, 3)
    head_sym := 4 }

/-- A forest whose output graph has two nodes, with Viterbi scores 2 and 3, and no edge yet;
the weight of the LM is 2, that of unknown words -3, and edge 1 of the parse has one unknown
word. -/
def incForest : Forest :=
  { hg :=
      { nodes := [{ id := 0, span := (0, 1), sym := 4, edges := [], viterbi_score := 2 },
                  { id := 1, span := (1, 3), sym := 4, edges := [], viterbi_score := 3 }]
        edges := [] }
    lm_unks_ := [0, 1]
    lm_id_ := 9
    lm_weight_ := 2
    lm_unk_id_ := 10
    lm_unk_weight_ := -3
    root_sym_ := 0
    factor_ := 0
    trg_factors := 1
    new_edge_score := 0 }

/-- Three hypotheses from the same edge of the parse: the first two over the children 0 and 1
with scores 10 and 12, the third over the child 1 twice with score 8. -/
def hyps : List PartialEdge :=
  [{ score := 10, note := some sourceEdge, nt := [0, 1] },
   { score := 12, note := some sourceEdge, nt := [0, 1] },
   { score := 8, note := some sourceEdge, nt := [1, 1] }]

/-- The edge made from the first hypothesis. -/
def firstEdge : HyperEdgeQ :=
  { id := 0, head := some 2, tails := [1, 0], features := [(5, 1), (9, 7 / 2), (10, 1)],
    score := 5, trg_data := [{ words := [-2, 7, -1] }] }

/-- The edge made from the third hypothesis. -/
def thirdEdge : HyperEdgeQ :=
  { id := 1, head := some 2, tails := [1, 1], features := [(5, 1), (9, 2), (10, 1)],
    score := 2, trg_data := [{ words := [-2, 7, -1] }] }

/-- The forest after `Complete` on the three hypotheses. -/
def incForestAfter : Forest :=
  { incForest with
    hg :=
      { nodes := incForest.hg.nodes ++
          [{ id := 2, span := (0, 3), sym := 4, edges := [0, 1], viterbi_score := 12 }]
        edges := [firstEdge, thirdEdge] } }

end Example

/-! ## CfgData (`cfg-data.h`) -/

/-- The method `CfgData::AppendChild`: the words of the child are appended to the words, the
label of the child to the symbols. -/
def CfgData.AppendChild (d child : CfgData) : CfgData :=
  { d with words := d.words ++ child.words, syms := d.syms ++ [child.label] }

/-- The number of negative entries (slots) of a word sequence. -/
def negCount (ws : Sentence) : Nat := ws.countP fun w => decide (w < 0)

/-- The invariant that the specification gives for CfgData: "the number of negative entries in
`words` equals `|syms|`". -/
def CfgData.SlotsMatch (d : CfgData) : Prop := negCount d.words = d.syms.length

instance (d : CfgData) : Decidable d.SlotsMatch :=
  inferInstanceAs (Decidable (negCount d.words = d.syms.length))

namespace Example

/-- A chart cell with two stateful nodes under `X`, nodes 1 and 2, not yet sorted. -/
def twoNodes : CFGChartItem :=
  { nodes_ := [(X, [(1, [0]), (2, [0])])], populated_ := false }

/-- Stored Viterbi scores: node 1 scores 5 and node 2 scores 7. -/
def twoScores : ViterbiMemo := [(1, 5), (2, 7)]

/-- The cell `twoNodes` after `FinalizeNodes`: node 2 first, populated. -/
def twoNodesSorted : CFGChartItem :=
  { nodes_ := [(X, [(2, [0]), (1, [0])])], populated_ := true }

end Example

/-! ## `PredictiveSearch` with its agents -/

/-- A `marisa::Agent`: its query and what a search leaves in it (the key found and the state
of the search), of a type `σ` that belongs to the trie library. -/
structure Agent (σ : Type) where
  query : List WordId
  state : σ
deriving DecidableEq

/-- The method `LookupTableCFGLM::PredictiveSearch` (lines 124-131) with the agents written
out, over the rule tables that are left to visit. `fresh` is the state of an agent that has
just been constructed and `search fsm ag` is `fsm->GetTrie().predictive_search(ag)`: the answer
and the agent after the search. The result is the answer and the agent of the caller after the
call. -/
def PredictiveSearchAgent {σ : Type} (fresh : σ) (search : RuleFSM → Agent σ → Bool × Agent σ) :
    List RuleFSM → Agent σ → Bool × Agent σ
  | [], agent => (false, agent)
  | fsm :: rest, agent =>
    let tmp_agent : Agent σ := { query := agent.query, state := fresh }
    if (search fsm tmp_agent).1 then (true, agent)
    else PredictiveSearchAgent fresh search rest agent

/-! ## `CalculateVertex` of the incremental composer -/

/-- How the first lines of `CalculateVertex` can end badly: with the `Bad id` error of line
128, or with a read outside a vector. -/
inductive VertexErr where
  | bad_id
  | out_of_range
deriving DecidableEq

/-- Lines 119-128 of `LMComposerIncremental::CalculateVertex`, followed by the rest of the
body, `build`, which makes and stores the vertex of a node of the parse. `nodes` are the node
pointers of the parse and `vertices` the vertex pointers, `none` for a null pointer; the result
is the vertex table afterwards and the vertex returned. -/
def CalculateVertex {V P : Type} (nodes : List (Option P))
    (build : P → Nat → List (Option V) → Except VertexErr (List (Option V) × V))
    (vertices : List (Option V)) (id : Int) : Except VertexErr (List (Option V) × V) :=
  match atInt vertices id with
  | none => .error VertexErr.out_of_range
  | some (some vertex) => .ok (vertices, vertex)
  | some none =>
    if id < 0 ∨ (nodes.length : Int) ≤ id then .error VertexErr.bad_id
    else
      match nodes[id.toNat]? with
      | some (some node) => build node id.toNat vertices
      | _ => .error VertexErr.bad_id

/-- Lines 137-156 of `CalculateVertex` for one edge of the parse with the given tails: the
children of the partial edge, one for every slot of the target words in the order of the
words, each the node of the parse `edge->GetTail(tid)->GetId()` whose vertex is taken.
`empty v` says that the vertex of node `v` is empty; the edge is then dropped (`none`). -/
def edgeChildren (tails : List Nat) (empty : Nat → Bool) :
    List WordId → Except VertexErr (Option (List Nat))
  | [] => .ok (some [])
  | wid :: rest =>
    if wid < 0 then
      match tails[(-1 - wid).toNat]? with
      | none => .error VertexErr.out_of_range
      | some tail =>
        if empty tail then .ok none
        else
          match edgeChildren tails empty rest with
          | .ok (some children) => .ok (some (tail :: children))
          | other => other
    else edgeChildren tails empty rest

/-- The hypothesis that reaches `Complete` for an edge of the parse: lines 162-177 give the
partial edge one non-terminal per child, in the order of `children`, and the edge as note; when
the search has completed it, `NT()[p].End()` is the node of the output graph made for a
hypothesis of child `p`, here `out` of that child, and the score is `score`. -/
def hypothesisOf (src : SourceEdge) (factor : Nat) (empty : Nat → Bool) (out : Nat → Nat)
    (score : Rat) : Except VertexErr (Option PartialEdge) :=
  match src.edge.trg_data[factor]? with
  | none => .error VertexErr.out_of_range
  | some data =>
    match edgeChildren src.edge.tails empty data.words with
    | .error e => .error e
    | .ok none => .ok none
    | .ok (some children) =>
      .ok (some { score := score, note := some src, nt := children.map out })

/-! ## The potential gain of a tuning example (`tuning-example-forest.cc`, lines 37-76) -/

/-- The call `insert` of a `std::set`, kept as a list without repetition. -/
def setInsert (s : List WordId) (x : WordId) : List WordId :=
  if x ∈ s then s else s ++ [x]

/-- The call `insert` of a `SparseMap`: a key that is there already keeps its value. -/
def sparseInsert (m : SparseMap) (k : WordId) (v : Real) : SparseMap :=
  if k ∈ m.map Prod.fst then m else m ++ [(k, v)]

/-- The method `TuningExampleForest::FindActiveFeatures`: `active_` is cleared and gets the
name of every feature of every edge of the forest. -/
def TuningExampleForest.FindActiveFeatures {S H L : Type} (t : TuningExampleForest S H L) :
    TuningExampleForest S H L :=
  { t with
    active_ := t.forest_.edges.foldl
      (fun act edge => edge.features.foldl (fun act feat => setInsert act (feat.1 : Int)) act)
      [] }

/-- The members `oracle_score_` and `curr_score_` of `TuningExampleForest`. -/
structure GainScores where
  oracle_score_ : Real
  curr_score_ : Real
deriving DecidableEq

/-- The method `TuningExampleForest::CalculatePotentialGain`: the example and its scores
afterwards, and the map returned. `ConvertToScore` is the method of the evaluation
statistics. -/
def TuningExampleForest.CalculatePotentialGain {S H L : Type} (t : TuningExampleForest S H L)
    (ConvertToScore : S → Real) (sc : GainScores) (weights : SparseMap) :
    Except Err ((TuningExampleForest S H L × GainScores) × SparseMap) :=
  match must (t.GetNbest weights)[0]? with
  | .error e => .error e
  | .ok sent =>
    let curr_score := ConvertToScore (t.CalculateStats sent) * t.mult_
    let oracle_score := max sc.oracle_score_ curr_score
    let gain := oracle_score - curr_score
    let t1 := if t.active_.length = 0 then t.FindActiveFeatures else t
    .ok ((t1, { oracle_score_ := oracle_score, curr_score_ := curr_score }),
         t1.active_.foldl (fun ret id => sparseInsert ret id gain) [])

namespace Example

/-- A parse of three nodes, the second one a null pointer. -/
def parseNodes : List (Option Nat) := [some 0, none, some 2]

/-- The vertex table for `parseNodes`, one entry more than there are nodes; the vertex of node
0 has been computed. -/
def vertexTable : List (Option Nat) := [some 70, none, none, none]

/-- A rest of the body of `CalculateVertex` that stores the vertex `100 + id`. -/
def buildVertex (_ : Nat) (id : Nat) (vertices : List (Option Nat)) :
    Except VertexErr (List (Option Nat) × Nat) :=
  .ok (vertices.set id (some (100 + id)), 100 + id)

/-- An edge of the parse with id 0 and three tails, the nodes 10, 11 and 12 of the parse, whose
target `[X1] [X2] [X0]` names the second child first, then the third, then the first. -/
def rotatedEdge : SourceEdge :=
  { edge :=
      { id := 0, head := some 13, tails := [10, 11, 12], features := [], score := 0,
        trg_data := [{ words := [-2, -3, -1] }] }
    head_span := (0, 3)
    head_sym := 4 }

/-- A forest whose output graph has the nodes 0, 1 and 2, made for the nodes 10, 11 and 12 of
the parse, with Viterbi scores 1, 2 and 4. -/
def rotatedForest : Forest :=
  { hg :=
      { nodes := [{ id := 0, span := (0, 1), sym := 4, edges := [], viterbi_score := 1 },
                  { id := 1, span := (1, 2), sym := 4, edges := [], viterbi_score := 2 },
                  { id := 2, span := (2, 3), sym := 4, edges := [], viterbi_score := 4 }]
        edges := [] }
    lm_unks_ := [0]
    lm_id_ := 9
    lm_weight_ := 1
    lm_unk_id_ := 10
    lm_unk_weight_ := 0
    root_sym_ := 0
    factor_ := 0
    trg_factors := 1
    new_edge_score := 0 }

/-- The node of the output graph made for a node of the parse: `10 ↦ 0`, `11 ↦ 1`, `12 ↦ 2`. -/
def outputOf (n : Nat) : Nat := n - 10

/-- The hypothesis that reaches `Complete` for `rotatedEdge`, with score 10. -/
def rotatedHyp : PartialEdge :=
  { score := 10, note := some rotatedEdge, nt := [1, 2, 0] }

/-- The forest after `Complete` on `rotatedHyp`: node 3 with one edge, whose tails are the
nodes 2, 0 and 1. -/
def rotatedAfter : Forest :=
  { rotatedForest with
    hg :=
      { nodes := rotatedForest.hg.nodes ++
          [{ id := 3, span := (0, 3), sym := 4, edges := [0], viterbi_score := 10 }]
        edges := [{ id := 0, head := some 3, tails := [2, 0, 1], features := [(9, 3)],
                    score := 3, trg_data := [{ words := [-2, -3, -1] }] }] } }

/-- A tuning example whose forest has one edge with the features 1 and 2. -/
def gainExample (active : List WordId) : TuningExampleForest Sentence (List Int) Int :=
  { tuningOf active [] with
    forest_ :=
      { nodes := [forestNode 0 [0]]
        edges := [{ id := 0, head := some 0, tails := [], features := [(1, 3), (2, 5)],
                    score := none, trg_data := [] }]
        words := [] } }

end Example

/-! ## The chart cells that `Consume` and `CubePrune` read -/

/-- Every span of the list names a cell of the chart that satisfies `Q`. -/
def SpansIn (N : Nat) (chart : List CFGChartItem) (Q : CFGChartItem → Prop)
    (spans : List (Nat × Nat)) : Prop :=
  ∀ sp ∈ spans, ∃ c, chart[sp.1 * N + sp.2]? = some c ∧ Q c

/-- Every child span of every entry of the collections names a cell that satisfies `Q`. -/
def CollSpans (N : Nat) (chart : List CFGChartItem) (Q : CFGChartItem → Prop)
    (cs : List CFGCollection) : Prop :=
  ∀ c ∈ cs, ∀ p ∈ c.spans_, SpansIn N chart Q p

/-- The method `Consume` as the specification wants it, where "unpopulated chart cell
accessed" is an invariant violation: the same as `Consume`, except that the read of
`chart[j*N+k]` fails when that cell is not populated. -/
def ConsumeChecked (t : LookupTableCFGLM) (sent : Sentence) (N : Nat) (chart : List CFGChartItem) :
    Nat → CFGPath → Nat → Nat → Nat → List CFGCollection → Except Err (List CFGCollection)
  | 0, _, _, _, _, _ => .error Err.fuel
  | fuel + 1, a, i, j, k, cs =>
    let unary := decide (i = j)
    let first : Except Err (List CFGCollection) :=
      if j = k then
        match sent[j]? with
        | none => .error Err.assertion
        | some w =>
          if PredictiveSearch t (a.withWord w).agent then
            AddToChartWith t N (ConsumeChecked t sent N chart fuel) (a.withWord w) i k unary cs
          else .ok cs
      else .ok cs
    match first with
    | .error e => .error e
    | .ok cs1 =>
      match chart[j * N + k]? with
      | none => .error Err.assertion
      | some cell =>
        if cell.populated_ then
          forEachE (fun (sym : HieroHeadLabels × List StatefulNode) (c : List CFGCollection) =>
              if PredictiveSearch t (a.withLabels sym.1 j k).agent then
                AddToChartWith t N (ConsumeChecked t sent N chart fuel) (a.withLabels sym.1 j k)
                  i k unary c
              else .ok c) cell.nodes_ cs1
        else .error Err.assertion

/-- The state in which `TransformGraph` enters its loops (lines 303-315). -/
def initialDecode (sent : Sentence) : Decode :=
  { chart := List.replicate (sent.length * sent.length) {},
    collections := List.replicate (sent.length * sent.length) {},
    ret := HyperGraph.AddNode { nodes := [], edges := [], words := sent } (0, sent.length) none [],
    viterbi := [] }

/-- Lines 322-334 of `TransformGraph`: the rules of the span `i..j` are collected. -/
def collectRules (t : LookupTableCFGLM) (sent : Sentence) (N i j : Nat) (d : Decode) :
    Except Err (List CFGCollection) :=
  if i = j then
    match sent[i]? with
    | none => .error Err.assertion
    | some w => depositRules (CFGPath.withWord {} w) (i * N + j) t.rule_fsms_ d.collections
  else Consume t sent N d.chart N {} i i (j - 1) d.collections

/-- The state of the decoding when `TransformGraph` has run its loops over the spans `pre`:
the chart has its size; the cell of every span of `pre` is populated and the cell of every
other span is as it was created, without nodes and not populated; and every child span of
every rule collected so far names a populated cell. -/
structure ChartPop (N : Nat) (pre : List (Nat × Nat)) (d : Decode) : Prop where
  chart_len : d.chart.length = N * N
  cells : ∀ i j, i ≤ j → j < N → ∃ c, d.chart[i * N + j]? = some c ∧
    ((i, j) ∈ pre → c.populated_ = true) ∧ ((i, j) ∉ pre → c = {})
  colls : CollSpans N d.chart (fun c => c.populated_ = true) d.collections

namespace Example

/-- The state of the decoding of `a b` by `decoder` when `TransformGraph` has been through the
spans `(1, 1)` and `(0, 0)` and comes to the span `(0, 1)`. -/
def beforeLast : Decode :=
  getOk (initialDecode [0, 1])
    (forEachE (fun sp d => spanStep decoder 100 [0, 1] 2 sp.1 sp.2 d) [(1, 1), (0, 0)]
      (initialDecode [0, 1]))

/-- The state of the decoding of `c a`, where no rule has the word `c = 5`, when
`TransformGraph` has been through the span `(1, 1)` and has collected the rules of the span
`(0, 0)`: there is none. -/
def beforeUnknown : Decode :=
  getOk (initialDecode [5, 0])
    (forEachE (fun sp d => spanStep decoder 100 [5, 0] 2 sp.1 sp.2 d) [(1, 1)]
      (initialDecode [5, 0]))

/-- The state `beforeUnknown` after `CubePrune` for the span `(0, 0)`. -/
def afterUnknown : Decode :=
  { beforeUnknown with
    chart := beforeUnknown.chart.set 0 { nodes_ := [], populated_ := true } }

end Example

/-! ## `CfgData::GetNontermPositions` (`cfg-data.h`, lines 37-43) -/

/-- The loop of lines 39-41 over the indices of `words`: every index whose word is negative is
pushed to `ret`. The index is an `int` in the source; it is a natural number here, which is
the same as long as `words` has fewer than `2^31` entries. -/
def nontermLoop (words : Sentence) : List Nat → List Nat → List Nat
  | [], ret => ret
  | i :: rest, ret =>
    match words[i]? with
    | some w => nontermLoop words rest (if w < 0 then ret ++ [i] else ret)
    | none => nontermLoop words rest ret

/-- The method `CfgData::GetNontermPositions`: the vector it returns, and the object
afterwards (the method is not `const`, but it assigns to no member). -/
def CfgData.GetNontermPositions (d : CfgData) : List Nat × CfgData :=
  (nontermLoop d.words (List.range d.words.length) [], d)

namespace Example

/-- The target side `[X0] 7 [X1] 8`. -/
def twoSlots : CfgData := { words := [-1, 7, -2, 8], label := 100, syms := [100, 100] }

end Example

/-! ## Reading the contexts while the n-gram file is written (`eval-measure.cc`, line 55) -/

/-- The expression `m[k]` of a `std::map` where it is read: the value and the map afterwards,
in which a key that was not there has come in with count 0. -/
def ngramRead (m : NgramMap) (k : List WordId) : Nat × NgramMap :=
  match assocFind m k with
  | some c => (c, m)
  | none => (0, m ++ [(k, 0)])

/-- The loop of lines 52-58 over the n-grams `vals` of order `n`, with the maps as its state:
the lines written and the maps afterwards. Line 55 reads `ngrams[n-1][context]`, where
`context` is the n-gram without its last word. -/
def writeLines (logf : Nat → Real) (n : Nat) :
    List (List WordId × Nat) → List NgramMap → List (Real × List WordId) × List NgramMap
  | [], ngrams => ([], ngrams)
  | val :: rest, ngrams =>
    let r := ngramRead (ngrams.getD (n - 1) []) val.1.dropLast
    let out := writeLines logf n rest (ngrams.set (n - 1) r.2)
    ((logf val.2 - logf r.1, val.1) :: out.1, out.2)

/-! ## The inside score of the edges of a node of the incremental composer -/

/-- The score of an edge plus the sum of the Viterbi scores of its tails. -/
def edgeInside (hg : HyperGraphQ) (e : HyperEdgeQ) : Rat :=
  e.score + (e.tails.map (viterbiAt hg.nodes)).sum

/-- For the edges attached to a node, in their order, the score of the edge plus the sum of
the Viterbi scores of its tails. -/
def insideScores (hg : HyperGraphQ) (node : Nat) : List Rat :=
  match hg.nodes[node]? with
  | none => []
  | some n => n.edges.filterMap fun e => (hg.edges[e]?).map (edgeInside hg)

/-- The maximum over the edges attached to a node of the edge's score plus the sum of the
Viterbi scores of its tails; none for a node without edges. -/
def insideMax (hg : HyperGraphQ) (node : Nat) : Option Rat :=
  (insideScores hg node).max?

/-! ## The source sides that the chart walk finds

`Consume` and `AddToChart` extend a path symbol by symbol: by the word of the sentence at the
current position, or by the head labels of a bucket of the chart cell of a span that starts at
the current position. The definitions of this section describe such sequences of symbols; they
are used to state what the collections hold. -/

/-- One symbol of a source side as the chart walk consumes it: a word, or a non-terminal given
by the head labels of a bucket and the position `last` of the last word it covers. -/
inductive WalkSym where
  | word (w : WordId)
  | nonterm (heads : HieroHeadLabels) (last : Nat)
deriving DecidableEq

/-- The path that `Consume` makes from the path `a` for a symbol at position `p`: `CFGPath(a,
sent, p)` for a word (line 137), `CFGPath(a, sym.first, p, last)` for a non-terminal (line
143). -/
def CFGPath.step (a : CFGPath) (p : Nat) : WalkSym → CFGPath
  | .word w => a.withWord w
  | .nonterm heads last => a.withLabels heads p last

/-- Whether `Consume` can take the symbol at position `p`, and then the position after the
symbol: a word must be the word of the sentence at `p`; the labels of a non-terminal must be
labels of a bucket of the populated chart cell of the span from `p` to `last`. -/
def symNext (sent : Sentence) (N : Nat) (chart : List CFGChartItem) (p : Nat) :
    WalkSym → Option Nat
  | .word w => if sent[p]? = some w then some (p + 1) else none
  | .nonterm heads last =>
    if p ≤ last ∧ last < N then
      match chart[p * N + last]? with
      | some cell =>
        if cell.populated_ = true ∧ heads ∈ cell.nodes_.map Prod.fst then some (last + 1)
        else none
      | none => none
    else none

/-- The symbols are taken one after the other from position `p` on, starting with the path `a`:
the position after the last symbol and the path reached, if every symbol can be taken. With
`ps` set, every path on the way must pass `PredictiveSearch`, as lines 138, 145 and 158
require before the walk goes on. -/
def walk (t : LookupTableCFGLM) (ps : Bool) (sent : Sentence) (N : Nat)
    (chart : List CFGChartItem) : List WalkSym → Nat → CFGPath → Option (Nat × CFGPath)
  | [], p, a => some (p, a)
  | s :: rest, p, a =>
    match symNext sent N chart p s with
    | none => none
    | some q =>
      if ps = true ∧ PredictiveSearch t (a.step p s).agent = false then none
      else walk t ps sent N chart rest q (a.step p s)

/-- The number of words among the symbols. -/
def wordCount : List WalkSym → Nat
  | [] => 0
  | .word _ :: rest => wordCount rest + 1
  | .nonterm _ _ :: rest => wordCount rest

/-- The collection has the entry: at some index, the rule with these child spans and child
labels. -/
def HasEntry (c : CFGCollection) (rule : TranslationRuleHiero) (spans : List (Nat × Nat))
    (labels : List HieroHeadLabels) : Prop :=
  ∃ r : Nat, c.rules_[r]? = some rule ∧ c.spans_[r]? = some spans ∧
    c.labels_[r]? = some labels

/-- The three vectors of the collection have the same length. -/
def CFGCollection.Parallel (c : CFGCollection) : Prop :=
  c.rules_.length = c.spans_.length ∧ c.rules_.length = c.labels_.length

/-- The collections `cs1` are the collections `cs` with entries added at the end: every entry
is still there, at its index. -/
def CollLe (cs cs1 : List CFGCollection) : Prop :=
  cs1.length = cs.length ∧
  ∀ (idx : Nat) (c : CFGCollection), cs[idx]? = some c →
    ∃ c1 : CFGCollection, cs1[idx]? = some c1 ∧ (c.Parallel → c1.Parallel) ∧
    ∀ r : Nat, (∀ x, c.rules_[r]? = some x → c1.rules_[r]? = some x) ∧
      (∀ x, c.spans_[r]? = some x → c1.spans_[r]? = some x) ∧
      (∀ x, c.labels_[r]? = some x → c1.labels_[r]? = some x)

/-- What holds of an entry of the collection of the span `i..j`: its child spans and labels
are those of a path that takes symbols from `i` up to `j`, the rule is in the bucket that a
rule table has for the query of that path, and the path is a single word if the span is one
word and has at least two symbols otherwise. -/
def EntryOK (t : LookupTableCFGLM) (sent : Sentence) (N : Nat) (chart : List CFGChartItem)
    (i j : Nat) (rule : TranslationRuleHiero) (spans : List (Nat × Nat))
    (labels : List HieroHeadLabels) : Prop :=
  ∃ syms b, walk t false sent N chart syms i {} = some (j + 1, b) ∧
    spans = b.spans ∧ labels = b.labels ∧
    (∃ fsm ∈ t.rule_fsms_, ∃ key, fsm.lookup b.agent = some key ∧ rule ∈ fsm.rules key) ∧
    (i = j → ∃ w, syms = [.word w]) ∧ (i ≠ j → 2 ≤ syms.length)

/-- Every entry of the collection of every span is as `EntryOK` says. -/
def CollSound (t : LookupTableCFGLM) (sent : Sentence) (N : Nat) (chart : List CFGChartItem)
    (cs : List CFGCollection) : Prop :=
  ∀ (i j : Nat) (c : CFGCollection), i ≤ j → j < N → cs[i * N + j]? = some c →
    ∀ (r : Nat) rule spans labels, c.rules_[r]? = some rule → c.spans_[r]? = some spans →
      c.labels_[r]? = some labels → EntryOK t sent N chart i j rule spans labels

/-- The collection at `idx` holds the rules of the path `b`: for every rule table that has a
bucket for the query of the path, every rule of the bucket, with the spans and the labels of
the path. -/
def Deposited (t : LookupTableCFGLM) (cs : List CFGCollection) (idx : Nat) (b : CFGPath) :
    Prop :=
  ∀ fsm ∈ t.rule_fsms_, ∀ key, fsm.lookup b.agent = some key →
    ∃ c, cs[idx]? = some c ∧ ∀ rule ∈ fsm.rules key, HasEntry c rule b.spans b.labels

/-- The collections hold what the walks that have been made find: for every span `(i, m + 1)`
in `seen`, every path that starts with a symbol from `i` to `m`, goes on with at least one
more symbol up to `q` and passes `PredictiveSearch` all the way has its rules in the
collection of the span `i..q`. -/
def CollComplete (t : LookupTableCFGLM) (sent : Sentence) (N : Nat)
    (seen : List (Nat × Nat)) (chart : List CFGChartItem) (cs : List CFGCollection) : Prop :=
  ∀ i m q s syms b, (i, m + 1) ∈ seen →
    symNext sent N chart i s = some (m + 1) →
    PredictiveSearch t (CFGPath.step {} i s).agent = true → syms ≠ [] →
    walk t true sent N chart syms (m + 1) (CFGPath.step {} i s) = some (q + 1, b) →
    Deposited t cs (i * N + q) b

/-- The collections of the one-word spans in `seen` hold the rules that the rule tables have
for the word. -/
def CollSingle (t : LookupTableCFGLM) (sent : Sentence) (N : Nat)
    (seen : List (Nat × Nat)) (cs : List CFGCollection) : Prop :=
  ∀ i w, (i, i) ∈ seen → sent[i]? = some w →
    Deposited t cs (i * N + i) (CFGPath.withWord {} w)

/-- What `TransformGraph` keeps true of the collections while it goes through the spans:
`seen` are the spans whose rules have been collected. -/
structure WalkInv (t : LookupTableCFGLM) (sent : Sentence) (N : Nat)
    (seen : List (Nat × Nat)) (chart : List CFGChartItem) (cs : List CFGCollection) :
    Prop where
  len : cs.length = N * N
  parallel : ∀ c ∈ cs, c.Parallel
  sound : CollSound t sent N chart cs
  complete : CollComplete t sent N seen chart cs
  single : CollSingle t sent N seen cs

/-- A rule table answers like a trie: a predictive search succeeds on every prefix of every
key. -/
def RuleFSM.TrieLike (fsm : RuleFSM) : Prop :=
  ∀ q key, fsm.lookup q = some key → ∀ p, p <+: q → fsm.predictive_search p = true

namespace Example

end Example

/-! ## Theorems -/

/-! ### Reading the steps of CubePrune -/

theorem must_ok {α : Type} {o : Option α} {a : α} (h : must o = .ok a) : o = some a := by
  cases o with
  | none => simp [must] at h
  | some b => simp [must] at h; rw [h]

theorem assocFind_none_not_mem {κ β : Type} [DecidableEq κ] (l : List (κ × β)) (k : κ)
    (h : assocFind l k = none) : k ∉ l.map Prod.fst := by
  induction l with
  | nil => simp
  | cons p rest ih =>
    obtain ⟨a, b⟩ := p
    simp only [assocFind] at h
    by_cases hk : a = k
    · simp [hk] at h
    · simp only [hk, if_false] at h
      simp only [List.map_cons, List.mem_cons, not_or]
      exact ⟨fun e => hk e.symm, ih h⟩

theorem assocFind_some_mem {κ β : Type} [DecidableEq κ] (l : List (κ × β)) (k : κ) (b : β)
    (h : assocFind l k = some b) : (k, b) ∈ l := by
  induction l with
  | nil => simp [assocFind] at h
  | cons p rest ih =>
    obtain ⟨a, c⟩ := p
    simp only [assocFind] at h
    by_cases hk : a = k
    · simp only [hk, if_true, Option.some.injEq] at h
      simp [hk, h]
    · simp only [hk, if_false] at h
      exact List.mem_cons_of_mem _ (ih h)

theorem cellKeys_push (c : CFGChartItem) (l : HieroHeadLabels) (n : Nat) (st : List ChartState) :
    (cellKeys (AddStatefulNode c l n st)).Perm (cellKeys c ++ [((l, st), n)]) := by
  unfold cellKeys AddStatefulNode
  simp only
  generalize c.nodes_ = ns
  induction ns with
  | nil => simp [assocPush]
  | cons p rest ih =>
    obtain ⟨a, b⟩ := p
    simp only [assocPush]
    by_cases hk : a = l
    · subst hk
      simp only [if_true, List.flatMap_cons, List.map_append, List.map_cons, List.map_nil,
        List.append_assoc]
      exact List.Perm.append_left _ List.perm_append_comm
    · simp only [hk, if_false, List.flatMap_cons, List.append_assoc]
      exact List.Perm.append_left _ ih

theorem cellKeys_finalize (t : LookupTableCFGLM) (m : ViterbiMemo) (c : CFGChartItem) :
    (cellKeys (FinalizeNodes t m c)).Perm (cellKeys c) := by
  unfold cellKeys FinalizeNodes
  simp only
  generalize c.nodes_ = ns
  induction ns with
  | nil => simp
  | cons p rest ih =>
    simp only [List.map_cons, List.flatMap_cons]
    refine List.Perm.append ?_ ih
    by_cases h : p.2.length > 1
    · simp only [h, if_true]
      exact List.Perm.map _ (t.std_sort.perm _ _)
    · simp only [h, if_false]; exact List.Perm.refl _

theorem cubeStep_ok {t : LookupTableCFGLM} {N i j : Nat} {coll : CFGCollection}
    {s s1 : PruneState} (h : cubeStep t N i j coll s = .ok s1) :
    ∃ top, pqTop s.hypo_queue = some top ∧
      ((top.2 ∈ s.finished_hyps ∧
          s1 = { s with hypo_queue := pqPop s.hypo_queue, num_popped := s.num_popped + 1 }) ∨
       (top.2 ∉ s.finished_hyps ∧ ∃ dr mg mq,
          buildEdge t N i j coll s.chart top.2 = .ok dr ∧
          recombine N i j s dr = .ok mg ∧
          enqueue t N mg dr top.1 top.2 s.viterbi (pqPop s.hypo_queue) = .ok mq ∧
          s1 = { hypo_queue := mq.2, finished_hyps := top.2 :: s.finished_hyps,
                 recomb_map := mg.recomb_map, chart := mg.chart, ret := mg.ret,
                 viterbi := mq.1, num_popped := s.num_popped + 1 })) := by
  unfold cubeStep at h
  split at h
  · exact absurd h (by simp)
  · rename_i top htop
    refine ⟨top, htop, ?_⟩
    split at h
    · rename_i hfin
      left
      exact ⟨hfin, by injection h with h; exact h.symm⟩
    · rename_i hfin
      right
      refine ⟨hfin, ?_⟩
      split at h
      · exact absurd h (by simp)
      · rename_i dr hdr
        split at h
        · exact absurd h (by simp)
        · rename_i mg hmg
          split at h
          · exact absurd h (by simp)
          · rename_i mq hmq
            exact ⟨dr, mg, mq, hdr, hmg, hmq, by injection h with h; exact h.symm⟩

theorem recombine_ok {N i j : Nat} {s : PruneState} {dr : EdgeDraft} {mg : Merged}
    (h : recombine N i j s dr = .ok mg) :
    (∃ node, assocFind s.recomb_map dr.ridx = some node ∧
        mg.ret = (s.ret.AddEdge (some node) dr.tails dr.features none dr.rule.trg_data).NodeAddEdge
                   node s.ret.edges.length ∧
        mg.chart = s.chart ∧ mg.recomb_map = s.recomb_map) ∨
    (assocFind s.recomb_map dr.ridx = none ∧ ∃ cell, s.chart[i * N + j]? = some cell ∧
        mg.ret = (s.ret.AddEdge (some s.ret.nodes.length) dr.tails dr.features none
                      dr.rule.trg_data).AddNode
                     (i, j + 1) (some dr.rule.src_data.label) [s.ret.edges.length] ∧
        mg.chart = s.chart.set (i * N + j)
                       (AddStatefulNode cell dr.rule.head_labels s.ret.nodes.length dr.acc.my_state) ∧
        mg.recomb_map = s.recomb_map ++ [(dr.ridx, s.ret.nodes.length)]) := by
  unfold recombine at h
  split at h
  · rename_i node hf
    left
    injection h with h
    subst h
    exact ⟨node, hf, rfl, rfl, rfl⟩
  · rename_i hf
    right
    split at h
    · exact absurd h (by simp)
    · rename_i cell hc
      injection h with h
      subst h
      exact ⟨hf, cell, hc, rfl, rfl, rfl⟩

theorem lmScores_length (trg : CfgDataVector) (states : List (List ChartState)) :
    ∀ (lms : List LMData) (k : Nat) (acc acc1 : LMAcc),
      lmScores trg states lms k acc = .ok acc1 →
      acc1.my_state.length = acc.my_state.length + lms.length := by
  intro lms
  induction lms with
  | nil =>
    intro k acc acc1 h
    simp only [lmScores, Except.ok.injEq] at h
    subst h; simp
  | cons data rest ih =>
    intro k acc acc1 h
    simp only [lmScores, bind, Except.bind] at h
    split at h
    · exact absurd h (by simp)
    · have := ih _ _ _ h
      simp only [List.length_append, List.length_singleton, List.length_cons, List.length_nil] at this ⊢
      omega

theorem mem_cellPtrs_of_bucket {c : CFGChartItem} {l : HieroHeadLabels} {b : List StatefulNode}
    {sn : StatefulNode} (hb : (l, b) ∈ c.nodes_) (hs : sn ∈ b) : sn.1 ∈ cellPtrs c := by
  unfold cellPtrs cellKeys
  simp only [List.mem_map, List.mem_flatMap]
  exact ⟨((l, sn.2), sn.1), ⟨(l, b), hb, sn, hs, rfl⟩, rfl⟩

theorem GetStatefulNode_mem {c : CFGChartItem} {l : HieroHeadLabels} {pos : Int}
    {sn : StatefulNode} (h : GetStatefulNode c l pos = .ok sn) : sn.1 ∈ cellPtrs c := by
  unfold GetStatefulNode at h
  split at h
  · exact absurd h (by simp)
  · rename_i bucket hb
    have h1 := must_ok h
    unfold atInt at h1
    split at h1
    · exact mem_cellPtrs_of_bucket (assocFind_some_mem _ _ _ hb) (List.getElem?_mem h1)
    · exact absurd h1 (by simp)

theorem gatherTails_mem (N : Nat) (chart : List CFGChartItem) (rule : TranslationRuleHiero)
    (id_str : List Int) :
    ∀ (path : List (Nat × Nat)) (pid : Nat) (r : List Nat × List (List ChartState)),
      gatherTails N chart rule id_str path pid = .ok r →
      ∀ x ∈ r.1, ∃ sp ∈ path, ∃ c, chart[sp.1 * N + sp.2]? = some c ∧ x ∈ cellPtrs c := by
  intro path
  induction path with
  | nil =>
    intro pid r h x hx
    simp only [gatherTails, Except.ok.injEq] at h
    subst h; simp at hx
  | cons sp rest ih =>
    intro pid r h x hx
    simp only [gatherTails, bind, Except.bind] at h
    split at h
    · exact absurd h (by simp)
    · rename_i cell hcell
      split at h
      · exact absurd h (by simp)
      · rename_i label hlabel
        split at h
        · exact absurd h (by simp)
        · rename_i pos hpos
          split at h
          · exact absurd h (by simp)
          · rename_i node hnode
            split at h
            · exact absurd h (by simp)
            · rename_i r1 hr1
              simp only [pure, Except.pure, Except.ok.injEq] at h
              subst h
              simp only [List.mem_cons] at hx
              rcases hx with hx | hx
              · subst hx
                exact ⟨sp, List.mem_cons_self _ _, cell, must_ok hcell, GetStatefulNode_mem hnode⟩
              · obtain ⟨sp1, hsp1, c, hc, hxc⟩ := ih _ _ hr1 x hx
                exact ⟨sp1, List.mem_cons_of_mem _ hsp1, c, hc, hxc⟩

theorem buildEdge_ok {t : LookupTableCFGLM} {N i j : Nat} {coll : CFGCollection}
    {chart : List CFGChartItem} {id_str : List Int} {dr : EdgeDraft}
    (h : buildEdge t N i j coll chart id_str = .ok dr) :
    dr.acc.my_state.length = t.lm_data_.length ∧
    resolveRule t i j coll id_str = .ok (dr.path, dr.rule) ∧
    ∃ states, gatherTails N chart dr.rule id_str dr.path 0 = .ok (dr.tails, states) ∧
      lmScores dr.rule.trg_data states t.lm_data_ 0 {} = .ok dr.acc := by
  unfold buildEdge at h
  split at h
  · exact absurd h (by simp)
  · rename_i pr hpr
    split at h
    · exact absurd h (by simp)
    · rename_i ts hts
      split at h
      · exact absurd h (by simp)
      · rename_i acc hacc
        injection h with h
        subst h
        refine ⟨?_, hpr, ts.2, hts, hacc⟩
        have := lmScores_length _ _ _ _ _ _ hacc
        simpa using this

theorem resolveRule_ok {t : LookupTableCFGLM} {i j : Nat} {coll : CFGCollection}
    {id_str : List Int} {path : List (Nat × Nat)} {rule : TranslationRuleHiero}
    (h : resolveRule t i j coll id_str = .ok (path, rule)) :
    ∃ first, id_str.head? = some first ∧
      ((0 ≤ first ∧ coll.spans_[first.toNat]? = some path ∧ coll.rules_[first.toNat]? = some rule) ∨
       (first < 0 ∧ path = [(i, j)] ∧ t.unary_rules_[(-1 - first).toNat]? = some rule)) := by
  unfold resolveRule at h
  split at h
  · exact absurd h (by simp)
  · rename_i first hfirst
    refine ⟨first, hfirst, ?_⟩
    split at h
    · rename_i hpos
      split at h
      · rename_i p r hp hr
        injection h with h
        injection h with h1 h2
        subst h1; subst h2
        exact Or.inl ⟨hpos, hp, hr⟩
      · exact absurd h (by simp)
    · rename_i hneg
      split at h
      · rename_i r hr
        injection h with h
        injection h with h1 h2
        subst h1; subst h2
        exact Or.inr ⟨by omega, rfl, hr⟩
      · exact absurd h (by simp)

theorem buildEdge_tails_old {t : LookupTableCFGLM} {N i j : Nat} {coll : CFGCollection}
    {chart0 : List CFGChartItem} {ret0 : HyperGraph} {s : PruneState} {id_str : List Int}
    {dr : EdgeDraft} (hs : PruneInv t N i j coll chart0 ret0 s)
    (h : buildEdge t N i j coll s.chart id_str = .ok dr)
    (ho : OldTails t N (i * N + j) ret0.nodes.length coll chart0) :
    ∀ x ∈ dr.tails, 1 ≤ x ∧ x < ret0.nodes.length := by
  intro x hx
  obtain ⟨_, hres, states, hg, _⟩ := buildEdge_ok h
  obtain ⟨hun, hsp, hold⟩ := ho
  obtain ⟨first, _, hcase⟩ := resolveRule_ok hres
  rcases hcase with ⟨_, hpath, _⟩ | ⟨_, _, hr⟩
  · obtain ⟨sp, hsp1, c, hc, hxc⟩ := gatherTails_mem N s.chart dr.rule id_str dr.path 0 _ hg x hx
    have hne : sp.1 * N + sp.2 ≠ i * N + j := hsp dr.path (List.getElem?_mem hpath) sp hsp1
    rw [hs.others _ hne] at hc
    exact hold _ c hc x hxc
  · rw [hun] at hr
    simp at hr

theorem PruneInv_step {t : LookupTableCFGLM} {N i j : Nat} {coll : CFGCollection}
    {chart0 : List CFGChartItem} {ret0 : HyperGraph} {s s1 : PruneState}
    (hs : PruneInv t N i j coll chart0 ret0 s) (h : cubeStep t N i j coll s = .ok s1) :
    PruneInv t N i j coll chart0 ret0 s1 := by
  obtain ⟨top, _, hcase⟩ := cubeStep_ok h
  rcases hcase with ⟨_, rfl⟩ | ⟨_, dr, mg, mq, hdr, hmg, _, rfl⟩
  · obtain ⟨new, hnew, hlen, hall⟩ := hs.edges
    exact { chart_len := hs.chart_len, others := hs.others, cell := hs.cell,
            keys_nodup := hs.keys_nodup, ptrs := hs.ptrs, states := hs.states,
            nodes_len := hs.nodes_len, nodes_old := hs.nodes_old,
            edges := ⟨new, hnew, Nat.le_succ_of_le hlen, hall⟩, words := hs.words }
  · obtain ⟨new, hnew, hlen, hall⟩ := hs.edges
    have htl := buildEdge_tails_old hs hdr
    have hst := (buildEdge_ok hdr).1
    rcases recombine_ok hmg with ⟨node, hfind, hret, hchart, hrec⟩ | ⟨hfind, cell, hcell, hret, hchart, hrec⟩
    · have hnode := hs.ptrs _ (assocFind_some_mem _ _ _ hfind)
      have hlen1 : mg.ret.nodes.length = s.ret.nodes.length := by
        rw [hret]; simp [HyperGraph.NodeAddEdge, HyperGraph.AddEdge]
      refine { chart_len := ?_, others := ?_, cell := ?_, keys_nodup := ?_, ptrs := ?_,
               states := ?_, nodes_len := ?_, nodes_old := ?_, edges := ?_, words := ?_ }
      · simp only [hchart]; exact hs.chart_len
      · simp only [hchart]; exact hs.others
      · simp only [hchart, hrec]; exact hs.cell
      · simp only [hrec]; exact hs.keys_nodup
      · simp only [hrec, hlen1]; exact hs.ptrs
      · simp only [hrec]; exact hs.states
      · simp only [hrec, hlen1]; exact hs.nodes_len
      · simp only [hret, HyperGraph.NodeAddEdge, HyperGraph.AddEdge, List.take_modify]
        rw [List.modify_eq_self]
        · exact hs.nodes_old
        · simp only [List.length_take]; exact le_trans (Nat.min_le_left _ _) hnode.1
      · refine ⟨new ++ [⟨s.ret.edges.length, some node, dr.tails, dr.features, none, dr.rule.trg_data⟩],
          ?_, ?_, ?_⟩
        · simp only [hret, HyperGraph.NodeAddEdge, HyperGraph.AddEdge, hnew, List.append_assoc]
        · simp only [List.length_append, List.length_singleton]; omega
        · intro e he
          simp only [hlen1]
          rcases List.mem_append.mp he with he | he
          · exact hall e he
          · simp only [List.mem_singleton] at he
            subst he
            exact ⟨rfl, ⟨node, rfl, hnode.1, hnode.2⟩, htl⟩
      · simp only [hret, HyperGraph.NodeAddEdge, HyperGraph.AddEdge]; exact hs.words
    · have hlen1 : mg.ret.nodes.length = s.ret.nodes.length + 1 := by
        rw [hret]; simp [HyperGraph.AddNode, HyperGraph.AddEdge]
      have hidlt : i * N + j < s.chart.length := by
        rcases Nat.lt_or_ge (i * N + j) s.chart.length with h1 | h1
        · exact h1
        · rw [List.getElem?_eq_none h1] at hcell; exact absurd hcell (by simp)
      refine { chart_len := ?_, others := ?_, cell := ?_, keys_nodup := ?_, ptrs := ?_,
               states := ?_, nodes_len := ?_, nodes_old := ?_, edges := ?_, words := ?_ }
      · simp only [hchart, List.length_set]; exact hs.chart_len
      · intro k hk
        simp only [hchart]
        rw [List.getElem?_set_ne (Ne.symm hk)]
        exact hs.others k hk
      · obtain ⟨c0, c, hc0, hc, hpop, hperm⟩ := hs.cell
        rw [hcell] at hc
        injection hc with hc
        subst hc
        refine ⟨c0, AddStatefulNode cell dr.rule.head_labels s.ret.nodes.length dr.acc.my_state,
          hc0, ?_, ?_, ?_⟩
        · simp only [hchart]
          rw [List.getElem?_set, if_pos rfl, if_pos hidlt]
        · exact hpop
        · simp only [hrec]
          refine (cellKeys_push _ _ _ _).trans ?_
          rw [← List.append_assoc]
          exact List.Perm.append_right _ hperm
      · simp only [hrec, List.map_append, List.map_cons, List.map_nil]
        rw [List.nodup_append]
        refine ⟨hs.keys_nodup, List.nodup_singleton _, ?_⟩
        intro a ha hb
        simp only [List.mem_singleton] at hb
        subst hb
        exact assocFind_none_not_mem _ _ hfind ha
      · intro p hp
        dsimp only at hp ⊢
        rw [hrec] at hp
        rw [hlen1]
        rcases List.mem_append.mp hp with hp | hp
        · have := hs.ptrs p hp; omega
        · simp only [List.mem_singleton] at hp
          subst hp
          have := hs.nodes_len
          dsimp only; omega
      · intro p hp
        simp only [hrec] at hp
        rcases List.mem_append.mp hp with hp | hp
        · exact hs.states p hp
        · simp only [List.mem_singleton] at hp
          subst hp
          exact hst
      · simp only [hrec, hlen1, List.length_append, List.length_singleton]
        have := hs.nodes_len; omega
      · simp only [hret, HyperGraph.AddNode, HyperGraph.AddEdge]
        rw [List.take_append_of_le_length]
        · exact hs.nodes_old
        · have := hs.nodes_len; omega
      · refine ⟨new ++ [⟨s.ret.edges.length, some s.ret.nodes.length, dr.tails, dr.features, none,
            dr.rule.trg_data⟩], ?_, ?_, ?_⟩
        · simp only [hret, HyperGraph.AddNode, HyperGraph.AddEdge, hnew, List.append_assoc]
        · simp only [List.length_append, List.length_singleton]; omega
        · intro e he
          dsimp only
          rw [hlen1]
          rcases List.mem_append.mp he with he | he
          · obtain ⟨h1, ⟨hh, h2, h3, h4⟩, h5⟩ := hall e he
            exact ⟨h1, ⟨hh, h2, h3, by omega⟩, h5⟩
          · simp only [List.mem_singleton] at he
            subst he
            refine ⟨rfl, ⟨s.ret.nodes.length, rfl, ?_, by omega⟩, htl⟩
            have := hs.nodes_len; omega
      · simp only [hret, HyperGraph.AddNode, HyperGraph.AddEdge]; exact hs.words

theorem must_err {α : Type} {o : Option α} {e : Err} (h : must o = .error e) :
    e = Err.assertion := by
  cases o with
  | none => simp only [must, Except.error.injEq] at h; exact h.symm
  | some a => simp [must] at h

theorem GetStatefulNode_err {c : CFGChartItem} {l : HieroHeadLabels} {pos : Int} {e : Err}
    (h : GetStatefulNode c l pos = .error e) : e = Err.assertion := by
  unfold GetStatefulNode at h
  split at h
  · injection h with h; exact h.symm
  · exact must_err h

theorem GetHypScore_err {t : LookupTableCFGLM} {g : HyperGraph} {m : ViterbiMemo}
    {c : CFGChartItem} {l : HieroHeadLabels} {pos : Int} {e : Err}
    (h : GetHypScore t g m c l pos = .error e) : e = Err.assertion := by
  unfold GetHypScore at h
  split at h
  · injection h with h; exact h.symm
  · split at h
    · injection h with h; exact h.symm
    · split at h <;> exact absurd h (by simp)

theorem GetHypScoreDiff_err {t : LookupTableCFGLM} {g : HyperGraph} {m : ViterbiMemo}
    {c : CFGChartItem} {l : HieroHeadLabels} {pos : Int} {e : Err}
    (h : GetHypScoreDiff t g m c l pos = .error e) : e = Err.assertion := by
  simp only [GetHypScoreDiff, bind, Except.bind] at h
  split at h
  · rename_i e1 h1
    injection h with h; subst h
    exact GetHypScore_err h1
  · split at h
    · rename_i e1 h1
      injection h with h; subst h
      exact GetHypScore_err h1
    · exact absurd h (by simp [pure, Except.pure])

theorem gatherTails_err (N : Nat) (chart : List CFGChartItem) (rule : TranslationRuleHiero)
    (id_str : List Int) :
    ∀ (path : List (Nat × Nat)) (pid : Nat) (e : Err),
      gatherTails N chart rule id_str path pid = .error e → e = Err.assertion := by
  intro path
  induction path with
  | nil => intro pid e h; simp [gatherTails] at h
  | cons sp rest ih =>
    intro pid e h
    simp only [gatherTails, bind, Except.bind] at h
    split at h
    · injection h with h; subst h; exact must_err (by assumption)
    · split at h
      · injection h with h; subst h; exact must_err (by assumption)
      · split at h
        · injection h with h; subst h; exact must_err (by assumption)
        · split at h
          · injection h with h; subst h; exact GetStatefulNode_err (by assumption)
          · split at h
            · injection h with h; subst h; exact ih _ _ (by assumption)
            · exact absurd h (by simp [pure, Except.pure])

theorem lmScores_err (trg : CfgDataVector) (states : List (List ChartState)) :
    ∀ (lms : List LMData) (k : Nat) (acc : LMAcc) (e : Err),
      lmScores trg states lms k acc = .error e → e = Err.assertion := by
  intro lms
  induction lms with
  | nil => intro k acc e h; simp [lmScores] at h
  | cons data rest ih =>
    intro k acc e h
    simp only [lmScores, bind, Except.bind] at h
    split at h
    · injection h with h; subst h; exact must_err (by assumption)
    · exact ih _ _ _ h

theorem advance_err (t : LookupTableCFGLM) (N : Nat) (chart : List CFGChartItem) (g : HyperGraph)
    (rule : TranslationRuleHiero) (top_score : Real) (id_str : List Int) :
    ∀ (path : List (Nat × Nat)) (k : Nat) (m : ViterbiMemo) (q : List (Real × List Int)) (e : Err),
      advance t N chart g rule top_score id_str path k m q = .error e → e = Err.assertion := by
  intro path
  induction path with
  | nil => intro k m q e h; simp [advance] at h
  | cons sp rest ih =>
    intro k m q e h
    simp only [advance, bind, Except.bind] at h
    split at h
    · injection h with h; subst h; exact must_err (by assumption)
    · split at h
      · injection h with h; subst h; exact must_err (by assumption)
      · split at h
        · injection h with h; subst h; exact must_err (by assumption)
        · split at h
          · injection h with h; subst h; exact GetHypScoreDiff_err (by assumption)
          · split at h
            · exact ih _ _ _ _ h
            · exact ih _ _ _ _ h

theorem unaryExpand_err (t : LookupTableCFGLM) (top_score : Real) :
    ∀ (ids : List Nat) (q : List (Real × List Int)) (e : Err),
      unaryExpand t top_score ids q = .error e → e = Err.assertion := by
  intro ids
  induction ids with
  | nil => intro q e h; simp [unaryExpand] at h
  | cons u rest ih =>
    intro q e h
    simp only [unaryExpand, bind, Except.bind] at h
    split at h
    · injection h with h; subst h; exact must_err (by assumption)
    · exact ih _ _ h

theorem resolveRule_err {t : LookupTableCFGLM} {i j : Nat} {coll : CFGCollection}
    {id_str : List Int} {e : Err} (h : resolveRule t i j coll id_str = .error e) :
    e = Err.assertion := by
  unfold resolveRule at h
  split at h
  · injection h with h; exact h.symm
  · split at h
    · split at h
      · exact absurd h (by simp)
      · injection h with h; exact h.symm
    · split at h
      · exact absurd h (by simp)
      · injection h with h; exact h.symm

theorem buildEdge_err {t : LookupTableCFGLM} {N i j : Nat} {coll : CFGCollection}
    {chart : List CFGChartItem} {id_str : List Int} {e : Err}
    (h : buildEdge t N i j coll chart id_str = .error e) : e = Err.assertion := by
  unfold buildEdge at h
  split at h
  · injection h with h; subst h; exact resolveRule_err (by assumption)
  · split at h
    · injection h with h; subst h; exact gatherTails_err _ _ _ _ _ _ _ (by assumption)
    · split at h
      · injection h with h; subst h; exact lmScores_err _ _ _ _ _ _ (by assumption)
      · exact absurd h (by simp)

theorem recombine_err {N i j : Nat} {s : PruneState} {dr : EdgeDraft} {e : Err}
    (h : recombine N i j s dr = .error e) : e = Err.assertion := by
  unfold recombine at h
  split at h
  · exact absurd h (by simp)
  · split at h
    · injection h with h; exact h.symm
    · exact absurd h (by simp)

theorem enqueue_err {t : LookupTableCFGLM} {N : Nat} {mg : Merged} {dr : EdgeDraft}
    {top_score : Real} {id_str : List Int} {m : ViterbiMemo} {queue : List (Real × List Int)}
    {e : Err} (h : enqueue t N mg dr top_score id_str m queue = .error e) :
    e = Err.assertion := by
  unfold enqueue at h
  split at h
  · injection h with h; subst h; exact advance_err _ _ _ _ _ _ _ _ _ _ _ _ (by assumption)
  · split at h
    · split at h
      · injection h with h; subst h; exact unaryExpand_err _ _ _ _ _ (by assumption)
      · exact absurd h (by simp)
    · exact absurd h (by simp)

theorem cubeStep_err {t : LookupTableCFGLM} {N i j : Nat} {coll : CFGCollection}
    {s : PruneState} {e : Err} (h : cubeStep t N i j coll s = .error e) :
    e = Err.assertion := by
  unfold cubeStep at h
  split at h
  · injection h with h; exact h.symm
  · split at h
    · exact absurd h (by simp)
    · split at h
      · injection h with h; subst h; exact buildEdge_err (by assumption)
      · split at h
        · injection h with h; subst h; exact recombine_err (by assumption)
        · split at h
          · injection h with h; subst h; exact enqueue_err (by assumption)
          · exact absurd h (by simp)

theorem cubeInit_ok {t : LookupTableCFGLM} {N i j : Nat} {collection : List CFGCollection}
    {chart : List CFGChartItem} {ret : HyperGraph} {m : ViterbiMemo} {coll : CFGCollection}
    {s0 : PruneState} (h : cubeInit t N i j collection chart ret m = .ok (coll, s0)) :
    (∃ cell, chart[i * N + j]? = some cell ∧ cell.populated_ = false) ∧
    collection[i * N + j]? = some coll ∧ coll.rules_.length = coll.spans_.length ∧
    s0.chart = chart ∧ s0.ret = ret ∧ s0.recomb_map = [] ∧ s0.num_popped = 0 ∧
    s0.finished_hyps = [] ∧
    scoreRules t N chart ret coll coll.rules_ 0 m [] = .ok (s0.viterbi, s0.hypo_queue) := by
  simp only [cubeInit, bind, Except.bind] at h
  split at h
  · exact absurd h (by simp)
  · rename_i cell hcell
    split at h
    · exact absurd h (by simp)
    · rename_i hpop
      split at h
      · exact absurd h (by simp)
      · rename_i coll1 hcoll
        split at h
        · exact absurd h (by simp)
        · rename_i hlen
          split at h
          · exact absurd h (by simp)
          · rename_i mq hmq
            simp only [pure, Except.pure, Except.ok.injEq, Prod.mk.injEq] at h
            obtain ⟨h1, h2⟩ := h
            subst h1; subst h2
            refine ⟨⟨cell, must_ok hcell, by simpa using hpop⟩, must_ok hcoll, by simpa using hlen,
              rfl, rfl, rfl, rfl, rfl, hmq⟩

theorem PruneInv_init {t : LookupTableCFGLM} {N i j : Nat} {collection : List CFGCollection}
    {chart : List CFGChartItem} {ret : HyperGraph} {m : ViterbiMemo} {coll : CFGCollection}
    {s0 : PruneState} (h : cubeInit t N i j collection chart ret m = .ok (coll, s0)) :
    PruneInv t N i j coll chart ret s0 := by
  obtain ⟨⟨cell, hcell, _⟩, _, _, hchart, hret, hrec, hnum, _, _⟩ := cubeInit_ok h
  refine { chart_len := by rw [hchart], others := fun k _ => by rw [hchart], cell := ?_,
           keys_nodup := by rw [hrec]; exact List.nodup_nil, ptrs := ?_, states := ?_,
           nodes_len := by rw [hret, hrec]; rfl, nodes_old := by rw [hret]; exact List.take_length _,
           edges := ⟨[], by rw [hret]; simp, by simp, by simp⟩, words := by rw [hret] }
  · exact ⟨cell, cell, hcell, by rw [hchart]; exact hcell, rfl, by rw [hrec]; simp⟩
  · rw [hrec]; simp
  · rw [hrec]; simp

theorem cubeLoop_inv {t : LookupTableCFGLM} {N i j : Nat} {coll : CFGCollection}
    (P : PruneState → Prop)
    (hstep : ∀ s s1, P s → loopCond t s = true → cubeStep t N i j coll s = .ok s1 → P s1) :
    ∀ (fuel : Nat) (s sf : PruneState), P s → cubeLoop t N i j coll fuel s = .ok sf →
      P sf ∧ loopCond t sf = false := by
  intro fuel
  induction fuel with
  | zero =>
    intro s sf hP h
    simp only [cubeLoop] at h
    split at h
    · exact absurd h (by simp)
    · rename_i hc
      injection h with h
      subst h
      exact ⟨hP, by simpa using hc⟩
  | succ n ih =>
    intro s sf hP h
    simp only [cubeLoop] at h
    split at h
    · rename_i hc
      split at h
      · rename_i s1 hs1
        exact ih s1 sf (hstep s s1 hP hc hs1) h
      · exact absurd h (by simp)
    · rename_i hc
      injection h with h
      subst h
      exact ⟨hP, by simpa using hc⟩

theorem cubeStep_counts {t : LookupTableCFGLM} {N i j : Nat} {coll : CFGCollection}
    {s s1 : PruneState} (h : cubeStep t N i j coll s = .ok s1) :
    s1.num_popped = s.num_popped + 1 ∧ s1.ret.edges.length ≤ s.ret.edges.length + 1 ∧
    s1.recomb_map.length ≤ s.recomb_map.length + 1 := by
  obtain ⟨top, _, hcase⟩ := cubeStep_ok h
  rcases hcase with ⟨_, rfl⟩ | ⟨_, dr, mg, mq, _, hmg, _, rfl⟩
  · exact ⟨rfl, Nat.le_succ _, Nat.le_succ _⟩
  · refine ⟨rfl, ?_, ?_⟩
    · rcases recombine_ok hmg with ⟨node, _, hret, _, _⟩ | ⟨_, cell, _, hret, _, _⟩
      · dsimp only; rw [hret]; simp [HyperGraph.NodeAddEdge, HyperGraph.AddEdge]
      · dsimp only; rw [hret]; simp [HyperGraph.AddNode, HyperGraph.AddEdge]
    · rcases recombine_ok hmg with ⟨node, _, _, _, hrec⟩ | ⟨_, cell, _, _, _, hrec⟩
      · dsimp only; rw [hrec]; exact Nat.le_succ _
      · dsimp only; rw [hrec]; simp

theorem cubeLoop_fuel_enough {t : LookupTableCFGLM} {N i j : Nat} {coll : CFGCollection}
    (hp : 0 ≤ t.pop_limit_) :
    ∀ (fuel : Nat) (s : PruneState), t.pop_limit_ ≤ (s.num_popped : Int) + fuel →
      cubeLoop t N i j coll fuel s ≠ .error Err.fuel := by
  intro fuel
  induction fuel with
  | zero =>
    intro s hf h
    simp only [cubeLoop] at h
    split at h
    · rename_i hc
      simp only [loopCond, Bool.and_eq_true, Bool.or_eq_true, decide_eq_true_eq] at hc
      obtain ⟨⟨_, h2⟩, _⟩ := hc
      rcases h2 with h2 | h2
      · omega
      · simp only [Nat.cast_zero, add_zero] at hf; omega
    · exact absurd h (by simp)
  | succ n ih =>
    intro s hf h
    simp only [cubeLoop] at h
    split at h
    · rename_i hc
      split at h
      · rename_i s1 hs1
        refine ih s1 ?_ h
        rw [(cubeStep_counts hs1).1]
        push_cast at hf ⊢
        omega
      · rename_i e he
        injection h with h
        subst h
        exact absurd (cubeStep_err he) (by simp)
    · exact absurd h (by simp)

theorem cubeStep_edges {t : LookupTableCFGLM} {N i j : Nat} {coll : CFGCollection}
    {s s1 : PruneState} (h : cubeStep t N i j coll s = .ok s1) :
    s1.ret.edges = s.ret.edges ∨ ∃ e, s1.ret.edges = s.ret.edges ++ [e] := by
  obtain ⟨top, _, hcase⟩ := cubeStep_ok h
  rcases hcase with ⟨_, rfl⟩ | ⟨_, dr, mg, mq, _, hmg, _, rfl⟩
  · exact Or.inl rfl
  · right
    rcases recombine_ok hmg with ⟨node, _, hret, _, _⟩ | ⟨_, cell, _, hret, _, _⟩
    · exact ⟨_, by dsimp only; rw [hret]; rfl⟩
    · exact ⟨_, by dsimp only; rw [hret]; rfl⟩

theorem CubePrune_ok {t : LookupTableCFGLM} {fuel N i j : Nat} {d d1 : Decode}
    (h : CubePrune t fuel N i j d = .ok d1) :
    ∃ coll s0 s cell,
      cubeInit t N i j d.collections d.chart d.ret d.viterbi = .ok (coll, s0) ∧
      cubeLoop t N i j coll fuel s0 = .ok s ∧ s.chart[i * N + j]? = some cell ∧
      d1 = { chart := s.chart.set (i * N + j) (FinalizeNodes t s.viterbi cell),
             collections := d.collections, ret := s.ret, viterbi := s.viterbi } := by
  simp only [CubePrune, bind, Except.bind] at h
  split at h
  · exact absurd h (by simp)
  · rename_i cs hcs
    obtain ⟨coll, s0⟩ := cs
    split at h
    · exact absurd h (by simp)
    · rename_i s hs
      split at h
      · exact absurd h (by simp)
      · rename_i chart hchart
        simp only [cubeFinish, bind, Except.bind] at hchart
        split at hchart
        · exact absurd hchart (by simp)
        · rename_i cell hcell
          simp only [pure, Except.pure, Except.ok.injEq] at hchart h
          subst hchart
          exact ⟨coll, s0, s, cell, hcs, hs, must_ok hcell, h.symm⟩


theorem cellKeys_length (c : CFGChartItem) : (cellKeys c).length = cellCount c := by
  unfold cellKeys cellCount
  generalize c.nodes_ = ns
  induction ns with
  | nil => rfl
  | cons p rest ih => simp [List.flatMap_cons, ih]

/-- What a completed `CubePrune` has done, in terms of the state in which its loop ended. -/
theorem CubePrune_final {t : LookupTableCFGLM} {fuel N i j : Nat} {d d1 : Decode}
    (h : CubePrune t fuel N i j d = .ok d1) :
    ∃ coll s0 s cell0 cellF,
      cubeInit t N i j d.collections d.chart d.ret d.viterbi = .ok (coll, s0) ∧
      cubeLoop t N i j coll fuel s0 = .ok s ∧
      PruneInv t N i j coll d.chart d.ret s ∧ loopCond t s = false ∧
      d.chart[i * N + j]? = some cell0 ∧ cell0.populated_ = false ∧
      d1.chart[i * N + j]? = some cellF ∧ cellF.populated_ = true ∧
      (cellKeys cellF).Perm (cellKeys cell0 ++ s.recomb_map) ∧
      (∀ k, k ≠ i * N + j → d1.chart[k]? = d.chart[k]?) ∧
      d1.chart.length = d.chart.length ∧ d1.ret = s.ret ∧ d1.collections = d.collections := by
  obtain ⟨coll, s0, s, cell, hinit, hloop, hcell, rfl⟩ := CubePrune_ok h
  obtain ⟨hinv, hcond⟩ := cubeLoop_inv (PruneInv t N i j coll d.chart d.ret)
    (fun s s1 hs _ h1 => PruneInv_step hs h1) fuel s0 s (PruneInv_init hinit) hloop
  obtain ⟨c0, c, hc0, hc, hpop, hperm⟩ := hinv.cell
  rw [hcell] at hc
  injection hc with hc
  subst hc
  obtain ⟨⟨c0', hc0', hpop0⟩, _⟩ := cubeInit_ok hinit
  rw [hc0] at hc0'
  injection hc0' with hc0'
  subst hc0'
  have hidlt : i * N + j < s.chart.length := by
    rcases Nat.lt_or_ge (i * N + j) s.chart.length with h1 | h1
    · exact h1
    · rw [List.getElem?_eq_none h1] at hcell; exact absurd hcell (by simp)
  refine ⟨coll, s0, s, c0, FinalizeNodes t s.viterbi cell, hinit, hloop, hinv, hcond, hc0, hpop0,
    ?_, rfl, ?_, ?_, ?_, rfl, rfl⟩
  · dsimp only
    rw [List.getElem?_set, if_pos rfl, if_pos hidlt]
  · exact (cellKeys_finalize t s.viterbi cell).trans hperm
  · intro k hk
    dsimp only
    rw [List.getElem?_set_ne (Ne.symm hk)]
    exact hinv.others k hk
  · dsimp only
    rw [List.length_set]
    exact hinv.chart_len

theorem cubeLoop_stop {t : LookupTableCFGLM} {N i j : Nat} {coll : CFGCollection}
    {fuel : Nat} {s : PruneState} (hc : loopCond t s = false) :
    cubeLoop t N i j coll fuel s = .ok s := by
  cases fuel <;> simp [cubeLoop, hc]

theorem cubeLoop_turn {t : LookupTableCFGLM} {N i j : Nat} {coll : CFGCollection}
    {fuel : Nat} {s sf : PruneState} (hc : loopCond t s = true)
    (h : cubeLoop t N i j coll fuel s = .ok sf) :
    ∃ n s1, fuel = n + 1 ∧ cubeStep t N i j coll s = .ok s1 ∧
      cubeLoop t N i j coll n s1 = .ok sf := by
  cases fuel with
  | zero => simp [cubeLoop, hc] at h
  | succ n =>
    simp only [cubeLoop, hc, if_true] at h
    split at h
    · rename_i s1 hs1
      exact ⟨n, s1, rfl, hs1, h⟩
    · exact absurd h (by simp)

theorem forEachE_inv {α σ : Type} {f : α → σ → Except Err σ} (P : σ → Prop) :
    ∀ (l : List α) (s sf : σ), (∀ x ∈ l, ∀ a b, P a → f x a = .ok b → P b) → P s →
      forEachE f l s = .ok sf → P sf := by
  intro l
  induction l with
  | nil =>
    intro s sf _ hP h
    simp only [forEachE, Except.ok.injEq] at h
    subst h; exact hP
  | cons x rest ih =>
    intro s sf hf hP h
    simp only [forEachE] at h
    split at h
    · rename_i s1 hs1
      exact ih s1 sf (fun y hy => hf y (List.mem_cons_of_mem _ hy))
        (hf x (List.mem_cons_self _ _) s s1 hP hs1) h
    · exact absurd h (by simp)

theorem mem_spanOrder {N : Nat} {sp : Nat × Nat} (h : sp ∈ spanOrder N) :
    sp.1 ≤ sp.2 ∧ sp.2 < N := by
  simp only [spanOrder, List.mem_flatMap, List.mem_reverse, List.mem_range, List.mem_map,
    List.mem_range'_1] at h
  obtain ⟨i, hi, j, ⟨h1, h2⟩, rfl⟩ := h
  exact ⟨h1, by omega⟩

theorem assocPush_nonempty {κ β : Type} [DecidableEq κ] (ns : List (κ × List β)) (k : κ) (v : β)
    (h : ∀ lb ∈ ns, lb.2 ≠ []) : ∀ lb ∈ assocPush ns k v, lb.2 ≠ [] := by
  induction ns with
  | nil =>
    intro lb hlb
    simp only [assocPush, List.mem_singleton] at hlb
    subst hlb; simp
  | cons p rest ih =>
    obtain ⟨a, b⟩ := p
    intro lb hlb
    simp only [assocPush] at hlb
    split at hlb
    · rcases List.mem_cons.mp hlb with hlb | hlb
      · subst hlb; simp
      · exact h lb (List.mem_cons_of_mem _ hlb)
    · rcases List.mem_cons.mp hlb with hlb | hlb
      · subst hlb; exact h _ (List.mem_cons_self _ _)
      · exact ih (fun x hx => h x (List.mem_cons_of_mem _ hx)) lb hlb

theorem FinalizeNodes_nonempty (t : LookupTableCFGLM) (m : ViterbiMemo) (c : CFGChartItem)
    (h : ∀ lb ∈ c.nodes_, lb.2 ≠ []) : ∀ lb ∈ (FinalizeNodes t m c).nodes_, lb.2 ≠ [] := by
  intro lb hlb
  simp only [FinalizeNodes, List.mem_map] at hlb
  obtain ⟨lb0, hlb0, rfl⟩ := hlb
  split
  · rename_i hlen
    intro he
    have := (t.std_sort.perm (fun x => GetViterbiScore t m x.1) lb0.2).length_eq
    dsimp only at he
    rw [he] at this
    simp only [List.length_nil] at this
    omega
  · exact h lb0 hlb0

theorem cubeStep_buckets {t : LookupTableCFGLM} {N i j : Nat} {coll : CFGCollection}
    {s s1 : PruneState} (hs : ∀ c ∈ s.chart, ∀ lb ∈ c.nodes_, lb.2 ≠ [])
    (h : cubeStep t N i j coll s = .ok s1) : ∀ c ∈ s1.chart, ∀ lb ∈ c.nodes_, lb.2 ≠ [] := by
  obtain ⟨top, _, hcase⟩ := cubeStep_ok h
  rcases hcase with ⟨_, rfl⟩ | ⟨_, dr, mg, mq, _, hmg, _, rfl⟩
  · exact hs
  · rcases recombine_ok hmg with ⟨node, _, _, hchart, _⟩ | ⟨_, cell, hcell, _, hchart, _⟩
    · dsimp only; rw [hchart]; exact hs
    · dsimp only; rw [hchart]
      intro c hc
      rcases List.mem_or_eq_of_mem_set hc with hc | hc
      · exact hs c hc
      · subst hc
        exact assocPush_nonempty _ _ _ (hs cell (List.getElem?_mem hcell))

theorem CubePrune_decode {t : LookupTableCFGLM} {sent : Sentence} {fuel N i j : Nat}
    {d d1 : Decode} (hd : DecodeInv t sent d) (h : CubePrune t fuel N i j d = .ok d1) :
    DecodeInv t sent d1 := by
  obtain ⟨coll, s0, s, cell, hinit, hloop, hcell, hd1⟩ := CubePrune_ok h
  obtain ⟨_, _, _, hchart0, _⟩ := cubeInit_ok hinit
  obtain ⟨hbk, _⟩ := @cubeLoop_inv t N i j coll
    (fun s => ∀ c ∈ s.chart, ∀ lb ∈ c.nodes_, lb.2 ≠ [])
    (fun s s1 hs _ h1 => cubeStep_buckets hs h1) fuel s0 s
    (by show ∀ c ∈ s0.chart, ∀ lb ∈ c.nodes_, lb.2 ≠ []; rw [hchart0]; exact hd.buckets) hloop
  obtain ⟨_, _, s', c0, cellF, hinit', hloop', hinv, _, hc0, _, hF, _, hperm, hoth, hlen, hret, _⟩ :=
    CubePrune_final h
  have hn0 : 1 ≤ d.ret.nodes.length := by
    have := congrArg List.length hd.root
    simp only [List.length_take, List.length_singleton] at this
    omega
  have hgrow : d.ret.nodes.length ≤ d1.ret.nodes.length := by
    rw [hret, hinv.nodes_len]; omega
  have hcells : ∀ c ∈ d1.chart, c ∈ d.chart ∨
      (cellKeys c).Perm (cellKeys c0 ++ s'.recomb_map) := by
    intro c hc
    obtain ⟨k, hk⟩ := List.mem_iff_getElem?.mp hc
    by_cases hki : k = i * N + j
    · subst hki
      rw [hF] at hk
      injection hk with hk
      subst hk
      exact Or.inr hperm
    · rw [hoth k hki] at hk
      exact Or.inl (List.getElem?_mem hk)
  refine { chart_len := by rw [hlen]; exact hd.chart_len, root := ?_, words := ?_, states := ?_,
           ptrs := ?_, buckets := ?_, edges := ?_ }
  · rw [hret]
    have h1 := hinv.nodes_old
    have h2 : List.take 1 (List.take d.ret.nodes.length s'.ret.nodes) = List.take 1 s'.ret.nodes := by
      rw [List.take_take, Nat.min_eq_left hn0]
    rw [← h2, h1]
    exact hd.root
  · rw [hret, hinv.words]; exact hd.words
  · intro c hc k hk
    rcases hcells c hc with hc | hc
    · exact hd.states c hc k hk
    · rcases List.mem_append.mp (hc.subset hk) with hk | hk
      · exact hd.states c0 (List.getElem?_mem hc0) k hk
      · exact hinv.states k hk
  · intro c hc p hp
    rcases hcells c hc with hc | hc
    · have := hd.ptrs c hc p hp; omega
    · simp only [cellPtrs, List.mem_map] at hp
      obtain ⟨k, hk, rfl⟩ := hp
      rcases List.mem_append.mp (hc.subset hk) with hk | hk
      · have := hd.ptrs c0 (List.getElem?_mem hc0) k.2
          (by simp only [cellPtrs, List.mem_map]; exact ⟨k, hk, rfl⟩)
        omega
      · have := hinv.ptrs k hk
        rw [hret]; omega
  · rw [hd1]
    dsimp only
    intro c hc
    rcases List.mem_or_eq_of_mem_set hc with hc | hc
    · exact hbk c hc
    · subst hc
      exact FinalizeNodes_nonempty _ _ _ (hbk cell (List.getElem?_mem hcell))
  · obtain ⟨new, hnew, _, hall⟩ := hinv.edges
    intro e he
    rw [hret, hnew] at he
    rcases List.mem_append.mp he with he | he
    · obtain ⟨h1, hh, h2, h3, h4⟩ := hd.edges e he
      exact ⟨h1, hh, h2, h3, by omega⟩
    · obtain ⟨h1, ⟨hh, h2, h3, h4⟩, _⟩ := hall e he
      exact ⟨h1, hh, h2, by omega, by rw [hret]; exact h4⟩

theorem spanStep_decode {t : LookupTableCFGLM} {sent : Sentence} {fuel N i j : Nat}
    {d d1 : Decode} (hd : DecodeInv t sent d) (h : spanStep t fuel sent N i j d = .ok d1) :
    DecodeInv t sent d1 := by
  simp only [spanStep] at h
  split at h
  · exact absurd h (by simp)
  · rename_i cs _
    refine CubePrune_decode (d := { d with collections := cs }) ?_ h
    exact { chart_len := hd.chart_len, root := hd.root, words := hd.words, states := hd.states,
            ptrs := hd.ptrs, buckets := hd.buckets, edges := hd.edges }

theorem mainLoops_decode {t : LookupTableCFGLM} {fuel : Nat} {sent : Sentence} {d : Decode}
    (h : mainLoops t fuel sent = .ok d) : DecodeInv t sent d := by
  simp only [mainLoops] at h
  refine forEachE_inv (DecodeInv t sent) _ _ _ (fun sp _ a b ha hb => spanStep_decode ha hb) ?_ h
  refine { chart_len := by simp, root := ?_, words := rfl, states := ?_, ptrs := ?_,
           buckets := ?_, edges := ?_ }
  · simp [HyperGraph.AddNode, rootNode]
  · intro c hc k hk
    rw [List.eq_of_mem_replicate hc] at hk
    simp [cellKeys] at hk
  · intro c hc p hp
    rw [List.eq_of_mem_replicate hc] at hp
    simp [cellPtrs, cellKeys] at hp
  · intro c hc lb hlb
    rw [List.eq_of_mem_replicate hc] at hlb
    simp at hlb
  · intro e he
    simp [HyperGraph.AddNode] at he

theorem finalScores_closed (state : List ChartState) :
    ∀ (lms : List LMData) (k : Nat) (acc : FinalAcc) (rest : List ChartState),
      state.drop k = rest → lms.length ≤ rest.length →
      finalScores state lms k acc = .ok
        { total_score := acc.total_score +
            ((lms.zip rest).map (fun p => p.1.CalcFinalScore p.2 * p.1.weight)).sum,
          features := acc.features ++ (lms.zip rest).filterMap (fun p =>
            if p.1.CalcFinalScore p.2 ≠ 0 then some (p.1.feature_name, p.1.CalcFinalScore p.2)
            else none) } := by
  intro lms
  induction lms with
  | nil => intro k acc rest _ _; simp [finalScores]
  | cons data lms ih =>
    intro k acc rest hdrop hlen
    cases rest with
    | nil => simp at hlen
    | cons st rest1 =>
      have hk : state[k]? = some st := by
        have := congrArg List.head? hdrop
        simpa [List.head?_drop] using this
      have hdrop1 : state.drop (k + 1) = rest1 := by
        have := congrArg List.tail hdrop
        simpa [List.tail_drop] using this
      simp only [finalScores, hk]
      rw [ih (k + 1) _ rest1 hdrop1 (by simpa using hlen)]
      by_cases hz : data.CalcFinalScore st = 0
      · simp [hz, List.zip_cons_cons]
      · simp [hz, List.zip_cons_cons, add_assoc]

theorem rootEdges_closed (t : LookupTableCFGLM) :
    ∀ (bucket : List StatefulNode) (g : HyperGraph) (nd : HyperNode) (rest : List HyperNode),
      (∀ sn ∈ bucket, sn.2.length = t.lm_data_.length) → g.nodes = nd :: rest →
      rootEdges t bucket g = .ok
        { nodes := { nd with edges := nd.edges ++ List.range' g.edges.length bucket.length } :: rest,
          edges := g.edges ++ (bucket.enumFrom g.edges.length).map (fun p => rootEdgeOf t p.1 p.2),
          words := g.words } := by
  intro bucket
  induction bucket with
  | nil =>
    intro g nd rest _ hn
    simp only [rootEdges, List.length_nil, List.range'_zero, List.append_nil, List.enumFrom_nil,
      List.map_nil]
    rw [← hn]
  | cons sn bucket ih =>
    intro g nd rest hst hn
    have hfs := finalScores_closed sn.2 t.lm_data_ 0 {} sn.2 rfl
      (by rw [hst sn (List.mem_cons_self _ _)])
    simp only [rootEdges, hfs]
    rw [ih _ { nd with edges := nd.edges ++ [g.edges.length] } rest
      (fun x hx => hst x (List.mem_cons_of_mem _ hx))
      (by simp [HyperGraph.NodeAddEdge, HyperGraph.AddEdge, hn])]
    simp [HyperGraph.NodeAddEdge, HyperGraph.AddEdge, rootEdgeOf, List.range'_succ,
      List.enumFrom_cons]

theorem buildFinal_cell {t : LookupTableCFGLM} {sent : Sentence} {d : Decode}
    (hd : DecodeInv t sent d) (hN : sent ≠ []) :
    ∃ cell, d.chart[sent.length - 1]? = some cell ∧
      atInt d.chart ((sent.length : Int) - 1) = some cell := by
  have hpos : 0 < sent.length := List.length_pos.mpr hN
  have hlt : sent.length - 1 < d.chart.length := by
    rw [hd.chart_len]
    calc sent.length - 1 < sent.length := by omega
      _ = sent.length * 1 := by omega
      _ ≤ sent.length * sent.length := Nat.mul_le_mul_left _ hpos
  refine ⟨d.chart[sent.length - 1], List.getElem?_eq_getElem hlt, ?_⟩
  unfold atInt
  have h1 : (0 : Int) ≤ (sent.length : Int) - 1 := by omega
  have h2 : ((sent.length : Int) - 1).toNat = sent.length - 1 := by omega
  rw [if_pos h1, h2]
  exact List.getElem?_eq_getElem hlt

theorem buildFinal_some {t : LookupTableCFGLM} {sent : Sentence} {d : Decode}
    {cell : CFGChartItem} {bucket : List StatefulNode}
    (hd : DecodeInv t sent d) (hcell : d.chart[sent.length - 1]? = some cell)
    (hb : assocFind cell.nodes_ t.root_symbol_ = some bucket) :
    ∃ g, buildFinal t sent.length d = .ok (g, (t.CalcViterbiScore g d.viterbi 0).1) ∧
      g.nodes = { id := 0, span := (0, sent.length), sym := none,
                  edges := List.range' d.ret.edges.length bucket.length } :: d.ret.nodes.tail ∧
      g.edges = d.ret.edges ++
        (bucket.enumFrom d.ret.edges.length).map (fun p => rootEdgeOf t p.1 p.2) ∧
      g.words = sent := by
  have hN : sent ≠ [] := by
    intro he
    have := hd.chart_len
    rw [he] at this hcell
    simp only [List.length_nil, Nat.mul_zero, List.length_eq_zero] at this
    rw [this] at hcell
    simp at hcell
  obtain ⟨cell1, hc1, hat⟩ := buildFinal_cell hd hN
  rw [hcell] at hc1
  injection hc1 with hc1
  subst hc1
  have hst : ∀ sn ∈ bucket, sn.2.length = t.lm_data_.length := by
    intro sn hsn
    refine hd.states cell (List.getElem?_mem hcell) ((t.root_symbol_, sn.2), sn.1) ?_
    simp only [cellKeys, List.mem_flatMap, List.mem_map]
    exact ⟨(t.root_symbol_, bucket), assocFind_some_mem _ _ _ hb, sn, hsn, rfl⟩
  have hnodes : d.ret.nodes = rootNode sent.length :: d.ret.nodes.tail := by
    have hroot := hd.root
    cases hn : d.ret.nodes with
    | nil => rw [hn] at hroot; simp at hroot
    | cons nd rest =>
      rw [hn] at hroot
      simp only [List.take_succ_cons, List.take_zero, List.cons.injEq, and_true] at hroot
      rw [hroot]; rfl
  have hre := rootEdges_closed t bucket d.ret (rootNode sent.length) d.ret.nodes.tail hst hnodes
  refine ⟨{ nodes := { id := 0, span := (0, sent.length), sym := none,
                       edges := List.range' d.ret.edges.length bucket.length } :: d.ret.nodes.tail,
            edges := d.ret.edges ++
              (bucket.enumFrom d.ret.edges.length).map (fun p => rootEdgeOf t p.1 p.2),
            words := d.ret.words }, ?_, rfl, rfl, hd.words⟩
  simp only [buildFinal, hat, hb, hre]
  simp [rootNode]

theorem buildFinal_none {t : LookupTableCFGLM} {sent : Sentence} {d : Decode}
    {cell : CFGChartItem}
    (hd : DecodeInv t sent d) (hN : sent ≠ []) (hcell : d.chart[sent.length - 1]? = some cell)
    (hb : assocFind cell.nodes_ t.root_symbol_ = none) :
    buildFinal t sent.length d = .ok (HyperGraph.empty, []) := by
  obtain ⟨cell1, hc1, hat⟩ := buildFinal_cell hd hN
  rw [hcell] at hc1
  injection hc1 with hc1
  subst hc1
  simp only [buildFinal, hat, hb]

theorem spanOrder_nodup (N : Nat) : (spanOrder N).Nodup := by
  unfold spanOrder
  rw [List.nodup_flatMap]
  constructor
  · intro i _
    exact (List.nodup_range' i (N - i)).map (fun a b hab => by injection hab)
  · have hn : (List.range N).reverse.Nodup := List.nodup_reverse.mpr (List.nodup_range N)
    refine List.Pairwise.imp ?_ hn
    intro a b hab
    simp only [Function.onFun]
    rw [List.disjoint_left]
    intro x hx1 hx2
    simp only [List.mem_map] at hx1 hx2
    obtain ⟨_, _, rfl⟩ := hx1
    obtain ⟨_, _, h2⟩ := hx2
    injection h2 with h3 _
    exact hab h3.symm

theorem spanOrder_index_nodup (N : Nat) :
    ((spanOrder N).map (fun sp => sp.1 * N + sp.2)).Nodup := by
  refine List.Nodup.map_on ?_ (spanOrder_nodup N)
  intro x hx y hy hxy
  obtain ⟨_, hx2⟩ := mem_spanOrder hx
  obtain ⟨_, hy2⟩ := mem_spanOrder hy
  have h1 : x.1 = y.1 := by
    have e1 : (x.1 * N + x.2) / N = x.1 := by
      rw [Nat.mul_comm, Nat.mul_add_div (by omega), Nat.div_eq_of_lt hx2]; rfl
    have e2 : (y.1 * N + y.2) / N = y.1 := by
      rw [Nat.mul_comm, Nat.mul_add_div (by omega), Nat.div_eq_of_lt hy2]; rfl
    rw [← e1, ← e2, hxy]
  have h2 : x.2 = y.2 := by
    rw [h1] at hxy
    omega
  exact Prod.ext h1 h2

theorem forEachE_total {α σ : Type} {f : α → σ → Except Err σ} (P : σ → Prop) :
    ∀ (l : List α) (s : σ), (∀ x ∈ l, ∀ a, P a → ∃ b, f x a = .ok b ∧ P b) → P s →
      ∃ sf, forEachE f l s = .ok sf ∧ P sf := by
  intro l
  induction l with
  | nil => intro s _ hP; exact ⟨s, rfl, hP⟩
  | cons x rest ih =>
    intro s hf hP
    obtain ⟨s1, hs1, hP1⟩ := hf x (List.mem_cons_self _ _) s hP
    obtain ⟨sf, hsf, hPf⟩ := ih s1 (fun y hy => hf y (List.mem_cons_of_mem _ hy)) hP1
    exact ⟨sf, by simp only [forEachE, hs1]; exact hsf, hPf⟩

theorem AddRules_idle {c : CFGCollection} {path : CFGPath} (rules : List TranslationRuleHiero)
    (hc : IdleColl c) (hs : path.spans = []) (hl : path.labels = []) :
    IdleColl (AddRules c path rules) := by
  obtain ⟨h1, h2, h3, h4⟩ := hc
  refine ⟨?_, ?_, ?_, ?_⟩
  · simp [AddRules, h1]
  · simp [AddRules, h2]
  · intro p hp
    simp only [AddRules, List.mem_append] at hp
    rcases hp with hp | hp
    · exact h3 p hp
    · rw [List.eq_of_mem_replicate hp, hs]
  · intro p hp
    simp only [AddRules, List.mem_append] at hp
    rcases hp with hp | hp
    · exact h4 p hp
    · rw [List.eq_of_mem_replicate hp, hl]

theorem depositRules_idle (a : CFGPath) (idx : Nat) (hs : a.spans = []) (hl : a.labels = []) :
    ∀ (fsms : List RuleFSM) (cs : List CFGCollection), idx < cs.length →
      (∀ c ∈ cs, IdleColl c) →
      ∃ cs1, depositRules a idx fsms cs = .ok cs1 ∧ cs1.length = cs.length ∧
        ∀ c ∈ cs1, IdleColl c := by
  intro fsms
  induction fsms with
  | nil => intro cs _ hc; exact ⟨cs, rfl, rfl, hc⟩
  | cons fsm rest ih =>
    intro cs hidx hc
    simp only [depositRules]
    split
    · rename_i key _
      rw [List.getElem?_eq_getElem hidx]
      dsimp only
      have hmem : cs[idx] ∈ cs := List.getElem_mem hidx
      obtain ⟨cs1, h1, h2, h3⟩ := ih (cs.set idx (AddRules cs[idx] a (fsm.rules key)))
        (by simpa using hidx)
        (by
          intro c hcm
          rcases List.mem_or_eq_of_mem_set hcm with hcm | hcm
          · exact hc c hcm
          · subst hcm
            exact AddRules_idle _ (hc _ hmem) hs hl)
      exact ⟨cs1, h1, by simpa using h2, h3⟩
    · exact ih cs hidx hc

theorem index_lt {N i j : Nat} (hi : i < N) (hj : j < N) : i * N + j < N * N := by
  have h1 : (i + 1) * N ≤ N * N := Nat.mul_le_mul_right N hi
  rw [Nat.add_mul, Nat.one_mul] at h1
  omega

theorem AddToChartWith_idle (t : LookupTableCFGLM) (N : Nat)
    (consume : CFGPath → Nat → Nat → Nat → List CFGCollection → Except Err (List CFGCollection))
    (a : CFGPath) (i j : Nat) (u : Bool) (cs : List CFGCollection)
    (hcons : ∀ k c, j + 1 ≤ k → k < N → (c.length = N * N ∧ ∀ x ∈ c, IdleColl x) →
      ∃ c1, consume a i (j + 1) k c = .ok c1 ∧ (c1.length = N * N ∧ ∀ x ∈ c1, IdleColl x))
    (hij : i ≤ j) (hj : j < N) (hs : a.spans = []) (hl : a.labels = [])
    (hcs : cs.length = N * N ∧ ∀ x ∈ cs, IdleColl x) :
    ∃ cs1, AddToChartWith t N consume a i j u cs = .ok cs1 ∧
      (cs1.length = N * N ∧ ∀ x ∈ cs1, IdleColl x) := by
  have hfirst : ∃ c1, (if u then (.ok cs : Except Err (List CFGCollection))
      else depositRules a (i * N + j) t.rule_fsms_ cs) = .ok c1 ∧
      (c1.length = N * N ∧ ∀ x ∈ c1, IdleColl x) := by
    cases u with
    | true => exact ⟨cs, rfl, hcs⟩
    | false =>
      obtain ⟨c1, h1, h2, h3⟩ := depositRules_idle a (i * N + j) hs hl t.rule_fsms_ cs
        (by rw [hcs.1]; exact index_lt (by omega) hj) hcs.2
      exact ⟨c1, by simpa using h1, by rw [h2]; exact hcs.1, h3⟩
  obtain ⟨c1, h1, hc1⟩ := hfirst
  simp only [AddToChartWith, h1]
  split
  · refine forEachE_total (fun c => c.length = N * N ∧ ∀ x ∈ c, IdleColl x) _ c1 ?_ hc1
    intro k hk c hc
    simp only [List.mem_range'_1] at hk
    exact hcons k c hk.1 (by omega) hc
  · exact ⟨c1, rfl, hc1⟩

theorem Consume_idle (t : LookupTableCFGLM) (sent : Sentence) (N : Nat)
    (chart : List CFGChartItem) (hsent : sent.length = N) (hchart : chart.length = N * N)
    (hcells : ∀ c ∈ chart, c.nodes_ = []) :
    ∀ (fuel : Nat) (a : CFGPath) (i j k : Nat) (cs : List CFGCollection),
      N ≤ fuel + j → i ≤ j → j ≤ k → k < N → a.spans = [] → a.labels = [] →
      (cs.length = N * N ∧ ∀ x ∈ cs, IdleColl x) →
      ∃ cs1, Consume t sent N chart fuel a i j k cs = .ok cs1 ∧
        (cs1.length = N * N ∧ ∀ x ∈ cs1, IdleColl x) := by
  intro fuel
  induction fuel with
  | zero => intro a i j k cs hf _ hjk hk; omega
  | succ n ih =>
    intro a i j k cs hf hij hjk hk hs hl hcs
    have hfirst : ∃ c1, (if j = k then
          match sent[j]? with
          | none => (.error Err.assertion : Except Err (List CFGCollection))
          | some w =>
            if PredictiveSearch t (a.withWord w).agent then
              AddToChartWith t N (Consume t sent N chart n) (a.withWord w) i k (decide (i = j)) cs
            else .ok cs
        else .ok cs) = .ok c1 ∧ (c1.length = N * N ∧ ∀ x ∈ c1, IdleColl x) := by
      split
      · have hjlt : j < sent.length := by omega
        rw [List.getElem?_eq_getElem hjlt]
        dsimp only
        split
        · refine AddToChartWith_idle t N _ _ i k _ cs ?_ (by omega) hk hs hl hcs
          intro k2 c hk2 hk2N hc
          exact ih _ i (k + 1) k2 c (by omega) (by omega) hk2 hk2N hs hl hc
        · exact ⟨cs, rfl, hcs⟩
      · exact ⟨cs, rfl, hcs⟩
    obtain ⟨c1, h1, hc1⟩ := hfirst
    have hidx : j * N + k < chart.length := by
      rw [hchart]; exact index_lt (by omega) hk
    have hcell : chart[j * N + k].nodes_ = [] := hcells _ (List.getElem_mem hidx)
    simp only [Consume, h1, List.getElem?_eq_getElem hidx, hcell, forEachE]
    exact ⟨c1, rfl, hc1⟩

theorem scoreRules_idle (t : LookupTableCFGLM) (N : Nat) (chart : List CFGChartItem)
    (g : HyperGraph) (coll : CFGCollection) (hc : IdleColl coll) :
    ∀ (rules : List TranslationRuleHiero) (rid : Nat) (m : ViterbiMemo)
      (q : List (Real × List Int)), rid + rules.length ≤ coll.rules_.length →
      ∃ q1, scoreRules t N chart g coll rules rid m q = .ok (m, q1) := by
  intro rules
  induction rules with
  | nil => intro rid m q _; exact ⟨q, rfl⟩
  | cons rule rest ih =>
    intro rid m q hlen
    obtain ⟨h1, h2, h3, h4⟩ := hc
    simp only [List.length_cons] at hlen
    have hs : rid < coll.spans_.length := by omega
    have hl : rid < coll.labels_.length := by omega
    have hp : coll.spans_[rid] = [] := h3 _ (List.getElem_mem hs)
    have hb : coll.labels_[rid] = [] := h4 _ (List.getElem_mem hl)
    simp only [scoreRules, bind, Except.bind, must, List.getElem?_eq_getElem hs,
      List.getElem?_eq_getElem hl, hp, hb, baseScore, List.length_nil, ne_eq,
      not_true_eq_false, if_false, List.replicate_zero]
    split
    · exact ih (rid + 1) m _ (by omega)
    · exact ih (rid + 1) m _ (by omega)

theorem CubePrune_idle (t : LookupTableCFGLM) (fuel N i j : Nat) (d : Decode)
    (cell : CFGChartItem) (coll : CFGCollection) (hp : t.pop_limit_ = 0)
    (hcell : d.chart[i * N + j]? = some cell) (hn : cell.nodes_ = [])
    (hpop : cell.populated_ = false) (hcoll : d.collections[i * N + j]? = some coll)
    (hidle : IdleColl coll) :
    CubePrune t fuel N i j d = .ok
      { chart := d.chart.set (i * N + j) { nodes_ := [], populated_ := true },
        collections := d.collections, ret := d.ret, viterbi := d.viterbi } := by
  obtain ⟨q, hq⟩ := scoreRules_idle t N d.chart d.ret coll hidle coll.rules_ 0 d.viterbi []
    (by omega)
  obtain ⟨s0, hs0⟩ : ∃ s0 : PruneState, s0 =
      { hypo_queue := q, finished_hyps := [], recomb_map := [], chart := d.chart, ret := d.ret,
        viterbi := d.viterbi, num_popped := 0 } := ⟨_, rfl⟩
  have hinit : cubeInit t N i j d.collections d.chart d.ret d.viterbi = .ok (coll, s0) := by
    simp only [cubeInit, bind, Except.bind, must, hcell, hcoll, hpop, hidle.1, hq, hs0]
    simp [pure, Except.pure]
  have hcond : loopCond t s0 = false := by
    simp [loopCond, hp, hs0]
  simp only [CubePrune, bind, Except.bind, hinit, cubeLoop_stop hcond, cubeFinish, must]
  simp [pure, Except.pure, FinalizeNodes, hn, hs0, hcell]

theorem spanStep_idle (t : LookupTableCFGLM) (fuel : Nat) (sent : Sentence) (i j : Nat)
    (d : Decode) (hp : t.pop_limit_ = 0) (hd : IdleDecode sent d) (hij : i ≤ j)
    (hj : j < sent.length)
    (hun : ∃ cell, d.chart[i * sent.length + j]? = some cell ∧ cell.populated_ = false) :
    ∃ d1, spanStep t fuel sent sent.length i j d = .ok d1 ∧ IdleDecode sent d1 ∧
      ∀ k, k ≠ i * sent.length + j → d1.chart[k]? = d.chart[k]? := by
  have hgood : d.collections.length = sent.length * sent.length ∧
      ∀ x ∈ d.collections, IdleColl x := ⟨hd.coll_len, hd.colls⟩
  have hcollect : ∃ cs, (if i = j then
        match sent[i]? with
        | none => (.error Err.assertion : Except Err (List CFGCollection))
        | some w => depositRules (CFGPath.withWord {} w) (i * sent.length + j) t.rule_fsms_
            d.collections
      else Consume t sent sent.length d.chart sent.length {} i i (j - 1) d.collections) = .ok cs ∧
      (cs.length = sent.length * sent.length ∧ ∀ x ∈ cs, IdleColl x) := by
    split
    · have hi : i < sent.length := by omega
      rw [List.getElem?_eq_getElem hi]
      dsimp only
      obtain ⟨c1, h1, h2, h3⟩ := depositRules_idle (CFGPath.withWord {} sent[i])
        (i * sent.length + j) rfl rfl t.rule_fsms_ d.collections
        (by rw [hd.coll_len]; exact index_lt hi hj) hd.colls
      exact ⟨c1, h1, by rw [h2]; exact hd.coll_len, h3⟩
    · exact Consume_idle t sent sent.length d.chart rfl hd.chart_len hd.cells sent.length {} i i
        (j - 1) d.collections (by omega) (le_refl _) (by omega) (by omega) rfl rfl hgood
  obtain ⟨cs, hcs, hlen, hall⟩ := hcollect
  obtain ⟨cell, hcell, hpop⟩ := hun
  have hidx : i * sent.length + j < cs.length := by
    rw [hlen]; exact index_lt (by omega) hj
  have hprune := CubePrune_idle t fuel sent.length i j { d with collections := cs } cell
    cs[i * sent.length + j] hp hcell (hd.cells cell (List.getElem?_mem hcell)) hpop
    (List.getElem?_eq_getElem hidx) (hall _ (List.getElem_mem hidx))
  refine ⟨_, by simp only [spanStep, hcs]; exact hprune, ?_, ?_⟩
  · refine { chart_len := by simp [hd.chart_len], coll_len := hlen, cells := ?_, colls := hall,
             ret := hd.ret, viterbi := hd.viterbi }
    intro c hc
    rcases List.mem_or_eq_of_mem_set hc with hc | hc
    · exact hd.cells c hc
    · subst hc; rfl
  · intro k hk
    dsimp only
    exact List.getElem?_set_ne (Ne.symm hk)

theorem forSpans_idle (t : LookupTableCFGLM) (fuel : Nat) (sent : Sentence)
    (hp : t.pop_limit_ = 0) :
    ∀ (l : List (Nat × Nat)) (d : Decode),
      (∀ sp ∈ l, sp.1 ≤ sp.2 ∧ sp.2 < sent.length) →
      (l.map (fun sp => sp.1 * sent.length + sp.2)).Nodup →
      IdleDecode sent d →
      (∀ sp ∈ l, ∃ cell, d.chart[sp.1 * sent.length + sp.2]? = some cell ∧
        cell.populated_ = false) →
      ∃ d1, forEachE (fun sp d => spanStep t fuel sent sent.length sp.1 sp.2 d) l d = .ok d1 ∧
        IdleDecode sent d1 := by
  intro l
  induction l with
  | nil => intro d _ _ hd _; exact ⟨d, rfl, hd⟩
  | cons sp rest ih =>
    intro d hb hnd hd hun
    obtain ⟨h1, h2⟩ := hb sp (List.mem_cons_self _ _)
    obtain ⟨d1, hd1, hidle, hoth⟩ := spanStep_idle t fuel sent sp.1 sp.2 d hp hd h1 h2
      (hun sp (List.mem_cons_self _ _))
    simp only [List.map_cons, List.nodup_cons] at hnd
    obtain ⟨d2, hd2, hidle2⟩ := ih d1 (fun x hx => hb x (List.mem_cons_of_mem _ hx)) hnd.2 hidle
      (by
        intro x hx
        have hne : x.1 * sent.length + x.2 ≠ sp.1 * sent.length + sp.2 := by
          intro he
          exact hnd.1 (List.mem_map.mpr ⟨x, hx, he⟩)
        rw [hoth _ hne]
        exact hun x (List.mem_cons_of_mem _ hx))
    exact ⟨d2, by simp only [forEachE, hd1]; exact hd2, hidle2⟩

theorem depositRules_collOK (N : Nat) (a : CFGPath) (idx : Nat)
    (ha : ∀ sp ∈ a.spans, sp.1 * N + sp.2 ≠ idx) :
    ∀ (fsms : List RuleFSM) (cs cs1 : List CFGCollection), CollOK N cs →
      depositRules a idx fsms cs = .ok cs1 → CollOK N cs1 := by
  intro fsms
  induction fsms with
  | nil =>
    intro cs cs1 hc h
    simp only [depositRules, Except.ok.injEq] at h
    subst h; exact hc
  | cons fsm rest ih =>
    intro cs cs1 hc h
    simp only [depositRules] at h
    split at h
    · rename_i key _
      split at h
      · rename_i c hcidx
        refine ih _ cs1 ?_ h
        intro k c1 hk p hp sp hsp
        by_cases hki : idx = k
        · subst hki
          rw [List.getElem?_set] at hk
          simp only [if_true] at hk
          split at hk
          · injection hk with hk
            subst hk
            simp only [AddRules, List.mem_append] at hp
            rcases hp with hp | hp
            · exact hc idx c hcidx p hp sp hsp
            · rw [List.eq_of_mem_replicate hp] at hsp
              exact ha sp hsp
          · exact absurd hk (by simp)
        · rw [List.getElem?_set_ne hki] at hk
          exact hc k c1 hk p hp sp hsp
      · exact absurd h (by simp)
    · exact ih cs cs1 hc h

theorem AddToChartWith_collOK (t : LookupTableCFGLM) (N : Nat)
    (consume : CFGPath → Nat → Nat → Nat → List CFGCollection → Except Err (List CFGCollection))
    (a : CFGPath) (i j : Nat) (u : Bool) (cs cs1 : List CFGCollection)
    (hcons : ∀ k c c1, j + 1 ≤ k → k < N → CollOK N c → consume a i (j + 1) k c = .ok c1 →
      CollOK N c1)
    (ha : u = false → ∀ sp ∈ a.spans, sp.1 * N + sp.2 ≠ i * N + j)
    (hcs : CollOK N cs) (h : AddToChartWith t N consume a i j u cs = .ok cs1) :
    CollOK N cs1 := by
  simp only [AddToChartWith] at h
  split at h
  · exact absurd h (by simp)
  · rename_i c1 hc1
    have hok : CollOK N c1 := by
      cases u with
      | true =>
        simp only [if_true, Except.ok.injEq] at hc1
        subst hc1; exact hcs
      | false =>
        simp only [Bool.false_eq_true, if_false] at hc1
        exact depositRules_collOK N a _ (ha rfl) _ _ _ hcs hc1
    split at h
    · refine forEachE_inv (CollOK N) _ c1 cs1 ?_ hok h
      intro k hk c c2 hc hc2
      simp only [List.mem_range'_1] at hk
      exact hcons k c c2 hk.1 (by omega) hc hc2
    · injection h with h
      subst h; exact hok

theorem Consume_collOK (t : LookupTableCFGLM) (sent : Sentence) (N : Nat)
    (chart : List CFGChartItem) :
    ∀ (fuel : Nat) (a : CFGPath) (i j k : Nat) (cs cs1 : List CFGCollection),
      i ≤ j → j ≤ k → k < N → PathOK N i j a → CollOK N cs →
      Consume t sent N chart fuel a i j k cs = .ok cs1 → CollOK N cs1 := by
  intro fuel
  induction fuel with
  | zero => intro a i j k cs cs1 _ _ _ _ _ h; simp [Consume] at h
  | succ n ih =>
    intro a i j k cs cs1 hij hjk hk ha hcs h
    have hrow : (i + 1) * N = i * N + N := by rw [Nat.add_mul, Nat.one_mul]
    have hold : ∀ sp ∈ a.spans, sp.1 * N + sp.2 ≠ i * N + k := by
      intro sp hsp
      rcases ha sp hsp with h1 | h1 <;> omega
    have hnext : ∀ sp ∈ a.spans, sp.1 * N + sp.2 < i * N + (k + 1) ∨
        (i + 1) * N ≤ sp.1 * N + sp.2 := by
      intro sp hsp
      rcases ha sp hsp with h1 | h1
      · left; omega
      · right; exact h1
    simp only [Consume] at h
    split at h
    · exact absurd h (by simp)
    · rename_i c1 hc1
      have hok : CollOK N c1 := by
        split at hc1
        · split at hc1
          · exact absurd hc1 (by simp)
          · rename_i w _
            split at hc1
            · refine AddToChartWith_collOK t N _ (a.withWord w) i k _ cs c1 ?_ ?_ hcs hc1
              · intro k2 c c2 hk2 hk2N hc hc2
                exact ih (a.withWord w) i (k + 1) k2 c c2 (by omega) hk2 hk2N hnext hc hc2
              · intro _; exact hold
            · injection hc1 with hc1
              subst hc1; exact hcs
        · injection hc1 with hc1
          subst hc1; exact hcs
      split at h
      · exact absurd h (by simp)
      · rename_i cell _
        refine forEachE_inv (CollOK N) _ c1 cs1 ?_ hok h
        intro sym _ c c2 hc hc2
        split at hc2
        · have hjrow : i < j → (i + 1) * N ≤ j * N := fun hlt => Nat.mul_le_mul_right N hlt
          refine AddToChartWith_collOK t N _ (a.withLabels sym.1 j k) i k _ c c2 ?_ ?_ hc hc2
          · intro k2 c3 c4 hk2 hk2N hc3 hc4
            refine ih (a.withLabels sym.1 j k) i (k + 1) k2 c3 c4 (by omega) hk2 hk2N ?_ hc3 hc4
            intro sp hsp
            simp only [CFGPath.withLabels, List.mem_append, List.mem_singleton] at hsp
            rcases hsp with hsp | hsp
            · exact hnext sp hsp
            · subst hsp
              dsimp only
              rcases Nat.eq_or_lt_of_le hij with he | hlt
              · left; rw [← he]; omega
              · right; have := hjrow hlt; omega
          · intro hu sp hsp
            simp only [decide_eq_false_iff_not] at hu
            simp only [CFGPath.withLabels, List.mem_append, List.mem_singleton] at hsp
            rcases hsp with hsp | hsp
            · exact hold sp hsp
            · subst hsp
              dsimp only
              have := hjrow (by omega)
              omega
        · injection hc2 with hc2
          subst hc2; exact hc

theorem spanStep_tails {t : LookupTableCFGLM} {sent : Sentence} {fuel i j : Nat}
    {d d1 : Decode} (hun : t.unary_rules_ = []) (hij : i ≤ j) (hj : j < sent.length)
    (hd : DecodeInv t sent d) (hc : CollOK sent.length d.collections) (ht : TailsBelow d.ret)
    (h : spanStep t fuel sent sent.length i j d = .ok d1) :
    CollOK sent.length d1.collections ∧ TailsBelow d1.ret := by
  simp only [spanStep] at h
  split at h
  · exact absurd h (by simp)
  · rename_i cs hcs
    have hok : CollOK sent.length cs := by
      split at hcs
      · split at hcs
        · exact absurd hcs (by simp)
        · rename_i w _
          exact depositRules_collOK _ _ _ (by intro sp hsp; simp [CFGPath.withWord] at hsp)
            _ _ _ hc hcs
      · exact Consume_collOK t sent sent.length d.chart sent.length {} i i (j - 1) _ _
          (le_refl _) (by omega) (by omega) (by intro sp hsp; simp at hsp) hc hcs
    obtain ⟨coll, s0, s, c0, cellF, hinit, _, hinv, _, _, _, _, _, _, _, _, hret, hcolls⟩ :=
      CubePrune_final h
    constructor
    · rw [hcolls]; exact hok
    · obtain ⟨_, hcoll, _⟩ := cubeInit_ok hinit
      have hold : OldTails t sent.length (i * sent.length + j) d.ret.nodes.length coll d.chart :=
        ⟨hun, fun p hp sp hsp => hok _ coll hcoll p hp sp hsp,
         fun k c hk p hp => hd.ptrs c (List.getElem?_mem hk) p hp⟩
      obtain ⟨new, hnew, _, hall⟩ := hinv.edges
      intro e he hh hhead x hx
      rw [hret, hnew] at he
      rcases List.mem_append.mp he with he | he
      · exact ht e he hh hhead x hx
      · obtain ⟨_, ⟨h1, hh1, hge, _⟩, htl⟩ := hall e he
        rw [hhead] at hh1
        injection hh1 with hh1
        subst hh1
        have := htl hold x hx
        omega

theorem DecodeInv_init (t : LookupTableCFGLM) (sent : Sentence) :
    DecodeInv t sent
      { chart := List.replicate (sent.length * sent.length) {},
        collections := List.replicate (sent.length * sent.length) {},
        ret := HyperGraph.AddNode { nodes := [], edges := [], words := sent } (0, sent.length) none [],
        viterbi := [] } := by
  refine { chart_len := by simp, root := ?_, words := rfl, states := ?_, ptrs := ?_,
           buckets := ?_, edges := ?_ }
  · simp [HyperGraph.AddNode, rootNode]
  · intro c hc k hk
    rw [List.eq_of_mem_replicate hc] at hk
    simp [cellKeys] at hk
  · intro c hc p hp
    rw [List.eq_of_mem_replicate hc] at hp
    simp [cellPtrs, cellKeys] at hp
  · intro c hc lb hlb
    rw [List.eq_of_mem_replicate hc] at hlb
    simp at hlb
  · intro e he
    simp [HyperGraph.AddNode] at he

theorem mainLoops_tails {t : LookupTableCFGLM} {fuel : Nat} {sent : Sentence} {d : Decode}
    (hun : t.unary_rules_ = []) (h : mainLoops t fuel sent = .ok d) : TailsBelow d.ret := by
  simp only [mainLoops] at h
  have := forEachE_inv
    (fun d => DecodeInv t sent d ∧ CollOK sent.length d.collections ∧ TailsBelow d.ret)
    (spanOrder sent.length) _ d
    (by
      intro sp hsp a b ⟨h1, h2, h3⟩ hb
      obtain ⟨hij, hj⟩ := mem_spanOrder hsp
      exact ⟨spanStep_decode h1 hb, spanStep_tails hun hij hj h1 h2 h3 hb⟩)
    ⟨DecodeInv_init t sent, ?_, ?_⟩ h
  · exact this.2.2
  · intro idx c hc p hp
    rw [List.getElem?_replicate] at hc
    split at hc
    · injection hc with hc
      subst hc
      simp at hp
    · exact absurd hc (by simp)
  · intro e he
    simp [HyperGraph.AddNode] at he

theorem tailOf_rank {t : LookupTableCFGLM} {fuel : Nat} {graph : HyperGraph} {g : HyperGraph}
    {m : ViterbiMemo} (hun : t.unary_rules_ = [])
    (h : TransformGraph t fuel graph = .ok (g, m)) :
    ∀ a b, tailOf g a b → rank g b < rank g a := by
  simp only [TransformGraph] at h
  split at h
  · exact absurd h (by simp)
  · rename_i d hd
    have hdec := mainLoops_decode hd
    have htl := mainLoops_tails hun hd
    have hN : graph.words ≠ [] := by
      intro he
      rw [he] at h
      simp [buildFinal, atInt] at h
    obtain ⟨cell, hcell, _⟩ := buildFinal_cell hdec hN
    cases hb : assocFind cell.nodes_ t.root_symbol_ with
    | none =>
      rw [buildFinal_none hdec hN hcell hb] at h
      injection h with h
      injection h with h1 _
      subst h1
      intro a b ⟨e, he, _⟩
      simp [HyperGraph.empty] at he
    | some bucket =>
      obtain ⟨g1, hg1, hnodes, hedges, _⟩ := buildFinal_some hdec hcell hb
      rw [hg1] at h
      injection h with h
      injection h with h1 _
      subst h1
      have hlen : g1.nodes.length = d.ret.nodes.length := by
        rw [hnodes]
        have hroot := hdec.root
        cases hn : d.ret.nodes with
        | nil => rw [hn] at hroot; simp at hroot
        | cons nd rest => simp
      intro a b ⟨e, he, hhead, hb1⟩
      rw [hedges] at he
      rcases List.mem_append.mp he with he | he
      · obtain ⟨_, h1, hh1, hge, hlt⟩ := hdec.edges e he
        have hx := htl e he a hhead b hb1
        have ha : a ≠ 0 := by omega
        have hb0 : b ≠ 0 := by omega
        simp only [rank, ha, hb0, if_false]
        exact hx.2
      · simp only [List.mem_map] at he
        obtain ⟨p, hp, rfl⟩ := he
        have hsn : p.2 ∈ bucket := by
          obtain ⟨k, hk⟩ := List.mem_iff_getElem?.mp hp
          have := List.getElem?_enumFrom d.ret.edges.length bucket k
          rw [hk] at this
          cases hbk : bucket[k]? with
          | none => rw [hbk] at this; simp at this
          | some sn =>
            rw [hbk] at this
            simp only [Option.map_some', Option.some.injEq] at this
            rw [this]
            exact List.getElem?_mem hbk
        simp only [rootEdgeOf, Option.some.injEq] at hhead
        simp only [rootEdgeOf, List.mem_singleton] at hb1
        subst hhead
        subst hb1
        have hmem : ((t.root_symbol_, p.2.2), p.2.1) ∈ cellKeys cell := by
          simp only [cellKeys, List.mem_flatMap, List.mem_map]
          exact ⟨(t.root_symbol_, bucket), assocFind_some_mem _ _ _ hb, p.2, hsn, rfl⟩
        have h2 := hdec.ptrs cell (List.getElem?_mem hcell) p.2.1
          (by simp only [cellPtrs, List.mem_map]; exact ⟨_, hmem, rfl⟩)
        have hb0 : p.2.1 ≠ 0 := by omega
        simp only [rank, hb0, if_false, if_true]
        rw [hlen]; exact h2.2

/-! ### The claims -/

/-- Bucket by bucket (same labels, same order of buckets) `FinalizeNodes` rearranges the
stateful nodes so that the stored scores do not increase with the position. -/
theorem FinalizeNodes_buckets (t : LookupTableCFGLM) (m : ViterbiMemo) (c : CFGChartItem) :
    List.Forall₂
      (fun old new => new.1 = old.1 ∧ new.2.Perm old.2 ∧
        new.2.Pairwise (fun x y => GetViterbiScore t m y.1 ≤ GetViterbiScore t m x.1))
      c.nodes_ (FinalizeNodes t m c).nodes_ := by
  unfold FinalizeNodes
  simp only [List.forall₂_map_right_iff]
  refine List.forall₂_same.mpr ?_
  intro node_set _
  by_cases h : node_set.2.length > 1
  · simp only [h, if_true]
    exact ⟨trivial, t.std_sort.perm _ _, t.std_sort.sorted _ _⟩
  · simp only [h, if_false]
    refine ⟨trivial, List.Perm.refl _, ?_⟩
    match hb : node_set.2 with
    | [] => exact List.Pairwise.nil
    | [x] => exact List.pairwise_singleton _ _
    | x :: y :: rest => rw [hb] at h; simp at h

/-- C2: on a source graph without words `TransformGraph` reads `chart[N-1] = chart[-1]` of an
empty chart: the run ends in an out-of-range access instead of returning an empty graph. -/
theorem TransformGraph_empty_source_out_of_range (t : LookupTableCFGLM) (fuel : Nat)
    (nodes : List HyperNode) (edges : List HyperEdge) :
    TransformGraph t fuel { nodes := nodes, edges := edges, words := [] }
      = .error Err.assertion := by
  rfl

/-- C3: decoding the one-word sentence `a` with the example grammar (root symbol `X`). The
edge built by `CubePrune` from `X → a` has features `[(1, 2), (7, -1)]`, so the claimed score
is `1 * 2 + 1 * (-1) = 1`, but its score was never set; only the root edge carries a score. -/
theorem CubePrune_edge_score_never_set :
    (TransformGraph { Example.decoder with root_symbol_ := Example.X } 10 (Example.source [0])).map
        (fun r => r.1.edges.map (fun e => (e.head, e.features, e.score)))
      = .ok [(some 1, [(1, 2), (7, -1)], none), (some 0, [(7, -1)], some (-1))] := by
  rfl

/-- C7: with `pop_limit >= 0` and a budget of at least `pop_limit` turns, the main loop of
`CubePrune`, entered with `num_popped = 0`, never exhausts the budget: it ends after at most
`pop_limit` turns (each turn pops one hypothesis, skipped ones included) having appended at
most `pop_limit` edges to the output graph, or it stops on a failed assertion. -/
theorem cubeLoop_pop_limit (t : LookupTableCFGLM) (N i j : Nat) (coll : CFGCollection)
    (s0 : PruneState) (fuel : Nat)
    (hp : 0 ≤ t.pop_limit_) (h0 : s0.num_popped = 0) (hf : t.pop_limit_ ≤ (fuel : Int)) :
    match cubeLoop t N i j coll fuel s0 with
    | .ok s => (s.num_popped : Int) ≤ t.pop_limit_ ∧
               ∃ new, s.ret.edges = s0.ret.edges ++ new ∧ (new.length : Int) ≤ t.pop_limit_
    | .error e => e = Err.assertion := by
  have hfuel := @cubeLoop_fuel_enough t N i j coll hp fuel s0
    (by rw [h0]; simpa using hf)
  cases hres : cubeLoop t N i j coll fuel s0 with
  | error e =>
    cases e with
    | assertion => rfl
    | fuel => exact absurd hres hfuel
  | ok s =>
    have hinv := @cubeLoop_inv t N i j coll
      (fun s => (s.num_popped : Int) ≤ t.pop_limit_ ∧
        ∃ new, s.ret.edges = s0.ret.edges ++ new ∧ new.length ≤ s.num_popped)
      (by
        intro s s1 ⟨_, new, hnew, hlen⟩ hc hs1
        simp only [loopCond, Bool.and_eq_true, Bool.or_eq_true, decide_eq_true_eq] at hc
        obtain ⟨⟨_, h2⟩, _⟩ := hc
        have hcnt := (cubeStep_counts hs1).1
        refine ⟨?_, ?_⟩
        · rw [hcnt]; push_cast; omega
        · rcases cubeStep_edges hs1 with he | ⟨e, he⟩
          · exact ⟨new, by rw [he, hnew], by omega⟩
          · exact ⟨new ++ [e], by rw [he, hnew, List.append_assoc], by simp; omega⟩)
      fuel s0 s ⟨by rw [h0]; simpa using hp, [], by simp, by simp⟩ hres
    obtain ⟨⟨h1, new, hnew, hlen⟩, _⟩ := hinv
    exact ⟨h1, new, hnew, by omega⟩

/-- C4: (1) if the cell of the span is empty when `CubePrune` starts, then in the cell it leaves
no two stateful nodes have the same recombination key (head labels, LM states), and the nodes
added to the graph are as many as the entries of the cell; (2) in any turn of the loop that
builds an edge whose key is already in the recombination map, the edge gets the node of that
key as head and is appended to the edges of that node, while the chart and the map stay as they
are, so that no node is created. -/
theorem CubePrune_recombination (t : LookupTableCFGLM) (fuel N i j : Nat) :
    (∀ (d d1 : Decode) (cell0 : CFGChartItem),
        d.chart[i * N + j]? = some cell0 → cell0.nodes_ = [] →
        CubePrune t fuel N i j d = .ok d1 →
        ∃ cell, d1.chart[i * N + j]? = some cell ∧
          ((cellKeys cell).map Prod.fst).Nodup ∧
          d1.ret.nodes.length = d.ret.nodes.length + (cellKeys cell).length) ∧
    (∀ (coll : CFGCollection) (s s1 : PruneState) (top : Real × List Int) (dr : EdgeDraft)
        (node : Nat),
        pqTop s.hypo_queue = some top → top.2 ∉ s.finished_hyps →
        buildEdge t N i j coll s.chart top.2 = .ok dr →
        assocFind s.recomb_map dr.ridx = some node →
        cubeStep t N i j coll s = .ok s1 →
        s1.chart = s.chart ∧ s1.recomb_map = s.recomb_map ∧
        s1.ret.nodes = s.ret.nodes.modify (fun nd => { nd with edges := nd.edges ++ [s.ret.edges.length] }) node ∧
        s1.ret.edges = s.ret.edges ++
          [{ id := s.ret.edges.length, head := some node, tails := dr.tails,
             features := dr.features, score := none, trg_data := dr.rule.trg_data }]) := by
  constructor
  · intro d d1 cell0 h0 he h
    obtain ⟨coll, s0, s, c0, cellF, _, _, hinv, _, hc0, _, hF, _, hperm, _, _, hret, _⟩ :=
      CubePrune_final h
    rw [h0] at hc0
    injection hc0 with hc0
    subst hc0
    have hk0 : cellKeys cell0 = [] := by simp [cellKeys, he]
    rw [hk0, List.nil_append] at hperm
    refine ⟨cellF, hF, ?_, ?_⟩
    · exact (List.Perm.nodup_iff (List.Perm.map Prod.fst hperm)).mpr hinv.keys_nodup
    · rw [hret, hinv.nodes_len, hperm.length_eq]
  · intro coll s s1 top dr node htop hfin hdr hfind hstep
    obtain ⟨top1, htop1, hcase⟩ := cubeStep_ok hstep
    rw [htop] at htop1
    injection htop1 with htop1
    subst htop1
    rcases hcase with ⟨hin, _⟩ | ⟨_, dr1, mg, mq, hdr1, hmg, _, rfl⟩
    · exact absurd hin hfin
    · rw [hdr] at hdr1
      injection hdr1 with hdr1
      subst hdr1
      rcases recombine_ok hmg with ⟨node1, hfind1, hret, hchart, hrec⟩ | ⟨hfind1, _⟩
      · rw [hfind] at hfind1
        injection hfind1 with hfind1
        subst hfind1
        refine ⟨hchart, hrec, ?_, ?_⟩
        · dsimp only; rw [hret]; rfl
        · dsimp only; rw [hret]; rfl
      · rw [hfind] at hfind1
        exact absurd hfind1 (by simp)

/-- C6, as amended: with `chart_limit >= 0` and the cell of the span empty at the start, the
cell left by `CubePrune` holds at most `chart_limit` stateful nodes over all its buckets and at
most `chart_limit` nodes were added to the graph; with `chart_limit = 1`, `pop_limit` other than
`0` and a queue that is not empty after the rules were scored, the cell holds exactly one
stateful node: the new node made for the edge of the first hypothesis popped. -/
theorem CubePrune_chart_limit (t : LookupTableCFGLM) (fuel N i j : Nat) (d d1 : Decode)
    (cell0 : CFGChartItem) (hlim : 0 ≤ t.chart_limit_)
    (h0 : d.chart[i * N + j]? = some cell0) (he : cell0.nodes_ = [])
    (h : CubePrune t fuel N i j d = .ok d1) :
    (∃ cell, d1.chart[i * N + j]? = some cell ∧ (cellCount cell : Int) ≤ t.chart_limit_) ∧
    (d1.ret.nodes.length : Int) ≤ d.ret.nodes.length + t.chart_limit_ ∧
    (t.chart_limit_ = 1 → t.pop_limit_ ≠ 0 →
      ∀ coll s0, cubeInit t N i j d.collections d.chart d.ret d.viterbi = .ok (coll, s0) →
        s0.hypo_queue ≠ [] →
        ∃ top dr cell, pqTop s0.hypo_queue = some top ∧
          buildEdge t N i j coll d.chart top.2 = .ok dr ∧
          d1.chart[i * N + j]? = some cell ∧
          cell.nodes_ = [(dr.rule.head_labels, [(d.ret.nodes.length, dr.acc.my_state)])] ∧
          cellCount cell = 1 ∧
          d1.ret.nodes = d.ret.nodes ++
            [{ id := d.ret.nodes.length, span := (i, j + 1),
               sym := some dr.rule.src_data.label, edges := [d.ret.edges.length] }]) := by
  obtain ⟨coll, s0, s, cell, hinit, hloop, hcell, hd1⟩ := CubePrune_ok h
  have hinv := @cubeLoop_inv t N i j coll
    (fun s => PruneInv t N i j coll d.chart d.ret s ∧ (s.recomb_map.length : Int) ≤ t.chart_limit_)
    (by
      intro s s1 ⟨hs, _⟩ hc hs1
      refine ⟨PruneInv_step hs hs1, ?_⟩
      simp only [loopCond, Bool.and_eq_true, Bool.or_eq_true, decide_eq_true_eq] at hc
      obtain ⟨_, h3⟩ := hc
      have := (cubeStep_counts hs1).2.2
      omega)
    fuel s0 s ⟨PruneInv_init hinit, by rw [(cubeInit_ok hinit).2.2.2.2.2.1]; simpa using hlim⟩ hloop
  obtain ⟨⟨hP, hle⟩, _⟩ := hinv
  obtain ⟨c0, c, hc0, hc, _, hperm⟩ := hP.cell
  rw [h0] at hc0
  injection hc0 with hc0
  subst hc0
  rw [hcell] at hc
  injection hc with hc
  subst hc
  have hk0 : cellKeys cell0 = [] := by simp [cellKeys, he]
  rw [hk0, List.nil_append] at hperm
  have hidlt : i * N + j < s.chart.length := by
    rcases Nat.lt_or_ge (i * N + j) s.chart.length with h1 | h1
    · exact h1
    · rw [List.getElem?_eq_none h1] at hcell; exact absurd hcell (by simp)
  have hF : d1.chart[i * N + j]? = some (FinalizeNodes t s.viterbi cell) := by
    rw [hd1]; dsimp only
    rw [List.getElem?_set, if_pos rfl, if_pos hidlt]
  refine ⟨⟨_, hF, ?_⟩, ?_, ?_⟩
  · rw [← cellKeys_length, ((cellKeys_finalize t s.viterbi cell).trans hperm).length_eq]
    exact hle
  · rw [hd1]; dsimp only
    rw [hP.nodes_len]; push_cast; omega
  · intro hone hpop coll1 s01 hinit1 hq
    rw [hinit] at hinit1
    injection hinit1 with hinit1
    injection hinit1 with e1 e2
    subst e1; subst e2
    obtain ⟨_, _, _, hchart0, hret0, hrec0, hnum0, hfin0, _⟩ := cubeInit_ok hinit
    have hcond0 : loopCond t s0 = true := by
      simp only [loopCond, Bool.and_eq_true, Bool.or_eq_true, decide_eq_true_eq, hrec0, hnum0,
        hone]
      refine ⟨⟨?_, ?_⟩, Or.inr (by simp)⟩
      · intro hl; exact hq (List.length_eq_zero.mp hl)
      · simp only [Nat.cast_zero]; omega
    obtain ⟨n, s1, _, hstep, hrest⟩ := cubeLoop_turn hcond0 hloop
    obtain ⟨top, htop, hcase⟩ := cubeStep_ok hstep
    rcases hcase with ⟨hin, _⟩ | ⟨_, dr, mg, mq, hdr, hmg, _, hs1⟩
    · rw [hfin0] at hin; simp at hin
    · rcases recombine_ok hmg with ⟨node, hfind, _⟩ | ⟨_, cell1, hcell1, hret, hchartm, hrec⟩
      · rw [hrec0] at hfind; simp [assocFind] at hfind
      · have hcond1 : loopCond t s1 = false := by
          rw [hs1]
          simp only [loopCond, hrec, hrec0, hone]
          simp
        rw [cubeLoop_stop hcond1] at hrest
        injection hrest with hrest
        subst hrest
        rw [hchart0] at hdr hcell1
        rw [h0] at hcell1
        injection hcell1 with hcell1
        subst hcell1
        have hcellS : cell = AddStatefulNode cell0 dr.rule.head_labels s0.ret.nodes.length
            dr.acc.my_state := by
          rw [hs1] at hcell
          dsimp only at hcell
          rw [hchartm, List.getElem?_set, if_pos rfl] at hcell
          split at hcell
          · injection hcell with hcell; exact hcell.symm
          · exact absurd hcell (by simp)
        have hnodes : (FinalizeNodes t s1.viterbi cell).nodes_ =
            [(dr.rule.head_labels, [(d.ret.nodes.length, dr.acc.my_state)])] := by
          rw [hcellS, hret0]
          simp [FinalizeNodes, AddStatefulNode, he, assocPush]
        refine ⟨top, dr, _, htop, hdr, hF, hnodes, ?_, ?_⟩
        · simp [cellCount, hnodes]
        · rw [hd1]; dsimp only
          rw [hs1]; dsimp only
          rw [hret, hret0]
          rfl

/-- C1: for a sentence of length `N >= 1`, once the loops of `TransformGraph` have run, the call
returns a graph, without error; that graph has no nodes and no edges if and only if the cell
`chart[N-1]` of the whole sentence holds no stateful node under `root_symbol`, and otherwise
its first node is the root, numbered `0`, with span `(0, N)`. -/
theorem TransformGraph_empty_iff_no_root (t : LookupTableCFGLM) (fuel : Nat) (graph : HyperGraph)
    (d : Decode) (hN : graph.words ≠ []) (h : mainLoops t fuel graph.words = .ok d) :
    ∃ cell g m, d.chart[0 * graph.words.length + (graph.words.length - 1)]? = some cell ∧
      TransformGraph t fuel graph = .ok (g, m) ∧
      ((g.nodes = [] ∧ g.edges = []) ↔ bucketOf cell t.root_symbol_ = []) ∧
      (bucketOf cell t.root_symbol_ ≠ [] →
        g.nodes.head?.map (fun nd => (nd.id, nd.span)) = some (0, (0, graph.words.length))) := by
  have hd := mainLoops_decode h
  obtain ⟨cell, hcell, _⟩ := buildFinal_cell hd hN
  simp only [Nat.zero_mul, Nat.zero_add]
  cases hb : assocFind cell.nodes_ t.root_symbol_ with
  | none =>
    refine ⟨cell, HyperGraph.empty, [], hcell, ?_, ?_, ?_⟩
    · simp only [TransformGraph, h]
      exact buildFinal_none hd hN hcell hb
    · simp [HyperGraph.empty, bucketOf, hb]
    · intro hne
      simp [bucketOf, hb] at hne
  | some bucket =>
    obtain ⟨g, hg, hnodes, hedges, _⟩ := buildFinal_some hd hcell hb
    have hne : bucket ≠ [] :=
      hd.buckets cell (List.getElem?_mem hcell) (t.root_symbol_, bucket)
        (assocFind_some_mem _ _ _ hb)
    refine ⟨cell, g, (t.CalcViterbiScore g d.viterbi 0).1, hcell, ?_, ?_, ?_⟩
    · simp only [TransformGraph, h]
      exact hg
    · simp only [bucketOf, hb, Option.getD_some, hne, iff_false, not_and]
      intro hnil
      rw [hnodes] at hnil
      simp at hnil
    · intro _
      rw [hnodes]
      rfl

/-- C10: when the cell `chart[N-1]` of the whole sentence has a bucket under `root_symbol`, the
graph returned by `TransformGraph` is the graph built by the loops with one more edge per
stateful node of that bucket, in bucket order: node 0 is the root with span `(0, N)` and its
incoming edges are exactly these new edges; the edge of a stateful node has head 0, the node as
only tail, target words `[-1]` in every factor, as score the sum over the language models of
weight times final score of the node's state, and the feature of a model exactly when that
final score is not zero (`rootEdgeOf`). -/
theorem TransformGraph_root_edges (t : LookupTableCFGLM) (fuel : Nat) (graph : HyperGraph)
    (d : Decode) (cell : CFGChartItem) (bucket : List StatefulNode)
    (h : mainLoops t fuel graph.words = .ok d)
    (hcell : d.chart[0 * graph.words.length + (graph.words.length - 1)]? = some cell)
    (hb : assocFind cell.nodes_ t.root_symbol_ = some bucket) :
    ∃ g m, TransformGraph t fuel graph = .ok (g, m) ∧
      g.nodes = { id := 0, span := (0, graph.words.length), sym := none,
                  edges := List.range' d.ret.edges.length bucket.length } :: d.ret.nodes.tail ∧
      g.edges = d.ret.edges ++
        (bucket.enumFrom d.ret.edges.length).map (fun p => rootEdgeOf t p.1 p.2) ∧
      (∀ sn ∈ bucket, sn.2.length = t.lm_data_.length ∧ 1 ≤ sn.1 ∧ sn.1 < g.nodes.length) ∧
      g.words = graph.words := by
  have hd := mainLoops_decode h
  simp only [Nat.zero_mul, Nat.zero_add] at hcell
  obtain ⟨g, hg, hnodes, hedges, hwords⟩ := buildFinal_some hd hcell hb
  refine ⟨g, (t.CalcViterbiScore g d.viterbi 0).1, ?_, hnodes, hedges, ?_, hwords⟩
  · simp only [TransformGraph, h]
    exact hg
  · intro sn hsn
    have hmem : ((t.root_symbol_, sn.2), sn.1) ∈ cellKeys cell := by
      simp only [cellKeys, List.mem_flatMap, List.mem_map]
      exact ⟨(t.root_symbol_, bucket), assocFind_some_mem _ _ _ hb, sn, hsn, rfl⟩
    have h1 := hd.states cell (List.getElem?_mem hcell) _ hmem
    have h2 := hd.ptrs cell (List.getElem?_mem hcell) sn.1
      (by simp only [cellPtrs, List.mem_map]; exact ⟨_, hmem, rfl⟩)
    have h3 : g.nodes.length = d.ret.nodes.length := by
      rw [hnodes]
      have hroot := hd.root
      cases hn : d.ret.nodes with
      | nil => rw [hn] at hroot; simp at hroot
      | cons nd rest => simp
    exact ⟨h1, h2.1, by rw [h3]; exact h2.2⟩

/-- C8: with `pop_limit = 0` and a sentence of length `N >= 1`, whatever the grammar and the
language models, the loops of `TransformGraph` run to their end, the graph still holds the
root node only (no span has added a node or an edge), every chart cell is without stateful
nodes, and `TransformGraph` returns the empty graph. -/
theorem TransformGraph_pop_limit_zero (t : LookupTableCFGLM) (fuel : Nat) (graph : HyperGraph)
    (hp : t.pop_limit_ = 0) (hN : graph.words ≠ []) :
    (∃ d, mainLoops t fuel graph.words = .ok d ∧ d.ret = rootGraph graph.words ∧
      ∀ c ∈ d.chart, c.nodes_ = []) ∧
    TransformGraph t fuel graph = .ok (HyperGraph.empty, []) := by
  have hloops := forSpans_idle t fuel graph.words hp (spanOrder graph.words.length)
    { chart := List.replicate (graph.words.length * graph.words.length) {},
      collections := List.replicate (graph.words.length * graph.words.length) {},
      ret := rootGraph graph.words, viterbi := [] }
    (fun sp hsp => mem_spanOrder hsp) (spanOrder_index_nodup _)
    { chart_len := by simp, coll_len := by simp,
      cells := fun c hc => by rw [List.eq_of_mem_replicate hc],
      colls := fun c hc => by
        rw [List.eq_of_mem_replicate hc]
        exact ⟨rfl, rfl, by simp, by simp⟩,
      ret := rfl, viterbi := rfl }
    (by
      intro sp hsp
      obtain ⟨h1, h2⟩ := mem_spanOrder hsp
      refine ⟨{}, ?_, rfl⟩
      rw [List.getElem?_eq_getElem (by simpa using index_lt (by omega) h2)]
      simp)
  obtain ⟨d, hd, hidle⟩ := hloops
  have hmain : mainLoops t fuel graph.words = .ok d := hd
  refine ⟨⟨d, hmain, hidle.ret, hidle.cells⟩, ?_⟩
  have hdec := mainLoops_decode hmain
  obtain ⟨cell, hcell, _⟩ := buildFinal_cell hdec hN
  simp only [TransformGraph, hmain]
  refine buildFinal_none hdec hN hcell ?_
  rw [hidle.cells cell (List.getElem?_mem hcell)]
  rfl

/-- C5, as amended: when the decoder has no unary rule, the graph returned by `TransformGraph`
is acyclic: no edge has its own head among its tails, and no node is reachable from itself by
going from the head of an edge to one of its tails. -/
theorem TransformGraph_acyclic_without_unary (t : LookupTableCFGLM) (fuel : Nat)
    (graph g : HyperGraph) (m : ViterbiMemo) (hun : t.unary_rules_ = [])
    (h : TransformGraph t fuel graph = .ok (g, m)) :
    (∀ e ∈ g.edges, ∀ hd, e.head = some hd → hd ∉ e.tails) ∧
    (∀ n, ¬ Relation.TransGen (tailOf g) n n) := by
  have hrank := tailOf_rank hun h
  constructor
  · intro e he hd hhead hmem
    have := hrank hd hd ⟨e, he, hhead, hmem⟩
    omega
  · intro n hn
    have key : ∀ a b, Relation.TransGen (tailOf g) a b → rank g b < rank g a := by
      intro a b hab
      induction hab with
      | single h1 => exact hrank _ _ h1
      | tail _ h2 ih => exact lt_trans (hrank _ _ h2) ih
    have := key n n hn
    omega

/-! ### The claims on the worked examples -/

/-- The statement of C1 on the sentence `a b` decoded with the example grammar. -/
theorem TransformGraph_empty_iff_no_root_witness :
    (Example.source [0, 1]).words ≠ [] ∧
    mainLoops Example.decoder 100 (Example.source [0, 1]).words = .ok Example.decoded ∧
    ∃ cell g m, Example.decoded.chart[0 * (Example.source [0, 1]).words.length +
        ((Example.source [0, 1]).words.length - 1)]? = some cell ∧
      TransformGraph Example.decoder 100 (Example.source [0, 1]) = .ok (g, m) ∧
      ((g.nodes = [] ∧ g.edges = []) ↔ bucketOf cell Example.decoder.root_symbol_ = []) ∧
      (bucketOf cell Example.decoder.root_symbol_ ≠ [] →
        g.nodes.head?.map (fun nd => (nd.id, nd.span)) =
          some (0, (0, (Example.source [0, 1]).words.length))) :=
  ⟨by decide, by rfl,
   TransformGraph_empty_iff_no_root Example.decoder 100 (Example.source [0, 1]) Example.decoded
     (by decide) (by rfl)⟩

/-- The statement of C10 on the sentence `a b`: the root bucket holds node 3 with LM state 2. -/
theorem TransformGraph_root_edges_witness :
    mainLoops Example.decoder 100 (Example.source [0, 1]).words = .ok Example.decoded ∧
    Example.decoded.chart[0 * (Example.source [0, 1]).words.length +
        ((Example.source [0, 1]).words.length - 1)]? =
      some { nodes_ := [(Example.S, [(3, [2])])], populated_ := true } ∧
    assocFind ({ nodes_ := [(Example.S, [(3, [2])])], populated_ := true } : CFGChartItem).nodes_
      Example.decoder.root_symbol_ = some [(3, [2])] ∧
    ∃ g m, TransformGraph Example.decoder 100 (Example.source [0, 1]) = .ok (g, m) ∧
      g.nodes = { id := 0, span := (0, (Example.source [0, 1]).words.length), sym := none,
                  edges := List.range' Example.decoded.ret.edges.length
                    ([(3, [2])] : List StatefulNode).length } ::
                Example.decoded.ret.nodes.tail ∧
      g.edges = Example.decoded.ret.edges ++
        (([(3, [2])] : List StatefulNode).enumFrom Example.decoded.ret.edges.length).map
          (fun p => rootEdgeOf Example.decoder p.1 p.2) ∧
      (∀ sn ∈ ([(3, [2])] : List StatefulNode),
        sn.2.length = Example.decoder.lm_data_.length ∧ 1 ≤ sn.1 ∧ sn.1 < g.nodes.length) ∧
      g.words = (Example.source [0, 1]).words :=
  ⟨by rfl, by rfl, by rfl,
   TransformGraph_root_edges Example.decoder 100 (Example.source [0, 1]) Example.decoded
     { nodes_ := [(Example.S, [(3, [2])])], populated_ := true } [(3, [2])]
     (by rfl) (by rfl) (by rfl)⟩

/-- The statement of C8 on the sentence `a b` with `pop_limit = 0`. -/
theorem TransformGraph_pop_limit_zero_witness :
    Example.decoderNoPop.pop_limit_ = 0 ∧
    (Example.source [0, 1]).words ≠ [] ∧
    (∃ d, mainLoops Example.decoderNoPop 100 (Example.source [0, 1]).words
        = .ok d ∧ d.ret = rootGraph (Example.source [0, 1]).words ∧
      ∀ c ∈ d.chart, c.nodes_ = []) ∧
    TransformGraph Example.decoderNoPop 100 (Example.source [0, 1])
      = .ok (HyperGraph.empty, []) :=
  ⟨rfl, by decide,
   TransformGraph_pop_limit_zero Example.decoderNoPop 100
     (Example.source [0, 1]) rfl (by decide)⟩

/-- The statement of C7 on the loop entered with two hypotheses and `pop_limit = 100`. -/
theorem cubeLoop_pop_limit_witness :
    0 ≤ Example.decoder2.pop_limit_ ∧ Example.entry.num_popped = 0 ∧
    Example.decoder2.pop_limit_ ≤ ((100 : Nat) : Int) ∧
    match cubeLoop Example.decoder2 1 0 0 Example.coll0 100 Example.entry with
    | .ok s => (s.num_popped : Int) ≤ Example.decoder2.pop_limit_ ∧
               ∃ new, s.ret.edges = Example.entry.ret.edges ++ new ∧
                 (new.length : Int) ≤ Example.decoder2.pop_limit_
    | .error e => e = Err.assertion :=
  ⟨by decide, rfl, by decide,
   cubeLoop_pop_limit Example.decoder2 1 0 0 Example.coll0 Example.entry 100
     (by decide) rfl (by decide)⟩

/-- The statement of C4 on two translations of `a` that share their key: the second edge joins
node 1. -/
theorem CubePrune_recombination_witness :
    (Example.collected.chart[0 * 1 + 0]? = some Example.emptyCell ∧ Example.emptyCell.nodes_ = [] ∧
      CubePrune Example.decoder2 100 1 0 0 Example.collected = .ok Example.pruned ∧
      ∃ cell, Example.pruned.chart[0 * 1 + 0]? = some cell ∧
        ((cellKeys cell).map Prod.fst).Nodup ∧
        Example.pruned.ret.nodes.length
          = Example.collected.ret.nodes.length + (cellKeys cell).length) ∧
    (pqTop Example.afterFirst.hypo_queue = some (1, [1]) ∧
      [1] ∉ Example.afterFirst.finished_hyps ∧
      buildEdge Example.decoder2 1 0 0 Example.coll0 Example.afterFirst.chart [1]
        = .ok Example.secondDraft ∧
      assocFind Example.afterFirst.recomb_map Example.secondDraft.ridx = some 1 ∧
      cubeStep Example.decoder2 1 0 0 Example.coll0 Example.afterFirst
        = .ok Example.afterSecond ∧
      Example.afterSecond.chart = Example.afterFirst.chart ∧
      Example.afterSecond.recomb_map = Example.afterFirst.recomb_map ∧
      Example.afterSecond.ret.nodes = Example.afterFirst.ret.nodes.modify
        (fun nd => { nd with edges := nd.edges ++ [Example.afterFirst.ret.edges.length] }) 1 ∧
      Example.afterSecond.ret.edges = Example.afterFirst.ret.edges ++
        [{ id := Example.afterFirst.ret.edges.length, head := some 1,
           tails := Example.secondDraft.tails, features := Example.secondDraft.features,
           score := none, trg_data := Example.secondDraft.rule.trg_data }]) :=
  ⟨⟨by rfl, rfl, by rfl,
    (CubePrune_recombination Example.decoder2 100 1 0 0).1 Example.collected Example.pruned Example.emptyCell
      (by rfl) rfl (by rfl)⟩,
   ⟨by rfl, by decide, by rfl, by rfl, by rfl,
    (CubePrune_recombination Example.decoder2 100 1 0 0).2 Example.coll0 Example.afterFirst
      Example.afterSecond (1, [1]) Example.secondDraft 1
      (by rfl) (by decide) (by rfl) (by rfl) (by rfl)⟩⟩

/-- The statement of C6, as amended, on two translations of `a` with `chart_limit = 1`. -/
theorem CubePrune_chart_limit_witness :
    0 ≤ Example.decoderOne.chart_limit_ ∧
    Example.collected.chart[0 * 1 + 0]? = some Example.emptyCell ∧
    Example.emptyCell.nodes_ = [] ∧
    CubePrune Example.decoderOne 100 1 0 0 Example.collected = .ok Example.prunedOne ∧
    (∃ cell, Example.prunedOne.chart[0 * 1 + 0]? = some cell ∧
      (cellCount cell : Int) ≤ Example.decoderOne.chart_limit_) ∧
    (Example.prunedOne.ret.nodes.length : Int)
      ≤ Example.collected.ret.nodes.length + Example.decoderOne.chart_limit_ ∧
    (∃ top dr cell, pqTop Example.entry.hypo_queue = some top ∧
      buildEdge Example.decoderOne 1 0 0 Example.coll0 Example.collected.chart top.2 = .ok dr ∧
      Example.prunedOne.chart[0 * 1 + 0]? = some cell ∧
      cell.nodes_ = [(dr.rule.head_labels, [(Example.collected.ret.nodes.length, dr.acc.my_state)])] ∧
      cellCount cell = 1 ∧
      Example.prunedOne.ret.nodes = Example.collected.ret.nodes ++
        [{ id := Example.collected.ret.nodes.length, span := (0, 0 + 1),
           sym := some dr.rule.src_data.label,
           edges := [Example.collected.ret.edges.length] }]) :=
  have h := CubePrune_chart_limit Example.decoderOne 100 1 0 0
    Example.collected Example.prunedOne Example.emptyCell (by decide) (by rfl) rfl (by rfl)
  ⟨by decide, by rfl, rfl, by rfl, h.1, h.2.1,
   h.2.2 rfl (by decide) Example.coll0 Example.entry (by rfl) (by decide)⟩

/-- The statement of C5, as amended, on the sentence `a b` decoded with the example grammar. -/
theorem TransformGraph_acyclic_without_unary_witness :
    Example.decoder.unary_rules_ = [] ∧
    TransformGraph Example.decoder 100 (Example.source [0, 1])
      = .ok (Example.translated.1, Example.translated.2) ∧
    (∀ e ∈ Example.translated.1.edges, ∀ hd, e.head = some hd → hd ∉ e.tails) ∧
    (∀ n, ¬ Relation.TransGen (tailOf Example.translated.1) n n) :=
  ⟨rfl, by rfl,
   TransformGraph_acyclic_without_unary Example.decoder 100 (Example.source [0, 1])
     Example.translated.1 Example.translated.2 rfl (by rfl)⟩

/-- C5, counterexample: with the unary rule `X → X / "[X0]"` and the toy language model, the
graph returned for the sentence `a` has three edges; the second, built from the unary rule, has
node 1 as head and node 1 as its only tail. -/
theorem unary_rule_gives_self_loop :
    (TransformGraph Example.decoderU 100 (Example.source [0])).map
        (fun r => r.1.edges.map (fun e => (e.head, e.tails)))
      = .ok [(some 1, []), (some 1, [1]), (some 0, [1])] := by
  rfl

/-- C6, counterexample: with `chart_limit = 1` and `pop_limit = 0` the queue holds two
hypotheses when the loop is reached, yet `CubePrune` leaves the cell without any stateful node
and adds no node to the graph. -/
theorem chart_limit_one_pop_limit_zero_keeps_nothing :
    (cubeInit Example.decoderOneNoPop 1 0 0
        Example.collected.collections Example.collected.chart Example.collected.ret
        Example.collected.viterbi).map (fun r => r.2.hypo_queue)
      = .ok [(2, [0]), (1, [1])] ∧
    (CubePrune Example.decoderOneNoPop 100 1 0 0
        Example.collected).map (fun d => (d.chart.map cellCount, d.ret.nodes.length))
      = .ok ([0], 1) := by
  exact ⟨by rfl, by rfl⟩

/-! ### Oracle, tuning and the incremental composer: the claims -/

/-- C11: with the reference `1 2 3` and a measure that scores 1 for the reference itself and 0
for any other sentence, the n-best list that holds the single candidate `7 8 9` (score 0) makes
`CalculateOracle` return the empty sentence, which is not in the list: `best_score` starts at
`0` and only a strictly greater score replaces `ret`. -/
theorem CalculateOracle_all_zero_returns_empty :
    EvalMeasure.CalculateOracle (fun s => if s = [1, 2, 3] then 1 else 0) [[7, 8, 9]] = [] ∧
    ([] : Sentence) ∉ [[7, 8, 9]] := by
  decide

/-- C19: the constructor fails if and only if the number of language models is not one, and
with exactly one it gives a composer with `stack_pop_limit_ = 0` and `edge_limit_ = 1000`. -/
theorem LMComposerIncremental_construct_iff (lm_data_ : List LMData) :
    ((∃ e, LMComposerIncremental.construct lm_data_ = .error e) ↔ lm_data_.length ≠ 1) ∧
    (lm_data_.length = 1 →
      ∃ c, LMComposerIncremental.construct lm_data_ = .ok c ∧
        c.stack_pop_limit_ = 0 ∧ c.edge_limit_ = 1000 ∧ c.lm_data_ = lm_data_) := by
  unfold LMComposerIncremental.construct
  by_cases h : lm_data_.length = 1
  · simp [h]
  · simp [h]

/-- C20, as amended: when the oracle computation (or the scoring of the oracle sentence) throws
a `std::runtime_error`, `CalculateOracle` lets nothing through and leaves `mult_` in
`oracle_score_`; when nothing is thrown it leaves the score of the oracle sentence times
`mult_`. -/
theorem CalculateOracle_catches_runtime_error (mult_ : Real) (oracle : Except Thrown Sentence)
    (score : Sentence → Except Thrown Real) :
    (oracleTry mult_ oracle score = .error Thrown.runtime_error →
      TuningExampleForest.CalculateOracle mult_ oracle score = .ok mult_) ∧
    (∀ sent sc, oracle = .ok sent → score sent = .ok sc →
      TuningExampleForest.CalculateOracle mult_ oracle score = .ok (sc * mult_)) ∧
    (oracle = .error Thrown.runtime_error →
      TuningExampleForest.CalculateOracle mult_ oracle score = .ok mult_) := by
  refine ⟨?_, ?_, ?_⟩
  · intro h
    simp [TuningExampleForest.CalculateOracle, h]
  · intro sent sc h1 h2
    simp [TuningExampleForest.CalculateOracle, oracleTry, h1, h2]
  · intro h
    simp [TuningExampleForest.CalculateOracle, oracleTry, h]

/-- C20, counterexample: with `mult_ = 2` and an oracle computation that throws a
`std::runtime_error`, the oracle score becomes 2, not 1. -/
theorem CalculateOracle_error_gives_mult :
    TuningExampleForest.CalculateOracle 2 (.error Thrown.runtime_error) (fun _ => .ok 5)
      = .ok 2 := by
  rfl

/-! ### The spans of the convex hull -/

theorem PosZero_eq (dub : Real) : PosZero dub = dub := by
  unfold PosZero
  split
  · next h => simp at h; exact h.symm
  · rfl

theorem hullSpans_cons {S H L : Type} (t : TuningExampleForest S H L) (curr : S) (line : L)
    (rest : List L) :
    t.hullSpans curr (line :: rest) =
      (if t.x line = 0 then [((-t.DBL_MIN, t.DBL_MIN), curr)] else [])
      ++ ((t.x line + t.DBL_MIN, t.nextStart rest - t.DBL_MIN),
          t.TimesEquals (t.CalculateStats (t.ConstructTranslation line)) t.mult_)
      :: t.hullSpans curr rest := by
  simp only [TuningExampleForest.hullSpans, PosZero_eq]

theorem hullSpans_length {S H L : Type} (t : TuningExampleForest S H L) (curr : S)
    (lines : List L) :
    (t.hullSpans curr lines).length
      = lines.length + (lines.filter fun line => decide (t.x line = 0)).length := by
  induction lines with
  | nil => rfl
  | cons line rest ih =>
    rw [hullSpans_cons]
    by_cases h : t.x line = 0
    · simp [h, ih]; omega
    · simp [h, ih]; omega

/-- The first span that the loop makes starts no earlier than the end of a span that ends
where the first line starts, less `DBL_MIN`. -/
theorem hullSpans_lower {S H L : Type} (t : TuningExampleForest S H L) (curr : S)
    (hm : 0 ≤ t.DBL_MIN) (lines : List L) :
    ∀ sp, (t.hullSpans curr lines).head? = some sp → t.nextStart lines - t.DBL_MIN ≤ sp.1.1 := by
  cases lines with
  | nil => intro sp h; simp [TuningExampleForest.hullSpans] at h
  | cons line rest =>
    intro sp h
    rw [hullSpans_cons] at h
    by_cases h0 : t.x line = 0
    · simp [h0] at h
      subst h
      show t.x line - t.DBL_MIN ≤ -t.DBL_MIN
      rw [h0]; linarith
    · simp [h0] at h
      subst h
      show t.x line - t.DBL_MIN ≤ t.x line + t.DBL_MIN
      linarith

theorem hullSpans_chain {S H L : Type} (t : TuningExampleForest S H L) (curr : S)
    (hm : 0 ≤ t.DBL_MIN) (lines : List L) :
    List.Chain' (fun a b : ScoredSpan S => a.1.2 ≤ b.1.1) (t.hullSpans curr lines) := by
  induction lines with
  | nil => simp [TuningExampleForest.hullSpans]
  | cons line rest ih =>
    rw [hullSpans_cons]
    have hown : List.Chain' (fun a b : ScoredSpan S => a.1.2 ≤ b.1.1)
        (((t.x line + t.DBL_MIN, t.nextStart rest - t.DBL_MIN),
          t.TimesEquals (t.CalculateStats (t.ConstructTranslation line)) t.mult_)
          :: t.hullSpans curr rest) := by
      rw [List.chain'_cons']
      refine ⟨?_, ih⟩
      intro sp hsp
      exact hullSpans_lower t curr hm rest sp hsp
    by_cases h0 : t.x line = 0
    · simp only [h0, if_true, List.singleton_append]
      rw [List.chain'_cons']
      refine ⟨?_, by simpa [h0] using hown⟩
      intro sp hsp
      simp at hsp
      subst hsp
      exact le_refl t.DBL_MIN
    · simpa [h0] using hown

/-! ### The memoised recursion of `CalculateMertHull` -/

theorem acyclicBy_node (forest_ : HyperGraph) (rk : Nat → Nat)
    (hac : acyclicBy forest_ rk = true) (n : Nat) (hn : n < forest_.nodes.length) :
    rk n < forest_.nodes.length ∧
    ∃ node, forest_.nodes[n]? = some node ∧ ∀ e ∈ node.edges,
      ∃ edge, forest_.edges[e]? = some edge ∧ ∀ t ∈ edge.tails,
        ∃ tn, forest_.nodes[t]? = some tn ∧ tn.id < forest_.nodes.length ∧ rk tn.id < rk n := by
  unfold acyclicBy at hac
  rw [List.all_eq_true] at hac
  have h1 := hac n (List.mem_range.2 hn)
  cases hnode : forest_.nodes[n]? with
  | none => simp [hnode] at h1
  | some node =>
    simp only [hnode, Bool.and_eq_true, decide_eq_true_eq] at h1
    refine ⟨h1.1, node, rfl, ?_⟩
    have h1 := h1.2
    rw [List.all_eq_true] at h1
    intro e he
    have h2 := h1 e he
    cases hedge : forest_.edges[e]? with
    | none => simp [hedge] at h2
    | some edge =>
      refine ⟨edge, rfl, ?_⟩
      simp only [hedge] at h2
      rw [List.all_eq_true] at h2
      intro t ht
      have h3 := h2 t ht
      cases htn : forest_.nodes[t]? with
      | none => simp [htn] at h3
      | some tn =>
        refine ⟨tn, rfl, ?_⟩
        simpa [htn] using h3

theorem mertTails_ok {H : Type} (ops : MertOps H) (forest_ : HyperGraph) (rk : Nat → Nat)
    (r : Nat) (call : List (Option H) → Nat → Except Err (List (Option H) × H))
    (hcall : CallOK ops forest_ rk r call) (ts : List Nat) :
    ∀ (hulls : List (Option H)) (my : H),
    (∀ t ∈ ts, ∃ tn, forest_.nodes[t]? = some tn ∧ tn.id < forest_.nodes.length ∧ rk tn.id < r) →
    hulls.length = forest_.nodes.length →
    MemoBelow ops forest_ rk r hulls →
    ∃ hulls1 my1, mertTails ops forest_ call ts hulls my = .ok (hulls1, my1) ∧
      (∀ d, r ≤ d → tailProduct ops forest_ (Hull ops forest_ d) ts my = some my1) ∧
      hulls1.length = forest_.nodes.length ∧
      MemoBelow ops forest_ rk r hulls1 ∧
      (∀ k, r ≤ rk k → hulls1[k]? = hulls[k]?) ∧
      (∀ (k : Nat) (h0 : H), hulls[k]? = some (some h0) → hulls1[k]? = some (some h0)) := by
  induction ts with
  | nil =>
    intro hulls my _ hlen hmemo
    exact ⟨hulls, my, rfl, fun _ _ => rfl, hlen, hmemo, fun _ _ => rfl, fun _ _ h => h⟩
  | cons t rest ih =>
    intro hulls my hts hlen hmemo
    obtain ⟨tn, htn, hid, hrk⟩ := hts t (List.mem_cons_self _ _)
    obtain ⟨hulls1, h, hc, hspec, hlen1, hmemo1, hfr1, hpr1⟩ := hcall hulls tn.id hlen hid hrk hmemo
    obtain ⟨hulls2, my2, hc2, hspec2, hlen2, hmemo2, hfr2, hpr2⟩ :=
      ih hulls1 (ops.mul my h) (fun t1 ht1 => hts t1 (List.mem_cons_of_mem _ ht1)) hlen1 hmemo1
    refine ⟨hulls2, my2, ?_, ?_, hlen2, hmemo2, ?_, ?_⟩
    · simp only [mertTails, htn, must, hc, hc2]
    · intro d hd
      simp only [tailProduct, htn, hspec d (by omega), hspec2 d hd]
    · intro k hk
      rw [hfr2 k hk, hfr1 k hk]
    · intro k h0 hk
      exact hpr2 k h0 (hpr1 k h0 hk)

theorem mertEdges_ok {H : Type} (ops : MertOps H) (forest_ : HyperGraph) (rk : Nat → Nat)
    (n : Nat) (hn : n < forest_.nodes.length)
    (call : List (Option H) → Nat → Except Err (List (Option H) × H))
    (hcall : CallOK ops forest_ rk (rk n) call) (es : List Nat) :
    ∀ (hulls : List (Option H)) (acc : H),
    (∀ e ∈ es, ∃ edge, forest_.edges[e]? = some edge ∧ ∀ t ∈ edge.tails,
        ∃ tn, forest_.nodes[t]? = some tn ∧ tn.id < forest_.nodes.length ∧ rk tn.id < rk n) →
    hulls.length = forest_.nodes.length →
    MemoBelow ops forest_ rk (rk n) hulls →
    hulls[n]? = some (some acc) →
    ∃ hulls1 acc1, mertEdges ops forest_ call n es hulls = .ok hulls1 ∧
      hulls1[n]? = some (some acc1) ∧
      (∀ d, rk n ≤ d → edgeSum ops forest_ (Hull ops forest_ d) es acc = some acc1) ∧
      hulls1.length = forest_.nodes.length ∧
      MemoBelow ops forest_ rk (rk n) hulls1 ∧
      (∀ k, rk n ≤ rk k → k ≠ n → hulls1[k]? = hulls[k]?) ∧
      (∀ (k : Nat) (h0 : H), k ≠ n → hulls[k]? = some (some h0) → hulls1[k]? = some (some h0)) := by
  induction es with
  | nil =>
    intro hulls acc _ hlen hmemo hacc
    exact ⟨hulls, acc, rfl, hacc, fun _ _ => rfl, hlen, hmemo, fun _ _ _ => rfl,
      fun _ _ _ h => h⟩
  | cons e rest ih =>
    intro hulls acc hes hlen hmemo hacc
    obtain ⟨edge, hedge, htails⟩ := hes e (List.mem_cons_self _ _)
    obtain ⟨hulls1, my1, hc1, hspec1, hlen1, hmemo1, hfr1, hpr1⟩ :=
      mertTails_ok ops forest_ rk (rk n) call hcall edge.tails hulls (ops.func edge) htails
        hlen hmemo
    have hcur : hulls1[n]? = some (some acc) := by rw [hfr1 n (le_refl _)]; exact hacc
    have hlen2 : (hulls1.set n (some (ops.add acc my1))).length = forest_.nodes.length := by
      rw [List.length_set]; exact hlen1
    have hmemo2 : MemoBelow ops forest_ rk (rk n) (hulls1.set n (some (ops.add acc my1))) := by
      intro k h hk hget d hd
      have hne : n ≠ k := by
        intro heq; subst heq; omega
      rw [List.getElem?_set_ne hne] at hget
      exact hmemo1 k h hk hget d hd
    have hacc2 : (hulls1.set n (some (ops.add acc my1)))[n]? = some (some (ops.add acc my1)) := by
      rw [List.getElem?_set_self (by omega)]
    obtain ⟨hulls3, acc3, hc3, hget3, hspec3, hlen3, hmemo3, hfr3, hpr3⟩ :=
      ih (hulls1.set n (some (ops.add acc my1))) (ops.add acc my1)
        (fun e1 he1 => hes e1 (List.mem_cons_of_mem _ he1)) hlen2 hmemo2 hacc2
    refine ⟨hulls3, acc3, ?_, hget3, ?_, hlen3, hmemo3, ?_, ?_⟩
    · simp [mertEdges, hedge, must, hc1, hcur, hc3]
    · intro d hd
      simp only [edgeSum, hedge, hspec1 d hd, hspec3 d hd]
    · intro k hk hne
      rw [hfr3 k hk hne, List.getElem?_set_ne (Ne.symm hne), hfr1 k hk]
    · intro k h0 hne hk
      apply hpr3 k h0 hne
      rw [List.getElem?_set_ne (Ne.symm hne)]
      exact hpr1 k h0 hk

/-- The memoised recursion on an acyclic forest: a call for node `m` with enough fuel returns
the hull of the specification, stores it, changes no entry already set and none of a node of
rank `r` or more. -/
theorem CalculateMertHull_ok {H : Type} (ops : MertOps H) (forest_ : HyperGraph)
    (rk : Nat → Nat) (hac : acyclicBy forest_ rk = true) (fuel : Nat) :
    ∀ (hulls : List (Option H)) (m r : Nat),
    hulls.length = forest_.nodes.length → m < forest_.nodes.length → rk m < fuel → rk m < r →
    MemoBelow ops forest_ rk r hulls →
    ∃ hulls1 h, CalculateMertHull ops forest_ fuel hulls m = .ok (hulls1, h) ∧
      (∀ d, rk m < d → Hull ops forest_ d m = some h) ∧
      hulls1.length = forest_.nodes.length ∧
      hulls1[m]? = some (some h) ∧
      MemoBelow ops forest_ rk r hulls1 ∧
      (∀ k, r ≤ rk k → hulls1[k]? = hulls[k]?) ∧
      (∀ (k : Nat) (h0 : H), hulls[k]? = some (some h0) → hulls1[k]? = some (some h0)) := by
  induction fuel with
  | zero => intro hulls m r _ _ h; omega
  | succ fuel ih =>
    intro hulls m r hlen hm hfuel hr hmemo
    have hin : m < hulls.length := by omega
    cases hget : hulls[m]? with
    | none =>
      rw [List.getElem?_eq_getElem hin] at hget
      cases hget
    | some entry =>
      cases entry with
      | some h =>
        refine ⟨hulls, h, ?_, hmemo m h hr hget, hlen, hget, hmemo, fun _ _ => rfl,
          fun _ _ h => h⟩
        simp only [CalculateMertHull, hget]
      | none =>
        obtain ⟨_, node, hnode, hedges⟩ := acyclicBy_node forest_ rk hac m hm
        have hmemo0 : MemoBelow ops forest_ rk (rk m) hulls :=
          fun k h hk hg d hd => hmemo k h (by omega) hg d hd
        have hcall : CallOK ops forest_ rk (rk m) (CalculateMertHull ops forest_ fuel) := by
          intro hs k hl hk hrk hmb
          obtain ⟨hs1, h, e1, e2, e3, _, e5, e6, e7⟩ := ih hs k (rk m) hl hk (by omega) hrk hmb
          exact ⟨hs1, h, e1, e2, e3, e5, e6, e7⟩
        have hlen1 : (hulls.set m (some ops.empty)).length = forest_.nodes.length := by
          rw [List.length_set]; exact hlen
        have hmemo1 : MemoBelow ops forest_ rk (rk m) (hulls.set m (some ops.empty)) := by
          intro k h hk hg d hd
          have hne : m ≠ k := by
            intro heq; subst heq; omega
          rw [List.getElem?_set_ne hne] at hg
          exact hmemo0 k h hk hg d hd
        have hacc1 : (hulls.set m (some ops.empty))[m]? = some (some ops.empty) := by
          rw [List.getElem?_set_self hin]
        obtain ⟨hulls2, acc2, hc2, hget2, hspec2, hlen2, hmemo2, hfr2, hpr2⟩ :=
          mertEdges_ok ops forest_ rk m hm (CalculateMertHull ops forest_ fuel) hcall node.edges
            (hulls.set m (some ops.empty)) ops.empty hedges hlen1 hmemo1 hacc1
        have hspec : ∀ d, rk m < d → Hull ops forest_ d m = some acc2 := by
          intro d hd
          cases d with
          | zero => omega
          | succ d =>
            simp only [Hull, hnode]
            exact hspec2 d (by omega)
        refine ⟨hulls2, acc2, ?_, hspec, hlen2, hget2, ?_, ?_, ?_⟩
        · simp [CalculateMertHull, hget, hnode, must, hc2, hget2]
        · intro k h hk hg d hd
          by_cases hkm : k = m
          · subst hkm
            rw [hget2] at hg
            cases hg
            exact hspec d hd
          · by_cases hlt : rk k < rk m
            · exact hmemo2 k h hlt hg d hd
            · rw [hfr2 k (by omega) hkm, List.getElem?_set_ne (Ne.symm hkm)] at hg
              exact hmemo k h hk hg d hd
        · intro k hk
          have hkm : k ≠ m := by
            intro heq; subst heq; omega
          rw [hfr2 k (by omega) hkm, List.getElem?_set_ne (Ne.symm hkm)]
        · intro k h0 hk
          have hkm : k ≠ m := by
            intro heq; subst heq
            rw [hget] at hk
            cases hk
          apply hpr2 k h0 hkm
          rw [List.getElem?_set_ne (Ne.symm hkm)]
          exact hk

theorem MemoBelow_replicate {H : Type} (ops : MertOps H) (forest_ : HyperGraph)
    (rk : Nat → Nat) (r n : Nat) :
    MemoBelow ops forest_ rk r (List.replicate n none) := by
  intro k h _ hg
  rw [List.getElem?_replicate] at hg
  split at hg <;> cases hg

/-! ### The hulls of tuning: the claims -/

/-- C13: on an acyclic forest, a call of `CalculateMertHull` for node `n` with a memo whose
entries are hulls of the specification returns `Hull(n)`, the sum over the edges of `n` in
edge order of `func(edge)` times the hulls of the tails in tail order (the empty hull for a
node without edges); it stores that hull, keeps every entry that was already there and leaves
a memo whose entries are all hulls of the un-memoised recursion, and any later call for `n`
returns the stored hull and the memo as they are. -/
theorem CalculateMertHull_memoised_recursion {H : Type} (ops : MertOps H)
    (forest_ : HyperGraph) (rk : Nat → Nat) (hac : acyclicBy forest_ rk = true)
    (hulls : List (Option H)) (n fuel : Nat)
    (hlen : hulls.length = forest_.nodes.length) (hn : n < forest_.nodes.length)
    (hfuel : rk n < fuel)
    (hmemo : ∀ (k : Nat) (h0 : H), hulls[k]? = some (some h0) →
      ∀ d, rk k < d → Hull ops forest_ d k = some h0) :
    ∃ hulls1 h node, CalculateMertHull ops forest_ fuel hulls n = .ok (hulls1, h) ∧
      forest_.nodes[n]? = some node ∧
      (∀ d, rk n ≤ d →
        edgeSum ops forest_ (Hull ops forest_ d) node.edges ops.empty = some h) ∧
      (∀ d, rk n < d → Hull ops forest_ d n = some h) ∧
      (node.edges = [] → h = ops.empty) ∧
      hulls1[n]? = some (some h) ∧
      (∀ (k : Nat) (h0 : H), hulls[k]? = some (some h0) → hulls1[k]? = some (some h0)) ∧
      (∀ (k : Nat) (h1 : H), hulls1[k]? = some (some h1) →
        ∀ d, rk k < d → Hull ops forest_ d k = some h1) ∧
      (∀ fuel1, 0 < fuel1 → CalculateMertHull ops forest_ fuel1 hulls1 n = .ok (hulls1, h)) := by
  have hmb : ∀ r, MemoBelow ops forest_ rk r hulls := fun r k h0 _ hg => hmemo k h0 hg
  obtain ⟨hulls1, h, hc, hspec, _, hget, _, _, hpr⟩ :=
    CalculateMertHull_ok ops forest_ rk hac fuel hulls n (rk n + 1) hlen hn hfuel (by omega)
      (hmb _)
  obtain ⟨_, node, hnode, _⟩ := acyclicBy_node forest_ rk hac n hn
  have hsum : ∀ d, rk n ≤ d →
      edgeSum ops forest_ (Hull ops forest_ d) node.edges ops.empty = some h := by
    intro d hd
    have := hspec (d + 1) (by omega)
    simpa only [Hull, hnode] using this
  refine ⟨hulls1, h, node, hc, hnode, hsum, hspec, ?_, hget, hpr, ?_, ?_⟩
  · intro hnil
    have := hsum (rk n) (le_refl _)
    rw [hnil] at this
    simp only [edgeSum] at this
    exact (Option.some.inj this).symm
  · intro k h1 hk d hd
    obtain ⟨hulls2, h2, hc2, _, _, _, hmemo2, _, _⟩ :=
      CalculateMertHull_ok ops forest_ rk hac fuel hulls n (rk n + rk k + 1) hlen hn hfuel
        (by omega) (hmb _)
    rw [hc] at hc2
    cases hc2
    exact hmemo2 k h1 (by omega) hk d hd
  · intro fuel1 hf
    cases fuel1 with
    | zero => omega
    | succ f => simp only [CalculateMertHull, hget]

/-- The spans made for the lines before a line stand before the spans made from that line on;
there is one span per line before it and one more per line before it that starts at 0. -/
theorem hullSpans_split {S H L : Type} (t : TuningExampleForest S H L) (curr : S)
    (pre : List L) (line : L) (rest : List L) :
    ∃ before : ConvexHull S,
      before.length = pre.length + (pre.filter fun l => decide (t.x l = 0)).length ∧
      t.hullSpans curr (pre ++ line :: rest) = before ++ t.hullSpans curr (line :: rest) := by
  induction pre with
  | nil => exact ⟨[], rfl, rfl⟩
  | cons p pre ih =>
    obtain ⟨before, hlen, heq⟩ := ih
    rw [List.cons_append, hullSpans_cons, heq]
    by_cases h0 : t.x p = 0
    · refine ⟨((-t.DBL_MIN, t.DBL_MIN), curr) ::
          ((t.x p + t.DBL_MIN, t.nextStart (pre ++ line :: rest) - t.DBL_MIN),
            t.TimesEquals (t.CalculateStats (t.ConstructTranslation p)) t.mult_) :: before,
        ?_, ?_⟩
      · simp [h0, hlen]; omega
      · simp [h0]
    · refine ⟨((t.x p + t.DBL_MIN, t.nextStart (pre ++ line :: rest) - t.DBL_MIN),
            t.TimesEquals (t.CalculateStats (t.ConstructTranslation p)) t.mult_) :: before,
        ?_, ?_⟩
      · simp [h0, hlen]; omega
      · simp [h0]

/-- When no line starts at 0 the loop makes exactly the own spans of the lines, in order. -/
theorem hullSpans_own_exact {S H L : Type} (t : TuningExampleForest S H L) (curr : S)
    (lines : List L) (hno : ∀ line ∈ lines, t.x line ≠ 0) :
    (t.hullSpans curr lines).length = lines.length ∧
    ∀ (i : Nat) (hi : i < lines.length), (t.hullSpans curr lines)[i]? = some
      ((t.x (lines.get ⟨i, hi⟩) + t.DBL_MIN, t.nextStart (lines.drop (i + 1)) - t.DBL_MIN),
        t.TimesEquals (t.CalculateStats (t.ConstructTranslation (lines.get ⟨i, hi⟩))) t.mult_) := by
  induction lines with
  | nil => exact ⟨rfl, fun i hi => absurd hi (Nat.not_lt_zero _)⟩
  | cons l rest ih =>
    have h0 : t.x l ≠ 0 := hno l (List.mem_cons_self _ _)
    obtain ⟨hlen, hget⟩ := ih (fun line hl => hno line (List.mem_cons_of_mem _ hl))
    rw [hullSpans_cons]
    simp only [h0, if_false, List.nil_append]
    refine ⟨by simp [hlen], ?_⟩
    intro i hi
    cases i with
    | zero => simp
    | succ k =>
      have hk : k < rest.length := by simpa using hi
      simpa using hget k hk

/-- On lines in the order of their starts, when a line starts below 0 and the next line (or
`DBL_MAX` after the last line) lies above 0, no line starts at 0. -/
theorem no_zero_start_of_cover {S H L : Type} (t : TuningExampleForest S H L)
    (pre : List L) (line : L) (rest : List L)
    (hsorted : (pre ++ line :: rest).Pairwise (fun a b => t.x a ≤ t.x b))
    (hlow : t.x line < 0) (hnext : 0 < t.nextStart rest) :
    ∀ l ∈ pre ++ line :: rest, t.x l ≠ 0 := by
  rw [List.pairwise_append] at hsorted
  obtain ⟨_, htail, hcross⟩ := hsorted
  rw [List.pairwise_cons] at htail
  intro l hl
  rcases List.mem_append.1 hl with h | h
  · exact ne_of_lt (lt_of_le_of_lt (hcross l h line (List.mem_cons_self _ _)) hlow)
  · rcases List.mem_cons.1 h with h | h
    · rw [h]; exact ne_of_lt hlow
    · cases rest with
      | nil => simp at h
      | cons r0 rs =>
        have h0 : 0 < t.x r0 := hnext
        have hr := htail.2
        rw [List.pairwise_cons] at hr
        rcases List.mem_cons.1 h with e | e
        · rw [e]; exact ne_of_gt h0
        · exact ne_of_gt (lt_of_lt_of_le h0 (hr.1 l e))

/-- C14, as amended: when the hull is computed from the forest, a line of the sorted root hull
that starts exactly at 0 puts the span `(-DBL_MIN, +DBL_MIN)` with the statistics of the
current best hypothesis into the result, right before its own span; a line that does not start
at 0 puts its own span only. The own span of a line goes from its start plus `DBL_MIN` to the
start of the next line (`DBL_MAX` after the last line) minus `DBL_MIN` and carries the
statistics of the translation constructed from the line; it stands after the spans of the
lines before it and before the spans of the lines after it. When no line starts at 0, and so
when the lines are in the order of their starts and one of them covers 0 with its start
strictly below 0, the result is exactly the list of the own spans of the lines, in order. -/
theorem CalculateConvexHull_zero_span {S H L : Type} (t : TuningExampleForest S H L)
    (weights gradient : SparseMap) (curr : S) (lines : List L)
    (hact : t.isActive gradient = true) (hcurr : t.currStats weights = .ok curr)
    (hlines : t.topLines weights gradient = .ok lines) :
    ∃ ret, t.CalculateConvexHull weights gradient = .ok ret ∧
      (∀ pre line rest, lines = pre ++ line :: rest → t.x line = 0 →
        ∃ before : ConvexHull S,
          before.length = pre.length + (pre.filter fun l => decide (t.x l = 0)).length ∧
          ret = before ++ ((-t.DBL_MIN, t.DBL_MIN), curr) ::
            ((t.x line + t.DBL_MIN, t.nextStart rest - t.DBL_MIN),
              t.TimesEquals (t.CalculateStats (t.ConstructTranslation line)) t.mult_) ::
            t.hullSpans curr rest) ∧
      (∀ pre line rest, lines = pre ++ line :: rest → t.x line ≠ 0 →
        ∃ before : ConvexHull S,
          before.length = pre.length + (pre.filter fun l => decide (t.x l = 0)).length ∧
          ret = before ++
            ((t.x line + t.DBL_MIN, t.nextStart rest - t.DBL_MIN),
              t.TimesEquals (t.CalculateStats (t.ConstructTranslation line)) t.mult_) ::
            t.hullSpans curr rest) ∧
      ((∀ line ∈ lines, t.x line ≠ 0) →
        ret.length = lines.length ∧
        ∀ (i : Nat) (hi : i < lines.length), ret[i]? = some
          ((t.x (lines.get ⟨i, hi⟩) + t.DBL_MIN, t.nextStart (lines.drop (i + 1)) - t.DBL_MIN),
            t.TimesEquals (t.CalculateStats (t.ConstructTranslation (lines.get ⟨i, hi⟩)))
              t.mult_)) ∧
      (lines.Pairwise (fun a b => t.x a ≤ t.x b) →
        ∀ pre line rest, lines = pre ++ line :: rest → t.x line < 0 → 0 < t.nextStart rest →
          ret.length = lines.length ∧
          ∀ (i : Nat) (hi : i < lines.length), ret[i]? = some
            ((t.x (lines.get ⟨i, hi⟩) + t.DBL_MIN,
                t.nextStart (lines.drop (i + 1)) - t.DBL_MIN),
              t.TimesEquals (t.CalculateStats (t.ConstructTranslation (lines.get ⟨i, hi⟩)))
                t.mult_)) := by
  refine ⟨t.hullSpans curr lines, ?_, ?_, ?_, ?_, ?_⟩
  · simp [TuningExampleForest.CalculateConvexHull, hcurr, hact, hlines]
  · intro pre line rest hl h0
    obtain ⟨before, hlen, heq⟩ := hullSpans_split t curr pre line rest
    refine ⟨before, hlen, ?_⟩
    rw [hl, heq, hullSpans_cons]
    simp [h0]
  · intro pre line rest hl h0
    obtain ⟨before, hlen, heq⟩ := hullSpans_split t curr pre line rest
    refine ⟨before, hlen, ?_⟩
    rw [hl, heq, hullSpans_cons]
    simp [h0]
  · intro hno
    exact hullSpans_own_exact t curr lines hno
  · intro hsorted pre line rest hl hlow hnext
    refine hullSpans_own_exact t curr lines ?_
    rw [hl]
    exact no_zero_start_of_cover t pre line rest (hl ▸ hsorted) hlow hnext

/-- C15: with a current best hypothesis `sent`, when the set of active features is not empty
and no feature of the gradient is in it, `CalculateConvexHull` returns the single span
`(-DBL_MAX, DBL_MAX)` with the statistics of `sent` times `mult_`; when the set is empty or a
feature of the gradient is in it, the result is made by the loop over the sorted lines of the
hull that `CalculateMertHull` computes for node 0 of the forest, and fails when that fails. -/
theorem CalculateConvexHull_inactive {S H L : Type} (t : TuningExampleForest S H L)
    (weights gradient : SparseMap) (sent : Sentence) (rest : List Sentence)
    (hbest : t.GetNbest weights = sent :: rest) :
    (t.active_ ≠ [] → (∀ val ∈ gradient, val.1 ∉ t.active_) →
      t.CalculateConvexHull weights gradient
        = .ok [((-t.DBL_MAX, t.DBL_MAX), t.TimesEquals (t.CalculateStats sent) t.mult_)]) ∧
    ((t.active_ = [] ∨ ∃ val ∈ gradient, val.1 ∈ t.active_) →
      (∀ lines, t.topLines weights gradient = .ok lines →
        t.CalculateConvexHull weights gradient
          = .ok (t.hullSpans (t.TimesEquals (t.CalculateStats sent) t.mult_) lines)) ∧
      (∀ e, t.topLines weights gradient = .error e →
        t.CalculateConvexHull weights gradient = .error e)) := by
  have hcurr : t.currStats weights = .ok (t.TimesEquals (t.CalculateStats sent) t.mult_) := by
    simp [TuningExampleForest.currStats, hbest, must]
  constructor
  · intro hne hnone
    have hact : t.isActive gradient = false := by
      unfold TuningExampleForest.isActive
      rw [Bool.or_eq_false_iff]
      constructor
      · cases hl : t.active_ with
        | nil => exact absurd hl hne
        | cons a l => rfl
      · rw [List.any_eq_false]
        intro val hv
        simpa using hnone val hv
    simp [TuningExampleForest.CalculateConvexHull, hcurr, hact]
  · intro hor
    have hact : t.isActive gradient = true := by
      unfold TuningExampleForest.isActive
      rw [Bool.or_eq_true]
      rcases hor with h | ⟨val, hv, hin⟩
      · left; simp [h]
      · right
        rw [List.any_eq_true]
        exact ⟨val, hv, by simpa using hin⟩
    constructor
    · intro lines hl
      simp [TuningExampleForest.CalculateConvexHull, hcurr, hact, hl]
    · intro e he
      simp [TuningExampleForest.CalculateConvexHull, hcurr, hact, he]

/-- C16: with `0 ≤ DBL_MIN`, whatever `CalculateConvexHull` returns is in order of location
without overlap: of two consecutive spans the right end of the earlier is at most the left end
of the later; when the hull is computed from the forest the number of spans is the number of
sorted lines plus the number of lines that start at 0. On an acyclic forest with a current best
hypothesis the method does return a hull. -/
theorem CalculateConvexHull_spans_ordered {S H L : Type} (t : TuningExampleForest S H L)
    (weights gradient : SparseMap) (hm : 0 ≤ t.DBL_MIN) :
    (∀ ret, t.CalculateConvexHull weights gradient = .ok ret →
      List.Chain' (fun a b : ScoredSpan S => a.1.2 ≤ b.1.1) ret ∧
      (t.isActive gradient = true → ∃ lines, t.topLines weights gradient = .ok lines ∧
        ret.length = lines.length + (lines.filter fun line => decide (t.x line = 0)).length)) ∧
    (∀ rk, acyclicBy t.forest_ rk = true → 0 < t.forest_.nodes.length →
      t.GetNbest weights ≠ [] → ∃ ret, t.CalculateConvexHull weights gradient = .ok ret) := by
  constructor
  · intro ret hret
    unfold TuningExampleForest.CalculateConvexHull at hret
    cases hcurr : t.currStats weights with
    | error e => simp [hcurr] at hret
    | ok curr =>
      simp only [hcurr] at hret
      cases hact : t.isActive gradient with
      | false =>
        simp [hact] at hret
        subst hret
        simp
      | true =>
        simp only [hact, Bool.not_true] at hret
        cases hl : t.topLines weights gradient with
        | error e => simp [hl] at hret
        | ok lines =>
          simp [hl] at hret
          subst hret
          exact ⟨hullSpans_chain t curr hm lines, fun _ => ⟨lines, rfl, hullSpans_length t curr lines⟩⟩
  · intro rk hac hpos hne
    obtain ⟨hrk, _⟩ := acyclicBy_node t.forest_ rk hac 0 hpos
    obtain ⟨hulls1, h, hc, _, _, hget, _⟩ :=
      CalculateMertHull_ok (t.hull weights gradient) t.forest_ rk hac (t.forest_.nodes.length + 1)
        (List.replicate t.forest_.nodes.length none) 0 (rk 0 + 1) (by simp) hpos (by omega)
        (by omega) (MemoBelow_replicate _ _ _ _ _)
    have hl : t.topLines weights gradient = .ok (t.SortLines h) := by
      simp [TuningExampleForest.topLines, hc, hget, must]
    cases hb : t.GetNbest weights with
    | nil => exact absurd hb hne
    | cons sent rest =>
      have hcurr : t.currStats weights = .ok (t.TimesEquals (t.CalculateStats sent) t.mult_) := by
        simp [TuningExampleForest.currStats, hb, must]
      cases hact : t.isActive gradient with
      | false =>
        exact ⟨[((-t.DBL_MAX, t.DBL_MAX), t.TimesEquals (t.CalculateStats sent) t.mult_)],
          by simp [TuningExampleForest.CalculateConvexHull, hcurr, hact]⟩
      | true =>
        exact ⟨t.hullSpans (t.TimesEquals (t.CalculateStats sent) t.mult_) (t.SortLines h),
          by simp [TuningExampleForest.CalculateConvexHull, hcurr, hact, hl]⟩

/-! ### The claims on the worked examples of the tuning code -/

theorem replicate_none_unset {H : Type} (n k : Nat) (h : H) :
    (List.replicate n (none : Option H))[k]? ≠ some (some h) := by
  rw [List.getElem?_replicate]
  split <;> simp

/-- The statement of C13 on the forest of three nodes, from the memo of null pointers: the
call for the root returns the two derivations of the root. -/
theorem CalculateMertHull_memoised_recursion_witness :
    acyclicBy Example.forest Example.forestRank = true ∧
    ∃ hulls1,
      CalculateMertHull Example.derivations Example.forest 3 (List.replicate 3 none) 0
        = .ok (hulls1, [[0, 2, 3, 3], [1, 3]]) ∧
      Hull Example.derivations Example.forest 3 0 = some [[0, 2, 3, 3], [1, 3]] ∧
      hulls1[0]? = some (some [[0, 2, 3, 3], [1, 3]]) ∧
      CalculateMertHull Example.derivations Example.forest 1 hulls1 0
        = .ok (hulls1, [[0, 2, 3, 3], [1, 3]]) :=
  ⟨by decide,
   match CalculateMertHull_memoised_recursion Example.derivations Example.forest
      Example.forestRank (by decide) (List.replicate 3 none) 0 3 (by decide) (by decide)
      (by decide) (fun k h0 hg => absurd hg (replicate_none_unset 3 k h0)) with
   | ⟨hulls1, h, _, hc, _, _, hs, _, hg, _, _, hlater⟩ =>
     have hh : h = [[0, 2, 3, 3], [1, 3]] :=
       Option.some.inj ((hs 3 (by decide)).symm.trans (by rfl))
     ⟨hulls1, hh ▸ hc, by rfl, hh ▸ hg, hh ▸ hlater 1 (by decide)⟩⟩

/-- C14, counterexample: the sorted root hull has the lines that start at -1000 and at 3, so
the first line covers `x = 0`; the hull returned has the two own spans of the lines and no span
`(-DBL_MIN, +DBL_MIN) = (-1, 1)` with the statistics `[7]` of the current best hypothesis. -/
theorem line_across_zero_gets_no_zero_span :
    (Example.tuningOf [] [-1000, 3]).topLines [] [] = .ok [-1000, 3] ∧
    ((-1000 : Int) ≤ 0 ∧ (0 : Int) < 3) ∧
    (Example.tuningOf [] [-1000, 3]).currStats [] = .ok [7] ∧
    (Example.tuningOf [] [-1000, 3]).CalculateConvexHull [] []
      = .ok [((-999, 2), [-1000]), ((4, 999), [3])] ∧
    (((-1, 1), [7]) : ScoredSpan Sentence) ∉ [((-999, 2), [-1000]), ((4, 999), [3])] :=
  ⟨by rfl, by decide, by rfl, by rfl, by decide⟩

/-- The statement of C14, as amended, on the hull with the lines that start at -1000, 0 and 3:
the span `(-1, 1)` with the statistics `[7]` of the current best hypothesis stands right before
the own span `(1, 2)` of the line that starts at 0, after the one span of the line before it
and before the span `(4, 999)` of the last line; and on the hull with the lines that start at
-1000 and 3, the first of which covers 0: the result has the two own spans. -/
theorem CalculateConvexHull_zero_span_witness :
    (Example.tuningOf [] [-1000, 0, 3]).isActive [] = true ∧
    (Example.tuningOf [] [-1000, 0, 3]).currStats [] = .ok [7] ∧
    (Example.tuningOf [] [-1000, 0, 3]).topLines [] [] = .ok [-1000, 0, 3] ∧
    (Example.tuningOf [] [-1000, 0, 3]).CalculateConvexHull [] []
      = .ok [((-999, -1), [-1000]), ((-1, 1), [7]), ((1, 2), [0]), ((4, 999), [3])] ∧
    (∃ ret, (Example.tuningOf [] [-1000, 0, 3]).CalculateConvexHull [] [] = .ok ret ∧
      ∃ before : ConvexHull Sentence, before.length = 1 ∧
        ret = before ++ [((-1, 1), [7]), ((1, 2), [0]), ((4, 999), [3])]) ∧
    (Example.tuningOf [] [-1000, 3]).topLines [] [] = .ok [-1000, 3] ∧
    ∃ ret, (Example.tuningOf [] [-1000, 3]).CalculateConvexHull [] [] = .ok ret ∧
      ret.length = 2 ∧ ret[0]? = some ((-999, 2), [-1000]) ∧ ret[1]? = some ((4, 999), [3]) :=
  ⟨by rfl, by rfl, by rfl, by rfl,
   match CalculateConvexHull_zero_span (Example.tuningOf [] [-1000, 0, 3]) [] [] [7]
      [-1000, 0, 3] (by rfl) (by rfl) (by rfl) with
   | ⟨ret, hret, hzero, _⟩ =>
     match hzero [-1000] 0 [3] (by rfl) (by rfl) with
     | ⟨before, hlen, heq⟩ => ⟨ret, hret, before, hlen.trans (by rfl), heq⟩,
   by rfl,
   match CalculateConvexHull_zero_span (Example.tuningOf [] [-1000, 3]) [] [] [7]
      [-1000, 3] (by rfl) (by rfl) (by rfl) with
   | ⟨ret, hret, _, _, _, hcover⟩ =>
     match hcover (by decide) [] (-1000) [3] (by rfl) (by decide) (by decide) with
     | ⟨hlen, hget⟩ => ⟨ret, hret, hlen, hget 0 (by decide), hget 1 (by decide)⟩⟩

/-- The statement of C15 on an example whose only active feature, 3, is not in the gradient
(feature 4), and on the same gradient with feature 4 active. -/
theorem CalculateConvexHull_inactive_witness :
    (Example.tuningOf [3] [-1000, 3]).GetNbest [] = [[7]] ∧
    (Example.tuningOf [3] [-1000, 3]).CalculateConvexHull [] [(4, 1)]
      = .ok [((-1000, 1000), [7])] ∧
    (Example.tuningOf [4] [-1000, 3]).CalculateConvexHull [] [(4, 1)]
      = .ok [((-999, 2), [-1000]), ((4, 999), [3])] :=
  ⟨by rfl,
   (CalculateConvexHull_inactive (Example.tuningOf [3] [-1000, 3]) [] [(4, 1)] [7] []
      (by rfl)).1 (by decide) (by decide),
   (((CalculateConvexHull_inactive (Example.tuningOf [4] [-1000, 3]) [] [(4, 1)] [7] []
      (by rfl)).2 (Or.inr ⟨(4, 1), by decide, by decide⟩)).1 [-1000, 3] (by rfl)).trans
     (by rfl)⟩

/-- The statement of C16 on the hull with the lines that start at -1000, 0 and 3: four spans,
in order. -/
theorem CalculateConvexHull_spans_ordered_witness :
    (0 : Int) ≤ (Example.tuningOf [] [-1000, 0, 3]).DBL_MIN ∧
    (Example.tuningOf [] [-1000, 0, 3]).CalculateConvexHull [] []
      = .ok [((-999, -1), [-1000]), ((-1, 1), [7]), ((1, 2), [0]), ((4, 999), [3])] ∧
    List.Chain' (fun a b : ScoredSpan Sentence => a.1.2 ≤ b.1.1)
      [((-999, -1), [-1000]), ((-1, 1), [7]), ((1, 2), [0]), ((4, 999), [3])] ∧
    ∃ ret, (Example.tuningOf [] [-1000, 0, 3]).CalculateConvexHull [] [] = .ok ret :=
  ⟨by decide, by rfl,
   ((CalculateConvexHull_spans_ordered (Example.tuningOf [] [-1000, 0, 3]) [] []
      (by decide)).1 _ (by rfl)).1,
   (CalculateConvexHull_spans_ordered (Example.tuningOf [] [-1000, 0, 3]) [] []
      (by decide)).2 (fun _ => 0) (by decide) (by decide) (by decide)⟩

/-- The statement of C19 on one language model, on none and on two. -/
theorem LMComposerIncremental_construct_iff_witness :
    [Example.wordCountLM].length = 1 ∧
    (∃ c, LMComposerIncremental.construct [Example.wordCountLM] = .ok c ∧
      c.stack_pop_limit_ = 0 ∧ c.edge_limit_ = 1000 ∧ c.lm_data_ = [Example.wordCountLM]) ∧
    (∃ e, LMComposerIncremental.construct [] = .error e) ∧
    (∃ e, LMComposerIncremental.construct [Example.wordCountLM, Example.wordCountLM]
      = .error e) :=
  ⟨by decide,
   (LMComposerIncremental_construct_iff [Example.wordCountLM]).2 (by decide),
   (LMComposerIncremental_construct_iff []).1.2 (by decide),
   (LMComposerIncremental_construct_iff [Example.wordCountLM, Example.wordCountLM]).1.2
     (by decide)⟩

/-- The statement of C20, as amended, with `mult_ = 2`: an oracle computation that throws a
`std::runtime_error` leaves 2, one that gives a sentence of score 5 leaves 10. -/
theorem CalculateOracle_catches_runtime_error_witness :
    oracleTry 2 (.error Thrown.runtime_error) (fun _ => .ok 5) = .error Thrown.runtime_error ∧
    TuningExampleForest.CalculateOracle 2 (.error Thrown.runtime_error) (fun _ => .ok 5)
      = .ok 2 ∧
    TuningExampleForest.CalculateOracle 2 (.ok [7]) (fun _ => .ok 5) = .ok (5 * 2) :=
  ⟨by rfl,
   (CalculateOracle_catches_runtime_error 2 (.error Thrown.runtime_error)
      (fun _ => .ok 5)).1 (by rfl),
   (CalculateOracle_catches_runtime_error 2 (.ok [7]) (fun _ => .ok 5)).2.1 [7] 5
      (by rfl) (by rfl)⟩

/-! ### The n-gram counts of the reference -/

theorem assocFind_ngramIncr (m : NgramMap) (k g : List WordId) :
    assocFind (ngramIncr m k) g
      = if k = g then some ((assocFind m g).getD 0 + 1) else assocFind m g := by
  induction m with
  | nil =>
    by_cases h : k = g
    · simp [ngramIncr, assocFind, h]
    · simp [ngramIncr, assocFind, h]
  | cons p rest ih =>
    obtain ⟨l, c⟩ := p
    by_cases hlk : l = k
    · subst hlk
      by_cases h : l = g
      · simp [ngramIncr, assocFind, h]
      · simp [ngramIncr, assocFind, h]
    · by_cases hlg : l = g
      · have hkg : ¬ k = g := fun e => hlk (hlg.trans e.symm)
        subst hlg
        simp [ngramIncr, assocFind, hlk, hkg]
      · simp [ngramIncr, assocFind, hlk, hlg, ih]

theorem ngramIncr_keys (m : NgramMap) (k : List WordId)
    (h : (m.map Prod.fst).Nodup) : ((ngramIncr m k).map Prod.fst).Nodup ∧
      ∀ g, g ∈ (ngramIncr m k).map Prod.fst → g = k ∨ g ∈ m.map Prod.fst := by
  induction m with
  | nil => simp [ngramIncr]
  | cons p rest ih =>
    obtain ⟨l, c⟩ := p
    rw [List.map_cons, List.nodup_cons] at h
    obtain ⟨ih1, ih2⟩ := ih h.2
    by_cases hlk : l = k
    · simp only [ngramIncr, hlk, if_true, List.map_cons, List.nodup_cons]
      refine ⟨⟨by simpa [hlk] using h.1, h.2⟩, ?_⟩
      intro g hg
      right
      simpa using hg
    · simp only [ngramIncr, hlk, if_false, List.map_cons, List.nodup_cons]
      refine ⟨⟨?_, ih1⟩, ?_⟩
      · intro hmem
        rcases ih2 l hmem with e | e
        · exact hlk e
        · exact h.1 e
      · intro g hg
        rcases List.mem_cons.1 hg with e | e
        · right; simp [e]
        · rcases ih2 g e with e1 | e1
          · left; exact e1
          · right; simp [e1]

theorem getD_set_ngram (maps : List NgramMap) (j n : Nat) (m : NgramMap) (hj : j < maps.length) :
    (maps.set j m).getD n [] = if j = n then m else maps.getD n [] := by
  simp only [List.getD_eq_getElem?_getD, List.getElem?_set]
  by_cases h : j = n
  · subst h
    simp [hj]
  · simp [h]

/-- One start position `i`: the maps stay six, no key comes twice into a map, and the count of
`g` at order `n` goes up by one exactly when the loop reaches order `n` and reads `g`. -/
theorem countFrom_spec (bord_ref : Sentence) (i n : Nat) (g : List WordId) (fuel : Nat) :
    ∀ (j : Nat) (curr : List WordId) (st : NgramCounts) (c : Nat),
    st.ngrams.length = NGRAM_ORDER + 1 → j + fuel ≤ NGRAM_ORDER + 1 →
    i + j ≤ bord_ref.length → curr = (bord_ref.drop i).take j →
    (∀ k, ((st.ngrams.getD k []).map Prod.fst).Nodup) →
    assocFind (st.ngrams.getD n []) g = ofCount c →
    (countFrom bord_ref i fuel j curr st).ngrams.length = NGRAM_ORDER + 1 ∧
    (∀ k, (((countFrom bord_ref i fuel j curr st).ngrams.getD k []).map Prod.fst).Nodup) ∧
    assocFind ((countFrom bord_ref i fuel j curr st).ngrams.getD n []) g
      = ofCount (c + if j ≤ n ∧ n < j + fuel ∧ i + n ≤ bord_ref.length ∧
          (bord_ref.drop i).take n = g then 1 else 0) := by
  induction fuel with
  | zero =>
    intro j curr st c hlen _ _ _ hnd hc
    refine ⟨hlen, hnd, ?_⟩
    have : ¬ (j ≤ n ∧ n < j + 0 ∧ i + n ≤ bord_ref.length ∧ (bord_ref.drop i).take n = g) := by
      intro h; omega
    rw [if_neg this]
    exact hc
  | succ fuel ih =>
    intro j curr st c hlen hj hij hcurr hnd hc
    have hjl : j < st.ngrams.length := by omega
    have hlen1 : (st.ngrams.set j (ngramIncr (st.ngrams.getD j []) curr)).length
        = NGRAM_ORDER + 1 := by
      rw [List.length_set]; exact hlen
    have hnd1 : ∀ k, (((st.ngrams.set j (ngramIncr (st.ngrams.getD j []) curr)).getD k []).map
        Prod.fst).Nodup := by
      intro k
      rw [getD_set_ngram _ _ _ _ hjl]
      by_cases h : j = k
      · simp only [h, if_true]
        exact (ngramIncr_keys _ curr (hnd k)).1
      · simp only [h, if_false]
        exact hnd k
    have hc1 : assocFind ((st.ngrams.set j (ngramIncr (st.ngrams.getD j []) curr)).getD n []) g
        = ofCount (c + if j = n ∧ curr = g then 1 else 0) := by
      rw [getD_set_ngram _ _ _ _ hjl]
      by_cases h : j = n
      · subst h
        simp only [if_true, true_and, assocFind_ngramIncr, hc]
        by_cases hg : curr = g
        · simp only [hg, if_true]
          unfold ofCount
          by_cases h0 : c = 0
          · simp [h0]
          · simp [h0]
        · simp only [hg, if_false, Nat.add_zero]
      · simp only [h, if_false, false_and, Nat.add_zero]
        exact hc
    by_cases hlt : i + j < bord_ref.length
    · have hcurr1 : curr ++ [bord_ref[i + j]] = (bord_ref.drop i).take (j + 1) := by
        rw [List.take_succ, List.getElem?_drop, List.getElem?_eq_getElem hlt, hcurr]
        rfl
      obtain ⟨r1, r2, r3⟩ := ih (j + 1) (curr ++ [bord_ref[i + j]])
        { ngrams := st.ngrams.set j (ngramIncr (st.ngrams.getD j []) curr)
          act_order := max j st.act_order }
        (c + if j = n ∧ curr = g then 1 else 0) hlen1 (by omega) (by omega) hcurr1 hnd1 hc1
      have hiff : j = n → (curr = g ↔ (bord_ref.drop i).take n = g) := by
        intro h; subst h; rw [hcurr]
      simp only [countFrom, hlt, dite_true]
      refine ⟨r1, r2, ?_⟩
      rw [r3]
      congr 1
      by_cases hjn : j = n
      · have e1 : (j = n ∧ curr = g) ↔ (bord_ref.drop i).take n = g :=
          ⟨fun h => (hiff hjn).1 h.2, fun h => ⟨hjn, (hiff hjn).2 h⟩⟩
        have e2 : ¬ (j + 1 ≤ n ∧ n < j + 1 + fuel ∧ i + n ≤ bord_ref.length ∧
            (bord_ref.drop i).take n = g) := by
          intro h; omega
        have e3 : (j ≤ n ∧ n < j + (fuel + 1) ∧ i + n ≤ bord_ref.length ∧
            (bord_ref.drop i).take n = g) ↔ (bord_ref.drop i).take n = g :=
          ⟨fun h => h.2.2.2, fun h => ⟨by omega, by omega, by omega, h⟩⟩
        rw [if_neg e2]
        simp only [e1, e3, Nat.add_zero]
      · have e1 : ¬ (j = n ∧ curr = g) := fun h => hjn h.1
        have e3 : (j ≤ n ∧ n < j + (fuel + 1) ∧ i + n ≤ bord_ref.length ∧
            (bord_ref.drop i).take n = g) ↔ (j + 1 ≤ n ∧ n < j + 1 + fuel ∧
            i + n ≤ bord_ref.length ∧ (bord_ref.drop i).take n = g) :=
          ⟨fun h => ⟨by omega, by omega, h.2.2.1, h.2.2.2⟩,
           fun h => ⟨by omega, by omega, h.2.2.1, h.2.2.2⟩⟩
        rw [if_neg e1]
        simp only [e3, Nat.add_zero]
    · have hiff : j = n → (curr = g ↔ (bord_ref.drop i).take n = g) := by
        intro h; subst h; rw [hcurr]
      simp only [countFrom, hlt, dite_false]
      refine ⟨hlen1, hnd1, ?_⟩
      rw [hc1]
      congr 2
      by_cases hjn : j = n
      · have e1 : (j = n ∧ curr = g) ↔ (bord_ref.drop i).take n = g :=
          ⟨fun h => (hiff hjn).1 h.2, fun h => ⟨hjn, (hiff hjn).2 h⟩⟩
        have e3 : (j ≤ n ∧ n < j + (fuel + 1) ∧ i + n ≤ bord_ref.length ∧
            (bord_ref.drop i).take n = g) ↔ (bord_ref.drop i).take n = g :=
          ⟨fun h => h.2.2.2, fun h => ⟨by omega, by omega, by omega, h⟩⟩
        simp only [e1, e3]
      · have e1 : ¬ (j = n ∧ curr = g) := fun h => hjn h.1
        have e3 : ¬ (j ≤ n ∧ n < j + (fuel + 1) ∧ i + n ≤ bord_ref.length ∧
            (bord_ref.drop i).take n = g) := by
          intro h; omega
        rw [if_neg e1, if_neg e3]

theorem countLoop_spec (bord_ref : Sentence) (n : Nat) (hn : n ≤ NGRAM_ORDER)
    (g : List WordId) (l : List Nat) :
    ∀ (st : NgramCounts) (c : Nat), (∀ i ∈ l, i < bord_ref.length) →
    st.ngrams.length = NGRAM_ORDER + 1 →
    (∀ k, ((st.ngrams.getD k []).map Prod.fst).Nodup) →
    st.act_order ≤ NGRAM_ORDER →
    assocFind (st.ngrams.getD n []) g = ofCount c →
    (l.foldl (fun st i => countFrom bord_ref i (NGRAM_ORDER + 1) 0 [] st) st).ngrams.length
      = NGRAM_ORDER + 1 ∧
    (∀ k, (((l.foldl (fun st i => countFrom bord_ref i (NGRAM_ORDER + 1) 0 [] st)
      st).ngrams.getD k []).map Prod.fst).Nodup) ∧
    assocFind ((l.foldl (fun st i => countFrom bord_ref i (NGRAM_ORDER + 1) 0 [] st)
      st).ngrams.getD n []) g
      = ofCount (c + l.countP fun i =>
          decide (i + n ≤ bord_ref.length ∧ (bord_ref.drop i).take n = g)) := by
  induction l with
  | nil =>
    intro st c _ hlen hnd _ hc
    exact ⟨hlen, hnd, by simpa using hc⟩
  | cons i rest ih =>
    intro st c hl hlen hnd hact hc
    have hi : i < bord_ref.length := hl i (List.mem_cons_self _ _)
    obtain ⟨r1, r2, r3⟩ := countFrom_spec bord_ref i n g (NGRAM_ORDER + 1) 0 [] st c hlen
      (by omega) (by omega) (by simp) hnd hc
    have hact1 : (countFrom bord_ref i (NGRAM_ORDER + 1) 0 [] st).act_order ≤ NGRAM_ORDER := by
      have hgen : ∀ (fuel j : Nat) (curr : List WordId) (s : NgramCounts),
          j + fuel ≤ NGRAM_ORDER + 1 → s.act_order ≤ NGRAM_ORDER →
          (countFrom bord_ref i fuel j curr s).act_order ≤ NGRAM_ORDER := by
        intro fuel
        induction fuel with
        | zero => intro j curr s _ hs; exact hs
        | succ fuel ihf =>
          intro j curr s hj hs
          simp only [countFrom]
          split
          · exact ihf _ _ _ (by omega) (by simp only; omega)
          · simp only; omega
      exact hgen _ _ _ _ (by omega) hact
    obtain ⟨q1, q2, q3⟩ := ih (countFrom bord_ref i (NGRAM_ORDER + 1) 0 [] st) _
      (fun k hk => hl k (List.mem_cons_of_mem _ hk)) r1 r2 hact1 r3
    refine ⟨q1, q2, ?_⟩
    simp only [List.foldl_cons]
    rw [q3]
    congr 1
    rw [List.countP_cons]
    have e : (0 ≤ n ∧ n < 0 + (NGRAM_ORDER + 1) ∧ i + n ≤ bord_ref.length ∧
        (bord_ref.drop i).take n = g) ↔
        (i + n ≤ bord_ref.length ∧ (bord_ref.drop i).take n = g) :=
      ⟨fun h => ⟨h.2.2.1, h.2.2.2⟩, fun h => ⟨by omega, by omega, h.1, h.2⟩⟩
    simp only [e, decide_eq_true_eq]
    omega

/-- After the counting loop the entry of `g` in the map of order `n` is the number of its
occurrences as an n-gram, no key is twice in a map, and there are six maps. -/
theorem countNgrams_spec (bord_ref : Sentence) (n : Nat) (hn : n ≤ NGRAM_ORDER)
    (g : List WordId) :
    (countNgrams bord_ref).ngrams.length = NGRAM_ORDER + 1 ∧
    (∀ k, (((countNgrams bord_ref).ngrams.getD k []).map Prod.fst).Nodup) ∧
    assocFind ((countNgrams bord_ref).ngrams.getD n []) g
      = ofCount (occurrencesAt bord_ref n g) := by
  have h := countLoop_spec bord_ref n hn g (List.range bord_ref.length)
    { ngrams := List.replicate (NGRAM_ORDER + 1) [], act_order := 0 } 0
    (fun i hi => List.mem_range.1 hi) (by simp)
    (by
      intro k
      simp only [List.getD_eq_getElem?_getD, List.getElem?_replicate]
      split <;> simp)
    (by simp)
    (by
      simp only [List.getD_eq_getElem?_getD, List.getElem?_replicate]
      split <;> simp [assocFind, ofCount])
  simpa [countNgrams, occurrencesAt] using h

theorem assocFind_of_mem_nodup {κ β : Type} [DecidableEq κ] (l : List (κ × β)) (k : κ) (b : β)
    (hnd : (l.map Prod.fst).Nodup) (h : (k, b) ∈ l) : assocFind l k = some b := by
  induction l with
  | nil => simp at h
  | cons p rest ih =>
    obtain ⟨a, c⟩ := p
    rw [List.map_cons, List.nodup_cons] at hnd
    rcases List.mem_cons.1 h with e | e
    · cases e
      simp [assocFind]
    · have hne : a ≠ k := by
        intro heq
        subst heq
        exact hnd.1 (List.mem_map.2 ⟨(a, b), e, rfl⟩)
      simp only [assocFind, hne, if_false]
      exact ih hnd.2 e

theorem occurrencesAt_pos_length (sent : Sentence) (n : Nat) (g : List WordId)
    (h : occurrencesAt sent n g ≠ 0) : g.length = n := by
  unfold occurrencesAt at h
  have hpos : 0 < (List.range sent.length).countP fun i =>
      decide (i + n ≤ sent.length ∧ (sent.drop i).take n = g) := Nat.pos_of_ne_zero h
  rw [List.countP_pos_iff] at hpos
  obtain ⟨i, _, hi⟩ := hpos
  simp only [decide_eq_true_eq] at hi
  rw [← hi.2, List.length_take, List.length_drop]
  omega

theorem ofCount_some (k c : Nat) (h : ofCount k = some c) : c = k ∧ k ≠ 0 := by
  unfold ofCount at h
  split at h
  · cases h
  · next hk => cases h; exact ⟨rfl, hk⟩

theorem ofCount_getD (k : Nat) : (ofCount k).getD 0 = k := by
  unfold ofCount
  split
  · next h => simp [h]
  · simp

theorem arpaSections_mem (logf : Nat → Real) (c : NgramCounts) (fuel : Nat) :
    ∀ (n : Nat) (sec : Nat × List (Real × List WordId)), sec ∈ arpaSections logf c fuel n →
      n ≤ sec.1 ∧ sec.1 < n + fuel ∧ sec.2 = arpaSection logf c.ngrams sec.1 := by
  induction fuel with
  | zero => intro n sec h; simp [arpaSections] at h
  | succ fuel ih =>
    intro n sec h
    simp only [arpaSections] at h
    split at h
    · simp at h
    · rcases List.mem_cons.1 h with e | e
      · subst e
        exact ⟨le_refl _, by simp, rfl⟩
      · obtain ⟨h1, h2, h3⟩ := ih (n + 1) sec e
        exact ⟨by omega, by omega, h3⟩

theorem countNgrams_act_order (bord_ref : Sentence) :
    (countNgrams bord_ref).act_order ≤ NGRAM_ORDER := by
  have hgen : ∀ (i fuel j : Nat) (curr : List WordId) (s : NgramCounts),
      j + fuel ≤ NGRAM_ORDER + 1 → s.act_order ≤ NGRAM_ORDER →
      (countFrom bord_ref i fuel j curr s).act_order ≤ NGRAM_ORDER := by
    intro i fuel
    induction fuel with
    | zero => intro j curr s _ hs; exact hs
    | succ fuel ihf =>
      intro j curr s hj hs
      simp only [countFrom]
      split
      · exact ihf _ _ _ (by omega) (by simp only; omega)
      · simp only; omega
  have hfold : ∀ (l : List Nat) (s : NgramCounts), s.act_order ≤ NGRAM_ORDER →
      (l.foldl (fun st i => countFrom bord_ref i (NGRAM_ORDER + 1) 0 [] st) s).act_order
        ≤ NGRAM_ORDER := by
    intro l
    induction l with
    | nil => intro s hs; exact hs
    | cons i rest ih =>
      intro s hs
      exact ih _ (hgen i _ _ _ s (by omega) hs)
  exact hfold _ _ (by simp)

/-- C12: for every reference, after the counting loop, for every order `n` from 0 to 5 and
every word sequence `g` of length `n`, the map of order `n` holds for `g` the number of start
positions at which `g` occurs in the reference between `<s>` and `</s>`, and has no entry for
`g` when that number is 0; and every line written for an n-gram carries `log` of the count of
the n-gram minus `log` of the count of the n-gram without its last word. -/
theorem countNgrams_counts_occurrences (logf : Nat → Real) (bos eos : WordId) (ref : Sentence) :
    (∀ n g, n ≤ NGRAM_ORDER → g.length = n →
      assocFind ((countNgrams (bordered bos eos ref)).ngrams.getD n []) g
        = if occurrences (bordered bos eos ref) g = 0 then none
          else some (occurrences (bordered bos eos ref) g)) ∧
    (∀ sec ∈ oracleArpa logf bos eos ref, ∀ val ∈ sec.2,
      1 ≤ sec.1 ∧ sec.1 ≤ NGRAM_ORDER ∧ val.2.length = sec.1 ∧
      assocFind ((countNgrams (bordered bos eos ref)).ngrams.getD sec.1 []) val.2
        = some (occurrences (bordered bos eos ref) val.2) ∧
      val.1 = logf (occurrences (bordered bos eos ref) val.2)
        - logf (occurrences (bordered bos eos ref) val.2.dropLast)) := by
  constructor
  · intro n g hn hg
    have h := (countNgrams_spec (bordered bos eos ref) n hn g).2.2
    rw [h]
    unfold occurrences ofCount
    rw [hg]
  · intro sec hsec val hval
    unfold oracleArpa at hsec
    obtain ⟨h1, h2, h3⟩ := arpaSections_mem logf _ _ 1 sec hsec
    have hact := countNgrams_act_order (bordered bos eos ref)
    have hn : sec.1 ≤ NGRAM_ORDER := by omega
    rw [h3] at hval
    unfold arpaSection at hval
    obtain ⟨p, hp, hpv⟩ := List.mem_map.1 hval
    have hp1 : p ∈ (countNgrams (bordered bos eos ref)).ngrams.getD sec.1 [] :=
      (List.perm_insertionSort _ _).mem_iff.1 hp
    obtain ⟨_, hnd, hcount⟩ := countNgrams_spec (bordered bos eos ref) sec.1 hn p.1
    have hfind := assocFind_of_mem_nodup _ p.1 p.2 (hnd sec.1) hp1
    rw [hcount] at hfind
    obtain ⟨hc, hne⟩ := ofCount_some _ _ hfind
    have hlen : p.1.length = sec.1 := occurrencesAt_pos_length _ _ _ hne
    have hocc : occurrences (bordered bos eos ref) p.1 = p.2 := by
      unfold occurrences; rw [hlen]; exact hc.symm
    have hctx := (countNgrams_spec (bordered bos eos ref) (sec.1 - 1) (by omega) p.1.dropLast).2.2
    have hctxlen : p.1.dropLast.length = sec.1 - 1 := by
      rw [List.length_dropLast, hlen]
    have hoccx : occurrences (bordered bos eos ref) p.1.dropLast
        = occurrencesAt (bordered bos eos ref) (sec.1 - 1) p.1.dropLast := by
      unfold occurrences; rw [hctxlen]
    subst hpv
    refine ⟨h1, hn, hlen, ?_, ?_⟩
    · show assocFind _ p.1 = some (occurrences (bordered bos eos ref) p.1)
      rw [hcount, hocc, hfind]
    · show logf p.2 - logf ((assocFind _ p.1.dropLast).getD 0) = _
      rw [hctx, ofCount_getD, hocc, hoccx]

/-- The statement of C12 on the reference `5 6 5` with `<s> = 1` and `</s> = 2`: the unigram
`5` is counted twice, the bigram `5 6` once, the bigram `6 6` has no entry, and the line of
`5 6` carries `log 1 - log 2` (here with `log c = 10 c`). -/
theorem countNgrams_counts_occurrences_witness :
    (1 : Nat) ≤ NGRAM_ORDER ∧ (2 : Nat) ≤ NGRAM_ORDER ∧
    assocFind ((countNgrams (bordered 1 2 [5, 6, 5])).ngrams.getD 1 []) [5] = some 2 ∧
    assocFind ((countNgrams (bordered 1 2 [5, 6, 5])).ngrams.getD 2 []) [5, 6] = some 1 ∧
    assocFind ((countNgrams (bordered 1 2 [5, 6, 5])).ngrams.getD 2 []) [6, 6] = none ∧
    (2, arpaSection (fun c => 10 * c) (countNgrams (bordered 1 2 [5, 6, 5])).ngrams 2)
      ∈ oracleArpa (fun c => 10 * c) 1 2 [5, 6, 5] ∧
    ((-10 : Int), ([5, 6] : List WordId))
      ∈ arpaSection (fun c => 10 * c) (countNgrams (bordered 1 2 [5, 6, 5])).ngrams 2 ∧
    (-10 : Int) = (fun c : Nat => (10 * c : Int)) (occurrences (bordered 1 2 [5, 6, 5]) [5, 6])
      - (fun c : Nat => (10 * c : Int)) (occurrences (bordered 1 2 [5, 6, 5]) [5]) :=
  ⟨by decide, by decide,
   ((countNgrams_counts_occurrences (fun c => 10 * c) 1 2 [5, 6, 5]).1 1 [5] (by decide)
      (by decide)).trans (by decide),
   ((countNgrams_counts_occurrences (fun c => 10 * c) 1 2 [5, 6, 5]).1 2 [5, 6] (by decide)
      (by decide)).trans (by decide),
   ((countNgrams_counts_occurrences (fun c => 10 * c) 1 2 [5, 6, 5]).1 2 [6, 6] (by decide)
      (by decide)).trans (by decide),
   by decide, by decide,
   ((countNgrams_counts_occurrences (fun c => 10 * c) 1 2 [5, 6, 5]).2
      (2, arpaSection (fun c => 10 * c) (countNgrams (bordered 1 2 [5, 6, 5])).ngrams 2)
      (by decide) ((-10 : Int), ([5, 6] : List WordId)) (by decide)).2.2.2.2⟩

/-! ### `Forest::Complete`: one edge per key -/

theorem slotLoop_spec (nodes : List HyperNodeQ) (add : PartialEdge) (wids : List WordId) :
    ∀ (acc pr : EdgeParts), slotLoop nodes add wids acc = .ok pr →
      ∃ ts, pr.tails = acc.tails ++ ts ∧
        pr.edge_score = acc.edge_score - (ts.map (viterbiAt nodes)).sum := by
  induction wids with
  | nil =>
    intro acc pr h
    simp only [slotLoop] at h
    cases h
    exact ⟨[], by simp, by simp⟩
  | cons wid rest ih =>
    intro acc pr h
    simp only [slotLoop] at h
    split at h
    · cases hc : add.nt[(-1 - wid).toNat]? with
      | none => simp [hc, must] at h
      | some child =>
        cases hn : nodes[child]? with
        | none => simp [hc, hn, must] at h
        | some childNode =>
          simp only [hc, hn, must] at h
          split at h
          · obtain ⟨ts, h1, h2⟩ := ih _ pr h
            refine ⟨child :: ts, by simpa using h1, ?_⟩
            rw [h2]
            simp only [List.map_cons, List.sum_cons, viterbiAt, hn]
            ring
          · cases h
    · exact ih acc pr h

theorem prepare_score (F : Forest) (nodes : List HyperNodeQ) (add : PartialEdge)
    (pr : EdgeParts) (h : F.prepare nodes add = .ok pr) :
    pr.edge_score = add.score - (pr.tails.map (viterbiAt nodes)).sum := by
  unfold Forest.prepare at h
  cases hnote : add.note with
  | none =>
    simp only [hnote] at h
    obtain ⟨ts, h1, h2⟩ := slotLoop_spec nodes add _ _ pr h
    simp only [List.nil_append] at h1
    rw [h2, h1]
  | some old_edge =>
    simp only [hnote] at h
    cases hd : old_edge.edge.trg_data[F.factor_]? with
    | none => simp [hd, must] at h
    | some data =>
      simp only [hd, must] at h
      obtain ⟨ts, h1, h2⟩ := slotLoop_spec nodes add _ _ pr h
      simp only [List.nil_append] at h1
      rw [h2, h1]

theorem makeEdge_id (F : Forest) (node : Nat) (add : PartialEdge) (pr : EdgeParts) (eid : Nat)
    (e : HyperEdgeQ) (h : F.makeEdge node add pr eid = .ok e) :
    e.id = eid ∧ e.head = some node ∧ e.tails = pr.tails ∧ e.score = pr.edge_score := by
  unfold Forest.makeEdge at h
  cases hnote : add.note with
  | none =>
    simp only [hnote] at h
    cases h
    exact ⟨rfl, rfl, rfl, rfl⟩
  | some old_edge =>
    simp only [hnote] at h
    cases hu : F.lm_unks_[old_edge.edge.id]? with
    | none => simp [hu, must] at h
    | some lm_unk =>
      simp only [hu, must] at h
      cases h
      exact ⟨rfl, rfl, rfl, rfl⟩

theorem firstOfKey_keys (z : List (PartialEdge × EdgeParts)) :
    ∀ seen : List (List Int),
      ((firstOfKey seen z).map fun x => x.2.node_id).Nodup ∧
      (∀ x ∈ firstOfKey seen z, x.2.node_id ∉ seen) ∧
      (∀ x ∈ z, x.2.node_id ∈ seen ∨
        x.2.node_id ∈ (firstOfKey seen z).map fun x => x.2.node_id) ∧
      (∀ x ∈ firstOfKey seen z, x ∈ z ∧
        z.find? (fun y => decide (y.2.node_id = x.2.node_id)) = some x) := by
  induction z with
  | nil => intro seen; simp [firstOfKey]
  | cons y rest ih =>
    intro seen
    by_cases hy : y.2.node_id ∈ seen
    · obtain ⟨h1, h2, h3, h4⟩ := ih seen
      simp only [firstOfKey, hy, if_true]
      refine ⟨h1, h2, ?_, ?_⟩
      · intro x hx
        rcases List.mem_cons.1 hx with e | e
        · left; rw [e]; exact hy
        · exact h3 x e
      · intro x hx
        have hne : ¬ y.2.node_id = x.2.node_id := fun e => h2 x hx (e ▸ hy)
        refine ⟨List.mem_cons_of_mem _ (h4 x hx).1, ?_⟩
        rw [List.find?_cons]
        simp only [hne, decide_False]
        exact (h4 x hx).2
    · obtain ⟨h1, h2, h3, h4⟩ := ih (seen ++ [y.2.node_id])
      simp only [firstOfKey, hy, if_false]
      refine ⟨?_, ?_, ?_, ?_⟩
      · rw [List.map_cons, List.nodup_cons]
        refine ⟨?_, h1⟩
        intro hmem
        obtain ⟨x, hx, hxe⟩ := List.mem_map.1 hmem
        exact h2 x hx (by rw [hxe]; simp)
      · intro x hx
        rcases List.mem_cons.1 hx with e | e
        · rw [e]; exact hy
        · intro hs
          exact h2 x e (List.mem_append_left _ hs)
      · intro x hx
        rcases List.mem_cons.1 hx with e | e
        · right; rw [e]; simp
        · rcases h3 x e with h | h
          · rcases List.mem_append.1 h with h' | h'
            · left; exact h'
            · right
              simp only [List.mem_singleton] at h'
              rw [h']; simp
          · right
            rw [List.map_cons]
            exact List.mem_cons_of_mem _ h
      · intro x hx
        rcases List.mem_cons.1 hx with e | e
        · subst e
          exact ⟨List.mem_cons_self _ _, by simp [List.find?_cons]⟩
        · have hne : ¬ y.2.node_id = x.2.node_id := by
            intro heq
            exact h2 x e (by rw [← heq]; simp)
          refine ⟨List.mem_cons_of_mem _ (h4 x e).1, ?_⟩
          rw [List.find?_cons]
          simp only [hne, decide_False]
          exact (h4 x e).2

theorem assocFind_none_iff {κ β : Type} [DecidableEq κ] (l : List (κ × β)) (k : κ) :
    assocFind l k = none ↔ k ∉ l.map Prod.fst := by
  induction l with
  | nil => simp [assocFind]
  | cons p rest ih =>
    obtain ⟨a, b⟩ := p
    by_cases h : a = k
    · simp [assocFind, h]
    · simp only [assocFind, h, if_false, List.map_cons, List.mem_cons, not_or]
      rw [ih]
      exact ⟨fun hh => ⟨fun e => h e.symm, hh⟩, fun hh => hh.2⟩

/-- The loop of `Complete`: the edges it adds are those made, with consecutive ids, for the
hypotheses that are first of their key. -/
theorem completeLoop_spec (F : Forest) (nodes : List HyperNodeQ) (node : Nat)
    (hyps : List PartialEdge) :
    ∀ (s s1 : CompleteState), Forest.completeLoop F nodes node hyps s = .ok s1 →
      ∃ prs news, List.Forall₂ (fun add pr => F.prepare nodes add = .ok pr) hyps prs ∧
        s1.edges = s.edges ++ news ∧
        s1.node_edges = s.node_edges ++ news.map (fun e => e.id) ∧
        List.Forall₂ (fun x e => F.makeEdge node x.1 x.2 e.id = .ok e)
          (firstOfKey (s.node_memo.map Prod.fst) (hyps.zip prs)) news ∧
        news.map (fun e => e.id) = List.range' s.edges.length news.length := by
  induction hyps with
  | nil =>
    intro s s1 h
    simp only [Forest.completeLoop] at h
    cases h
    exact ⟨[], [], List.Forall₂.nil, by simp, by simp, by simp [firstOfKey], by simp⟩
  | cons add rest ih =>
    intro s s1 h
    simp only [Forest.completeLoop] at h
    cases hstep : F.completeStep nodes node s add with
    | error e => simp [hstep] at h
    | ok s2 =>
      simp only [hstep] at h
      obtain ⟨prs, news, hp, he, hne, hf, hid⟩ := ih s2 s1 h
      unfold Forest.completeStep at hstep
      cases hpr : F.prepare nodes add with
      | error e => simp [hpr] at hstep
      | ok pr =>
        simp only [hpr] at hstep
        cases hmemo : assocFind s.node_memo pr.node_id with
        | some ptr =>
          simp only [hmemo] at hstep
          cases hstep
          have hin : pr.node_id ∈ s.node_memo.map Prod.fst := by
            by_contra hc
            rw [(assocFind_none_iff _ _).2 hc] at hmemo
            cases hmemo
          refine ⟨pr :: prs, news, List.Forall₂.cons hpr hp, he, hne, ?_, hid⟩
          simpa [firstOfKey, hin] using hf
        | none =>
          simp only [hmemo] at hstep
          cases hmk : F.makeEdge node add pr s.edges.length with
          | error e => simp [hmk] at hstep
          | ok edge =>
            simp only [hmk] at hstep
            cases hstep
            have hnin : pr.node_id ∉ s.node_memo.map Prod.fst := (assocFind_none_iff _ _).1 hmemo
            have hidE : edge.id = s.edges.length := (makeEdge_id F node add pr _ edge hmk).1
            refine ⟨pr :: prs, edge :: news, List.Forall₂.cons hpr hp, ?_, ?_, ?_, ?_⟩
            · rw [he]; simp
            · rw [hne]; simp
            · simp only [List.zip_cons_cons, firstOfKey, hnin, if_false]
              refine List.Forall₂.cons ?_ ?_
              · show F.makeEdge node add pr edge.id = .ok edge
                rw [hidE]; exact hmk
              · simpa using hf
            · simp only [List.map_cons, List.length_cons, List.range'_succ]
              rw [hidE, hid]
              simp

/-- The loop of `Complete` runs through when every hypothesis has its parts and its count of
unknown words. -/
theorem completeLoop_total (F : Forest) (nodes : List HyperNodeQ) (node : Nat)
    (hyps : List PartialEdge)
    (hok : ∀ add ∈ hyps, (∃ pr, F.prepare nodes add = .ok pr) ∧
      ∃ src, add.note = some src ∧ src.edge.id < F.lm_unks_.length) :
    ∀ s : CompleteState, ∃ s1, Forest.completeLoop F nodes node hyps s = .ok s1 ∧
      ((hyps ≠ [] ∨ (s.best ≠ none ∧ s.old_edge ≠ none)) →
        s1.best ≠ none ∧ s1.old_edge ≠ none) := by
  induction hyps with
  | nil =>
    intro s
    refine ⟨s, rfl, ?_⟩
    intro h
    rcases h with h | h
    · exact absurd rfl h
    · exact h
  | cons add rest ih =>
    intro s
    obtain ⟨⟨pr, hpr⟩, src, hsrc, hlt⟩ := hok add (List.mem_cons_self _ _)
    have hbest : betterOf s.best add ≠ none := by
      unfold betterOf
      cases s.best with
      | none => simp
      | some b => simp only; split <;> simp
    have hstep : ∃ s2, F.completeStep nodes node s add = .ok s2 ∧ s2.best ≠ none ∧
        s2.old_edge ≠ none := by
      unfold Forest.completeStep
      simp only [hpr]
      cases hmemo : assocFind s.node_memo pr.node_id with
      | some ptr =>
        exact ⟨_, rfl, hbest, by simp [hsrc]⟩
      | none =>
        have hmk : ∃ edge, F.makeEdge node add pr s.edges.length = .ok edge := by
          unfold Forest.makeEdge
          simp only [hsrc, List.getElem?_eq_getElem hlt, must]
          exact ⟨_, rfl⟩
        obtain ⟨edge, hmk⟩ := hmk
        simp only [hmk]
        exact ⟨_, rfl, hbest, by simp [hsrc]⟩
    obtain ⟨s2, hs2, hb2, ho2⟩ := hstep
    obtain ⟨s1, hs1, hinv⟩ := ih (fun a ha => hok a (List.mem_cons_of_mem _ ha)) s2
    refine ⟨s1, ?_, fun _ => hinv (Or.inr ⟨hb2, ho2⟩)⟩
    simp only [Forest.completeLoop, hs2, hs1]

theorem forall₂_mem_right {α β : Type} (R : α → β → Prop) :
    ∀ (l1 : List α) (l2 : List β), List.Forall₂ R l1 l2 → ∀ b ∈ l2, ∃ a ∈ l1, R a b := by
  intro l1 l2 h
  induction h with
  | nil => intro b hb; simp at hb
  | cons hab _ ih =>
    intro b hb
    rcases List.mem_cons.1 hb with e | e
    · subst e
      exact ⟨_, List.mem_cons_self _ _, hab⟩
    · obtain ⟨a, ha, hr⟩ := ih b e
      exact ⟨a, List.mem_cons_of_mem _ ha, hr⟩

theorem forall₂_mem_zip {α β : Type} (R : α → β → Prop) :
    ∀ (l1 : List α) (l2 : List β), List.Forall₂ R l1 l2 → ∀ x ∈ l1.zip l2, R x.1 x.2 := by
  intro l1 l2 h
  induction h with
  | nil => intro x hx; simp at hx
  | cons hab _ ih =>
    intro x hx
    rw [List.zip_cons_cons] at hx
    rcases List.mem_cons.1 hx with e | e
    · subst e
      exact hab
    · exact ih x e

/-- What a run of `Complete` that ends well has done. -/
theorem Complete_ok (F : Forest) (hyps : List PartialEdge) (F1 : Forest) (node : Nat)
    (score : Rat) (h : F.Complete hyps = .ok (F1, node, score)) :
    ∃ s span sym best,
      Forest.completeLoop F F.hg.nodes F.hg.nodes.length hyps
        { edges := F.hg.edges, node_edges := [], node_memo := [], best := none,
          old_edge := none, edge := none } = .ok s ∧
      s.best = some best ∧ node = F.hg.nodes.length ∧ score = best.score ∧
      F1.hg.edges = s.edges ∧
      F1.hg.nodes = F.hg.nodes ++
        [{ id := F.hg.nodes.length, span := span, sym := sym, edges := s.node_edges,
           viterbi_score := best.score }] ∧
      F1.lm_unks_ = F.lm_unks_ := by
  unfold Forest.Complete at h
  cases hl : Forest.completeLoop F F.hg.nodes F.hg.nodes.length hyps
      { edges := F.hg.edges, node_edges := [], node_memo := [], best := none,
        old_edge := none, edge := none } with
  | error e => simp [hl] at h
  | ok s =>
    simp only [hl] at h
    cases hs : F.spanAndSym s with
    | error e => simp [hs] at h
    | ok ss =>
      obtain ⟨span, sym⟩ := ss
      simp only [hs] at h
      cases hb : s.best with
      | none => simp [hb] at h
      | some best =>
        simp only [hb] at h
        cases h
        exact ⟨s, span, sym, best, rfl, hb, rfl, rfl, rfl, rfl, rfl⟩

/-- What the loop over the target words does to the key: the entry of every slot that the words
name is the id of the output node of the child in that slot, the other entries are left as
they were, and the key keeps its length. -/
theorem slotLoop_key (nodes : List HyperNodeQ) (add : PartialEdge) (wids : List WordId) :
    ∀ (acc pr : EdgeParts), slotLoop nodes add wids acc = .ok pr →
      pr.node_id.length = acc.node_id.length ∧
      ∀ tid : Nat,
        ((-1 - (tid : Int)) ∈ wids →
          ∃ child childNode, add.nt[tid]? = some child ∧ nodes[child]? = some childNode ∧
            pr.node_id[tid]? = some (childNode.id : Int)) ∧
        ((-1 - (tid : Int)) ∉ wids → pr.node_id[tid]? = acc.node_id[tid]?) := by
  induction wids with
  | nil =>
    intro acc pr h
    simp only [slotLoop] at h
    cases h
    exact ⟨rfl, fun tid => ⟨fun hm => absurd hm (List.not_mem_nil _), fun _ => rfl⟩⟩
  | cons wid rest ih =>
    intro acc pr h
    simp only [slotLoop] at h
    split at h
    · rename_i hneg
      cases hc : add.nt[(-1 - wid).toNat]? with
      | none => simp [hc, must] at h
      | some child =>
        cases hn : nodes[child]? with
        | none => simp [hc, hn, must] at h
        | some childNode =>
          simp only [hc, hn, must] at h
          split at h
          · rename_i hlt
            obtain ⟨hlen, hkey⟩ := ih _ pr h
            refine ⟨by simpa using hlen, ?_⟩
            intro tid
            by_cases hrest : (-1 - (tid : Int)) ∈ rest
            · exact ⟨fun _ => (hkey tid).1 hrest,
                fun hnot => absurd (List.mem_cons_of_mem _ hrest) hnot⟩
            · have hsame := (hkey tid).2 hrest
              by_cases hw : (-1 - (tid : Int)) = wid
              · have htid : (-1 - wid).toNat = tid := by
                  rw [← hw]
                  simp
                refine ⟨fun _ => ⟨child, childNode, ?_, hn, ?_⟩,
                  fun hnot => absurd (hw ▸ List.mem_cons_self _ _) hnot⟩
                · rw [← htid]; exact hc
                · rw [hsame, ← htid]
                  simp [hlt]
              · have htid : (-1 - wid).toNat ≠ tid := by
                  intro e
                  apply hw
                  have hcast : (((-1 - wid).toNat : Nat) : Int) = -1 - wid :=
                    Int.toNat_of_nonneg (by linarith)
                  rw [e] at hcast
                  linarith
                refine ⟨fun hm => ?_, fun _ => ?_⟩
                · rcases List.mem_cons.1 hm with e | e
                  · exact absurd e hw
                  · exact absurd e hrest
                · rw [hsame]
                  simp [List.getElem?_set, htid]
          · cases h
    · rename_i hneg
      obtain ⟨hlen, hkey⟩ := ih acc pr h
      refine ⟨hlen, ?_⟩
      intro tid
      have hw : (-1 - (tid : Int)) ≠ wid := by
        intro e
        apply hneg
        have hnn : (0 : Int) ≤ (tid : Int) := Int.ofNat_nonneg tid
        rw [← e]
        linarith
      refine ⟨fun hm => ?_, fun hnot => ?_⟩
      · rcases List.mem_cons.1 hm with e | e
        · exact absurd e hw
        · exact (hkey tid).1 e
      · exact (hkey tid).2 (fun e => hnot (List.mem_cons_of_mem _ e))

/-- The key that lines 52-72 of `Complete` make for a hypothesis. For a hypothesis from an edge
of the parse the key has one entry per tail of that edge and one more: the entry of a slot
that the target words name is the id of the output node of the child in that slot, the entry
of a slot that they do not name is 0, and the last entry is the id of the edge of the parse
(unless the target words name a slot past the tails, which line 69 would write there). For
the hypothesis above the root the key is the id of the output node of its only child. -/
theorem prepare_key (F : Forest) (nodes : List HyperNodeQ) (add : PartialEdge)
    (pr : EdgeParts) (h : F.prepare nodes add = .ok pr) :
    (∀ src, add.note = some src →
      ∃ data, src.edge.trg_data[F.factor_]? = some data ∧
        pr.node_id.length = src.edge.tails.length + 1 ∧
        (∀ tid : Nat, (-1 - (tid : Int)) ∈ data.words →
          ∃ child childNode, add.nt[tid]? = some child ∧ nodes[child]? = some childNode ∧
            pr.node_id[tid]? = some (childNode.id : Int)) ∧
        (∀ tid : Nat, tid < src.edge.tails.length → (-1 - (tid : Int)) ∉ data.words →
          pr.node_id[tid]? = some 0) ∧
        ((-1 - (src.edge.tails.length : Int)) ∉ data.words →
          pr.node_id[src.edge.tails.length]? = some (src.edge.id : Int))) ∧
    (add.note = none →
      ∃ child childNode, add.nt[0]? = some child ∧ nodes[child]? = some childNode ∧
        pr.node_id = [(childNode.id : Int)]) := by
  unfold Forest.prepare at h
  constructor
  · intro src hsrc
    simp only [hsrc] at h
    cases hd : src.edge.trg_data[F.factor_]? with
    | none => simp [hd, must] at h
    | some data =>
      simp only [hd, must] at h
      obtain ⟨hlen, hkey⟩ := slotLoop_key nodes add _ _ pr h
      refine ⟨data, rfl, by simpa using hlen, fun tid hm => (hkey tid).1 hm, ?_, ?_⟩
      · intro tid hlt hnot
        rw [(hkey tid).2 hnot]
        simp [List.getElem?_append_left, hlt]
      · intro hnot
        rw [(hkey _).2 hnot]
        simp
  · intro hnone
    simp only [hnone] at h
    obtain ⟨hlen, hkey⟩ := slotLoop_key nodes add _ _ pr h
    obtain ⟨child, childNode, hc, hn, hid⟩ := (hkey 0).1 (by simp)
    refine ⟨child, childNode, hc, hn, ?_⟩
    simp only [List.length_singleton] at hlen
    match hp : pr.node_id, hlen, hid with
    | [a], _, hid =>
      have ha : a = (childNode.id : Int) := by simpa using hid
      rw [ha]

/-! ### `Forest::Complete`: the claims -/

/-- C17: when `Complete` ends well on a list of hypotheses (partial edges), every hypothesis has
a key, `node_id`: for a hypothesis from an edge of the parse it has one entry per tail of that
edge, the entry of a slot named in the target being the id of the output node of the child in
that slot (0 for a slot not named), and as last entry the id of the edge of the parse (when the
target names no slot past the tails); for the hypothesis above the root it is the id of the
output node of its child. The edges that `Complete` adds to the graph, which are the edges of
the new node, are exactly those made, with consecutive ids, from the hypotheses that are the
first of their key: no two of these have the same key, every key of the list is among theirs,
and each is the first hypothesis of the list with its key, so a later hypothesis with the same
key adds nothing, whatever its score. `Complete` does end well on a non-empty list of hypotheses
that come from edges of the parse whose parts and counts of unknown words can be read. -/
theorem Complete_one_edge_per_key (F : Forest) (hyps : List PartialEdge) :
    (∀ F1 node score, F.Complete hyps = .ok (F1, node, score) →
      ∃ prs news newNode,
        List.Forall₂ (fun add pr => F.prepare F.hg.nodes add = .ok pr) hyps prs ∧
        (∀ x ∈ hyps.zip prs, ∀ src, x.1.note = some src →
          ∃ data, src.edge.trg_data[F.factor_]? = some data ∧
            x.2.node_id.length = src.edge.tails.length + 1 ∧
            (∀ tid : Nat, (-1 - (tid : Int)) ∈ data.words →
              ∃ child childNode, x.1.nt[tid]? = some child ∧
                F.hg.nodes[child]? = some childNode ∧
                x.2.node_id[tid]? = some (childNode.id : Int)) ∧
            (∀ tid : Nat, tid < src.edge.tails.length → (-1 - (tid : Int)) ∉ data.words →
              x.2.node_id[tid]? = some 0) ∧
            ((-1 - (src.edge.tails.length : Int)) ∉ data.words →
              x.2.node_id[src.edge.tails.length]? = some (src.edge.id : Int))) ∧
        (∀ x ∈ hyps.zip prs, x.1.note = none →
          ∃ child childNode, x.1.nt[0]? = some child ∧ F.hg.nodes[child]? = some childNode ∧
            x.2.node_id = [(childNode.id : Int)]) ∧
        F1.hg.edges = F.hg.edges ++ news ∧
        F1.hg.nodes = F.hg.nodes ++ [newNode] ∧
        node = F.hg.nodes.length ∧
        newNode.edges = news.map (fun e => e.id) ∧
        news.map (fun e => e.id) = List.range' F.hg.edges.length news.length ∧
        List.Forall₂ (fun x e => F.makeEdge node x.1 x.2 e.id = .ok e)
          (firstOfKey [] (hyps.zip prs)) news ∧
        ((firstOfKey [] (hyps.zip prs)).map fun x => x.2.node_id).Nodup ∧
        (∀ x ∈ hyps.zip prs,
          x.2.node_id ∈ (firstOfKey [] (hyps.zip prs)).map fun x => x.2.node_id) ∧
        (∀ x ∈ firstOfKey [] (hyps.zip prs),
          (hyps.zip prs).find? (fun y => decide (y.2.node_id = x.2.node_id)) = some x)) ∧
    (hyps ≠ [] →
      (∀ add ∈ hyps, (∃ pr, F.prepare F.hg.nodes add = .ok pr) ∧
        ∃ src, add.note = some src ∧ src.edge.id < F.lm_unks_.length) →
      ∃ r, F.Complete hyps = .ok r) := by
  constructor
  · intro F1 node score h
    obtain ⟨s, span, sym, best, hl, _, hnode, _, he, hn, _⟩ := Complete_ok F hyps F1 node score h
    obtain ⟨prs, news, hp, hedges, hne, hf, hid⟩ := completeLoop_spec F _ _ hyps _ s hl
    obtain ⟨k1, _, k3, k4⟩ := firstOfKey_keys (hyps.zip prs) []
    refine ⟨prs, news, _, hp, ?_, ?_, ?_, hn, hnode, ?_, hid, ?_, k1, ?_, ?_⟩
    · intro x hx
      exact (prepare_key F F.hg.nodes x.1 x.2 (forall₂_mem_zip _ _ _ hp x hx)).1
    · intro x hx
      exact (prepare_key F F.hg.nodes x.1 x.2 (forall₂_mem_zip _ _ _ hp x hx)).2
    · rw [he, hedges]
    · simpa using hne
    · rw [hnode]; simpa using hf
    · intro x hx
      rcases k3 x hx with h0 | h0
      · simp at h0
      · exact h0
    · intro x hx
      exact (k4 x hx).2
  · intro hne hok
    obtain ⟨s, hl, hinv⟩ := completeLoop_total F F.hg.nodes F.hg.nodes.length hyps hok
      { edges := F.hg.edges, node_edges := [], node_memo := [], best := none,
        old_edge := none, edge := none }
    obtain ⟨hb, ho⟩ := hinv (Or.inl hne)
    cases hbest : s.best with
    | none => exact absurd hbest hb
    | some best =>
      cases hold : s.old_edge with
      | none => exact absurd hold ho
      | some old_edge =>
        refine ⟨({ F with
                hg :=
                  { nodes := F.hg.nodes ++
                      [{ id := F.hg.nodes.length, span := old_edge.head_span,
                         sym := old_edge.head_sym, edges := s.node_edges,
                         viterbi_score := best.score }]
                    edges := s.edges } },
             F.hg.nodes.length, best.score), ?_⟩
        simp only [Forest.Complete, hl, Forest.spanAndSym, hold, hbest]

/-- C18: every edge that `Complete` adds is made from one of the hypotheses; its score is the
score of the hypothesis minus the Viterbi scores of its tails, the child nodes; and when the
hypothesis comes from an edge of the parse and the weight of the LM is not 0, the features are
those of that edge, then the LM feature `(score - unk * unk_weight - source score) / lm_weight`,
then the feature of unknown words exactly when `unk ≠ 0`, so that
`source score + lm_weight * LM feature + unk_weight * unk` is the new score. -/
theorem Complete_edge_scores (F : Forest) (hyps : List PartialEdge) (F1 : Forest) (node : Nat)
    (score : Rat) (h : F.Complete hyps = .ok (F1, node, score)) (hw : F.lm_weight_ ≠ 0) :
    ∀ e ∈ F1.hg.edges.drop F.hg.edges.length,
      ∃ add ∈ hyps, ∃ pr, F.prepare F.hg.nodes add = .ok pr ∧
        F.makeEdge node add pr e.id = .ok e ∧
        e.score = add.score - (e.tails.map (viterbiAt F.hg.nodes)).sum ∧
        ∀ src, add.note = some src →
          ∃ (unk : Int) (lmfeat : Rat), F.lm_unks_[src.edge.id]? = some unk ∧
            lmfeat = (e.score - unk * F.lm_unk_weight_ - src.edge.score) / F.lm_weight_ ∧
            e.features = src.edge.features ++ [(F.lm_id_, lmfeat)]
              ++ (if unk ≠ 0 then [(F.lm_unk_id_, (unk : Rat))] else []) ∧
            src.edge.score + F.lm_weight_ * lmfeat + F.lm_unk_weight_ * unk = e.score := by
  obtain ⟨s, span, sym, best, hl, _, hnode, _, he, _, _⟩ := Complete_ok F hyps F1 node score h
  obtain ⟨prs, news, hp, hedges, _, hf, _⟩ := completeLoop_spec F _ _ hyps _ s hl
  intro e hmem
  have hnews : e ∈ news := by
    rw [he, hedges] at hmem
    simpa using hmem
  obtain ⟨x, hx, hmk⟩ := forall₂_mem_right _ _ _ hf e hnews
  have hxz : x ∈ hyps.zip prs := ((firstOfKey_keys (hyps.zip prs) []).2.2.2 x hx).1
  have hprep : F.prepare F.hg.nodes x.1 = .ok x.2 := forall₂_mem_zip _ _ _ hp x hxz
  have hxin : x.1 ∈ hyps := (List.of_mem_zip hxz).1
  obtain ⟨_, _, htails, hscore⟩ := makeEdge_id F _ x.1 x.2 e.id e hmk
  have hsc : e.score = x.1.score - (e.tails.map (viterbiAt F.hg.nodes)).sum := by
    rw [hscore, htails]
    exact prepare_score F _ _ _ hprep
  refine ⟨x.1, hxin, x.2, hprep, by rw [hnode]; exact hmk, hsc, ?_⟩
  intro src hsrc
  have hmk2 := hmk
  unfold Forest.makeEdge at hmk2
  simp only [hsrc] at hmk2
  cases hu : F.lm_unks_[src.edge.id]? with
  | none => simp [hu, must] at hmk2
  | some unk =>
    simp only [hu, must] at hmk2
    have hfe : e.features = src.edge.features
        ++ [(F.lm_id_, (x.2.edge_score - unk * F.lm_unk_weight_ - src.edge.score)
              / F.lm_weight_)]
        ++ (if unk ≠ 0 then [(F.lm_unk_id_, (unk : Rat))] else []) := by
      rw [← Except.ok.inj hmk2]
    refine ⟨unk, (e.score - unk * F.lm_unk_weight_ - src.edge.score) / F.lm_weight_, rfl, rfl,
      ?_, ?_⟩
    · rw [hfe, hscore]
    · field_simp
      ring

/-! ### `Forest::Complete`: the claims on the worked example -/

/-- The statement of C17 on three hypotheses from one edge of the parse, the edge 1 with two
tails, the second with the key of the first and a higher score: the keys are `[0, 1, 1]`,
`[0, 1, 1]` and `[1, 1, 1]` (the ids of the children in the slots 0 and 1, then the id of the
edge), and two edges are added, made from the first and from the third hypothesis. -/
theorem Complete_one_edge_per_key_witness :
    Example.incForest.Complete Example.hyps = .ok (Example.incForestAfter, 2, 12) ∧
    Example.hyps.map (fun add =>
        (Example.incForest.prepare Example.incForest.hg.nodes add).toOption.map
          fun pr => pr.node_id)
      = [some [0, 1, 1], some [0, 1, 1], some [1, 1, 1]] ∧
    Example.incForestAfter.hg.edges = [Example.firstEdge, Example.thirdEdge] ∧
    (∃ prs news newNode,
      List.Forall₂ (fun add pr => Example.incForest.prepare Example.incForest.hg.nodes add
        = .ok pr) Example.hyps prs ∧
      (∀ x ∈ Example.hyps.zip prs, ∀ src, x.1.note = some src →
        ∃ data, src.edge.trg_data[Example.incForest.factor_]? = some data ∧
          x.2.node_id.length = src.edge.tails.length + 1 ∧
          (∀ tid : Nat, (-1 - (tid : Int)) ∈ data.words →
            ∃ child childNode, x.1.nt[tid]? = some child ∧
              Example.incForest.hg.nodes[child]? = some childNode ∧
              x.2.node_id[tid]? = some (childNode.id : Int)) ∧
          (∀ tid : Nat, tid < src.edge.tails.length → (-1 - (tid : Int)) ∉ data.words →
            x.2.node_id[tid]? = some 0) ∧
          ((-1 - (src.edge.tails.length : Int)) ∉ data.words →
            x.2.node_id[src.edge.tails.length]? = some (src.edge.id : Int))) ∧
      (∀ x ∈ Example.hyps.zip prs, x.1.note = none →
        ∃ child childNode, x.1.nt[0]? = some child ∧ Example.incForest.hg.nodes[child]? = some childNode ∧
          x.2.node_id = [(childNode.id : Int)]) ∧
      Example.incForestAfter.hg.edges = Example.incForest.hg.edges ++ news ∧
      Example.incForestAfter.hg.nodes = Example.incForest.hg.nodes ++ [newNode] ∧
      2 = Example.incForest.hg.nodes.length ∧
      newNode.edges = news.map (fun e => e.id) ∧
      news.map (fun e => e.id) = List.range' Example.incForest.hg.edges.length news.length ∧
      List.Forall₂ (fun x e => Example.incForest.makeEdge 2 x.1 x.2 e.id = .ok e)
        (firstOfKey [] (Example.hyps.zip prs)) news ∧
      ((firstOfKey [] (Example.hyps.zip prs)).map fun x => x.2.node_id).Nodup ∧
      (∀ x ∈ Example.hyps.zip prs,
        x.2.node_id ∈ (firstOfKey [] (Example.hyps.zip prs)).map fun x => x.2.node_id) ∧
      (∀ x ∈ firstOfKey [] (Example.hyps.zip prs),
        (Example.hyps.zip prs).find? (fun y => decide (y.2.node_id = x.2.node_id)) = some x)) ∧
    Example.hyps ≠ [] ∧
    ∃ r, Example.incForest.Complete Example.hyps = .ok r :=
  ⟨by with_unfolding_all rfl, by with_unfolding_all rfl, rfl,
   (Complete_one_edge_per_key Example.incForest Example.hyps).1 Example.incForestAfter 2 12
     (by with_unfolding_all rfl),
   List.cons_ne_nil _ _,
   (Complete_one_edge_per_key Example.incForest Example.hyps).2 (List.cons_ne_nil _ _)
     (by
       intro add hadd
       simp only [Example.hyps, List.mem_cons, List.mem_singleton, List.not_mem_nil,
         or_false] at hadd
       rcases hadd with e | e | e
       · subst e
         exact ⟨⟨{ tails := [1, 0], edge_score := 5, node_id := [0, 1, 1] },
           by with_unfolding_all rfl⟩, Example.sourceEdge, rfl, by decide⟩
       · subst e
         exact ⟨⟨{ tails := [1, 0], edge_score := 7, node_id := [0, 1, 1] },
           by with_unfolding_all rfl⟩, Example.sourceEdge, rfl, by decide⟩
       · subst e
         exact ⟨⟨{ tails := [1, 1], edge_score := 2, node_id := [1, 1, 1] },
           by with_unfolding_all rfl⟩, Example.sourceEdge, rfl, by decide⟩)⟩

/-- The statement of C18 on the edge made from the first hypothesis: score `10 - 3 - 2 = 5`,
LM feature `(5 - 1 * (-3) - 1) / 2 = 7 / 2`, one unknown word, and `1 + 2 * (7 / 2) - 3 = 5`. -/
theorem Complete_edge_scores_witness :
    Example.incForest.Complete Example.hyps = .ok (Example.incForestAfter, 2, 12) ∧
    Example.incForest.lm_weight_ ≠ 0 ∧
    Example.firstEdge ∈ Example.incForestAfter.hg.edges.drop Example.incForest.hg.edges.length ∧
    Example.firstEdge.features = [(5, 1), (9, 7 / 2), (10, 1)] ∧
    ∃ add ∈ Example.hyps, ∃ pr,
      Example.incForest.prepare Example.incForest.hg.nodes add = .ok pr ∧
      Example.incForest.makeEdge 2 add pr Example.firstEdge.id = .ok Example.firstEdge ∧
      Example.firstEdge.score
        = add.score - (Example.firstEdge.tails.map (viterbiAt Example.incForest.hg.nodes)).sum ∧
      ∀ src, add.note = some src →
        ∃ (unk : Int) (lmfeat : Rat), Example.incForest.lm_unks_[src.edge.id]? = some unk ∧
          lmfeat = (Example.firstEdge.score - unk * Example.incForest.lm_unk_weight_
            - src.edge.score) / Example.incForest.lm_weight_ ∧
          Example.firstEdge.features = src.edge.features
            ++ [(Example.incForest.lm_id_, lmfeat)]
            ++ (if unk ≠ 0 then [(Example.incForest.lm_unk_id_, (unk : Rat))] else []) ∧
          src.edge.score + Example.incForest.lm_weight_ * lmfeat
            + Example.incForest.lm_unk_weight_ * unk = Example.firstEdge.score :=
  ⟨by with_unfolding_all rfl, by decide!, by decide!, rfl,
   Complete_edge_scores Example.incForest Example.hyps Example.incForestAfter 2 12
     (by with_unfolding_all rfl) (by decide!) Example.firstEdge (by decide!)⟩

/-! ### The recursion of `CalculateMertHull` comes to an end on every forest -/

theorem count_none_set_none {H : Type} (l : List (Option H)) :
    ∀ (i : Nat) (x : H), l[i]? = some none →
      ((l.set i (some x)).filter Option.isNone).length + 1
        = (l.filter Option.isNone).length := by
  induction l with
  | nil => intro i x h; simp at h
  | cons a rest ih =>
    intro i x h
    cases i with
    | zero =>
      simp only [List.getElem?_cons_zero, Option.some.injEq] at h
      subst h
      simp [List.filter]
    | succ i =>
      simp only [List.getElem?_cons_succ] at h
      have := ih i x h
      cases a with
      | none =>
        simp only [List.set_cons_succ, List.filter, Option.isNone_none, List.length_cons]
        omega
      | some v =>
        simp only [List.set_cons_succ, List.filter, Option.isNone_some]
        exact this

theorem count_none_set_some {H : Type} (l : List (Option H)) :
    ∀ (i : Nat) (x v : H), l[i]? = some (some v) →
      ((l.set i (some x)).filter Option.isNone).length = (l.filter Option.isNone).length := by
  induction l with
  | nil => intro i x v h; simp at h
  | cons a rest ih =>
    intro i x v h
    cases i with
    | zero =>
      simp only [List.getElem?_cons_zero, Option.some.injEq] at h
      subst h
      simp [List.filter]
    | succ i =>
      simp only [List.getElem?_cons_succ] at h
      have := ih i x v h
      cases a with
      | none =>
        simp only [List.set_cons_succ, List.filter, Option.isNone_none, List.length_cons]
        omega
      | some w =>
        simp only [List.set_cons_succ, List.filter, Option.isNone_some]
        exact this

theorem mertTails_ends {H : Type} (ops : MertOps H) (forest_ : HyperGraph) (c : Nat)
    (call : List (Option H) → Nat → Except Err (List (Option H) × H))
    (hcall : ∀ hulls m, (hulls.filter Option.isNone).length ≤ c →
      call hulls m ≠ .error Err.fuel ∧ ∀ hulls1 h, call hulls m = .ok (hulls1, h) →
        (hulls1.filter Option.isNone).length ≤ (hulls.filter Option.isNone).length)
    (ts : List Nat) :
    ∀ (hulls : List (Option H)) (my : H), (hulls.filter Option.isNone).length ≤ c →
      mertTails ops forest_ call ts hulls my ≠ .error Err.fuel ∧
      ∀ hulls1 my1, mertTails ops forest_ call ts hulls my = .ok (hulls1, my1) →
        (hulls1.filter Option.isNone).length ≤ (hulls.filter Option.isNone).length := by
  induction ts with
  | nil =>
    intro hulls my _
    refine ⟨by simp [mertTails], ?_⟩
    intro hulls1 my1 h
    simp only [mertTails] at h
    cases h
    exact le_refl _
  | cons t rest ih =>
    intro hulls my hc
    cases hn : forest_.nodes[t]? with
    | none => simp [mertTails, hn, must]
    | some node =>
      obtain ⟨hne, hle⟩ := hcall hulls node.id hc
      cases hr : call hulls node.id with
      | error e =>
        refine ⟨?_, ?_⟩
        · simp only [mertTails, hn, must, hr]
          intro h
          apply hne
          rw [hr, Except.error.inj h]
        · intro hulls1 my1 h
          simp [mertTails, hn, must, hr] at h
      | ok res =>
        obtain ⟨hulls2, h2⟩ := res
        have hle2 := hle hulls2 h2 hr
        obtain ⟨i1, i2⟩ := ih hulls2 (ops.mul my h2) (by omega)
        refine ⟨?_, ?_⟩
        · simp only [mertTails, hn, must, hr]
          exact i1
        · intro hulls1 my1 h
          simp only [mertTails, hn, must, hr] at h
          have := i2 hulls1 my1 h
          omega

theorem mertEdges_ends {H : Type} (ops : MertOps H) (forest_ : HyperGraph) (c : Nat)
    (call : List (Option H) → Nat → Except Err (List (Option H) × H))
    (hcall : ∀ hulls m, (hulls.filter Option.isNone).length ≤ c →
      call hulls m ≠ .error Err.fuel ∧ ∀ hulls1 h, call hulls m = .ok (hulls1, h) →
        (hulls1.filter Option.isNone).length ≤ (hulls.filter Option.isNone).length)
    (node_id : Nat) (es : List Nat) :
    ∀ (hulls : List (Option H)), (hulls.filter Option.isNone).length ≤ c →
      mertEdges ops forest_ call node_id es hulls ≠ .error Err.fuel ∧
      ∀ hulls1, mertEdges ops forest_ call node_id es hulls = .ok hulls1 →
        (hulls1.filter Option.isNone).length ≤ (hulls.filter Option.isNone).length := by
  induction es with
  | nil =>
    intro hulls _
    refine ⟨by simp [mertEdges], ?_⟩
    intro hulls1 h
    simp only [mertEdges] at h
    cases h
    exact le_refl _
  | cons e rest ih =>
    intro hulls hc
    cases he : forest_.edges[e]? with
    | none => simp [mertEdges, he, must]
    | some edge =>
      obtain ⟨t1, t2⟩ := mertTails_ends ops forest_ c call hcall edge.tails hulls
        (ops.func edge) hc
      cases hr : mertTails ops forest_ call edge.tails hulls (ops.func edge) with
      | error err =>
        refine ⟨?_, ?_⟩
        · simp only [mertEdges, he, must, hr]
          intro h
          apply t1
          rw [hr, Except.error.inj h]
        · intro hulls1 h
          simp [mertEdges, he, must, hr] at h
      | ok res =>
        obtain ⟨hulls2, my2⟩ := res
        have hle2 := t2 hulls2 my2 hr
        cases hcur : hulls2[node_id]? with
        | none => simp [mertEdges, he, must, hr, hcur]
        | some entry =>
          cases entry with
          | none => simp [mertEdges, he, must, hr, hcur]
          | some cur =>
            have hset := count_none_set_some hulls2 node_id (ops.add cur my2) cur hcur
            obtain ⟨i1, i2⟩ := ih (hulls2.set node_id (some (ops.add cur my2))) (by omega)
            refine ⟨?_, ?_⟩
            · simp [mertEdges, he, must, hr, hcur]
              exact i1
            · intro hulls1 h
              simp [mertEdges, he, must, hr, hcur] at h
              have := i2 hulls1 h
              omega

/-- With more fuel than there are null entries in the memo, `CalculateMertHull` never stops
for lack of fuel, on any forest, and it adds no null entry. -/
theorem CalculateMertHull_ends {H : Type} (ops : MertOps H) (forest_ : HyperGraph)
    (fuel : Nat) :
    ∀ (hulls : List (Option H)) (m : Nat), (hulls.filter Option.isNone).length < fuel →
      CalculateMertHull ops forest_ fuel hulls m ≠ .error Err.fuel ∧
      ∀ hulls1 h, CalculateMertHull ops forest_ fuel hulls m = .ok (hulls1, h) →
        (hulls1.filter Option.isNone).length ≤ (hulls.filter Option.isNone).length := by
  induction fuel with
  | zero => intro hulls m h; omega
  | succ fuel ih =>
    intro hulls m hc
    cases hget : hulls[m]? with
    | none => simp [CalculateMertHull, hget]
    | some entry =>
      cases entry with
      | some h =>
        refine ⟨by simp [CalculateMertHull, hget], ?_⟩
        intro hulls1 h1 hh
        simp only [CalculateMertHull, hget] at hh
        cases hh
        exact le_refl _
      | none =>
        have hset := count_none_set_none hulls m ops.empty hget
        cases hn : forest_.nodes[m]? with
        | none => simp [CalculateMertHull, hget, hn, must]
        | some node =>
          have hcall : ∀ hs k, (hs.filter Option.isNone).length ≤ fuel - 1 →
              CalculateMertHull ops forest_ fuel hs k ≠ .error Err.fuel ∧
              ∀ hs1 h, CalculateMertHull ops forest_ fuel hs k = .ok (hs1, h) →
                (hs1.filter Option.isNone).length ≤ (hs.filter Option.isNone).length := by
            intro hs k hk
            exact ih hs k (by omega)
          obtain ⟨e1, e2⟩ := mertEdges_ends ops forest_ (fuel - 1)
            (CalculateMertHull ops forest_ fuel) hcall m node.edges
            (hulls.set m (some ops.empty)) (by omega)
          cases hr : mertEdges ops forest_ (CalculateMertHull ops forest_ fuel) m node.edges
              (hulls.set m (some ops.empty)) with
          | error err =>
            refine ⟨?_, ?_⟩
            · simp only [CalculateMertHull, hget, hn, must, hr]
              intro h
              apply e1
              rw [hr, Except.error.inj h]
            · intro hs1 h hh
              simp [CalculateMertHull, hget, hn, must, hr] at hh
          | ok hulls2 =>
            have hle := e2 hulls2 hr
            cases hcur : hulls2[m]? with
            | none => simp [CalculateMertHull, hget, hn, must, hr, hcur]
            | some entry =>
              cases entry with
              | none => simp [CalculateMertHull, hget, hn, must, hr, hcur]
              | some cur =>
                refine ⟨by simp [CalculateMertHull, hget, hn, must, hr, hcur], ?_⟩
                intro hs1 h hh
                simp [CalculateMertHull, hget, hn, must, hr, hcur] at hh
                obtain ⟨hh1, _⟩ := hh
                subst hh1
                omega

/-- The fuel that `topLines` gives to `CalculateMertHull` is enough on every forest. -/
theorem topLines_never_out_of_fuel {S H L : Type} (t : TuningExampleForest S H L)
    (weights gradient : SparseMap) :
    t.topLines weights gradient ≠ .error Err.fuel := by
  have hfil : ((List.replicate t.forest_.nodes.length (none : Option H)).filter
      Option.isNone).length < t.forest_.nodes.length + 1 := by
    have := List.length_filter_le Option.isNone
      (List.replicate t.forest_.nodes.length (none : Option H))
    simp only [List.length_replicate] at this
    omega
  obtain ⟨h1, _⟩ := CalculateMertHull_ends (t.hull weights gradient) t.forest_
    (t.forest_.nodes.length + 1) (List.replicate t.forest_.nodes.length none) 0 hfil
  unfold TuningExampleForest.topLines
  cases hr : CalculateMertHull (t.hull weights gradient) t.forest_
      (t.forest_.nodes.length + 1) (List.replicate t.forest_.nodes.length none) 0 with
  | error e =>
    simp only
    intro h
    apply h1
    rw [hr, Except.error.inj h]
  | ok res =>
    obtain ⟨hulls, top⟩ := res
    simp only
    cases hcur : hulls[0]? with
    | none => simp [must]
    | some entry =>
      cases entry with
      | none => simp [must]
      | some cur => simp [must]

/-! ### CfgData, the chart cell and the queue of `CubePrune`: the claims -/

/-- C25, counterexample: the empty CfgData and the child with the single terminal word `5`
and label `3` both satisfy the invariant, and after `AppendChild` the words `[5]` have no
negative entry while the symbols are `[3]`. -/
theorem AppendChild_terminal_child_breaks_invariant :
    CfgData.SlotsMatch { words := [] } ∧
    CfgData.SlotsMatch { words := [5], label := 3 } ∧
    CfgData.AppendChild { words := [] } { words := [5], label := 3 }
      = { words := [5], label := -1, syms := [3] } ∧
    ¬ CfgData.SlotsMatch (CfgData.AppendChild { words := [] } { words := [5], label := 3 }) := by
  decide

/-- C25, as amended: for a CfgData `d` that satisfies the invariant, `d` satisfies it again
after `d.AppendChild(child)` if and only if the words of the child have exactly one negative
entry; a child that satisfies the invariant itself does so exactly when it has one symbol. -/
theorem AppendChild_preserves_iff_one_slot (d child : CfgData) (hd : d.SlotsMatch) :
    ((d.AppendChild child).words = d.words ++ child.words ∧
     (d.AppendChild child).syms = d.syms ++ [child.label]) ∧
    ((d.AppendChild child).SlotsMatch ↔ negCount child.words = 1) ∧
    (child.SlotsMatch → ((d.AppendChild child).SlotsMatch ↔ child.syms.length = 1)) := by
  unfold CfgData.SlotsMatch at *
  have hcount : negCount (d.AppendChild child).words = negCount d.words + negCount child.words := by
    simp [CfgData.AppendChild, negCount, List.countP_append]
  have hlen : (d.AppendChild child).syms.length = d.syms.length + 1 := by
    simp [CfgData.AppendChild]
  refine ⟨⟨rfl, rfl⟩, ?_, ?_⟩
  · rw [hcount, hlen]; omega
  · intro hc
    rw [hcount, hlen]; omega

theorem vecLt_irrefl : ∀ a : List Int, vecLt a a = false := by
  intro a
  induction a with
  | nil => rfl
  | cons x xs ih => simp [vecLt, ih]

theorem vecLt_total : ∀ a b : List Int, a ≠ b → vecLt a b = true ∨ vecLt b a = true := by
  intro a
  induction a with
  | nil =>
    intro b hb
    cases b with
    | nil => exact absurd rfl hb
    | cons y ys => left; rfl
  | cons x xs ih =>
    intro b hb
    cases b with
    | nil => right; rfl
    | cons y ys =>
      rcases lt_trichotomy x y with h | h | h
      · left; simp [vecLt, h]
      · subst h
        have hne : xs ≠ ys := fun e => hb (by rw [e])
        rcases ih ys hne with h1 | h1
        · left; simp [vecLt, h1]
        · right; simp [vecLt, h1]
      · right; simp [vecLt, h]

theorem vecLt_trans : ∀ a b c : List Int, vecLt a b = true → vecLt b c = true →
    vecLt a c = true := by
  intro a
  induction a with
  | nil =>
    intro b c hab hbc
    cases b with
    | nil => simp [vecLt] at hab
    | cons y ys =>
      cases c with
      | nil => simp [vecLt] at hbc
      | cons z zs => rfl
  | cons x xs ih =>
    intro b c hab hbc
    cases b with
    | nil => simp [vecLt] at hab
    | cons y ys =>
      cases c with
      | nil => simp [vecLt] at hbc
      | cons z zs =>
        simp only [vecLt] at hab hbc ⊢
        rcases lt_trichotomy x y with h | h | h
        · rcases lt_trichotomy y z with h2 | h2 | h2
          · simp [lt_trans h h2]
          · subst h2; simp [h]
          · simp [h2, not_lt_of_gt h2] at hbc
        · subst h
          simp only [lt_irrefl, if_false] at hab
          rcases lt_trichotomy x z with h2 | h2 | h2
          · simp [h2]
          · subst h2
            simp only [lt_irrefl, if_false] at hbc ⊢
            exact ih ys zs hab hbc
          · simp [h2, not_lt_of_gt h2] at hbc
        · simp [h, not_lt_of_gt h] at hab

theorem hypLt_irrefl (x : Real × List Int) : hypLt x x = false := by
  simp [hypLt, vecLt_irrefl]

theorem hypLt_total (x y : Real × List Int) (h : x ≠ y) :
    hypLt x y = true ∨ hypLt y x = true := by
  obtain ⟨a, u⟩ := x
  obtain ⟨b, v⟩ := y
  rcases lt_trichotomy a b with h1 | h1 | h1
  · left; simp [hypLt, h1]
  · subst h1
    have hne : u ≠ v := fun e => h (by rw [e])
    rcases vecLt_total u v hne with h2 | h2
    · left; simp [hypLt, h2]
    · right; simp [hypLt, h2]
  · right; simp [hypLt, h1]

theorem hypLt_trans (x y z : Real × List Int) (hxy : hypLt x y = true)
    (hyz : hypLt y z = true) : hypLt x z = true := by
  obtain ⟨a, u⟩ := x
  obtain ⟨b, v⟩ := y
  obtain ⟨c, w⟩ := z
  simp only [hypLt] at hxy hyz ⊢
  rcases lt_trichotomy a b with h | h | h
  · rcases lt_trichotomy b c with h2 | h2 | h2
    · simp [lt_trans h h2]
    · subst h2; simp [h]
    · simp [h2, not_lt_of_gt h2] at hyz
  · subst h
    simp only [lt_irrefl, if_false] at hxy
    rcases lt_trichotomy a c with h2 | h2 | h2
    · simp [h2]
    · subst h2
      simp only [lt_irrefl, if_false] at hyz ⊢
      exact vecLt_trans u v w hxy hyz
    · simp [h2, not_lt_of_gt h2] at hyz
  · simp [h, not_lt_of_gt h] at hxy

/-- The top of the queue is one of its elements and no element is greater. -/
theorem pqTop_max : ∀ (q : List (Real × List Int)) (x : Real × List Int),
    pqTop q = some x → x ∈ q ∧ ∀ y ∈ q, hypLt x y = false := by
  intro q
  induction q with
  | nil => intro x h; simp [pqTop] at h
  | cons a rest ih =>
    intro x h
    simp only [pqTop] at h
    cases hr : pqTop rest with
    | none =>
      simp only [hr] at h
      cases h
      have hnil : rest = [] := by
        cases rest with
        | nil => rfl
        | cons b r =>
          simp only [pqTop] at hr
          split at hr
          · cases hr
          · split at hr <;> cases hr
      subst hnil
      refine ⟨List.mem_cons_self _ _, ?_⟩
      intro y hy
      simp only [List.mem_singleton] at hy
      subst hy
      exact hypLt_irrefl y
    | some y0 =>
      simp only [hr] at h
      obtain ⟨hmem, hmax⟩ := ih y0 hr
      by_cases hlt : hypLt a y0 = true
      · simp only [hlt, if_true] at h
        cases h
        refine ⟨List.mem_cons_of_mem _ hmem, ?_⟩
        intro y hy
        rcases List.mem_cons.1 hy with e | e
        · subst e
          cases hc : hypLt x y with
          | false => rfl
          | true =>
            have := hypLt_trans y x y hlt hc
            rw [hypLt_irrefl] at this
            cases this
        · exact hmax y e
      · simp only [hlt] at h
        cases h
        refine ⟨List.mem_cons_self _ _, ?_⟩
        intro y hy
        rcases List.mem_cons.1 hy with e | e
        · subst e; exact hypLt_irrefl y
        · cases hc : hypLt a y with
          | false => rfl
          | true =>
            exfalso
            by_cases heq : y0 = y
            · subst heq
              exact hlt hc
            · rcases hypLt_total y0 y heq with h1 | h1
              · rw [hmax y e] at h1
                cases h1
              · exact hlt (hypLt_trans a y y0 hc h1)

/-- C21, counterexample: `FinalizeNodes` on a cell with two nodes, which score 5 and 7, sorts
it and marks it populated, and a second call on the populated cell returns a cell, the sorted
one: nothing is rejected. -/
theorem FinalizeNodes_second_call_succeeds :
    FinalizeNodes Example.decoder Example.twoScores Example.twoNodes = Example.twoNodesSorted ∧
    Example.twoNodesSorted.populated_ = true ∧
    FinalizeNodes Example.decoder Example.twoScores Example.twoNodesSorted
      = Example.twoNodesSorted := by
  decide

/-- C21, as amended: `FinalizeNodes` has no guard: called on a cell that it has already
finalised it sorts every bucket again (same labels, the nodes rearranged so that the stored
scores do not increase) and gives a populated cell. What is rejected is `CubePrune` on a span
whose cell is populated (the assertion of line 167), so a second `CubePrune` for the same span
fails. -/
theorem FinalizeNodes_unguarded_CubePrune_guarded (t : LookupTableCFGLM) (m : ViterbiMemo)
    (c : CFGChartItem) :
    (FinalizeNodes t m c).populated_ = true ∧
    (FinalizeNodes t m (FinalizeNodes t m c)).populated_ = true ∧
    List.Forall₂
      (fun first second => second.1 = first.1 ∧ second.2.Perm first.2 ∧
        second.2.Pairwise (fun x y => GetViterbiScore t m y.1 ≤ GetViterbiScore t m x.1))
      (FinalizeNodes t m c).nodes_ (FinalizeNodes t m (FinalizeNodes t m c)).nodes_ ∧
    (∀ fuel N i j (d : Decode) (cell : CFGChartItem), d.chart[i * N + j]? = some cell →
      cell.populated_ = true → CubePrune t fuel N i j d = .error Err.assertion) ∧
    (∀ fuel N i j (d d1 : Decode), CubePrune t fuel N i j d = .ok d1 →
      ∀ fuel1, CubePrune t fuel1 N i j d1 = .error Err.assertion) := by
  have hguard : ∀ fuel N i j (d : Decode) (cell : CFGChartItem),
      d.chart[i * N + j]? = some cell → cell.populated_ = true →
      CubePrune t fuel N i j d = .error Err.assertion := by
    intro fuel N i j d cell hcell hpop
    simp [CubePrune, cubeInit, bind, Except.bind, must, hcell, hpop]
  refine ⟨rfl, rfl, FinalizeNodes_buckets t m (FinalizeNodes t m c), hguard, ?_⟩
  · intro fuel N i j d d1 h fuel1
    obtain ⟨_, _, _, _, cellF, _, _, _, _, _, _, hF, hpop, _⟩ := CubePrune_final h
    exact hguard fuel1 N i j d1 cellF hF hpop

/-- C22, counterexample: the hypothesis `(5, [0, 0])` is queued first, `(5, [1, 0])` second,
with the same score; the top of the queue is the second one. -/
theorem later_hypothesis_popped_first :
    pqTop ([(5, [0, 0])] ++ [(5, [1, 0])]) = some (5, [1, 0]) ∧
    pqPop ([(5, [0, 0])] ++ [(5, [1, 0])]) = [(5, [0, 0])] := by
  decide

/-- C22, as amended: the hypothesis that is popped is one of the queue and no queued
hypothesis is greater in the order of `pair<Real, vector<int> >`; so of two queued hypotheses
with equal score and different position vectors, the one with the lexicographically greater
position vector is popped first, wherever the two stand in the order of insertion. -/
theorem pqTop_ties_by_position_vector (q : List (Real × List Int)) (x y : Real × List Int)
    (htop : pqTop q = some x) (hy : y ∈ q) :
    x ∈ q ∧ hypLt x y = false ∧ (y.1 = x.1 → y.2 ≠ x.2 → vecLt y.2 x.2 = true) := by
  obtain ⟨hmem, hmax⟩ := pqTop_max q x htop
  refine ⟨hmem, hmax y hy, ?_⟩
  intro hs hv
  have hle := hmax y hy
  simp only [hypLt, hs, lt_irrefl, if_false] at hle
  rcases vecLt_total y.2 x.2 hv with h | h
  · exact h
  · rw [hle] at h
    cases h

/-- What the loop over the unary rules adds to the queue: for every rule index of the list, in
order, one hypothesis with the positions `[-1 - urid, 0]`. -/
theorem unaryExpand_ok (t : LookupTableCFGLM) (top_score : Real) :
    ∀ (ids : List Nat) (q q1 : List (Real × List Int)),
      unaryExpand t top_score ids q = .ok q1 →
      ∃ us, List.Forall₂ (fun urid u => t.unary_rules_[urid]? = some u) ids us ∧
        q1 = q ++ (ids.zip us).map fun p =>
          (top_score + dot t.weights_ p.2.features, [-1 - (p.1 : Int), 0]) := by
  intro ids
  induction ids with
  | nil =>
    intro q q1 h
    simp only [unaryExpand] at h
    cases h
    exact ⟨[], List.Forall₂.nil, by simp⟩
  | cons urid rest ih =>
    intro q q1 h
    cases hu : t.unary_rules_[urid]? with
    | none => simp [unaryExpand, hu, must, bind, Except.bind] at h
    | some u =>
      simp only [unaryExpand, hu, must, bind, Except.bind] at h
      obtain ⟨us, hf, hq⟩ := ih _ q1 h
      refine ⟨u :: us, List.Forall₂.cons hu hf, ?_⟩
      rw [hq]
      simp

/-- C28: the hypothesis that `CubePrune` queues for the unary rule `u` has the positions
`[-1 - u, 0]`, whose first entry is negative; a popped hypothesis whose first entry is
`-1 - u` is resolved to `unary_rules_[u]` with the span `(i, j)` itself as its only child, and
its tail is the stateful node of the cell of that span at the rank `positions[1]`; a popped
hypothesis whose first entry is `r >= 0` is resolved to rule `r` of the collection with the
child spans of that rule; decoding a first entry `-1 - u` gives `u` back and no `-1 - u` is
an `r >= 0`. -/
theorem unary_positions_round_trip (t : LookupTableCFGLM) (N i j : Nat)
    (coll : CFGCollection) :
    (∀ top_score ids q q1, unaryExpand t top_score ids q = .ok q1 →
      ∃ us, List.Forall₂ (fun urid u => t.unary_rules_[urid]? = some u) ids us ∧
        q1 = q ++ (ids.zip us).map fun p =>
          (top_score + dot t.weights_ p.2.features, [-1 - (p.1 : Int), 0])) ∧
    (∀ (u : Nat) (rest : List Int) (rule : TranslationRuleHiero),
      t.unary_rules_[u]? = some rule →
      resolveRule t i j coll ((-1 - (u : Int)) :: rest) = .ok ([(i, j)], rule)) ∧
    (∀ (chart : List CFGChartItem) (rule : TranslationRuleHiero) (id_str : List Int)
      (cell : CFGChartItem) (label : HieroHeadLabels) (pos : Int),
      chart[i * N + j]? = some cell → rule.child_head_labels[0]? = some label →
      id_str[1]? = some pos →
      gatherTails N chart rule id_str [(i, j)] 0
        = match GetStatefulNode cell label pos with
          | .ok node => .ok ([node.1], [node.2])
          | .error e => .error e) ∧
    (∀ (r : Nat) (rest : List Int) (path : List (Nat × Nat)) (rule : TranslationRuleHiero),
      coll.spans_[r]? = some path → coll.rules_[r]? = some rule →
      resolveRule t i j coll ((r : Int) :: rest) = .ok (path, rule)) ∧
    (∀ u : Nat, -1 - (u : Int) < 0 ∧ (-1 - (-1 - (u : Int))).toNat = u ∧
      ∀ r : Nat, -1 - (u : Int) ≠ (r : Int)) := by
  refine ⟨unaryExpand_ok t, ?_, ?_, ?_, ?_⟩
  · intro u rest rule hu
    have hneg : ¬ (0 : Int) ≤ -1 - (u : Int) := by omega
    have hback : (-1 - (-1 - (u : Int))).toNat = u := by omega
    simp only [resolveRule, List.head?_cons, hneg, if_false, hback, hu]
  · intro chart rule id_str cell label pos hcell hlabel hpos
    simp only [gatherTails, hcell, hlabel, must, bind, Except.bind, Nat.zero_add, hpos]
    cases GetStatefulNode cell label pos with
    | error e => rfl
    | ok node => rfl
  · intro r rest path rule hp hr
    have hpos : (0 : Int) ≤ (r : Int) := by omega
    simp only [resolveRule, List.head?_cons, hpos, if_true, Int.toNat_ofNat, hp, hr]
  · intro u
    refine ⟨by omega, by omega, ?_⟩
    intro r
    omega

/-! ### CfgData, the chart cell and the queue: the claims on the worked examples -/

/-- The statement of C25, as amended, on the data `7 [X0]` and a child that is one slot: the
invariant holds again after `AppendChild`. -/
theorem AppendChild_preserves_iff_one_slot_witness :
    CfgData.SlotsMatch { words := [7, -1], label := 100, syms := [100] } ∧
    negCount [-2] = 1 ∧
    CfgData.SlotsMatch (CfgData.AppendChild { words := [7, -1], label := 100, syms := [100] }
      { words := [-2], label := 100, syms := [100] }) :=
  ⟨by decide, by decide,
   (AppendChild_preserves_iff_one_slot { words := [7, -1], label := 100, syms := [100] }
      { words := [-2], label := 100, syms := [100] } (by decide)).2.1.2 (by decide)⟩

/-- The statement of C21, as amended, on the span of the sentence `a`: `CubePrune` decodes it
and a second `CubePrune` for the same span fails on the assertion; and on the cell with two
nodes: the second `FinalizeNodes` gives a populated cell. -/
theorem FinalizeNodes_unguarded_CubePrune_guarded_witness :
    CubePrune Example.decoder2 100 1 0 0 Example.collected = .ok Example.pruned ∧
    CubePrune Example.decoder2 100 1 0 0 Example.pruned = .error Err.assertion ∧
    (FinalizeNodes Example.decoder Example.twoScores
        (FinalizeNodes Example.decoder Example.twoScores Example.twoNodes)).populated_ = true :=
  ⟨by rfl,
   (FinalizeNodes_unguarded_CubePrune_guarded Example.decoder2 [] Example.emptyCell).2.2.2.2
     100 1 0 0 Example.collected Example.pruned (by rfl) 100,
   (FinalizeNodes_unguarded_CubePrune_guarded Example.decoder Example.twoScores
     Example.twoNodes).2.1⟩

/-- The statement of C22, as amended, on the queue that got `(5, [0, 0])` first and
`(5, [1, 0])` second. -/
theorem pqTop_ties_by_position_vector_witness :
    pqTop [(5, [0, 0]), (5, [1, 0])] = some (5, [1, 0]) ∧
    ((5, [0, 0]) : Real × List Int) ∈ [((5, [0, 0]) : Real × List Int), (5, [1, 0])] ∧
    vecLt [0, 0] [1, 0] = true :=
  ⟨by decide, by decide,
   (pqTop_ties_by_position_vector [(5, [0, 0]), (5, [1, 0])] (5, [1, 0]) (5, [0, 0])
      (by decide) (by decide)).2.2 rfl (by decide)⟩

/-- The statement of C28 on the decoder with the unary rule `X → X`: the hypothesis queued for
unary rule 0 has the positions `[-1, 0]` and is resolved to that rule with the span itself as
child; the hypothesis `[1]` is resolved to rule 1 of the collection. -/
theorem unary_positions_round_trip_witness :
    unaryExpand Example.decoderU 3 [0] [] = .ok [(3, [-1, 0])] ∧
    (∃ us, List.Forall₂ (fun urid u => Example.decoderU.unary_rules_[urid]? = some u) [0] us ∧
      [((3 : Real), ([-1, 0] : List Int))] = [] ++ (([0] : List Nat).zip us).map fun p =>
        ((3 : Real) + dot Example.decoderU.weights_ p.2.features, [-1 - (p.1 : Int), 0])) ∧
    resolveRule Example.decoderU 0 0 Example.coll0 ((-1 - ((0 : Nat) : Int)) :: [0])
      = .ok ([(0, 0)], Example.ruleXX) ∧
    resolveRule Example.decoderU 0 0 Example.coll0 (((1 : Nat) : Int) :: [])
      = .ok ([], Example.ruleC) :=
  ⟨by rfl,
   (unary_positions_round_trip Example.decoderU 1 0 0 Example.coll0).1 3 [0] [] [(3, [-1, 0])]
     (by rfl),
   (unary_positions_round_trip Example.decoderU 1 0 0 Example.coll0).2.1 0 [0] Example.ruleXX
     (by rfl),
   (unary_positions_round_trip Example.decoderU 1 0 0 Example.coll0).2.2.2.1 1 [] []
     Example.ruleC (by rfl) (by rfl)⟩

/-! ### `PredictiveSearch` -/

theorem PredictiveSearchAgent_spec {σ : Type} (fresh : σ)
    (search : RuleFSM → Agent σ → Bool × Agent σ) (agent : Agent σ) :
    ∀ fsms : List RuleFSM,
      (PredictiveSearchAgent fresh search fsms agent).2 = agent ∧
      ((PredictiveSearchAgent fresh search fsms agent).1 = true ↔
        ∃ fsm ∈ fsms, (search fsm { query := agent.query, state := fresh }).1 = true) := by
  intro fsms
  induction fsms with
  | nil => simp [PredictiveSearchAgent]
  | cons fsm rest ih =>
    by_cases h : (search fsm { query := agent.query, state := fresh }).1 = true
    · simp [PredictiveSearchAgent, h]
    · have hstep : PredictiveSearchAgent fresh search (fsm :: rest) agent
          = PredictiveSearchAgent fresh search rest agent := by
        simp [PredictiveSearchAgent, h]
      rw [hstep]
      refine ⟨ih.1, ?_⟩
      rw [ih.2]
      constructor
      · rintro ⟨f, hf, hs⟩
        exact ⟨f, List.mem_cons_of_mem _ hf, hs⟩
      · rintro ⟨f, hf, hs⟩
        rcases List.mem_cons.1 hf with e | e
        · subst e; exact absurd hs h
        · exact ⟨f, e, hs⟩

/-- The rule table made from a list of keys answers a predictive search as a trie does. -/
theorem tableOf_trie (keys : List (List WordId)) (buckets : List (List TranslationRuleHiero))
    (q : List WordId) :
    (Example.tableOf keys buckets).predictive_search q = true ↔
      ∃ key, ((Example.tableOf keys buckets).lookup key).isSome = true ∧ q <+: key := by
  simp only [Example.tableOf, List.any_eq_true, List.isPrefixOf_iff_prefix]
  constructor
  · rintro ⟨k, hk, hp⟩
    exact ⟨k, by simp [hk], hp⟩
  · rintro ⟨k, hk, hp⟩
    refine ⟨k, ?_, hp⟩
    by_contra hn
    simp [hn] at hk

/-- C24: `PredictiveSearch` leaves the agent of the caller as it was, query and state, since
every trie is searched with an agent of its own that has the same query; it returns true if and
only if the search in the trie of at least one registered rule table succeeds for that query,
which is the answer of the model on queries and, for tries that answer a predictive search by
"some key has the query as a prefix", says that the trie of some rule table has a key with the
query of the agent as a prefix. -/
theorem PredictiveSearch_frame_and_answer {σ : Type} (t : LookupTableCFGLM) (fresh : σ)
    (search : RuleFSM → Agent σ → Bool × Agent σ) (agent : Agent σ)
    (hsearch : ∀ fsm ∈ t.rule_fsms_,
      (search fsm { query := agent.query, state := fresh }).1 = fsm.predictive_search agent.query) :
    (PredictiveSearchAgent fresh search t.rule_fsms_ agent).2 = agent ∧
    ((PredictiveSearchAgent fresh search t.rule_fsms_ agent).1 = true ↔
      ∃ fsm ∈ t.rule_fsms_, (search fsm { query := agent.query, state := fresh }).1 = true) ∧
    (PredictiveSearchAgent fresh search t.rule_fsms_ agent).1 = PredictiveSearch t agent.query ∧
    ((∀ fsm ∈ t.rule_fsms_, ∀ q, fsm.predictive_search q = true ↔
        ∃ key, (fsm.lookup key).isSome = true ∧ q <+: key) →
      ((PredictiveSearchAgent fresh search t.rule_fsms_ agent).1 = true ↔
        ∃ fsm ∈ t.rule_fsms_, ∃ key, (fsm.lookup key).isSome = true ∧ agent.query <+: key)) := by
  obtain ⟨h1, h2⟩ := PredictiveSearchAgent_spec fresh search agent t.rule_fsms_
  have h3 : (PredictiveSearchAgent fresh search t.rule_fsms_ agent).1
      = PredictiveSearch t agent.query := by
    rw [Bool.eq_iff_iff, h2]
    simp only [PredictiveSearch, List.any_eq_true]
    constructor
    · rintro ⟨f, hf, hs⟩
      exact ⟨f, hf, by rw [← hsearch f hf]; exact hs⟩
    · rintro ⟨f, hf, hs⟩
      exact ⟨f, hf, by rw [hsearch f hf]; exact hs⟩
  refine ⟨h1, h2, h3, ?_⟩
  intro htrie
  rw [h2]
  constructor
  · rintro ⟨f, hf, hs⟩
    rw [hsearch f hf] at hs
    exact ⟨f, hf, (htrie f hf agent.query).1 hs⟩
  · rintro ⟨f, hf, hk⟩
    exact ⟨f, hf, by rw [hsearch f hf]; exact (htrie f hf agent.query).2 hk⟩

/-- The statement of C24 on the decoder of the examples, whose trie has the keys `a`, `b` and
`X X`: the query `X` (the labels of `X`, negated) is a prefix of the key `X X`, and the agent
of the caller keeps its state `false` although every search sets the state of the agent it is
given to `true`. -/
theorem PredictiveSearch_frame_and_answer_witness :
    (PredictiveSearchAgent false
        (fun fsm ag => (fsm.predictive_search ag.query, { ag with state := true }))
        Example.decoder.rule_fsms_ { query := [-101, -101], state := false })
      = (true, { query := [-101, -101], state := false }) ∧
    (∃ fsm ∈ Example.decoder.rule_fsms_, ∃ key, (fsm.lookup key).isSome = true ∧
      [-101, -101] <+: key) :=
  ⟨by rfl,
   ((PredictiveSearch_frame_and_answer Example.decoder false
      (fun fsm ag => (fsm.predictive_search ag.query, { ag with state := true }))
      { query := [-101, -101], state := false } (fun _ _ => rfl)).2.2.2
      (by
        intro fsm hf q
        simp only [Example.decoder, List.mem_singleton] at hf
        subst hf
        exact tableOf_trie _ _ q)).1 (by rfl)⟩

/-! ### `CalculateVertex` and the order of the tails in `Complete` -/

/-- C29: with a parse of three nodes (vertex table of four entries), the ids `-1` and `4` make
`CalculateVertex` read the vertex table out of range at line 120, before the test of line 127
is reached, so it is not the `Bad id` error that ends the call. (The id `3`, the number of
nodes, and the id `1` of the null node do get the `Bad id` error, and the id `0` gets the
vertex stored for it, without `build`.) -/
theorem CalculateVertex_checks_id_after_reading_vertices :
    CalculateVertex Example.parseNodes Example.buildVertex Example.vertexTable (-1)
      = .error VertexErr.out_of_range ∧
    CalculateVertex Example.parseNodes Example.buildVertex Example.vertexTable 4
      = .error VertexErr.out_of_range ∧
    CalculateVertex Example.parseNodes Example.buildVertex Example.vertexTable 3
      = .error VertexErr.bad_id ∧
    CalculateVertex Example.parseNodes Example.buildVertex Example.vertexTable 1
      = .error VertexErr.bad_id ∧
    CalculateVertex Example.parseNodes Example.buildVertex Example.vertexTable 0
      = .ok (Example.vertexTable, 70) ∧
    CalculateVertex Example.parseNodes Example.buildVertex Example.vertexTable 2
      = .ok ([some 70, none, some 102, none], 102) := by
  refine ⟨by rfl, by rfl, by rfl, by rfl, by rfl, by rfl⟩

/-- C26: for the edge of the parse with the tails 10, 11, 12 and the target `[X1] [X2] [X0]`,
`CalculateVertex` gives the partial edge the children 11, 12, 10, so the hypothesis that reaches
`Complete` has the output nodes 1, 2, 0 as non-terminals; `Complete` takes `NT()[tid]` for the
slots 1, 2, 0 in turn and gives the new edge the tails 2, 0, 1, with the target words copied as
they were. In source order the tails would be 0, 1, 2: the first tail of the new edge is the
node made for the third tail of the source edge. -/
theorem Complete_tails_not_in_source_order :
    hypothesisOf Example.rotatedEdge 0 (fun _ => false) Example.outputOf 10
      = .ok (some Example.rotatedHyp) ∧
    Example.rotatedForest.prepare Example.rotatedForest.hg.nodes Example.rotatedHyp
      = .ok { tails := [2, 0, 1], edge_score := 3, node_id := [1, 2, 0, 0] } ∧
    Example.rotatedForest.Complete [Example.rotatedHyp] = .ok (Example.rotatedAfter, 3, 10) ∧
    (Example.rotatedAfter.hg.edges.map fun e => e.tails) = [[2, 0, 1]] ∧
    (Example.rotatedAfter.hg.edges.map fun e => e.trg_data) = [[{ words := [-2, -3, -1] }]] ∧
    Example.rotatedEdge.edge.tails.map Example.outputOf = [0, 1, 2] ∧
    ([2, 0, 1] : List Nat) ≠ [0, 1, 2] := by
  refine ⟨by rfl, by with_unfolding_all rfl, by with_unfolding_all rfl, by rfl, by rfl, by rfl,
    by decide⟩

/-! ### The potential gain of a tuning example -/

theorem mem_setInsert (s : List WordId) (x k : WordId) :
    k ∈ setInsert s x ↔ k ∈ s ∨ k = x := by
  unfold setInsert
  by_cases h : x ∈ s
  · simp only [h, if_true]
    constructor
    · exact Or.inl
    · rintro (h1 | h1)
      · exact h1
      · rw [h1]; exact h
  · simp [h]

theorem mem_fold_features (feats : SparseVector) :
    ∀ (act : List WordId) (k : WordId),
      k ∈ feats.foldl (fun act feat => setInsert act (feat.1 : Int)) act ↔
        k ∈ act ∨ ∃ feat ∈ feats, (feat.1 : Int) = k := by
  induction feats with
  | nil => intro act k; simp
  | cons f rest ih =>
    intro act k
    simp only [List.foldl_cons]
    rw [ih, mem_setInsert]
    constructor
    · rintro ((h | h) | ⟨g, hg, hk⟩)
      · exact Or.inl h
      · exact Or.inr ⟨f, List.mem_cons_self _ _, h.symm⟩
      · exact Or.inr ⟨g, List.mem_cons_of_mem _ hg, hk⟩
    · rintro (h | ⟨g, hg, hk⟩)
      · exact Or.inl (Or.inl h)
      · rcases List.mem_cons.1 hg with e | e
        · subst e; exact Or.inl (Or.inr hk.symm)
        · exact Or.inr ⟨g, e, hk⟩

theorem mem_fold_edges (edges : List HyperEdge) :
    ∀ (act : List WordId) (k : WordId),
      k ∈ edges.foldl
        (fun act edge => edge.features.foldl (fun act feat => setInsert act (feat.1 : Int)) act)
        act ↔
        k ∈ act ∨ ∃ edge ∈ edges, ∃ feat ∈ edge.features, (feat.1 : Int) = k := by
  induction edges with
  | nil => intro act k; simp
  | cons e rest ih =>
    intro act k
    simp only [List.foldl_cons]
    rw [ih, mem_fold_features]
    constructor
    · rintro ((h | ⟨f, hf, hk⟩) | ⟨g, hg, hr⟩)
      · exact Or.inl h
      · exact Or.inr ⟨e, List.mem_cons_self _ _, f, hf, hk⟩
      · exact Or.inr ⟨g, List.mem_cons_of_mem _ hg, hr⟩
    · rintro (h | ⟨g, hg, hr⟩)
      · exact Or.inl (Or.inl h)
      · rcases List.mem_cons.1 hg with e1 | e1
        · subst e1; exact Or.inl (Or.inr hr)
        · exact Or.inr ⟨g, e1, hr⟩

theorem sparseInsert_fold (gain : Real) (l : List WordId) :
    ∀ (m : SparseMap),
      (∀ k, k ∈ (l.foldl (fun ret id => sparseInsert ret id gain) m).map Prod.fst ↔
        k ∈ m.map Prod.fst ∨ k ∈ l) ∧
      (∀ p ∈ l.foldl (fun ret id => sparseInsert ret id gain) m, p ∈ m ∨ p.2 = gain) := by
  induction l with
  | nil =>
    intro m
    exact ⟨fun k => by simp, fun p hp => Or.inl hp⟩
  | cons id rest ih =>
    intro m
    simp only [List.foldl_cons]
    obtain ⟨h1, h2⟩ := ih (sparseInsert m id gain)
    have hkeys : ∀ k, k ∈ (sparseInsert m id gain).map Prod.fst ↔ k ∈ m.map Prod.fst ∨ k = id := by
      intro k
      unfold sparseInsert
      by_cases h : id ∈ m.map Prod.fst
      · simp only [h, if_true]
        constructor
        · exact Or.inl
        · rintro (hh | hh)
          · exact hh
          · rw [hh]; exact h
      · simp [h]
    have hvals : ∀ p ∈ sparseInsert m id gain, p ∈ m ∨ p.2 = gain := by
      intro p hp
      unfold sparseInsert at hp
      by_cases h : id ∈ m.map Prod.fst
      · simp only [h, if_true] at hp
        exact Or.inl hp
      · simp only [h, if_false, List.mem_append, List.mem_singleton] at hp
        rcases hp with hp | hp
        · exact Or.inl hp
        · right; rw [hp]
    constructor
    · intro k
      rw [h1, hkeys]
      constructor
      · rintro ((h | h) | h)
        · exact Or.inl h
        · exact Or.inr (by rw [h]; exact List.mem_cons_self _ _)
        · exact Or.inr (List.mem_cons_of_mem _ h)
      · rintro (h | h)
        · exact Or.inl (Or.inl h)
        · rcases List.mem_cons.1 h with e | e
          · exact Or.inl (Or.inr e)
          · exact Or.inr e
    · intro p hp
      rcases h2 p hp with h | h
      · exact hvals p h
      · exact Or.inr h

/-- C30, counterexample: the forest has one edge with the features 1 and 2, but the stored
active set holds feature 1 only (as it does after `FindActiveFeatures` on a smaller forest
followed by `AddHypothesis`, which adds edges without touching `active_`): the map returned has
the key 1 only, although feature 2 occurs on an edge. -/
theorem CalculatePotentialGain_keeps_stale_active_set :
    (∃ edge ∈ (Example.gainExample [1]).forest_.edges, ∃ feat ∈ edge.features,
      ((feat.1 : Nat) : Int) = 2) ∧
    (Example.gainExample [1]).CalculatePotentialGain (fun s => (s.length : Int))
        { oracle_score_ := 4, curr_score_ := 0 } []
      = .ok ((Example.gainExample [1], { oracle_score_ := 4, curr_score_ := 1 }), [(1, 3)]) ∧
    (2 : WordId) ∉ ([((1 : WordId), (3 : Real))].map Prod.fst) := by
  refine ⟨⟨_, List.mem_singleton.2 rfl, (2, 5), by decide, by decide⟩, by rfl, by decide⟩

/-- C30, as amended: `CalculatePotentialGain` returns a map whose keys are exactly the
features of the stored active set after the call, which is the set stored before when that is
not empty, and otherwise is computed by `FindActiveFeatures` and then holds exactly the
features that occur on some edge of the forest; every key has the value
`gain = oracle_score_ - curr_score_` of the scores after the call, which is not negative,
since the stored oracle score is the greater of the oracle score before and the current
score, so it never decreases. -/
theorem CalculatePotentialGain_keys_and_gain {S H L : Type} (t : TuningExampleForest S H L)
    (ConvertToScore : S → Real) (sc : GainScores) (weights : SparseMap)
    (t1 : TuningExampleForest S H L) (sc1 : GainScores) (ret : SparseMap)
    (h : t.CalculatePotentialGain ConvertToScore sc weights = .ok ((t1, sc1), ret)) :
    (∀ k, k ∈ ret.map Prod.fst ↔ k ∈ t1.active_) ∧
    (t.active_ ≠ [] → t1.active_ = t.active_) ∧
    (t.active_ = [] → ∀ k, k ∈ t1.active_ ↔
      ∃ edge ∈ t.forest_.edges, ∃ feat ∈ edge.features, (feat.1 : Int) = k) ∧
    t1.forest_ = t.forest_ ∧
    (∀ p ∈ ret, p.2 = sc1.oracle_score_ - sc1.curr_score_) ∧
    0 ≤ sc1.oracle_score_ - sc1.curr_score_ ∧
    sc1.oracle_score_ = max sc.oracle_score_ sc1.curr_score_ ∧
    sc.oracle_score_ ≤ sc1.oracle_score_ ∧
    (∃ sent rest, t.GetNbest weights = sent :: rest ∧
      sc1.curr_score_ = ConvertToScore (t.CalculateStats sent) * t.mult_) := by
  unfold TuningExampleForest.CalculatePotentialGain at h
  cases hb : t.GetNbest weights with
  | nil => simp [hb, must] at h
  | cons sent rest =>
    simp only [hb, List.getElem?_cons_zero, must] at h
    injection h with h
    injection h with h1 h2
    injection h1 with ht hs
    obtain ⟨k1, k2⟩ := sparseInsert_fold
      (max sc.oracle_score_ (ConvertToScore (t.CalculateStats sent) * t.mult_)
        - ConvertToScore (t.CalculateStats sent) * t.mult_)
      (if t.active_.length = 0 then t.FindActiveFeatures else t).active_ []
    subst ht
    subst hs
    subst h2
    refine ⟨?_, ?_, ?_, ?_, ?_, ?_, rfl, ?_, sent, rest, rfl, rfl⟩
    · intro k
      rw [k1]
      simp
    · intro hne
      have : ¬ t.active_.length = 0 := by
        intro h0
        exact hne (List.length_eq_zero.1 h0)
      simp only [this, if_false]
    · intro hnil k
      simp only [hnil, List.length_nil, if_true, TuningExampleForest.FindActiveFeatures]
      rw [mem_fold_edges]
      simp
    · by_cases h0 : t.active_.length = 0
      · simp only [h0, if_true, TuningExampleForest.FindActiveFeatures]
      · simp only [h0, if_false]
    · intro p hp
      rcases k2 p hp with hh | hh
      · simp at hh
      · exact hh
    · simp only
      have := le_max_right sc.oracle_score_ (ConvertToScore (t.CalculateStats sent) * t.mult_)
      linarith
    · exact le_max_left _ _

/-- The statement of C30, as amended, on the forest with one edge that has the features 1 and
2, entered with an empty active set and the oracle score 4: the keys are 1 and 2, the gain is
`4 - 1 = 3`. -/
theorem CalculatePotentialGain_keys_and_gain_witness :
    (Example.gainExample []).CalculatePotentialGain (fun s => (s.length : Int))
        { oracle_score_ := 4, curr_score_ := 0 } []
      = .ok (((Example.gainExample []).FindActiveFeatures,
              { oracle_score_ := 4, curr_score_ := 1 }), [(1, 3), (2, 3)]) ∧
    (∀ k, k ∈ ([((1 : WordId), (3 : Real)), (2, 3)]).map Prod.fst ↔
      k ∈ (Example.gainExample []).FindActiveFeatures.active_) ∧
    (∀ p ∈ [((1 : WordId), (3 : Real)), (2, 3)], p.2 = (4 : Real) - 1) :=
  ⟨by rfl,
   (CalculatePotentialGain_keys_and_gain (Example.gainExample []) (fun s => (s.length : Int))
      { oracle_score_ := 4, curr_score_ := 0 } [] (Example.gainExample []).FindActiveFeatures
      { oracle_score_ := 4, curr_score_ := 1 } [(1, 3), (2, 3)] (by rfl)).1,
   (CalculatePotentialGain_keys_and_gain (Example.gainExample []) (fun s => (s.length : Int))
      { oracle_score_ := 4, curr_score_ := 0 } [] (Example.gainExample []).FindActiveFeatures
      { oracle_score_ := 4, curr_score_ := 1 } [(1, 3), (2, 3)] (by rfl)).2.2.2.2.1⟩

/-! ### The chart cells that `Consume` and `CubePrune` read -/

theorem forEachE_congr {α σ : Type} {f g : α → σ → Except Err σ} :
    ∀ (l : List α) (s : σ), (∀ x ∈ l, ∀ a, f x a = g x a) → forEachE f l s = forEachE g l s := by
  intro l
  induction l with
  | nil => intro s _; rfl
  | cons x rest ih =>
    intro s h
    simp only [forEachE]
    rw [h x (List.mem_cons_self _ _) s]
    cases g x s with
    | error e => rfl
    | ok s1 => exact ih s1 (fun y hy => h y (List.mem_cons_of_mem _ hy))

theorem AddToChartWith_congr (t : LookupTableCFGLM) (N : Nat)
    (c1 c2 : CFGPath → Nat → Nat → Nat → List CFGCollection → Except Err (List CFGCollection))
    (a : CFGPath) (i j : Nat) (u : Bool) (cs : List CFGCollection)
    (h : ∀ k c, j + 1 ≤ k → k < N → c1 a i (j + 1) k c = c2 a i (j + 1) k c) :
    AddToChartWith t N c1 a i j u cs = AddToChartWith t N c2 a i j u cs := by
  unfold AddToChartWith
  cases (if u then (.ok cs : Except Err (List CFGCollection))
      else depositRules a (i * N + j) t.rule_fsms_ cs) with
  | error e => rfl
  | ok cs1 =>
    simp only
    split
    · apply forEachE_congr
      intro k hk c
      rw [List.mem_range'_1] at hk
      exact h k c hk.1 (by omega)
    · rfl

/-- Where every cell that can be read is populated, the checked `Consume` is `Consume`. -/
theorem ConsumeChecked_eq (t : LookupTableCFGLM) (sent : Sentence) (N : Nat)
    (chart : List CFGChartItem) :
    ∀ (fuel : Nat) (a : CFGPath) (i j k : Nat) (cs : List CFGCollection),
      j ≤ k → k < N →
      (∀ j1 k1 c, j1 ≤ k1 → k1 < N → (j1 = j ∧ k1 = k) ∨ k < j1 →
        chart[j1 * N + k1]? = some c → c.populated_ = true) →
      ConsumeChecked t sent N chart fuel a i j k cs = Consume t sent N chart fuel a i j k cs := by
  intro fuel
  induction fuel with
  | zero => intro a i j k cs _ _ _; rfl
  | succ n ih =>
    intro a i j k cs hjk hk hpop
    have hdeep : ∀ (b : CFGPath) (k2 : Nat) (c : List CFGCollection), k + 1 ≤ k2 → k2 < N →
        ConsumeChecked t sent N chart n b i (k + 1) k2 c
          = Consume t sent N chart n b i (k + 1) k2 c := by
      intro b k2 c h1 h2
      apply ih b i (k + 1) k2 c h1 h2
      intro j1 k1 c1 hj1 hk1 hor hc1
      refine hpop j1 k1 c1 hj1 hk1 (Or.inr ?_) hc1
      rcases hor with ⟨e, _⟩ | e <;> omega
    have hadd : ∀ (b : CFGPath) (u : Bool) (c : List CFGCollection),
        AddToChartWith t N (ConsumeChecked t sent N chart n) b i k u c
          = AddToChartWith t N (Consume t sent N chart n) b i k u c := by
      intro b u c
      apply AddToChartWith_congr
      intro k2 c2 h1 h2
      exact hdeep b k2 c2 h1 h2
    simp only [ConsumeChecked, Consume, hadd]
    cases (if j = k then
        match sent[j]? with
        | none => (.error Err.assertion : Except Err (List CFGCollection))
        | some w =>
          if PredictiveSearch t (a.withWord w).agent then
            AddToChartWith t N (Consume t sent N chart n) (a.withWord w) i k (decide (i = j)) cs
          else .ok cs
      else .ok cs) with
    | error e => rfl
    | ok cs1 =>
      simp only
      cases hcell : chart[j * N + k]? with
      | none => rfl
      | some cell =>
        simp only
        rw [hpop j k cell hjk hk (Or.inl ⟨rfl, rfl⟩) hcell]
        simp

theorem depositRules_spans (N : Nat) (chart : List CFGChartItem) (Q : CFGChartItem → Prop)
    (a : CFGPath) (idx : Nat) (ha : SpansIn N chart Q a.spans) :
    ∀ (fsms : List RuleFSM) (cs cs1 : List CFGCollection), CollSpans N chart Q cs →
      depositRules a idx fsms cs = .ok cs1 → CollSpans N chart Q cs1 := by
  intro fsms
  induction fsms with
  | nil =>
    intro cs cs1 hc h
    simp only [depositRules, Except.ok.injEq] at h
    subst h; exact hc
  | cons fsm rest ih =>
    intro cs cs1 hc h
    simp only [depositRules] at h
    split at h
    · rename_i key _
      split at h
      · rename_i c hcidx
        refine ih _ cs1 ?_ h
        intro c1 hc1 p hp
        rcases List.mem_or_eq_of_mem_set hc1 with hm | hm
        · exact hc c1 hm p hp
        · subst hm
          simp only [AddRules, List.mem_append] at hp
          rcases hp with hp | hp
          · exact hc c (List.getElem?_mem hcidx) p hp
          · rw [List.eq_of_mem_replicate hp]
            exact ha
      · exact absurd h (by simp)
    · exact ih cs cs1 hc h

theorem AddToChartWith_spans (t : LookupTableCFGLM) (N : Nat) (chart : List CFGChartItem)
    (Q : CFGChartItem → Prop)
    (consume : CFGPath → Nat → Nat → Nat → List CFGCollection → Except Err (List CFGCollection))
    (a : CFGPath) (i j : Nat) (u : Bool) (cs cs1 : List CFGCollection)
    (hcons : ∀ k c c1, j + 1 ≤ k → k < N → CollSpans N chart Q c →
      consume a i (j + 1) k c = .ok c1 → CollSpans N chart Q c1)
    (ha : SpansIn N chart Q a.spans)
    (hcs : CollSpans N chart Q cs) (h : AddToChartWith t N consume a i j u cs = .ok cs1) :
    CollSpans N chart Q cs1 := by
  simp only [AddToChartWith] at h
  split at h
  · exact absurd h (by simp)
  · rename_i c1 hc1
    have hok : CollSpans N chart Q c1 := by
      cases u with
      | true =>
        simp only [if_true, Except.ok.injEq] at hc1
        subst hc1; exact hcs
      | false =>
        simp only [Bool.false_eq_true, if_false] at hc1
        exact depositRules_spans N chart Q a _ ha _ _ _ hcs hc1
    split at h
    · refine forEachE_inv (CollSpans N chart Q) _ c1 cs1 ?_ hok h
      intro k hk c c2 hc hc2
      simp only [List.mem_range'_1] at hk
      exact hcons k c c2 hk.1 (by omega) hc hc2
    · injection h with h
      subst h; exact hok

/-- The child spans that `Consume` files with the rules it collects are spans of the path it
was given or spans of cells it has read and found with nodes; so they all satisfy what those
cells satisfy. -/
theorem Consume_spans (t : LookupTableCFGLM) (sent : Sentence) (N : Nat)
    (chart : List CFGChartItem) (Q : CFGChartItem → Prop) :
    ∀ (fuel : Nat) (a : CFGPath) (i j k : Nat) (cs cs1 : List CFGCollection),
      j ≤ k → k < N →
      (∀ j1 k1 c, j1 ≤ k1 → k1 < N → (j1 = j ∧ k1 = k) ∨ k < j1 →
        chart[j1 * N + k1]? = some c → c.nodes_ ≠ [] → Q c) →
      SpansIn N chart Q a.spans → CollSpans N chart Q cs →
      Consume t sent N chart fuel a i j k cs = .ok cs1 → CollSpans N chart Q cs1 := by
  intro fuel
  induction fuel with
  | zero => intro a i j k cs cs1 _ _ _ _ _ h; simp [Consume] at h
  | succ n ih =>
    intro a i j k cs cs1 hjk hk hread ha hcs h
    have hdeep : ∀ (b : CFGPath) (k2 : Nat) (c c1 : List CFGCollection), k + 1 ≤ k2 → k2 < N →
        SpansIn N chart Q b.spans → CollSpans N chart Q c →
        Consume t sent N chart n b i (k + 1) k2 c = .ok c1 → CollSpans N chart Q c1 := by
      intro b k2 c c1 h1 h2 hb hc hres
      refine ih b i (k + 1) k2 c c1 h1 h2 ?_ hb hc hres
      intro j1 k1 c2 hj1 hk1 hor hc2 hne
      refine hread j1 k1 c2 hj1 hk1 (Or.inr ?_) hc2 hne
      rcases hor with ⟨e, _⟩ | e <;> omega
    simp only [Consume] at h
    split at h
    · exact absurd h (by simp)
    · rename_i c1 hc1
      have hok : CollSpans N chart Q c1 := by
        split at hc1
        · split at hc1
          · exact absurd hc1 (by simp)
          · rename_i w _
            split at hc1
            · refine AddToChartWith_spans t N chart Q _ (a.withWord w) i k _ cs c1 ?_ ha hcs hc1
              intro k2 c c2 hk2 hk2N hc hc2
              exact hdeep (a.withWord w) k2 c c2 hk2 hk2N ha hc hc2
            · injection hc1 with hc1
              subst hc1; exact hcs
        · injection hc1 with hc1
          subst hc1; exact hcs
      split at h
      · exact absurd h (by simp)
      · rename_i cell hcell
        refine forEachE_inv (CollSpans N chart Q) _ c1 cs1 ?_ hok h
        intro sym hsym c c2 hc hc2
        split at hc2
        · have hQ : Q cell :=
            hread j k cell hjk hk (Or.inl ⟨rfl, rfl⟩) hcell (List.ne_nil_of_mem hsym)
          have hb : SpansIn N chart Q (a.withLabels sym.1 j k).spans := by
            intro sp hsp
            simp only [CFGPath.withLabels, List.mem_append, List.mem_singleton] at hsp
            rcases hsp with hsp | hsp
            · exact ha sp hsp
            · subst hsp
              exact ⟨cell, hcell, hQ⟩
          refine AddToChartWith_spans t N chart Q _ (a.withLabels sym.1 j k) i k _ c c2 ?_ hb
            hc hc2
          intro k2 c3 c4 hk2 hk2N hc3 hc4
          exact hdeep (a.withLabels sym.1 j k) k2 c3 c4 hk2 hk2N hb hc3 hc4
        · injection hc2 with hc2
          subst hc2; exact hc

/-- The spans in the order of `TransformGraph`: a span comes before every span of an earlier
row and before the later spans of its own row. -/
theorem spanOrder_pairwise (N : Nat) :
    (spanOrder N).Pairwise fun a b => b.1 < a.1 ∨ (a.1 = b.1 ∧ a.2 < b.2) := by
  unfold spanOrder
  rw [List.pairwise_flatMap]
  constructor
  · intro i _
    rw [List.pairwise_map]
    refine List.Pairwise.imp ?_ (List.pairwise_lt_range' i (N - i))
    intro a b hab
    exact Or.inr ⟨rfl, hab⟩
  · rw [List.pairwise_reverse]
    refine List.Pairwise.imp ?_ (List.pairwise_lt_range N)
    intro a b hab x hx y hy
    simp only [List.mem_map] at hx hy
    obtain ⟨_, _, rfl⟩ := hx
    obtain ⟨_, _, rfl⟩ := hy
    exact Or.inl hab

theorem mem_spanOrder_of {N i j : Nat} (hij : i ≤ j) (hj : j < N) : (i, j) ∈ spanOrder N := by
  simp only [spanOrder, List.mem_flatMap, List.mem_reverse, List.mem_range, List.mem_map,
    List.mem_range'_1]
  exact ⟨i, by omega, j, ⟨hij, by omega⟩, rfl⟩

/-- When `TransformGraph` comes to the span `(i, j)`, it has been through every span of the
later rows and through the spans of row `i` that end before `j`, and through no other span. -/
theorem spanOrder_split {N i j : Nat} {pre post : List (Nat × Nat)}
    (h : spanOrder N = pre ++ (i, j) :: post) :
    (i ≤ j ∧ j < N) ∧ (i, j) ∉ pre ∧
    (∀ i1 j1, (i1, j1) ∈ pre → i1 ≤ j1 ∧ j1 < N ∧ (i < i1 ∨ (i1 = i ∧ j1 < j))) ∧
    (∀ i1 j1, i1 ≤ j1 → j1 < N → i < i1 ∨ (i1 = i ∧ j1 < j) → (i1, j1) ∈ pre) := by
  have hp := spanOrder_pairwise N
  rw [h, List.pairwise_append, List.pairwise_cons] at hp
  obtain ⟨_, ⟨hpost, _⟩, hcross⟩ := hp
  have hmem : (i, j) ∈ spanOrder N := by rw [h]; simp
  refine ⟨mem_spanOrder hmem, ?_, ?_, ?_⟩
  · intro hin
    have := hcross (i, j) hin (i, j) (List.mem_cons_self _ _)
    simp only at this
    omega
  · intro i1 j1 hin
    have hm : (i1, j1) ∈ spanOrder N := by rw [h]; exact List.mem_append_left _ hin
    have hb := mem_spanOrder hm
    have := hcross (i1, j1) hin (i, j) (List.mem_cons_self _ _)
    simp only at this hb
    refine ⟨hb.1, hb.2, ?_⟩
    omega
  · intro i1 j1 h1 h2 hor
    have hm : (i1, j1) ∈ spanOrder N := mem_spanOrder_of h1 h2
    rw [h] at hm
    rcases List.mem_append.1 hm with hm | hm
    · exact hm
    · rcases List.mem_cons.1 hm with e | e
      · injection e with e1 e2
        omega
      · have := hpost (i1, j1) e
        simp only at this
        omega

theorem index_inj {N i j i1 j1 : Nat} (hj : j < N) (hj1 : j1 < N)
    (h : i * N + j = i1 * N + j1) : i = i1 ∧ j = j1 := by
  have e1 : (i * N + j) / N = i := by
    rw [Nat.mul_comm, Nat.mul_add_div (by omega), Nat.div_eq_of_lt hj]; rfl
  have e2 : (i1 * N + j1) / N = i1 := by
    rw [Nat.mul_comm, Nat.mul_add_div (by omega), Nat.div_eq_of_lt hj1]; rfl
  have h1 : i = i1 := by rw [← e1, ← e2, h]
  subst h1
  exact ⟨rfl, by omega⟩

theorem ChartPop_init (sent : Sentence) : ChartPop sent.length [] (initialDecode sent) := by
  refine { chart_len := by simp [initialDecode], cells := ?_, colls := ?_ }
  · intro i j hij hj
    have hlt : i * sent.length + j < sent.length * sent.length := index_lt (by omega) hj
    refine ⟨{}, ?_, fun h => absurd h (by simp), fun _ => rfl⟩
    simp only [initialDecode, List.getElem?_replicate, hlt, if_true]
  · intro c hc p hp
    simp only [initialDecode] at hc
    rw [List.eq_of_mem_replicate hc] at hp
    simp at hp

/-- What `TransformGraph` has made true when it comes to the span `(i, j)`: every cell that
`Consume` can read for this span is populated. -/
theorem ChartPop_reads {N i j : Nat} {pre post : List (Nat × Nat)} {d : Decode}
    (hsplit : spanOrder N = pre ++ (i, j) :: post) (hd : ChartPop N pre d) (hne : i ≠ j) :
    ∀ j1 k1 c, j1 ≤ k1 → k1 < N → (j1 = i ∧ k1 = j - 1) ∨ j - 1 < j1 →
      d.chart[j1 * N + k1]? = some c → c.populated_ = true := by
  obtain ⟨⟨hij, hj⟩, _, _, hin⟩ := spanOrder_split hsplit
  intro j1 k1 c h1 h2 hor hc
  obtain ⟨c1, hc1, hpop, _⟩ := hd.cells j1 k1 h1 h2
  rw [hc] at hc1
  cases hc1
  apply hpop
  apply hin j1 k1 h1 h2
  rcases hor with ⟨e1, e2⟩ | e
  · right; omega
  · left; omega

theorem spanStep_eq (t : LookupTableCFGLM) (fuel : Nat) (sent : Sentence) (N i j : Nat)
    (d : Decode) :
    spanStep t fuel sent N i j d =
      match collectRules t sent N i j d with
      | .error e => .error e
      | .ok cs => CubePrune t fuel N i j { d with collections := cs } := by
  rfl

theorem mainLoops_eq (t : LookupTableCFGLM) (fuel : Nat) (sent : Sentence) :
    mainLoops t fuel sent =
      forEachE (fun sp d => spanStep t fuel sent sent.length sp.1 sp.2 d)
        (spanOrder sent.length) (initialDecode sent) := by
  rfl

theorem collectRules_spans {t : LookupTableCFGLM} {sent : Sentence} {N i j : Nat}
    {pre post : List (Nat × Nat)} {d : Decode} {cs : List CFGCollection}
    (hsplit : spanOrder N = pre ++ (i, j) :: post) (hd : ChartPop N pre d)
    (h : collectRules t sent N i j d = .ok cs) :
    CollSpans N d.chart (fun c => c.populated_ = true) cs := by
  obtain ⟨⟨hij, hj⟩, _⟩ := spanOrder_split hsplit
  unfold collectRules at h
  split at h
  · split at h
    · exact absurd h (by simp)
    · refine depositRules_spans N d.chart _ _ _ ?_ _ _ _ hd.colls h
      intro sp hsp
      simp [CFGPath.withWord] at hsp
  · rename_i hne
    refine Consume_spans t sent N d.chart _ N {} i i (j - 1) _ cs (by omega) (by omega) ?_ ?_
      hd.colls h
    · intro j1 k1 c h1 h2 hor hc _
      exact ChartPop_reads hsplit hd hne j1 k1 c h1 h2 hor hc
    · intro sp hsp
      simp at hsp

theorem ChartPop_step {t : LookupTableCFGLM} {fuel : Nat} {sent : Sentence} {N i j : Nat}
    {pre post : List (Nat × Nat)} {d d1 : Decode}
    (hsplit : spanOrder N = pre ++ (i, j) :: post) (hd : ChartPop N pre d)
    (h : spanStep t fuel sent N i j d = .ok d1) :
    ChartPop N (pre ++ [(i, j)]) d1 := by
  obtain ⟨⟨hij, hj⟩, _⟩ := spanOrder_split hsplit
  rw [spanStep_eq] at h
  cases hcs : collectRules t sent N i j d with
  | error e => simp [hcs] at h
  | ok cs =>
    simp only [hcs] at h
    have hspans := collectRules_spans hsplit hd hcs
    obtain ⟨_, _, _, cell0, cellF, _, _, _, _, h0, _, hF, hpop, _, hothers, hlen, _, hcoll⟩ :=
      CubePrune_final h
    have hkeep : ∀ (k : Nat) (c : CFGChartItem), d.chart[k]? = some c → c.populated_ = true →
        ∃ c1 : CFGChartItem, d1.chart[k]? = some c1 ∧ c1.populated_ = true := by
      intro k c hk hp
      by_cases hki : k = i * N + j
      · subst hki
        exact ⟨cellF, hF, hpop⟩
      · exact ⟨c, by rw [hothers k hki]; exact hk, hp⟩
    refine { chart_len := by rw [hlen]; exact hd.chart_len, cells := ?_, colls := ?_ }
    · intro i1 j1 h1 h2
      by_cases hsame : i1 * N + j1 = i * N + j
      · obtain ⟨e1, e2⟩ := index_inj h2 hj hsame
        subst e1; subst e2
        exact ⟨cellF, hF, fun _ => hpop, fun hn => absurd (by simp) hn⟩
      · obtain ⟨c, hc, hp1, hp2⟩ := hd.cells i1 j1 h1 h2
        have hne : (i1, j1) ≠ (i, j) := by
          intro e
          injection e with e1 e2
          subst e1; subst e2
          exact hsame rfl
        refine ⟨c, by rw [hothers _ hsame]; exact hc, ?_, ?_⟩
        · intro hin
          rcases List.mem_append.1 hin with hin | hin
          · exact hp1 hin
          · simp only [List.mem_singleton] at hin
            exact absurd hin hne
        · intro hnin
          exact hp2 (fun hin => hnin (List.mem_append_left _ hin))
    · rw [hcoll]
      intro c hc p hp sp hsp
      obtain ⟨c0, hc0, hp0⟩ := hspans c hc p hp sp hsp
      exact hkeep _ c0 hc0 hp0

theorem ChartPop_run {t : LookupTableCFGLM} {fuel : Nat} {sent : Sentence} {N : Nat}
    (todo : List (Nat × Nat)) :
    ∀ (pre rest : List (Nat × Nat)) (d0 d : Decode),
      spanOrder N = pre ++ todo ++ rest → ChartPop N pre d0 →
      forEachE (fun sp d => spanStep t fuel sent N sp.1 sp.2 d) todo d0 = .ok d →
      ChartPop N (pre ++ todo) d := by
  induction todo with
  | nil =>
    intro pre rest d0 d _ hd h
    simp only [forEachE, Except.ok.injEq] at h
    subst h
    simpa using hd
  | cons x todo ih =>
    intro pre rest d0 d hs hd h
    simp only [forEachE] at h
    split at h
    · rename_i d1 hd1
      have hsplit : spanOrder N = pre ++ (x.1, x.2) :: (todo ++ rest) := by
        rw [hs]; simp
      have h1 := ChartPop_step hsplit hd hd1
      have := ih (pre ++ [(x.1, x.2)]) rest d1 d (by rw [hs]; simp) h1 h
      simpa using this
    · exact absurd h (by simp)

/-- C27: when `TransformGraph` comes to the span `(i, j)`, having run its loops over the spans
`pre` before it, the chart cell of a span is populated exactly if the span is in `pre`; the
call of `Consume` for the span reads populated cells only, so it runs as the `Consume` that
fails on an unpopulated cell; every child span of the rules collected for the span names a
populated cell, so the cells that `CubePrune` reads for them are populated too, and the cell
of `(i, j)` itself, which `CubePrune` reads for unary rules, is still as it was created, not
populated. -/
theorem Consume_reads_populated_cells (t : LookupTableCFGLM) (fuel : Nat) (sent : Sentence)
    (pre post : List (Nat × Nat)) (i j : Nat) (d : Decode)
    (hsplit : spanOrder sent.length = pre ++ (i, j) :: post)
    (hrun : forEachE (fun sp d => spanStep t fuel sent sent.length sp.1 sp.2 d) pre
      (initialDecode sent) = .ok d) :
    mainLoops t fuel sent =
      forEachE (fun sp d => spanStep t fuel sent sent.length sp.1 sp.2 d)
        (pre ++ (i, j) :: post) (initialDecode sent) ∧
    (i ≠ j →
      ConsumeChecked t sent sent.length d.chart sent.length {} i i (j - 1) d.collections
        = Consume t sent sent.length d.chart sent.length {} i i (j - 1) d.collections) ∧
    (∀ i1 j1, i1 ≤ j1 → j1 < sent.length →
      ∃ c, d.chart[i1 * sent.length + j1]? = some c ∧
        (c.populated_ = true ↔ (i1, j1) ∈ pre)) ∧
    d.chart[i * sent.length + j]? = some { nodes_ := [], populated_ := false } ∧
    (∀ cs, collectRules t sent sent.length i j d = .ok cs →
      CollSpans sent.length d.chart (fun c => c.populated_ = true) cs) := by
  have hd : ChartPop sent.length pre d := by
    have := @ChartPop_run t fuel sent sent.length pre [] ((i, j) :: post) (initialDecode sent) d
      (by rw [hsplit]; simp) (ChartPop_init sent) hrun
    simpa using this
  obtain ⟨⟨hij, hj⟩, hnin, _, _⟩ := spanOrder_split hsplit
  refine ⟨by rw [mainLoops_eq, hsplit], ?_, ?_, ?_, ?_⟩
  · intro hne
    exact ConsumeChecked_eq t sent sent.length d.chart sent.length {} i i (j - 1) d.collections
      (by omega) (by omega) (ChartPop_reads hsplit hd hne)
  · intro i1 j1 h1 h2
    obtain ⟨c, hc, hp1, hp2⟩ := hd.cells i1 j1 h1 h2
    refine ⟨c, hc, ?_, hp1⟩
    intro hp
    by_contra hn
    rw [hp2 hn] at hp
    cases hp
  · obtain ⟨c, hc, _, hp2⟩ := hd.cells i j hij hj
    rw [hc, hp2 hnin]
  · intro cs hcs
    exact collectRules_spans hsplit hd hcs

/-- C23: if the collection of the span `(i, j)` is empty and its chart cell is as it was
created, `CubePrune` returns with the output graph unchanged, no node and no edge added, and
with the cell still without stateful nodes, now populated. A later `Consume` that reads a cell
without stateful nodes does nothing if the span has more than one word and only follows the
word of the sentence if it has one; and no rule that `Consume` collects has the span of such a
cell among its child spans. -/
theorem CubePrune_empty_collection (t : LookupTableCFGLM) (fuel N i j : Nat) (d : Decode)
    (cell : CFGChartItem) (coll : CFGCollection)
    (hcell : d.chart[i * N + j]? = some cell) (hnodes : cell.nodes_ = [])
    (hpop : cell.populated_ = false) (hcoll : d.collections[i * N + j]? = some coll)
    (hrules : coll.rules_ = []) (hspans : coll.spans_ = []) :
    CubePrune t fuel N i j d = .ok
      { chart := d.chart.set (i * N + j) { nodes_ := [], populated_ := true },
        collections := d.collections, ret := d.ret, viterbi := d.viterbi } ∧
    (∀ (sent : Sentence) (chart1 : List CFGChartItem) (c : CFGChartItem),
      chart1[i * N + j]? = some c → c.nodes_ = [] →
      (∀ fuel1 a i1 cs, i ≠ j → Consume t sent N chart1 (fuel1 + 1) a i1 i j cs = .ok cs) ∧
      (∀ fuel1 a i1 cs, i = j → Consume t sent N chart1 (fuel1 + 1) a i1 i j cs =
        match sent[i]? with
        | none => .error Err.assertion
        | some w =>
          if PredictiveSearch t (a.withWord w).agent then
            AddToChartWith t N (Consume t sent N chart1 fuel1) (a.withWord w) i1 j
              (decide (i1 = i)) cs
          else .ok cs) ∧
      (∀ fuel1 a i1 j1 k1 cs cs1, j1 ≤ k1 → k1 < N →
        SpansIn N chart1 (fun c => c.nodes_ ≠ []) a.spans →
        CollSpans N chart1 (fun c => c.nodes_ ≠ []) cs →
        Consume t sent N chart1 fuel1 a i1 j1 k1 cs = .ok cs1 →
        ∀ c1 ∈ cs1, ∀ p ∈ c1.spans_, (i, j) ∉ p)) := by
  constructor
  · have hinit : cubeInit t N i j d.collections d.chart d.ret d.viterbi = .ok (coll,
        { hypo_queue := [], finished_hyps := [], recomb_map := [], chart := d.chart,
          ret := d.ret, viterbi := d.viterbi, num_popped := 0 }) := by
      simp only [cubeInit, bind, Except.bind, must, hcell, hcoll, hpop, hrules, hspans,
        scoreRules]
      simp [pure, Except.pure]
    have hcond : loopCond t
        { hypo_queue := [], finished_hyps := [], recomb_map := [], chart := d.chart,
          ret := d.ret, viterbi := d.viterbi, num_popped := 0 } = false := by
      simp [loopCond]
    simp only [CubePrune, bind, Except.bind, hinit, cubeLoop_stop hcond, cubeFinish, must]
    simp [pure, Except.pure, FinalizeNodes, hnodes, hcell]
  · intro sent chart1 c hc hn
    refine ⟨?_, ?_, ?_⟩
    · intro fuel1 a i1 cs hne
      simp [Consume, hne, hc, hn, forEachE]
    · intro fuel1 a i1 cs he
      subst he
      simp only [Consume, if_true, hc, hn, forEachE]
      cases sent[i]? with
      | none => rfl
      | some w =>
        by_cases hp : PredictiveSearch t (a.withWord w).agent = true
        · simp only [hp, if_true]
          cases AddToChartWith t N (Consume t sent N chart1 fuel1) (a.withWord w) i1 i
            (decide (i1 = i)) cs <;> rfl
        · simp only [hp]
          rfl
    · intro fuel1 a i1 j1 k1 cs cs1 h1 h2 ha hcs hres c1 hc1 p hp hin
      have hlive := Consume_spans t sent N chart1 (fun c => c.nodes_ ≠ []) fuel1 a i1 j1 k1 cs cs1
        h1 h2 (fun _ _ _ _ _ _ _ hne => hne) ha hcs hres
      obtain ⟨c2, hc2, hne⟩ := hlive c1 hc1 p hp (i, j) hin
      simp only at hc2
      rw [hc] at hc2
      cases hc2
      exact hne hn

theorem Consume_reads_populated_cells_witness :
    spanOrder ([0, 1] : Sentence).length = [(1, 1), (0, 0)] ++ (0, 1) :: [] ∧
    forEachE (fun sp d => spanStep Example.decoder 100 [0, 1] ([0, 1] : Sentence).length
      sp.1 sp.2 d) [(1, 1), (0, 0)] (initialDecode [0, 1]) = .ok Example.beforeLast ∧
    ConsumeChecked Example.decoder [0, 1] ([0, 1] : Sentence).length Example.beforeLast.chart
        ([0, 1] : Sentence).length {} 0 0 (1 - 1) Example.beforeLast.collections
      = Consume Example.decoder [0, 1] ([0, 1] : Sentence).length Example.beforeLast.chart
        ([0, 1] : Sentence).length {} 0 0 (1 - 1) Example.beforeLast.collections ∧
    Example.beforeLast.chart[0 * ([0, 1] : Sentence).length + 1]?
      = some { nodes_ := [], populated_ := false } :=
  ⟨by decide, by rfl,
    (Consume_reads_populated_cells Example.decoder 100 [0, 1] [(1, 1), (0, 0)] [] 0 1
      Example.beforeLast (by decide) (by rfl)).2.1 (by decide),
    (Consume_reads_populated_cells Example.decoder 100 [0, 1] [(1, 1), (0, 0)] [] 0 1
      Example.beforeLast (by decide) (by rfl)).2.2.2.1⟩

theorem CubePrune_empty_collection_witness :
    collectRules Example.decoder [5, 0] 2 0 0 Example.beforeUnknown
      = .ok Example.beforeUnknown.collections ∧
    Example.beforeUnknown.chart[0 * 2 + 0]? = some { nodes_ := [], populated_ := false } ∧
    Example.beforeUnknown.collections[0 * 2 + 0]?
      = some { rules_ := [], spans_ := [], labels_ := [] } ∧
    CubePrune Example.decoder 100 2 0 0 Example.beforeUnknown = .ok Example.afterUnknown :=
  ⟨by rfl, by rfl, by rfl,
    (CubePrune_empty_collection Example.decoder 100 2 0 0 Example.beforeUnknown
      { nodes_ := [], populated_ := false } { rules_ := [], spans_ := [], labels_ := [] }
      (by rfl) (by rfl) (by rfl) (by rfl) (by rfl)
      (by rfl)).1⟩

/-! ### `GetNontermPositions` -/

theorem nontermLoop_filter (words : Sentence) :
    ∀ (l ret : List Nat), (∀ i ∈ l, i < words.length) →
      nontermLoop words l ret
        = ret ++ l.filter (fun i => decide (words.getD i 0 < 0)) := by
  intro l
  induction l with
  | nil => intro ret _; simp [nontermLoop]
  | cons i rest ih =>
    intro ret h
    have hi : i < words.length := h i (List.mem_cons_self _ _)
    have hrest : ∀ k ∈ rest, k < words.length := fun k hk => h k (List.mem_cons_of_mem _ hk)
    simp only [nontermLoop, List.getElem?_eq_getElem hi, List.getD_eq_getElem?_getD,
      Option.getD_some, List.filter_cons]
    rw [ih _ hrest]
    by_cases hw : words[i] < 0
    · simp [hw, List.getD_eq_getElem?_getD]
    · simp [hw, List.getD_eq_getElem?_getD]

theorem countP_range_getD (p : WordId → Bool) (words : Sentence) :
    ((List.range words.length).filter (fun i => p (words.getD i 0))).length
      = words.countP p := by
  induction words using List.reverseRecOn with
  | nil => simp
  | append_singleton ws w ih =>
    rw [List.length_append, List.length_singleton, List.range_succ, List.filter_append,
      List.length_append, List.countP_append]
    have h1 : (List.range ws.length).filter (fun i => p ((ws ++ [w]).getD i 0))
        = (List.range ws.length).filter (fun i => p (ws.getD i 0)) := by
      apply List.filter_congr
      intro i hi
      rw [List.mem_range] at hi
      simp [List.getD_eq_getElem?_getD, List.getElem?_append_left hi]
    rw [h1, ih]
    by_cases hw : p w = true
    · simp [List.getD_eq_getElem?_getD, hw]
    · simp [List.getD_eq_getElem?_getD, hw]

/-- C36: for every CfgData, `GetNontermPositions` returns exactly the indices whose word is
negative, in strictly increasing order; the length of the result is the number of negative
words, the result is empty exactly if no word is negative, and the CfgData is unchanged. -/
theorem GetNontermPositions_spec (d : CfgData) :
    (∀ i : Nat, i ∈ d.GetNontermPositions.1 ↔ ∃ w, d.words[i]? = some w ∧ w < 0) ∧
    d.GetNontermPositions.1.Pairwise (fun a b => a < b) ∧
    d.GetNontermPositions.1.length = negCount d.words ∧
    (d.GetNontermPositions.1 = [] ↔ ∀ w ∈ d.words, ¬ w < 0) ∧
    d.GetNontermPositions.2 = d := by
  have hres : d.GetNontermPositions.1
      = (List.range d.words.length).filter (fun i => decide (d.words.getD i 0 < 0)) := by
    simp only [CfgData.GetNontermPositions]
    rw [nontermLoop_filter d.words _ [] (fun i hi => List.mem_range.1 hi)]
    simp
  have hlen : d.GetNontermPositions.1.length = negCount d.words := by
    rw [hres]
    exact countP_range_getD (fun w => decide (w < 0)) d.words
  refine ⟨?_, ?_, hlen, ?_, rfl⟩
  · intro i
    rw [hres, List.mem_filter, List.mem_range]
    constructor
    · rintro ⟨hi, hw⟩
      refine ⟨d.words[i], List.getElem?_eq_getElem hi, ?_⟩
      simpa [List.getD_eq_getElem?_getD, List.getElem?_eq_getElem hi] using hw
    · rintro ⟨w, hw, hneg⟩
      have hi : i < d.words.length := by
        by_contra hc
        rw [List.getElem?_eq_none (by omega)] at hw
        cases hw
      refine ⟨hi, ?_⟩
      simpa [List.getD_eq_getElem?_getD, hw] using hneg
  · rw [hres]
    exact List.Pairwise.filter _ (List.pairwise_lt_range _)
  · rw [← List.length_eq_zero, hlen]
    simp only [negCount, List.countP_eq_zero, decide_eq_true_eq]

/-- The statement of C36 on the target side `[X0] 7 [X1] 8`: the positions are 0 and 2. -/
theorem GetNontermPositions_spec_witness :
    Example.twoSlots.GetNontermPositions = ([0, 2], Example.twoSlots) ∧
    (2 ∈ Example.twoSlots.GetNontermPositions.1 ↔
      ∃ w, Example.twoSlots.words[2]? = some w ∧ w < 0) :=
  ⟨by decide, (GetNontermPositions_spec Example.twoSlots).1 2⟩

/-! ### The contexts of the n-grams of the reference -/

theorem countFrom_act (bord_ref : Sentence) (i : Nat) :
    ∀ (fuel j : Nat) (curr : List WordId) (st : NgramCounts),
      (countFrom bord_ref i fuel j curr st).act_order
        = if fuel = 0 then st.act_order
          else max st.act_order (min (j + fuel - 1) (max j (bord_ref.length - i))) := by
  intro fuel
  induction fuel with
  | zero => intro j curr st; simp [countFrom]
  | succ fuel ih =>
    intro j curr st
    simp only [countFrom]
    split
    · rename_i hlt
      rw [ih]
      simp only
      split <;> simp only [Nat.add_one_ne_zero, if_false] <;> omega
    · simp only [Nat.add_one_ne_zero, if_false]
      omega

/-- The variable `act_order` after the counting loop: the least of `NGRAM_ORDER` and the
length of the bordered reference. -/
theorem countNgrams_act_eq (bord_ref : Sentence) (hne : bord_ref ≠ []) :
    (countNgrams bord_ref).act_order = min NGRAM_ORDER bord_ref.length := by
  have hlen : 0 < bord_ref.length := List.length_pos.2 hne
  have hfold : ∀ (l : List Nat) (s : NgramCounts),
      s.act_order = min NGRAM_ORDER bord_ref.length →
      (l.foldl (fun st i => countFrom bord_ref i (NGRAM_ORDER + 1) 0 [] st) s).act_order
        = min NGRAM_ORDER bord_ref.length := by
    intro l
    induction l with
    | nil => intro s hs; exact hs
    | cons i rest ih =>
      intro s hs
      refine ih _ ?_
      rw [countFrom_act]
      simp only [NGRAM_ORDER] at hs ⊢
      simp only [Nat.add_one_ne_zero, if_false]
      omega
  unfold countNgrams
  obtain ⟨n, hn⟩ : ∃ n, bord_ref.length = n + 1 := ⟨bord_ref.length - 1, by omega⟩
  rw [hn, List.range_succ_eq_map, List.foldl_cons, ← hn]
  apply hfold
  rw [countFrom_act]
  simp only [NGRAM_ORDER, Nat.add_one_ne_zero, if_false]
  omega

/-- An n-gram occurs at most as often as the n-gram without its last word. -/
theorem occurrencesAt_context (sent : Sentence) (n : Nat) (g : List WordId) (hn : 1 ≤ n) :
    occurrencesAt sent n g ≤ occurrencesAt sent (n - 1) g.dropLast := by
  unfold occurrencesAt
  apply List.countP_mono_left
  intro i _ h
  simp only [decide_eq_true_eq] at h ⊢
  refine ⟨by omega, ?_⟩
  rw [← h.2, List.dropLast_eq_take, List.take_take, List.length_take, List.length_drop]
  congr 1
  omega

/-- Every n-gram of an order from 1 to 5 that the maps hold has its context in the map of
the order below, with a count that is at least its own, which is at least 1. -/
theorem countNgrams_context (bord_ref : Sentence) (n : Nat) (h1 : 1 ≤ n) (hn : n ≤ NGRAM_ORDER)
    (g : List WordId) (k : Nat) (hg : (g, k) ∈ (countNgrams bord_ref).ngrams.getD n []) :
    ∃ kc, assocFind ((countNgrams bord_ref).ngrams.getD (n - 1) []) g.dropLast = some kc ∧
      1 ≤ k ∧ k ≤ kc ∧ k = occurrencesAt bord_ref n g ∧
      kc = occurrencesAt bord_ref (n - 1) g.dropLast := by
  obtain ⟨_, hnd, hcount⟩ := countNgrams_spec bord_ref n hn g
  have hfind := assocFind_of_mem_nodup _ g k (hnd n) hg
  rw [hcount] at hfind
  obtain ⟨hk, hne⟩ := ofCount_some _ _ hfind
  have hctx := (countNgrams_spec bord_ref (n - 1) (by omega) g.dropLast).2.2
  have hle := occurrencesAt_context bord_ref n g h1
  refine ⟨occurrencesAt bord_ref (n - 1) g.dropLast, ?_, by omega, by omega, hk, rfl⟩
  rw [hctx]
  unfold ofCount
  rw [if_neg (by omega)]

theorem writeLines_unchanged (logf : Nat → Real) (n : Nat) (ngrams : List NgramMap) :
    ∀ vals : List (List WordId × Nat),
      (∀ val ∈ vals, ∃ kc, assocFind (ngrams.getD (n - 1) []) val.1.dropLast = some kc) →
      n - 1 < ngrams.length →
      writeLines logf n vals ngrams =
        (vals.map fun val =>
          (logf val.2 - logf ((assocFind (ngrams.getD (n - 1) []) val.1.dropLast).getD 0),
            val.1), ngrams) := by
  intro vals
  induction vals with
  | nil => intro _ _; rfl
  | cons val rest ih =>
    intro h hlen
    obtain ⟨kc, hkc⟩ := h val (List.mem_cons_self _ _)
    have hset : ngrams.set (n - 1) (ngrams.getD (n - 1) []) = ngrams := by
      apply List.ext_getElem?
      intro m
      by_cases hm : n - 1 = m
      · subst hm
        simp [List.getElem?_set, hlen, List.getD_eq_getElem?_getD]
      · simp [List.getElem?_set, hm]
    simp only [writeLines, ngramRead, hkc, hset, List.map_cons, Option.getD_some]
    rw [ih (fun v hv => h v (List.mem_cons_of_mem _ hv)) hlen]

/-- C34: for every reference, `act_order` is the least of 5 and the length of the reference
plus 2; every n-gram of an order from 1 to `act_order` that the counting loop has recorded has
its context, the n-gram without its last word, recorded at the order below, with a count that
is at least the count of the n-gram, which is at least 1; so the logarithms of both counts are
defined and their difference is at most 0, the read `ngrams[n-1][context]` finds the key and
leaves the map as it is, the loop that writes the n-grams of the order leaves all maps as they
are, and every value in the file is at most 0 when `log` is evaluated by a function that is
monotone on the counts from 1 on. -/
theorem oracle_ngram_context_counts (bos eos : WordId) (ref : Sentence) :
    (countNgrams (bordered bos eos ref)).act_order = min 5 (ref.length + 2) ∧
    (∀ n g k, 1 ≤ n → n ≤ (countNgrams (bordered bos eos ref)).act_order →
      (g, k) ∈ (countNgrams (bordered bos eos ref)).ngrams.getD n [] →
      ∃ kc, (g.dropLast, kc) ∈ (countNgrams (bordered bos eos ref)).ngrams.getD (n - 1) [] ∧
        1 ≤ k ∧ k ≤ kc ∧
        k = occurrences (bordered bos eos ref) g ∧
        kc = occurrences (bordered bos eos ref) g.dropLast ∧
        Real.log (k : ℝ) - Real.log (kc : ℝ) ≤ 0 ∧
        ngramRead ((countNgrams (bordered bos eos ref)).ngrams.getD (n - 1) []) g.dropLast
          = (kc, (countNgrams (bordered bos eos ref)).ngrams.getD (n - 1) [])) ∧
    (∀ (logf : Nat → Real) (n : Nat), 1 ≤ n →
      n ≤ (countNgrams (bordered bos eos ref)).act_order →
      writeLines logf n
          (((countNgrams (bordered bos eos ref)).ngrams.getD n []).insertionSort
            fun a b => vecLt a.1 b.1 = true)
          (countNgrams (bordered bos eos ref)).ngrams
        = (arpaSection logf (countNgrams (bordered bos eos ref)).ngrams n,
           (countNgrams (bordered bos eos ref)).ngrams)) ∧
    (∀ logf : Nat → Real, (∀ a b : Nat, 1 ≤ a → a ≤ b → logf a ≤ logf b) →
      ∀ sec ∈ oracleArpa logf bos eos ref, ∀ val ∈ sec.2, val.1 ≤ 0) := by
  have hne : bordered bos eos ref ≠ [] := by simp [bordered]
  have hact : (countNgrams (bordered bos eos ref)).act_order = min 5 (ref.length + 2) := by
    rw [countNgrams_act_eq _ hne]
    simp [bordered, NGRAM_ORDER]
  have hle : (countNgrams (bordered bos eos ref)).act_order ≤ NGRAM_ORDER :=
    countNgrams_act_order _
  have hctx : ∀ n g k, 1 ≤ n → n ≤ NGRAM_ORDER →
      (g, k) ∈ (countNgrams (bordered bos eos ref)).ngrams.getD n [] →
      ∃ kc, assocFind ((countNgrams (bordered bos eos ref)).ngrams.getD (n - 1) []) g.dropLast
          = some kc ∧ 1 ≤ k ∧ k ≤ kc ∧ k = occurrencesAt (bordered bos eos ref) n g ∧
        kc = occurrencesAt (bordered bos eos ref) (n - 1) g.dropLast :=
    fun n g k h1 hn hg => countNgrams_context _ n h1 hn g k hg
  refine ⟨hact, ?_, ?_, ?_⟩
  · intro n g k h1 hn hg
    obtain ⟨kc, hfind, hk1, hk2, hk, hkc⟩ := hctx n g k h1 (by omega) hg
    have hocc : occurrencesAt (bordered bos eos ref) n g ≠ 0 := by omega
    have hglen : g.length = n := occurrencesAt_pos_length _ _ _ hocc
    refine ⟨kc, assocFind_some_mem _ _ _ hfind, hk1, hk2, ?_, ?_, ?_, ?_⟩
    · unfold occurrences; rw [hglen]; exact hk
    · unfold occurrences; rw [List.length_dropLast, hglen]; exact hkc
    · have hpos : (0 : ℝ) < (k : ℝ) := by exact_mod_cast hk1
      have hcast : (k : ℝ) ≤ (kc : ℝ) := by exact_mod_cast hk2
      have := Real.log_le_log hpos hcast
      linarith
    · simp only [ngramRead, hfind]
  · intro logf n h1 hn
    have hlen := (countNgrams_spec (bordered bos eos ref) n (by omega) []).1
    rw [writeLines_unchanged logf n _ _ ?_ (by omega)]
    · rfl
    · intro val hval
      have hmem : val ∈ (countNgrams (bordered bos eos ref)).ngrams.getD n [] :=
        (List.perm_insertionSort _ _).mem_iff.1 hval
      obtain ⟨kc, hfind, _⟩ := hctx n val.1 val.2 h1 (by omega) hmem
      exact ⟨kc, hfind⟩
  · intro logf hmono sec hsec val hval
    unfold oracleArpa at hsec
    obtain ⟨h1, h2, h3⟩ := arpaSections_mem logf _ _ 1 sec hsec
    rw [h3] at hval
    unfold arpaSection at hval
    obtain ⟨p, hp, hpv⟩ := List.mem_map.1 hval
    have hp1 : p ∈ (countNgrams (bordered bos eos ref)).ngrams.getD sec.1 [] :=
      (List.perm_insertionSort _ _).mem_iff.1 hp
    obtain ⟨kc, hfind, hk1, hk2, _⟩ := hctx sec.1 p.1 p.2 h1 (by omega) hp1
    subst hpv
    simp only [hfind, Option.getD_some]
    have := hmono p.2 kc hk1 hk2
    linarith

/-- The statement of C34 on the reference `5 6 5` with `<s> = 1` and `</s> = 2`: `act_order`
is 5, and the bigram `5 6`, counted once, has its context `5` in the map of the unigrams with
a count of at least 1. -/
theorem oracle_ngram_context_counts_witness :
    (countNgrams (bordered 1 2 [5, 6, 5])).act_order = 5 ∧
    (([5, 6] : List WordId), 1) ∈ (countNgrams (bordered 1 2 [5, 6, 5])).ngrams.getD 2 [] ∧
    ∃ kc : Nat, (([5] : List WordId), kc) ∈ (countNgrams (bordered 1 2 [5, 6, 5])).ngrams.getD 1 [] ∧
      1 ≤ kc ∧ Real.log ((1 : Nat) : ℝ) - Real.log (kc : ℝ) ≤ 0 :=
  ⟨by decide, by decide,
   ((oracle_ngram_context_counts 1 2 [5, 6, 5]).2.1 2 [5, 6] 1 (by decide) (by decide)
      (by decide)).imp fun _ h => ⟨h.1, h.2.2.1, h.2.2.2.2.2.1⟩⟩

/-! ### `Forest::Complete`: the Viterbi score of the new node -/

theorem betterOf_foldl (l : List PartialEdge) :
    ∀ (b0 : Option PartialEdge) (b : PartialEdge), l.foldl betterOf b0 = some b →
      (b ∈ l ∨ b0 = some b) ∧ (∀ add ∈ l, add.score ≤ b.score) ∧
      (∀ b1, b0 = some b1 → b1.score ≤ b.score) := by
  induction l with
  | nil =>
    intro b0 b h
    simp only [List.foldl_nil] at h
    refine ⟨Or.inr h, fun _ hin => absurd hin (by simp), ?_⟩
    intro b1 hb1
    rw [h] at hb1
    cases hb1
    exact le_refl _
  | cons add rest ih =>
    intro b0 b h
    simp only [List.foldl_cons] at h
    obtain ⟨h1, h2, h3⟩ := ih _ b h
    cases hb0 : b0 with
    | none =>
      simp only [hb0, betterOf] at h1 h3
      refine ⟨?_, ?_, fun b1 hb1 => by cases hb1⟩
      · rcases h1 with h1 | h1
        · exact Or.inl (List.mem_cons_of_mem _ h1)
        · cases h1
          exact Or.inl (List.mem_cons_self _ _)
      · intro x hx
        rcases List.mem_cons.1 hx with e | e
        · subst e
          exact h3 x rfl
        · exact h2 x e
    | some b1 =>
      simp only [hb0, betterOf] at h1 h3
      by_cases hlt : b1.score < add.score
      · simp only [hlt, if_true] at h1 h3
        have hadd := h3 add rfl
        refine ⟨?_, ?_, ?_⟩
        · rcases h1 with h1 | h1
          · exact Or.inl (List.mem_cons_of_mem _ h1)
          · cases h1
            exact Or.inl (List.mem_cons_self _ _)
        · intro x hx
          rcases List.mem_cons.1 hx with e | e
          · subst e; exact hadd
          · exact h2 x e
        · intro b2 hb2
          cases hb2
          exact le_trans (le_of_lt hlt) hadd
      · simp only [hlt, if_false] at h1 h3
        have hb := h3 b1 rfl
        refine ⟨?_, ?_, ?_⟩
        · rcases h1 with h1 | h1
          · exact Or.inl (List.mem_cons_of_mem _ h1)
          · exact Or.inr h1
        · intro x hx
          rcases List.mem_cons.1 hx with e | e
          · subst e
            exact le_trans (not_lt.1 hlt) hb
          · exact h2 x e
        · intro b2 hb2
          cases hb2
          exact hb

theorem completeLoop_best (F : Forest) (nodes : List HyperNodeQ) (node : Nat)
    (hyps : List PartialEdge) :
    ∀ (s s1 : CompleteState), Forest.completeLoop F nodes node hyps s = .ok s1 →
      s1.best = hyps.foldl betterOf s.best := by
  induction hyps with
  | nil =>
    intro s s1 h
    simp only [Forest.completeLoop, Except.ok.injEq] at h
    subst h; rfl
  | cons add rest ih =>
    intro s s1 h
    simp only [Forest.completeLoop] at h
    cases hstep : F.completeStep nodes node s add with
    | error e => simp [hstep] at h
    | ok s2 =>
      simp only [hstep] at h
      rw [ih s2 s1 h, List.foldl_cons]
      congr 1
      unfold Forest.completeStep at hstep
      cases hpr : F.prepare nodes add with
      | error e => simp [hpr] at hstep
      | ok pr =>
        simp only [hpr] at hstep
        cases hmemo : assocFind s.node_memo pr.node_id with
        | some ptr =>
          simp only [hmemo, Except.ok.injEq] at hstep
          subst hstep; rfl
        | none =>
          simp only [hmemo] at hstep
          cases hmk : F.makeEdge node add pr s.edges.length with
          | error e => simp [hmk] at hstep
          | ok edge =>
            simp only [hmk, Except.ok.injEq] at hstep
            subst hstep; rfl

theorem slotLoop_tails_lt (nodes : List HyperNodeQ) (add : PartialEdge) (wids : List WordId) :
    ∀ (acc pr : EdgeParts), slotLoop nodes add wids acc = .ok pr →
      (∀ x ∈ acc.tails, x < nodes.length) → ∀ x ∈ pr.tails, x < nodes.length := by
  induction wids with
  | nil =>
    intro acc pr h hacc
    simp only [slotLoop, Except.ok.injEq] at h
    subst h; exact hacc
  | cons wid rest ih =>
    intro acc pr h hacc
    simp only [slotLoop] at h
    split at h
    · cases hc : add.nt[(-1 - wid).toNat]? with
      | none => simp [hc, must] at h
      | some child =>
        cases hn : nodes[child]? with
        | none => simp [hc, hn, must] at h
        | some childNode =>
          simp only [hc, hn, must] at h
          split at h
          · refine ih _ pr h ?_
            intro x hx
            simp only [List.mem_append, List.mem_singleton] at hx
            rcases hx with hx | hx
            · exact hacc x hx
            · subst hx
              by_contra hge
              rw [List.getElem?_eq_none (by omega)] at hn
              cases hn
          · cases h
    · exact ih acc pr h hacc

theorem prepare_tails_lt (F : Forest) (nodes : List HyperNodeQ) (add : PartialEdge)
    (pr : EdgeParts) (h : F.prepare nodes add = .ok pr) : ∀ x ∈ pr.tails, x < nodes.length := by
  unfold Forest.prepare at h
  cases hnote : add.note with
  | none =>
    simp only [hnote] at h
    exact slotLoop_tails_lt nodes add _ _ pr h (fun x hx => absurd hx (by simp))
  | some old_edge =>
    simp only [hnote] at h
    cases hd : old_edge.edge.trg_data[F.factor_]? with
    | none => simp [hd, must] at h
    | some data =>
      simp only [hd, must] at h
      exact slotLoop_tails_lt nodes add _ _ pr h (fun x hx => absurd hx (by simp))

/-- The Viterbi score that `Complete` stores on the new node is the score of a hypothesis of
the list and the greatest of all their scores, whether a hypothesis was made into an edge or
skipped as a duplicate; the score of an attached edge plus the Viterbi scores of its tails is
the score of the hypothesis it was made from, so it is at most the stored score. -/
theorem Complete_viterbi_is_best_hypothesis (F : Forest) (hyps : List PartialEdge)
    (F1 : Forest) (node : Nat) (score : Rat) (h : F.Complete hyps = .ok (F1, node, score)) :
    viterbiAt F1.hg.nodes node = score ∧
    (∃ add ∈ hyps, add.score = score) ∧
    (∀ add ∈ hyps, add.score ≤ score) ∧
    (∀ x ∈ insideScores F1.hg node, ∃ add ∈ hyps, x = add.score) := by
  obtain ⟨s, span, sym, best, hl, hbest, hnode, hscore, he, hnodes, _⟩ :=
    Complete_ok F hyps F1 node score h
  have hb := completeLoop_best F _ _ hyps _ s hl
  rw [hbest] at hb
  obtain ⟨hin, hmax, _⟩ := betterOf_foldl hyps none best hb.symm
  have hin1 : best ∈ hyps := by
    rcases hin with hin | hin
    · exact hin
    · cases hin
  obtain ⟨prs, news, hp, hedges, hne, hf, hid⟩ := completeLoop_spec F _ _ hyps _ s hl
  have hvit : viterbiAt F1.hg.nodes node = score := by
    subst hnode
    simp only [viterbiAt, hnodes, List.getElem?_append_right (le_refl _), Nat.sub_self,
      List.getElem?_cons_zero, hscore]
  refine ⟨hvit, ⟨best, hin1, hscore.symm⟩, fun add hadd => by rw [hscore]; exact hmax add hadd,
    ?_⟩
  intro x hx
  subst hnode
  simp only [insideScores, hnodes, List.getElem?_append_right (le_refl _), Nat.sub_self,
    List.getElem?_cons_zero, List.mem_filterMap, Option.map_eq_some'] at hx
  obtain ⟨eid, heid, e, hget, hxe⟩ := hx
  simp only [List.nil_append] at hne
  rw [hne, hid, List.mem_range'_1] at heid
  rw [he, hedges, List.getElem?_append_right heid.1] at hget
  have hnews : e ∈ news := List.getElem?_mem hget
  obtain ⟨y, hy, hmk⟩ := forall₂_mem_right _ _ _ hf e hnews
  have hyz : y ∈ hyps.zip prs := ((firstOfKey_keys (hyps.zip prs) []).2.2.2 y hy).1
  have hprep : F.prepare F.hg.nodes y.1 = .ok y.2 := forall₂_mem_zip _ _ _ hp y hyz
  obtain ⟨_, _, htails, hsc⟩ := makeEdge_id F _ y.1 y.2 e.id e hmk
  have hps := prepare_score F _ _ _ hprep
  have htl := prepare_tails_lt F _ _ _ hprep
  refine ⟨y.1, (List.of_mem_zip hyz).1, ?_⟩
  rw [← hxe]
  have hsame : e.tails.map (viterbiAt F1.hg.nodes) = e.tails.map (viterbiAt F.hg.nodes) := by
    apply List.map_congr_left
    intro t ht
    rw [htails] at ht
    have hlt := htl t ht
    simp only [viterbiAt, hnodes, List.getElem?_append_left hlt]
  rw [htails] at hsame
  simp only [edgeInside, htails, hsame, hsc, hps]
  ring

/-- C31: on the three hypotheses of the worked example, of which the second has the key of
the first and a higher score, `Complete` ends well and stores the Viterbi score 12, the score
of the second hypothesis, on the new node, while the two edges attached to the node, made
from the first and the third hypothesis, have the scores 5 and 2 and, with the Viterbi scores
of their tails, the inside scores 10 and 8: the stored score is above the maximum 10 over the
attached edges. -/
theorem Complete_viterbi_above_attached_edges :
    Forest.Complete Example.incForest Example.hyps = .ok (Example.incForestAfter, 2, 12) ∧
    viterbiAt Example.incForestAfter.hg.nodes 2 = 12 ∧
    insideScores Example.incForestAfter.hg 2 = [10, 8] ∧
    insideMax Example.incForestAfter.hg 2 = some 10 ∧
    insideMax Example.incForestAfter.hg 2 ≠ some (viterbiAt Example.incForestAfter.hg.nodes 2) := by
  refine ⟨by with_unfolding_all rfl, by with_unfolding_all rfl, by with_unfolding_all rfl,
    by with_unfolding_all rfl, by decide!⟩

/-! ### The recursion of `Consume` and `AddToChart` ends -/

theorem forEachE_no_fuel {α σ : Type} {f : α → σ → Except Err σ} :
    ∀ (l : List α) (s : σ), (∀ x ∈ l, ∀ a, f x a ≠ .error Err.fuel) →
      forEachE f l s ≠ .error Err.fuel := by
  intro l
  induction l with
  | nil => intro s _ h; cases h
  | cons x rest ih =>
    intro s h
    simp only [forEachE]
    have hx := h x (List.mem_cons_self _ _) s
    cases hfx : f x s with
    | error e =>
      intro hc
      simp only [Except.error.injEq] at hc
      rw [hfx, hc] at hx
      exact hx rfl
    | ok s1 => exact ih s1 (fun y hy => h y (List.mem_cons_of_mem _ hy))

theorem depositRules_no_fuel (a : CFGPath) (idx : Nat) :
    ∀ (fsms : List RuleFSM) (cs : List CFGCollection),
      depositRules a idx fsms cs ≠ .error Err.fuel := by
  intro fsms
  induction fsms with
  | nil => intro cs h; cases h
  | cons fsm rest ih =>
    intro cs
    simp only [depositRules]
    split
    · split
      · exact ih _
      · intro h; cases h
    · exact ih _

theorem AddToChartWith_no_fuel (t : LookupTableCFGLM) (N : Nat)
    (consume : CFGPath → Nat → Nat → Nat → List CFGCollection → Except Err (List CFGCollection))
    (a : CFGPath) (i j : Nat) (u : Bool) (cs : List CFGCollection)
    (h : ∀ k c, j + 1 ≤ k → k < N → consume a i (j + 1) k c ≠ .error Err.fuel) :
    AddToChartWith t N consume a i j u cs ≠ .error Err.fuel := by
  unfold AddToChartWith
  have hfirst : (if u then (.ok cs : Except Err (List CFGCollection))
      else depositRules a (i * N + j) t.rule_fsms_ cs) ≠ .error Err.fuel := by
    split
    · intro hc; cases hc
    · exact depositRules_no_fuel _ _ _ _
  cases hf : (if u then (.ok cs : Except Err (List CFGCollection))
      else depositRules a (i * N + j) t.rule_fsms_ cs) with
  | error e =>
    rw [hf] at hfirst
    simpa using hfirst
  | ok cs1 =>
    simp only
    split
    · apply forEachE_no_fuel
      intro k hk c
      rw [List.mem_range'_1] at hk
      exact h k c hk.1 (by omega)
    · intro hc; cases hc

/-- With at least `N - k` units of depth, and at least one, `Consume` for a symbol that ends
at `k` never stops for lack of depth. -/
theorem Consume_no_fuel (t : LookupTableCFGLM) (sent : Sentence) (N : Nat)
    (chart : List CFGChartItem) :
    ∀ (fuel : Nat) (a : CFGPath) (i j k : Nat) (cs : List CFGCollection),
      1 ≤ fuel → N - k ≤ fuel →
      Consume t sent N chart fuel a i j k cs ≠ .error Err.fuel := by
  intro fuel
  induction fuel with
  | zero => intro a i j k cs h1 _; omega
  | succ n ih =>
    intro a i j k cs _ hk
    have hadd : ∀ (b : CFGPath) (u : Bool) (c : List CFGCollection),
        AddToChartWith t N (Consume t sent N chart n) b i k u c ≠ .error Err.fuel := by
      intro b u c
      apply AddToChartWith_no_fuel
      intro k2 c2 h1 h2
      exact ih b i (k + 1) k2 c2 (by omega) (by omega)
    simp only [Consume]
    have hfirst : (if j = k then
        match sent[j]? with
        | none => (.error Err.assertion : Except Err (List CFGCollection))
        | some w =>
          if PredictiveSearch t (a.withWord w).agent then
            AddToChartWith t N (Consume t sent N chart n) (a.withWord w) i k (decide (i = j)) cs
          else .ok cs
      else .ok cs) ≠ .error Err.fuel := by
      split
      · split
        · intro hc; cases hc
        · split
          · exact hadd _ _ _
          · intro hc; cases hc
      · intro hc; cases hc
    cases hf : (if j = k then
        match sent[j]? with
        | none => (.error Err.assertion : Except Err (List CFGCollection))
        | some w =>
          if PredictiveSearch t (a.withWord w).agent then
            AddToChartWith t N (Consume t sent N chart n) (a.withWord w) i k (decide (i = j)) cs
          else .ok cs
      else .ok cs) with
    | error e =>
      rw [hf] at hfirst
      simpa using hfirst
    | ok cs1 =>
      simp only
      cases hcell : chart[j * N + k]? with
      | none => intro hc; cases hc
      | some cell =>
        simp only
        apply forEachE_no_fuel
        intro sym _ c
        split
        · exact hadd _ _ _
        · intro hc; cases hc

/-- The result of `Consume` for a symbol that ends at `k` does not depend on the depth it is
allowed, from `N - k` (and 1) on. -/
theorem Consume_fuel_indep (t : LookupTableCFGLM) (sent : Sentence) (N : Nat)
    (chart : List CFGChartItem) :
    ∀ (fuel1 fuel2 : Nat) (a : CFGPath) (i j k : Nat) (cs : List CFGCollection),
      1 ≤ fuel1 → N - k ≤ fuel1 → 1 ≤ fuel2 → N - k ≤ fuel2 →
      Consume t sent N chart fuel1 a i j k cs = Consume t sent N chart fuel2 a i j k cs := by
  intro fuel1
  induction fuel1 with
  | zero => intro fuel2 a i j k cs h1; omega
  | succ n1 ih =>
    intro fuel2 a i j k cs _ hk1 h2 hk2
    obtain ⟨n2, rfl⟩ : ∃ n2, fuel2 = n2 + 1 := ⟨fuel2 - 1, by omega⟩
    have hadd : ∀ (b : CFGPath) (u : Bool) (c : List CFGCollection),
        AddToChartWith t N (Consume t sent N chart n1) b i k u c
          = AddToChartWith t N (Consume t sent N chart n2) b i k u c := by
      intro b u c
      apply AddToChartWith_congr
      intro k2 c2 h1 h2
      exact ih n2 b i (k + 1) k2 c2 (by omega) (by omega) (by omega) (by omega)
    simp only [Consume, hadd]

theorem depositRules_length (a : CFGPath) (idx : Nat) :
    ∀ (fsms : List RuleFSM) (cs : List CFGCollection), idx < cs.length →
      ∃ cs1, depositRules a idx fsms cs = .ok cs1 ∧ cs1.length = cs.length := by
  intro fsms
  induction fsms with
  | nil => intro cs _; exact ⟨cs, rfl, rfl⟩
  | cons fsm rest ih =>
    intro cs hidx
    simp only [depositRules]
    split
    · rename_i key _
      rw [List.getElem?_eq_getElem hidx]
      dsimp only
      obtain ⟨cs1, h1, h2⟩ := ih (cs.set idx (AddRules cs[idx] a (fsm.rules key)))
        (by simpa using hidx)
      exact ⟨cs1, h1, by simpa using h2⟩
    · exact ih cs hidx

theorem AddToChartWith_length (t : LookupTableCFGLM) (N : Nat)
    (consume : CFGPath → Nat → Nat → Nat → List CFGCollection → Except Err (List CFGCollection))
    (a : CFGPath) (i j : Nat) (u : Bool) (cs : List CFGCollection)
    (hcons : ∀ k c, j + 1 ≤ k → k < N → c.length = N * N →
      ∃ c1, consume a i (j + 1) k c = .ok c1 ∧ c1.length = N * N)
    (hij : i ≤ j) (hj : j < N) (hcs : cs.length = N * N) :
    ∃ cs1, AddToChartWith t N consume a i j u cs = .ok cs1 ∧ cs1.length = N * N := by
  have hfirst : ∃ c1, (if u then (.ok cs : Except Err (List CFGCollection))
      else depositRules a (i * N + j) t.rule_fsms_ cs) = .ok c1 ∧ c1.length = N * N := by
    cases u with
    | true => exact ⟨cs, rfl, hcs⟩
    | false =>
      obtain ⟨c1, h1, h2⟩ := depositRules_length a (i * N + j) t.rule_fsms_ cs
        (by rw [hcs]; exact index_lt (by omega) hj)
      exact ⟨c1, by simpa using h1, by rw [h2]; exact hcs⟩
  obtain ⟨c1, h1, hc1⟩ := hfirst
  simp only [AddToChartWith, h1]
  split
  · refine forEachE_total (fun c => c.length = N * N) _ c1 ?_ hc1
    intro k hk c hc
    simp only [List.mem_range'_1] at hk
    exact hcons k c hk.1 (by omega) hc
  · exact ⟨c1, rfl, hc1⟩

/-- On a sentence of `N` words with a chart and collections of `N * N` entries, `Consume`
returns, whatever the chart cells and the tries hold. -/
theorem Consume_total (t : LookupTableCFGLM) (sent : Sentence) (N : Nat)
    (chart : List CFGChartItem) (hsent : sent.length = N) (hchart : chart.length = N * N) :
    ∀ (fuel : Nat) (a : CFGPath) (i j k : Nat) (cs : List CFGCollection),
      N - k ≤ fuel → i ≤ j → j ≤ k → k < N → cs.length = N * N →
      ∃ cs1, Consume t sent N chart fuel a i j k cs = .ok cs1 ∧ cs1.length = N * N := by
  intro fuel
  induction fuel with
  | zero => intro a i j k cs hf _ hjk hk; omega
  | succ n ih =>
    intro a i j k cs hf hij hjk hk hcs
    have hadd : ∀ (b : CFGPath) (u : Bool) (c : List CFGCollection), c.length = N * N →
        ∃ c1, AddToChartWith t N (Consume t sent N chart n) b i k u c = .ok c1 ∧
          c1.length = N * N := by
      intro b u c hc
      refine AddToChartWith_length t N _ b i k u c ?_ (by omega) hk hc
      intro k2 c2 hk2 hk2N hc2
      exact ih b i (k + 1) k2 c2 (by omega) (by omega) hk2 hk2N hc2
    have hfirst : ∃ c1, (if j = k then
          match sent[j]? with
          | none => (.error Err.assertion : Except Err (List CFGCollection))
          | some w =>
            if PredictiveSearch t (a.withWord w).agent then
              AddToChartWith t N (Consume t sent N chart n) (a.withWord w) i k (decide (i = j)) cs
            else .ok cs
        else .ok cs) = .ok c1 ∧ c1.length = N * N := by
      split
      · have hjlt : j < sent.length := by omega
        rw [List.getElem?_eq_getElem hjlt]
        dsimp only
        split
        · exact hadd _ _ cs hcs
        · exact ⟨cs, rfl, hcs⟩
      · exact ⟨cs, rfl, hcs⟩
    obtain ⟨c1, h1, hc1⟩ := hfirst
    have hidx : j * N + k < chart.length := by
      rw [hchart]; exact index_lt (by omega) hk
    simp only [Consume]
    rw [h1]
    simp only [List.getElem?_eq_getElem hidx]
    refine forEachE_total (fun c => c.length = N * N) _ c1 ?_ hc1
    intro sym _ c hc
    split
    · exact hadd _ _ c hc
    · exact ⟨c, rfl, hc⟩

/-- C35: for every sentence length `N`, every table and every chart, `AddToChart` for a path
that ends at `k` calls `Consume` only with the start `k + 1` and an end from `k + 1` to
`N - 1`, the result of `Consume` for a symbol that ends at `k` is the same for every depth
from `N - k` on and is never a stop for lack of depth, so the recursion is at most `N - k`
calls of `Consume` deep, which is at most `N`; and where the sentence has `N` words and the
chart and the collections `N * N` entries, `Consume` returns. -/
theorem Consume_recursion_depth (t : LookupTableCFGLM) (sent : Sentence) (N : Nat)
    (chart : List CFGChartItem) (fuel : Nat) (a : CFGPath) (i j k : Nat)
    (cs : List CFGCollection) (hk : k < N) (hfuel : N - k ≤ fuel) :
    (∀ (b : CFGPath) (u : Bool) (c : List CFGCollection)
        (c1 c2 : CFGPath → Nat → Nat → Nat → List CFGCollection →
          Except Err (List CFGCollection)),
      (∀ k2 x, k + 1 ≤ k2 → k2 < N → c1 b i (k + 1) k2 x = c2 b i (k + 1) k2 x) →
      AddToChartWith t N c1 b i k u c = AddToChartWith t N c2 b i k u c) ∧
    Consume t sent N chart fuel a i j k cs = Consume t sent N chart (N - k) a i j k cs ∧
    Consume t sent N chart fuel a i j k cs = Consume t sent N chart N a i j k cs ∧
    Consume t sent N chart fuel a i j k cs ≠ .error Err.fuel ∧
    (sent.length = N → chart.length = N * N → cs.length = N * N → i ≤ j → j ≤ k →
      ∃ cs1, Consume t sent N chart fuel a i j k cs = .ok cs1 ∧ cs1.length = N * N) := by
  refine ⟨?_, ?_, ?_, ?_, ?_⟩
  · intro b u c c1 c2 h
    exact AddToChartWith_congr t N c1 c2 b i k u c (fun k2 x h1 h2 => h k2 x h1 h2)
  · exact Consume_fuel_indep t sent N chart fuel (N - k) a i j k cs (by omega) hfuel (by omega)
      (le_refl _)
  · exact Consume_fuel_indep t sent N chart fuel N a i j k cs (by omega) hfuel (by omega)
      (by omega)
  · exact Consume_no_fuel t sent N chart fuel a i j k cs (by omega) hfuel
  · intro hsent hchart hcs hij hjk
    exact Consume_total t sent N chart hsent hchart fuel a i j k cs hfuel hij hjk hk hcs

/-- The statement of C35 on the sentence `a b` and the chart in which both words have their
cells: with depth 5, `Consume` for the first word gives what it gives with depth 2, and does
not stop for lack of depth. -/
theorem Consume_recursion_depth_witness :
    0 < 2 ∧ 2 - 0 ≤ 5 ∧
    Consume Example.decoder [0, 1] 2 Example.beforeLast.chart 5 {} 0 0 0
        Example.beforeLast.collections
      = Consume Example.decoder [0, 1] 2 Example.beforeLast.chart (2 - 0) {} 0 0 0
        Example.beforeLast.collections ∧
    Consume Example.decoder [0, 1] 2 Example.beforeLast.chart 5 {} 0 0 0
        Example.beforeLast.collections ≠ .error Err.fuel :=
  ⟨by decide, by decide,
   (Consume_recursion_depth Example.decoder [0, 1] 2 Example.beforeLast.chart 5 {} 0 0 0
      Example.beforeLast.collections (by decide) (by decide)).2.1,
   (Consume_recursion_depth Example.decoder [0, 1] 2 Example.beforeLast.chart 5 {} 0 0 0
      Example.beforeLast.collections (by decide) (by decide)).2.2.2.1⟩

/-! ### Sequences of symbols -/

theorem symNext_bounds {sent : Sentence} {N : Nat} {chart : List CFGChartItem} {p x : Nat}
    {s : WalkSym} (hsent : sent.length ≤ N) (h : symNext sent N chart p s = some x) :
    ∃ k, x = k + 1 ∧ p ≤ k ∧ k < N ∧
      ((∃ w, s = .word w ∧ k = p ∧ sent[p]? = some w) ∨
       (∃ heads cell, s = .nonterm heads k ∧ chart[p * N + k]? = some cell ∧
          cell.populated_ = true ∧ heads ∈ cell.nodes_.map Prod.fst)) := by
  cases s with
  | word w =>
    simp only [symNext] at h
    split at h
    · rename_i hw
      injection h with h
      have hp : p < sent.length := by
        by_contra hc
        rw [List.getElem?_eq_none (by omega)] at hw
        cases hw
      exact ⟨p, h.symm, le_refl _, by omega, Or.inl ⟨w, rfl, rfl, hw⟩⟩
    · cases h
  | nonterm heads last =>
    simp only [symNext] at h
    split at h
    · rename_i hb
      split at h
      · rename_i cell hcell
        split at h
        · rename_i hc
          injection h with h
          exact ⟨last, h.symm, hb.1, hb.2, Or.inr ⟨heads, cell, rfl, hcell, hc.1, hc.2⟩⟩
        · cases h
      · cases h
    · cases h

theorem walk_cons {t : LookupTableCFGLM} {ps : Bool} {sent : Sentence} {N : Nat}
    {chart : List CFGChartItem} {s : WalkSym} {rest : List WalkSym} {p : Nat} {a : CFGPath}
    {r : Nat × CFGPath} (h : walk t ps sent N chart (s :: rest) p a = some r) :
    ∃ x, symNext sent N chart p s = some x ∧
      (ps = true → PredictiveSearch t (a.step p s).agent = true) ∧
      walk t ps sent N chart rest x (a.step p s) = some r := by
  simp only [walk] at h
  split at h
  · cases h
  · rename_i x hx
    split at h
    · cases h
    · rename_i hc
      refine ⟨x, hx, ?_, h⟩
      intro hps
      by_contra hn
      exact hc ⟨hps, by simpa using hn⟩

theorem walk_cons_of {t : LookupTableCFGLM} {ps : Bool} {sent : Sentence} {N : Nat}
    {chart : List CFGChartItem} {s : WalkSym} {rest : List WalkSym} {p x : Nat} {a : CFGPath}
    (hx : symNext sent N chart p s = some x)
    (hps : ps = true → PredictiveSearch t (a.step p s).agent = true) :
    walk t ps sent N chart (s :: rest) p a = walk t ps sent N chart rest x (a.step p s) := by
  simp only [walk, hx]
  split
  · rename_i hc
    rw [hps hc.1] at hc
    exact absurd hc.2 (by simp)
  · rfl

theorem walk_append {t : LookupTableCFGLM} {ps : Bool} {sent : Sentence} {N : Nat}
    {chart : List CFGChartItem} (l1 l2 : List WalkSym) :
    ∀ (p : Nat) (a : CFGPath) (q : Nat) (b : CFGPath),
      walk t ps sent N chart l1 p a = some (q, b) →
      walk t ps sent N chart (l1 ++ l2) p a = walk t ps sent N chart l2 q b := by
  induction l1 with
  | nil =>
    intro p a q b h
    simp only [walk, Option.some.injEq, Prod.mk.injEq] at h
    obtain ⟨rfl, rfl⟩ := h
    rfl
  | cons s rest ih =>
    intro p a q b h
    obtain ⟨x, hx, hps, hrest⟩ := walk_cons h
    rw [List.cons_append, walk_cons_of hx hps]
    exact ih x _ q b hrest

/-- A walk only goes forward, and by at least one word for every symbol. -/
theorem walk_advance {t : LookupTableCFGLM} {ps : Bool} {sent : Sentence} {N : Nat}
    {chart : List CFGChartItem} (hsent : sent.length ≤ N) (syms : List WalkSym) :
    ∀ (p : Nat) (a : CFGPath) (q : Nat) (b : CFGPath),
      walk t ps sent N chart syms p a = some (q, b) →
        p + syms.length ≤ q ∧ (p ≤ N → q ≤ N) := by
  induction syms with
  | nil =>
    intro p a q b h
    simp only [walk, Option.some.injEq, Prod.mk.injEq] at h
    obtain ⟨rfl, rfl⟩ := h
    exact ⟨by simp, fun h => h⟩
  | cons s rest ih =>
    intro p a q b h
    obtain ⟨x, hx, _, hrest⟩ := walk_cons h
    obtain ⟨k, rfl, hk, hkN, _⟩ := symNext_bounds hsent hx
    have := ih _ _ q b hrest
    simp only [List.length_cons]
    exact ⟨by omega, fun _ => this.2 (by omega)⟩

/-! ### Collections only grow -/

theorem CollLe_refl (cs : List CFGCollection) : CollLe cs cs :=
  ⟨rfl, fun _ c hc => ⟨c, hc, fun h => h, fun _ => ⟨fun _ h => h, fun _ h => h, fun _ h => h⟩⟩⟩

theorem CollLe_trans {cs1 cs2 cs3 : List CFGCollection} (h12 : CollLe cs1 cs2)
    (h23 : CollLe cs2 cs3) : CollLe cs1 cs3 := by
  refine ⟨by rw [h23.1, h12.1], ?_⟩
  intro idx c hc
  obtain ⟨c2, hc2, hp2, he2⟩ := h12.2 idx c hc
  obtain ⟨c3, hc3, hp3, he3⟩ := h23.2 idx c2 hc2
  refine ⟨c3, hc3, fun h => hp3 (hp2 h), fun r => ⟨?_, ?_, ?_⟩⟩
  · exact fun x hx => (he3 r).1 x ((he2 r).1 x hx)
  · exact fun x hx => (he3 r).2.1 x ((he2 r).2.1 x hx)
  · exact fun x hx => (he3 r).2.2 x ((he2 r).2.2 x hx)

theorem getElem?_append_some {α : Type} {l1 l2 : List α} {r : Nat} {x : α}
    (h : l1[r]? = some x) : (l1 ++ l2)[r]? = some x := by
  have hr : r < l1.length := by
    by_contra hc
    rw [List.getElem?_eq_none (by omega)] at h
    cases h
  rw [List.getElem?_append_left hr]
  exact h

theorem AddRules_parallel {c : CFGCollection} (a : CFGPath) (rules : List TranslationRuleHiero)
    (h : c.Parallel) : (AddRules c a rules).Parallel := by
  obtain ⟨h1, h2⟩ := h
  constructor
  · simp [AddRules, h1]
  · simp [AddRules, h2]

theorem CollLe_set {cs : List CFGCollection} {idx : Nat} {c : CFGCollection} (a : CFGPath)
    (rules : List TranslationRuleHiero) (hc : cs[idx]? = some c) :
    CollLe cs (cs.set idx (AddRules c a rules)) := by
  refine ⟨by simp, ?_⟩
  intro idx2 c2 hc2
  by_cases hi : idx = idx2
  · subst hi
    rw [hc] at hc2
    cases hc2
    have hlt : idx < cs.length := by
      by_contra hge
      rw [List.getElem?_eq_none (by omega)] at hc
      cases hc
    refine ⟨AddRules c a rules, by simp [List.getElem?_set, hlt], AddRules_parallel a rules,
      fun r => ⟨?_, ?_, ?_⟩⟩
    · exact fun x hx => getElem?_append_some hx
    · exact fun x hx => getElem?_append_some hx
    · exact fun x hx => getElem?_append_some hx
  · exact ⟨c2, by simp [List.getElem?_set, hi, hc2], fun h => h,
      fun _ => ⟨fun _ h => h, fun _ h => h, fun _ h => h⟩⟩

theorem HasEntry_le {cs cs1 : List CFGCollection} (h : CollLe cs cs1) {idx : Nat}
    {rules : List TranslationRuleHiero} {spans : List (Nat × Nat)}
    {labels : List HieroHeadLabels}
    (he : ∃ c, cs[idx]? = some c ∧ ∀ rule ∈ rules, HasEntry c rule spans labels) :
    ∃ c1, cs1[idx]? = some c1 ∧ ∀ rule ∈ rules, HasEntry c1 rule spans labels := by
  obtain ⟨c, hc, hall⟩ := he
  obtain ⟨c1, hc1, _, hent⟩ := h.2 idx c hc
  refine ⟨c1, hc1, ?_⟩
  intro rule hr
  obtain ⟨r, h1, h2, h3⟩ := hall rule hr
  exact ⟨r, (hent r).1 _ h1, (hent r).2.1 _ h2, (hent r).2.2 _ h3⟩

theorem parallel_le {cs cs1 : List CFGCollection} (h : CollLe cs cs1)
    (hp : ∀ c ∈ cs, c.Parallel) : ∀ c ∈ cs1, c.Parallel := by
  intro c1 hc1
  obtain ⟨idx, hidx, rfl⟩ := List.getElem_of_mem hc1
  have hlt : idx < cs.length := by rw [← h.1]; exact hidx
  obtain ⟨c2, hc2, hpar, _⟩ := h.2 idx cs[idx] (List.getElem?_eq_getElem hlt)
  rw [List.getElem?_eq_getElem hidx] at hc2
  cases hc2
  exact hpar (hp _ (List.getElem_mem hlt))

theorem depositRules_le (a : CFGPath) (idx : Nat) :
    ∀ (fsms : List RuleFSM) (cs cs1 : List CFGCollection),
      depositRules a idx fsms cs = .ok cs1 → CollLe cs cs1 := by
  intro fsms
  induction fsms with
  | nil =>
    intro cs cs1 h
    simp only [depositRules, Except.ok.injEq] at h
    subst h; exact CollLe_refl _
  | cons fsm rest ih =>
    intro cs cs1 h
    simp only [depositRules] at h
    split at h
    · rename_i key _
      split at h
      · rename_i c hc
        exact CollLe_trans (CollLe_set a (fsm.rules key) hc) (ih _ _ h)
      · cases h
    · exact ih _ _ h

/-- The entries of `AddRules`: the old ones, then one entry for each of the rules, with the
spans and the labels of the path. -/
theorem AddRules_entry {c : CFGCollection} {a : CFGPath} {rules : List TranslationRuleHiero}
    (hp : c.Parallel) {r : Nat} {rule : TranslationRuleHiero} {spans : List (Nat × Nat)}
    {labels : List HieroHeadLabels}
    (h1 : (AddRules c a rules).rules_[r]? = some rule)
    (h2 : (AddRules c a rules).spans_[r]? = some spans)
    (h3 : (AddRules c a rules).labels_[r]? = some labels) :
    (c.rules_[r]? = some rule ∧ c.spans_[r]? = some spans ∧ c.labels_[r]? = some labels) ∨
    (spans = a.spans ∧ labels = a.labels ∧ rule ∈ rules) := by
  obtain ⟨hs, hl⟩ := hp
  simp only [AddRules] at h1 h2 h3
  by_cases hr : r < c.rules_.length
  · left
    rw [List.getElem?_append_left hr] at h1
    rw [List.getElem?_append_left (by omega)] at h2
    rw [List.getElem?_append_left (by omega)] at h3
    exact ⟨h1, h2, h3⟩
  · right
    rw [List.getElem?_append_right (by omega)] at h1 h2 h3
    refine ⟨?_, ?_, List.getElem?_mem h1⟩
    · have := List.getElem?_mem h2
      exact List.eq_of_mem_replicate this
    · have := List.getElem?_mem h3
      exact List.eq_of_mem_replicate this

theorem AddRules_has {c : CFGCollection} (a : CFGPath) {rules : List TranslationRuleHiero}
    (hp : c.Parallel) {rule : TranslationRuleHiero} (hr : rule ∈ rules) :
    HasEntry (AddRules c a rules) rule a.spans a.labels := by
  obtain ⟨hs, hl⟩ := hp
  obtain ⟨k, hk, rfl⟩ := List.getElem_of_mem hr
  refine ⟨c.rules_.length + k, ?_, ?_, ?_⟩
  · simp only [AddRules]
    rw [List.getElem?_append_right (by omega)]
    simp [List.getElem?_eq_getElem hk]
  · simp only [AddRules]
    rw [List.getElem?_append_right (by omega)]
    simp [List.getElem?_replicate, hs, hk]
  · simp only [AddRules]
    rw [List.getElem?_append_right (by omega)]
    simp [List.getElem?_replicate, hl, hk]

/-- What `depositRules` does to the collections: only the collection at `idx` changes, and
every entry it has afterwards was there before or is a rule of a bucket that a rule table has
for the query of the path, with the spans and the labels of the path. -/
theorem depositRules_entries (a : CFGPath) (idx : Nat) :
    ∀ (fsms : List RuleFSM) (cs cs1 : List CFGCollection),
      depositRules a idx fsms cs = .ok cs1 →
      ∀ (idx2 : Nat) (c1 : CFGCollection), cs1[idx2]? = some c1 →
        ∃ c : CFGCollection, cs[idx2]? = some c ∧ (idx2 ≠ idx → c1 = c) ∧
          (c.Parallel → ∀ (r : Nat) rule spans labels, c1.rules_[r]? = some rule →
            c1.spans_[r]? = some spans → c1.labels_[r]? = some labels →
            (c.rules_[r]? = some rule ∧ c.spans_[r]? = some spans ∧
              c.labels_[r]? = some labels) ∨
            (idx2 = idx ∧ spans = a.spans ∧ labels = a.labels ∧
              ∃ fsm ∈ fsms, ∃ key, fsm.lookup a.agent = some key ∧ rule ∈ fsm.rules key)) := by
  intro fsms
  induction fsms with
  | nil =>
    intro cs cs1 h idx2 c1 hc1
    simp only [depositRules, Except.ok.injEq] at h
    subst h
    exact ⟨c1, hc1, fun _ => rfl, fun _ r rule spans labels h1 h2 h3 => Or.inl ⟨h1, h2, h3⟩⟩
  | cons fsm rest ih =>
    intro cs cs1 h idx2 c1 hc1
    simp only [depositRules] at h
    split at h
    · rename_i key hkey
      split at h
      · rename_i c0 hc0
        obtain ⟨c, hc, hne, hent⟩ := ih _ _ h idx2 c1 hc1
        by_cases hi : idx2 = idx
        · subst hi
          have hlt : idx2 < cs.length := by
            by_contra hge
            rw [List.getElem?_eq_none (by omega)] at hc0
            cases hc0
          rw [List.getElem?_set, if_pos rfl, if_pos hlt] at hc
          cases hc
          refine ⟨c0, hc0, fun hn => absurd rfl hn, ?_⟩
          intro hp r rule spans labels h1 h2 h3
          rcases hent (AddRules_parallel a _ hp) r rule spans labels h1 h2 h3 with hh | hh
          · rcases AddRules_entry hp hh.1 hh.2.1 hh.2.2 with hold | hnew
            · exact Or.inl hold
            · exact Or.inr ⟨rfl, hnew.1, hnew.2.1, fsm, List.mem_cons_self _ _, key, hkey,
                hnew.2.2⟩
          · obtain ⟨e1, e2, e3, f, hf, k, hk1, hk2⟩ := hh
            exact Or.inr ⟨e1, e2, e3, f, List.mem_cons_of_mem _ hf, k, hk1, hk2⟩
        · rw [List.getElem?_set, if_neg (fun e => hi e.symm)] at hc
          refine ⟨c, hc, hne, ?_⟩
          intro hp r rule spans labels h1 h2 h3
          rcases hent hp r rule spans labels h1 h2 h3 with hh | hh
          · exact Or.inl hh
          · exact absurd hh.1 hi
      · cases h
    · obtain ⟨c, hc, hne, hent⟩ := ih _ _ h idx2 c1 hc1
      refine ⟨c, hc, hne, ?_⟩
      intro hp r rule spans labels h1 h2 h3
      rcases hent hp r rule spans labels h1 h2 h3 with hh | hh
      · exact Or.inl hh
      · obtain ⟨e1, e2, e3, f, hf, k, hk1, hk2⟩ := hh
        exact Or.inr ⟨e1, e2, e3, f, List.mem_cons_of_mem _ hf, k, hk1, hk2⟩

/-- After `depositRules` the collection at `idx` has the rules of every bucket that a rule
table has for the query of the path. -/
theorem depositRules_complete (a : CFGPath) (idx : Nat) :
    ∀ (fsms : List RuleFSM) (cs cs1 : List CFGCollection),
      depositRules a idx fsms cs = .ok cs1 → (∀ c ∈ cs, c.Parallel) →
      ∀ fsm ∈ fsms, ∀ key, fsm.lookup a.agent = some key →
        ∃ c, cs1[idx]? = some c ∧ ∀ rule ∈ fsm.rules key, HasEntry c rule a.spans a.labels := by
  intro fsms
  induction fsms with
  | nil => intro cs cs1 _ _ fsm hf; simp at hf
  | cons f rest ih =>
    intro cs cs1 h hp fsm hf key hkey
    simp only [depositRules] at h
    rcases List.mem_cons.1 hf with e | e
    · subst e
      rw [hkey] at h
      simp only at h
      split at h
      · rename_i c0 hc0
        have hlt : idx < cs.length := by
          by_contra hge
          rw [List.getElem?_eq_none (by omega)] at hc0
          cases hc0
        refine HasEntry_le (depositRules_le a idx _ _ _ h) ⟨AddRules c0 a (fsm.rules key), ?_, ?_⟩
        · rw [List.getElem?_set, if_pos rfl, if_pos hlt]
        · intro rule hr
          exact AddRules_has a (hp c0 (List.getElem?_mem hc0)) hr
      · cases h
    · split at h
      · rename_i k2 hk2
        split at h
        · rename_i c0 hc0
          refine ih _ _ h ?_ fsm e key hkey
          exact parallel_le (CollLe_set a (f.rules k2) hc0) hp
        · cases h
      · exact ih _ _ h hp fsm e key hkey

/-! ### What every call of `Consume` keeps true -/

theorem AddToChartWith_inv (t : LookupTableCFGLM) (N : Nat) (P : List CFGCollection → Prop)
    (consume : CFGPath → Nat → Nat → Nat → List CFGCollection → Except Err (List CFGCollection))
    (a : CFGPath) (i j : Nat) (u : Bool) (cs cs1 : List CFGCollection)
    (hdep : u = false → ∀ c c1, P c →
      depositRules a (i * N + j) t.rule_fsms_ c = .ok c1 → P c1)
    (hcons : ∀ k c c1, j + 1 ≤ k → k < N → P c → consume a i (j + 1) k c = .ok c1 → P c1)
    (hcs : P cs) (h : AddToChartWith t N consume a i j u cs = .ok cs1) : P cs1 := by
  simp only [AddToChartWith] at h
  split at h
  · exact absurd h (by simp)
  · rename_i c1 hc1
    have hok : P c1 := by
      cases u with
      | true =>
        simp only [if_true, Except.ok.injEq] at hc1
        subst hc1; exact hcs
      | false =>
        simp only [Bool.false_eq_true, if_false] at hc1
        exact hdep rfl cs c1 hcs hc1
    split at h
    · refine forEachE_inv P _ c1 cs1 ?_ hok h
      intro k hk c c2 hc hc2
      simp only [List.mem_range'_1] at hk
      exact hcons k c c2 hk.1 (by omega) hc hc2
    · injection h with h
      subst h; exact hok

/-- A property `P` of the collections holds after `Consume` if it holds before and every
deposit keeps it, where `A j k a` is a property of the calls of `Consume` (start `j`, end `k`,
path `a`) that holds of the first call and goes over to the calls made for a path extended by
the word or by a labelled cell. A deposit is made for an extended path only by a call whose
start is not `i`. -/
theorem Consume_inv (t : LookupTableCFGLM) (sent : Sentence) (N : Nat)
    (chart : List CFGChartItem) (i : Nat) (A : Nat → Nat → CFGPath → Prop)
    (P : List CFGCollection → Prop)
    (hword : ∀ a j w, A j j a → sent[j]? = some w →
      (i ≠ j → ∀ c c1, P c →
        depositRules (a.withWord w) (i * N + j) t.rule_fsms_ c = .ok c1 → P c1) ∧
      (∀ k2, j + 1 ≤ k2 → k2 < N → A (j + 1) k2 (a.withWord w)))
    (hnt : ∀ a j k cell (sym : HieroHeadLabels × List StatefulNode), A j k a →
      chart[j * N + k]? = some cell → sym ∈ cell.nodes_ →
      (i ≠ j → ∀ c c1, P c →
        depositRules (a.withLabels sym.1 j k) (i * N + k) t.rule_fsms_ c = .ok c1 → P c1) ∧
      (∀ k2, k + 1 ≤ k2 → k2 < N → A (k + 1) k2 (a.withLabels sym.1 j k))) :
    ∀ (fuel : Nat) (a : CFGPath) (j k : Nat) (cs cs1 : List CFGCollection),
      A j k a → P cs → Consume t sent N chart fuel a i j k cs = .ok cs1 → P cs1 := by
  intro fuel
  induction fuel with
  | zero => intro a j k cs cs1 _ _ h; simp [Consume] at h
  | succ n ih =>
    intro a j k cs cs1 hA hcs h
    simp only [Consume] at h
    split at h
    · exact absurd h (by simp)
    · rename_i c1 hc1
      have hok : P c1 := by
        split at hc1
        · rename_i hjk
          subst hjk
          split at hc1
          · exact absurd hc1 (by simp)
          · rename_i w hw
            obtain ⟨hd, hA2⟩ := hword a j w hA hw
            split at hc1
            · refine AddToChartWith_inv t N P _ (a.withWord w) i j _ cs c1 ?_ ?_ hcs hc1
              · intro hu
                exact hd (by simpa using hu)
              · intro k2 c c2 hk2 hk2N hc hc2
                exact ih _ _ _ c c2 (hA2 k2 hk2 hk2N) hc hc2
            · injection hc1 with hc1
              subst hc1; exact hcs
        · injection hc1 with hc1
          subst hc1; exact hcs
      split at h
      · exact absurd h (by simp)
      · rename_i cell hcell
        refine forEachE_inv P _ c1 cs1 ?_ hok h
        intro sym hsym c c2 hc hc2
        obtain ⟨hd, hA2⟩ := hnt a j k cell sym hA hcell hsym
        split at hc2
        · refine AddToChartWith_inv t N P _ (a.withLabels sym.1 j k) i k _ c c2 ?_ ?_ hc hc2
          · intro hu
            exact hd (by simpa using hu)
          · intro k2 c3 c4 hk2 hk2N hc3 hc4
            exact ih _ _ _ c3 c4 (hA2 k2 hk2 hk2N) hc3 hc4
        · injection hc2 with hc2
          subst hc2; exact hc

/-- `Consume` only adds entries to the collections. -/
theorem Consume_le (t : LookupTableCFGLM) (sent : Sentence) (N : Nat)
    (chart : List CFGChartItem) (fuel : Nat) (a : CFGPath) (i j k : Nat)
    (cs cs1 : List CFGCollection) (h : Consume t sent N chart fuel a i j k cs = .ok cs1) :
    CollLe cs cs1 := by
  refine Consume_inv t sent N chart i (fun _ _ _ => True) (fun c => CollLe cs c) ?_ ?_
    fuel a j k cs cs1 trivial (CollLe_refl _) h
  · intro a j w _ _
    exact ⟨fun _ c c1 hc hd => CollLe_trans hc (depositRules_le _ _ _ _ _ hd),
      fun _ _ _ => trivial⟩
  · intro a j k cell sym _ _ _
    exact ⟨fun _ c c1 hc hd => CollLe_trans hc (depositRules_le _ _ _ _ _ hd),
      fun _ _ _ => trivial⟩

theorem depositRules_frame (a : CFGPath) (idx : Nat) :
    ∀ (fsms : List RuleFSM) (cs cs1 : List CFGCollection),
      depositRules a idx fsms cs = .ok cs1 → ∀ idx2, idx2 ≠ idx → cs1[idx2]? = cs[idx2]? := by
  intro fsms
  induction fsms with
  | nil =>
    intro cs cs1 h idx2 _
    simp only [depositRules, Except.ok.injEq] at h
    subst h; rfl
  | cons fsm rest ih =>
    intro cs cs1 h idx2 hne
    simp only [depositRules] at h
    split at h
    · split at h
      · rw [ih _ _ h idx2 hne, List.getElem?_set, if_neg (fun e => hne e.symm)]
      · cases h
    · exact ih _ _ h idx2 hne

/-- `Consume` for the first symbol of a span, from `i` to `k0`, changes no collection but
those of the spans from `i` to a position after `k0`. -/
theorem Consume_frame (t : LookupTableCFGLM) (sent : Sentence) (N : Nat)
    (chart : List CFGChartItem) (fuel : Nat) (a : CFGPath) (i k0 : Nat)
    (cs cs1 : List CFGCollection) (hk0 : k0 < N)
    (h : Consume t sent N chart fuel a i i k0 cs = .ok cs1) :
    ∀ idx, (∀ q, k0 < q → q < N → idx ≠ i * N + q) → cs1[idx]? = cs[idx]? := by
  intro idx hidx
  refine Consume_inv t sent N chart i
    (fun j k _ => k < N ∧ ((j = i ∧ k = k0) ∨ (k0 < j ∧ j ≤ k)))
    (fun x => x[idx]? = cs[idx]?) ?_ ?_ fuel a i k0 cs cs1 ⟨hk0, Or.inl ⟨rfl, rfl⟩⟩ rfl h
  · intro a j w hA _
    refine ⟨?_, fun k2 h1 h2 => ⟨h2, Or.inr ⟨by omega, h1⟩⟩⟩
    intro hij x x1 hx hd
    rw [depositRules_frame _ _ _ _ _ hd idx (hidx j (by omega) hA.1), hx]
  · intro a j k cell sym hA _ _
    refine ⟨?_, fun k2 h1 h2 => ⟨h2, Or.inr ⟨by omega, h1⟩⟩⟩
    intro hij x x1 hx hd
    rw [depositRules_frame _ _ _ _ _ hd idx (hidx k (by omega) hA.1), hx]

/-! ### Every entry of a collection comes from a walk -/

theorem walk_snoc {t : LookupTableCFGLM} {ps : Bool} {sent : Sentence} {N : Nat}
    {chart : List CFGChartItem} {syms : List WalkSym} {p q x : Nat} {a b : CFGPath}
    {s : WalkSym} (h : walk t ps sent N chart syms p a = some (q, b))
    (hx : symNext sent N chart q s = some x)
    (hps : ps = true → PredictiveSearch t (b.step q s).agent = true) :
    walk t ps sent N chart (syms ++ [s]) p a = some (x, b.step q s) := by
  rw [walk_append syms [s] p a q b h, walk_cons_of hx hps]
  rfl

theorem symNext_word {sent : Sentence} {N : Nat} {chart : List CFGChartItem} {p : Nat}
    {w : WordId} (h : sent[p]? = some w) : symNext sent N chart p (.word w) = some (p + 1) := by
  simp [symNext, h]

theorem symNext_nonterm {sent : Sentence} {N : Nat} {chart : List CFGChartItem} {p k : Nat}
    {cell : CFGChartItem} {sym : HieroHeadLabels × List StatefulNode} (hpk : p ≤ k)
    (hk : k < N) (hcell : chart[p * N + k]? = some cell) (hpop : cell.populated_ = true)
    (hsym : sym ∈ cell.nodes_) :
    symNext sent N chart p (.nonterm sym.1 k) = some (k + 1) := by
  have hmem : sym.1 ∈ cell.nodes_.map Prod.fst := List.mem_map_of_mem _ hsym
  simp only [symNext, hpk, hk, and_self, if_true, hcell, hpop, hmem]

/-- A deposit for a path that a walk reaches keeps the collections sound. -/
theorem depositRules_sound {t : LookupTableCFGLM} {sent : Sentence} {N : Nat}
    {chart : List CFGChartItem} {i j : Nat} {syms : List WalkSym} {a : CFGPath}
    {cs cs1 : List CFGCollection} (hj : j < N)
    (hwalk : walk t false sent N chart syms i {} = some (j + 1, a))
    (hshape : (i = j → ∃ w, syms = [.word w]) ∧ (i ≠ j → 2 ≤ syms.length))
    (hpar : ∀ c ∈ cs, c.Parallel) (hsound : CollSound t sent N chart cs)
    (h : depositRules a (i * N + j) t.rule_fsms_ cs = .ok cs1) :
    (∀ c ∈ cs1, c.Parallel) ∧ CollSound t sent N chart cs1 := by
  refine ⟨parallel_le (depositRules_le _ _ _ _ _ h) hpar, ?_⟩
  intro i1 j1 c1 hij1 hj1 hc1 r rule spans labels h1 h2 h3
  obtain ⟨c, hc, _, hent⟩ := depositRules_entries _ _ _ _ _ h _ c1 hc1
  rcases hent (hpar c (List.getElem?_mem hc)) r rule spans labels h1 h2 h3 with hold | hnew
  · exact hsound i1 j1 c hij1 hj1 hc r rule spans labels hold.1 hold.2.1 hold.2.2
  · obtain ⟨hidx, hs, hl, fsm, hf, key, hkey, hrule⟩ := hnew
    obtain ⟨e1, e2⟩ := index_inj hj1 hj hidx
    subst e1; subst e2
    exact ⟨syms, a, hwalk, hs, hl, ⟨fsm, hf, key, hkey, hrule⟩, hshape.1, hshape.2⟩

/-- `Consume` for the first symbol of a span, from `i` to `k0`, keeps the collections sound,
where the cells it can read are populated. -/
theorem Consume_sound (t : LookupTableCFGLM) (sent : Sentence) (N : Nat)
    (chart : List CFGChartItem) (fuel i k0 : Nat) (cs cs1 : List CFGCollection)
    (hik : i ≤ k0) (hk0 : k0 < N)
    (hpop : ∀ j1 k1 c, j1 ≤ k1 → k1 < N → (j1 = i ∧ k1 = k0) ∨ k0 < j1 →
      chart[j1 * N + k1]? = some c → c.populated_ = true)
    (hpar : ∀ c ∈ cs, c.Parallel) (hsound : CollSound t sent N chart cs)
    (h : Consume t sent N chart fuel {} i i k0 cs = .ok cs1) :
    (∀ c ∈ cs1, c.Parallel) ∧ CollSound t sent N chart cs1 := by
  refine Consume_inv t sent N chart i
    (fun j k a => k < N ∧ j ≤ k ∧ ∃ syms, walk t false sent N chart syms i {} = some (j, a) ∧
      ((j = i ∧ k = k0 ∧ syms = []) ∨ (k0 < j ∧ syms ≠ [])))
    (fun x => (∀ c ∈ x, c.Parallel) ∧ CollSound t sent N chart x) ?_ ?_
    fuel {} i k0 cs cs1 ⟨hk0, hik, [], rfl, Or.inl ⟨rfl, rfl, rfl⟩⟩ ⟨hpar, hsound⟩ h
  · intro a j w hA hw
    obtain ⟨hjN, _, syms, hwalk, hcase⟩ := hA
    have hnext : symNext sent N chart j (.word w) = some (j + 1) := symNext_word hw
    have hstep := walk_snoc hwalk hnext (fun hc => absurd hc (by simp))
    refine ⟨?_, ?_⟩
    · intro hij x x1 hx hd
      have hne : syms ≠ [] := by
        rcases hcase with ⟨e, _⟩ | ⟨_, e⟩
        · exact absurd e.symm hij
        · exact e
      have hlen : 2 ≤ (syms ++ [WalkSym.word w]).length := by
        have := List.length_pos.2 hne
        simp only [List.length_append, List.length_singleton]
        omega
      exact depositRules_sound hjN hstep ⟨fun e => absurd e hij, fun _ => hlen⟩ hx.1 hx.2 hd
    · intro k2 h1 h2
      refine ⟨h2, h1, syms ++ [.word w], hstep, Or.inr ⟨?_, by simp⟩⟩
      rcases hcase with ⟨e1, e2, _⟩ | ⟨e, _⟩ <;> omega
  · intro a j k cell sym hA hcell hsym
    obtain ⟨hkN, hjk, syms, hwalk, hcase⟩ := hA
    have hp : cell.populated_ = true := by
      refine hpop j k cell hjk hkN ?_ hcell
      rcases hcase with ⟨e1, e2, _⟩ | ⟨e, _⟩
      · exact Or.inl ⟨e1, e2⟩
      · exact Or.inr e
    have hnext : symNext sent N chart j (.nonterm sym.1 k) = some (k + 1) :=
      symNext_nonterm hjk hkN hcell hp hsym
    have hstep := walk_snoc hwalk hnext (fun hc => absurd hc (by simp))
    refine ⟨?_, ?_⟩
    · intro hij x x1 hx hd
      have hne : syms ≠ [] ∧ k0 < j := by
        rcases hcase with ⟨e, _⟩ | ⟨e1, e2⟩
        · exact absurd e.symm hij
        · exact ⟨e2, e1⟩
      have hlen : 2 ≤ (syms ++ [WalkSym.nonterm sym.1 k]).length := by
        have := List.length_pos.2 hne.1
        simp only [List.length_append, List.length_singleton]
        omega
      have hik2 : i ≠ k := by omega
      exact depositRules_sound hkN hstep ⟨fun e => absurd e hik2, fun _ => hlen⟩ hx.1 hx.2 hd
    · intro k2 h1 h2
      refine ⟨h2, h1, syms ++ [.nonterm sym.1 k], hstep, Or.inr ⟨?_, by simp⟩⟩
      rcases hcase with ⟨e1, e2, _⟩ | ⟨e, _⟩ <;> omega

/-! ### Every walk leaves its rules in the collections -/

theorem forEachE_reach {α σ : Type} {f : α → σ → Except Err σ} (Q R : σ → Prop) :
    ∀ (l : List α) (x : α), x ∈ l →
      (∀ y ∈ l, ∀ s s1, Q s → f y s = .ok s1 → Q s1 ∧ (R s → R s1)) →
      (∀ s s1, Q s → f x s = .ok s1 → R s1) →
      ∀ s sf, Q s → forEachE f l s = .ok sf → R sf := by
  intro l
  induction l with
  | nil => intro x hx; simp at hx
  | cons y rest ih =>
    intro x hx hall hest s sf hQ h
    simp only [forEachE] at h
    split at h
    · rename_i s1 hs1
      have hQ1 := (hall y (List.mem_cons_self _ _) s s1 hQ hs1).1
      by_cases hxy : x = y
      · subst hxy
        have hR1 := hest s s1 hQ hs1
        have := forEachE_inv (fun z => Q z ∧ R z) rest s1 sf
          (fun z hz a b ha hb =>
            ⟨(hall z (List.mem_cons_of_mem _ hz) a b ha.1 hb).1,
             (hall z (List.mem_cons_of_mem _ hz) a b ha.1 hb).2 ha.2⟩)
          ⟨hQ1, hR1⟩ h
        exact this.2
      · have hx2 : x ∈ rest := by
          rcases List.mem_cons.1 hx with e | e
          · exact absurd e hxy
          · exact e
        exact ih x hx2 (fun z hz => hall z (List.mem_cons_of_mem _ hz)) hest s1 sf hQ1 h
    · exact absurd h (by simp)

theorem Deposited_le {t : LookupTableCFGLM} {cs cs1 : List CFGCollection} {idx : Nat}
    {b : CFGPath} (h : CollLe cs cs1) (hd : Deposited t cs idx b) : Deposited t cs1 idx b :=
  fun fsm hf key hkey => HasEntry_le h (hd fsm hf key hkey)

theorem AddToChartWith_le (t : LookupTableCFGLM) (N : Nat)
    (consume : CFGPath → Nat → Nat → Nat → List CFGCollection → Except Err (List CFGCollection))
    (a : CFGPath) (i j : Nat) (u : Bool) (cs cs1 : List CFGCollection)
    (hle : ∀ k c c1, consume a i (j + 1) k c = .ok c1 → CollLe c c1)
    (h : AddToChartWith t N consume a i j u cs = .ok cs1) : CollLe cs cs1 := by
  refine AddToChartWith_inv t N (fun x => CollLe cs x) consume a i j u cs cs1 ?_ ?_
    (CollLe_refl _) h
  · intro _ c c1 hc hd
    exact CollLe_trans hc (depositRules_le _ _ _ _ _ hd)
  · intro k c c1 _ _ hc hd
    exact CollLe_trans hc (hle k c c1 hd)

theorem AddToChartWith_complete (t : LookupTableCFGLM) (sent : Sentence) (N : Nat)
    (chart : List CFGChartItem) (hsent : sent.length ≤ N)
    (consume : CFGPath → Nat → Nat → Nat → List CFGCollection → Except Err (List CFGCollection))
    (a : CFGPath) (i k : Nat) (u : Bool) (cs cs1 : List CFGCollection)
    (hle : ∀ k2 c c1, consume a i (k + 1) k2 c = .ok c1 → CollLe c c1)
    (hcomp : ∀ k2 c c1, k + 1 ≤ k2 → k2 < N → (∀ x ∈ c, x.Parallel) →
      consume a i (k + 1) k2 c = .ok c1 →
      ∀ s syms q b, symNext sent N chart (k + 1) s = some (k2 + 1) →
        PredictiveSearch t (a.step (k + 1) s).agent = true →
        walk t true sent N chart syms (k2 + 1) (a.step (k + 1) s) = some (q + 1, b) →
        Deposited t c1 (i * N + q) b)
    (hpar : ∀ c ∈ cs, c.Parallel) (hps : PredictiveSearch t a.agent = true)
    (h : AddToChartWith t N consume a i k u cs = .ok cs1) :
    ∀ syms q b, walk t true sent N chart syms (k + 1) a = some (q + 1, b) →
      (u = false ∨ syms ≠ []) → Deposited t cs1 (i * N + q) b := by
  intro syms q b hwalk hu
  simp only [AddToChartWith, hps, if_true] at h
  split at h
  · exact absurd h (by simp)
  · rename_i c1 hc1
    have hle1 : CollLe cs c1 := by
      cases u with
      | true =>
        simp only [if_true, Except.ok.injEq] at hc1
        subst hc1; exact CollLe_refl _
      | false =>
        simp only [Bool.false_eq_true, if_false] at hc1
        exact depositRules_le _ _ _ _ _ hc1
    have hpar1 : ∀ c ∈ c1, c.Parallel := parallel_le hle1 hpar
    cases syms with
    | nil =>
      simp only [walk, Option.some.injEq, Prod.mk.injEq] at hwalk
      obtain ⟨e1, e2⟩ := hwalk
      have hq : q = k := by omega
      subst hq; subst e2
      have hu2 : u = false := by
        rcases hu with hu | hu
        · exact hu
        · exact absurd rfl hu
      subst hu2
      simp only [Bool.false_eq_true, if_false] at hc1
      have hdep : Deposited t c1 (i * N + q) a :=
        fun fsm hf key hkey => depositRules_complete _ _ _ _ _ hc1 hpar fsm hf key hkey
      have hle2 : CollLe c1 cs1 :=
        forEachE_inv (fun x => CollLe c1 x) _ c1 cs1
          (fun k2 _ x y hx hy => CollLe_trans hx (hle k2 x y hy)) (CollLe_refl _) h
      exact Deposited_le hle2 hdep
    | cons s rest =>
      obtain ⟨x, hx, hps2, hrest⟩ := walk_cons hwalk
      obtain ⟨k2, rfl, hk2, hk2N, _⟩ := symNext_bounds hsent hx
      have hmem : k2 ∈ List.range' (k + 1) (N - (k + 1)) := by
        rw [List.mem_range'_1]
        omega
      refine forEachE_reach (fun c => ∀ x ∈ c, x.Parallel)
        (fun c => Deposited t c (i * N + q) b) _ k2 hmem ?_ ?_ c1 cs1 hpar1 h
      · intro y _ c c2 hc hc2
        have := hle y c c2 hc2
        exact ⟨parallel_le this hc, Deposited_le this⟩
      · intro c c2 hc hc2
        exact hcomp k2 c c2 hk2 hk2N hc hc2 s rest q b hx (hps2 rfl) hrest

/-- What `Consume` finds: for every symbol that it can take from `j` to `k` and every way to
go on up to `q` that passes `PredictiveSearch`, the rules of the path are in the collection of
the span `i..q` afterwards; a path of one symbol only counts if the call is not the first. -/
theorem Consume_complete (t : LookupTableCFGLM) (sent : Sentence) (N : Nat)
    (chart : List CFGChartItem) (hsent : sent.length ≤ N) :
    ∀ (fuel : Nat) (a : CFGPath) (i j k : Nat) (cs cs1 : List CFGCollection),
      i ≤ j → (∀ c ∈ cs, c.Parallel) → Consume t sent N chart fuel a i j k cs = .ok cs1 →
      ∀ s syms q b, symNext sent N chart j s = some (k + 1) →
        PredictiveSearch t (a.step j s).agent = true →
        walk t true sent N chart syms (k + 1) (a.step j s) = some (q + 1, b) →
        (i ≠ j ∨ syms ≠ []) → Deposited t cs1 (i * N + q) b := by
  intro fuel
  induction fuel with
  | zero => intro a i j k cs cs1 _ _ h; simp [Consume] at h
  | succ n ih =>
    intro a i j k cs cs1 hij hpar h s syms q b hs hps hwalk hu
    obtain ⟨k1, hk1, hjk, hkN, hkind⟩ := symNext_bounds hsent hs
    have hk1k : k = k1 := by omega
    subst hk1k
    have hadd : ∀ (a2 : CFGPath) (c c2 : List CFGCollection), (∀ x ∈ c, x.Parallel) →
        PredictiveSearch t a2.agent = true →
        AddToChartWith t N (Consume t sent N chart n) a2 i k (decide (i = j)) c = .ok c2 →
        CollLe c c2 ∧ ∀ syms q b, walk t true sent N chart syms (k + 1) a2 = some (q + 1, b) →
          (i ≠ j ∨ syms ≠ []) → Deposited t c2 (i * N + q) b := by
      intro a2 c c2 hc hps2 hc2
      have hle : ∀ k2 x y, Consume t sent N chart n a2 i (k + 1) k2 x = .ok y → CollLe x y :=
        fun k2 x y hxy => Consume_le t sent N chart n a2 i (k + 1) k2 x y hxy
      refine ⟨AddToChartWith_le t N _ a2 i k _ c c2 hle hc2, ?_⟩
      intro syms2 q2 b2 hw2 hu2
      refine AddToChartWith_complete t sent N chart hsent _ a2 i k _ c c2 hle ?_ hc hps2 hc2
        syms2 q2 b2 hw2 ?_
      · intro k2 x y hk2 hk2N hx hxy s3 syms3 q3 b3 hs3 hps3 hw3
        exact ih a2 i (k + 1) k2 x y (by omega) hx hxy s3 syms3 q3 b3 hs3 hps3 hw3
          (Or.inl (by omega))
      · rcases hu2 with hu2 | hu2
        · exact Or.inl (by simpa using hu2)
        · exact Or.inr hu2
    simp only [Consume] at h
    split at h
    · exact absurd h (by simp)
    · rename_i c1 hc1
      split at h
      · exact absurd h (by simp)
      · rename_i cell hcell
        have hstepLe : ∀ (sym : HieroHeadLabels × List StatefulNode) (x y : List CFGCollection),
            (∀ z ∈ x, z.Parallel) →
            (if PredictiveSearch t (a.withLabels sym.1 j k).agent then
              AddToChartWith t N (Consume t sent N chart n) (a.withLabels sym.1 j k) i k
                (decide (i = j)) x
            else .ok x) = .ok y → CollLe x y := by
          intro sym x y hx hxy
          split at hxy
          · rename_i hp
            exact (hadd _ x y hx hp hxy).1
          · injection hxy with hxy
            subst hxy; exact CollLe_refl _
        rcases hkind with ⟨w, rfl, hkj, hw⟩ | ⟨heads, cell2, rfl, hcell2, hpop, hheads⟩
        · subst hkj
          simp only [if_true, hw] at hc1
          have hps1 : PredictiveSearch t (a.withWord w).agent = true := hps
          simp only [hps1, if_true] at hc1
          obtain ⟨hle1, hdep⟩ := hadd _ cs c1 hpar hps1 hc1
          have hpar1 := parallel_le hle1 hpar
          have hle2 : CollLe c1 cs1 := by
            have := forEachE_inv (fun x => (∀ z ∈ x, z.Parallel) ∧ CollLe c1 x) _ c1 cs1
              (fun sym _ x y hx hy =>
                ⟨parallel_le (hstepLe sym x y hx.1 hy) hx.1,
                 CollLe_trans hx.2 (hstepLe sym x y hx.1 hy)⟩)
              ⟨hpar1, CollLe_refl _⟩ h
            exact this.2
          exact Deposited_le hle2 (hdep syms q b hwalk hu)
        · rw [hcell] at hcell2
          cases hcell2
          have hle1 : CollLe cs c1 := by
            split at hc1
            · split at hc1
              · exact absurd hc1 (by simp)
              · split at hc1
                · rename_i hp
                  exact (hadd _ cs c1 hpar hp hc1).1
                · injection hc1 with hc1
                  subst hc1; exact CollLe_refl _
            · injection hc1 with hc1
              subst hc1; exact CollLe_refl _
          have hpar1 := parallel_le hle1 hpar
          obtain ⟨sym, hsym, hsymh⟩ := List.mem_map.1 hheads
          subst hsymh
          refine forEachE_reach (fun c => ∀ x ∈ c, x.Parallel)
            (fun c => Deposited t c (i * N + q) b) _ sym hsym ?_ ?_ c1 cs1 hpar1 h
          · intro y _ x z hx hz
            have := hstepLe y x z hx hz
            exact ⟨parallel_le this hx, Deposited_le this⟩
          · intro x z hx hz
            have hps1 : PredictiveSearch t (a.withLabels sym.1 j k).agent = true := hps
            simp only [hps1, if_true] at hz
            exact (hadd _ x z hx hps1 hz).2 syms q b hwalk hu

/-! ### Walks and the chart cells they read -/

/-- A symbol that can be taken can still be taken when cells have been added to the chart and
the populated cells are as they were. -/
theorem symNext_mono {sent : Sentence} {N : Nat} {chart1 chart2 : List CFGChartItem}
    (hmono : ∀ (k : Nat) (c : CFGChartItem), chart1[k]? = some c → c.populated_ = true →
      chart2[k]? = some c)
    {p x : Nat} {s : WalkSym} (h : symNext sent N chart1 p s = some x) :
    symNext sent N chart2 p s = some x := by
  cases s with
  | word w => exact h
  | nonterm heads last =>
    simp only [symNext] at h ⊢
    split at h
    · rename_i hb
      rw [if_pos hb]
      split at h
      · rename_i cell hcell
        split at h
        · rename_i hc
          rw [hmono _ cell hcell hc.1]
          simp only [hc, and_self, if_true]
          exact h
        · cases h
      · cases h
    · cases h

theorem walk_mono {t : LookupTableCFGLM} {ps : Bool} {sent : Sentence} {N : Nat}
    {chart1 chart2 : List CFGChartItem}
    (hmono : ∀ (k : Nat) (c : CFGChartItem), chart1[k]? = some c → c.populated_ = true →
      chart2[k]? = some c) (syms : List WalkSym) :
    ∀ (p : Nat) (a : CFGPath) (r : Nat × CFGPath),
      walk t ps sent N chart1 syms p a = some r → walk t ps sent N chart2 syms p a = some r := by
  induction syms with
  | nil => intro p a r h; exact h
  | cons s rest ih =>
    intro p a r h
    obtain ⟨x, hx, hps, hrest⟩ := walk_cons h
    rw [walk_cons_of (symNext_mono hmono hx) hps]
    exact ih x _ r hrest

/-- Whether a symbol can be taken at `p` depends on the chart only through the cell of the
span that the symbol covers. -/
theorem symNext_congr {sent : Sentence} {N : Nat} {chart1 chart2 : List CFGChartItem}
    {p l : Nat} {s : WalkSym} (h : symNext sent N chart1 p s = some (l + 1))
    (hcell : chart1[p * N + l]? = chart2[p * N + l]?) :
    symNext sent N chart2 p s = some (l + 1) := by
  cases s with
  | word w => exact h
  | nonterm heads last =>
    simp only [symNext] at h ⊢
    split at h
    · rename_i hb
      rw [if_pos hb]
      split at h
      · rename_i cell hc
        split at h
        · rename_i hcond
          injection h with h
          have hl : last = l := by omega
          subst hl
          rw [← hcell, hc]
          simp only [hcond, and_self, if_true]
        · cases h
      · cases h
    · cases h

/-- A walk from `p` on depends on the chart only through the cells of the spans that start at
`p` or later. -/
theorem walk_congr {t : LookupTableCFGLM} {ps : Bool} {sent : Sentence} {N : Nat}
    {chart1 chart2 : List CFGChartItem} (hsent : sent.length ≤ N) (syms : List WalkSym) :
    ∀ (p : Nat) (a : CFGPath) (r : Nat × CFGPath),
      (∀ p1 l, p ≤ p1 → l < N → chart1[p1 * N + l]? = chart2[p1 * N + l]?) →
      walk t ps sent N chart1 syms p a = some r → walk t ps sent N chart2 syms p a = some r := by
  induction syms with
  | nil => intro p a r _ h; exact h
  | cons s rest ih =>
    intro p a r hc h
    obtain ⟨x, hx, hps, hrest⟩ := walk_cons h
    obtain ⟨k, rfl, hk, hkN, _⟩ := symNext_bounds hsent hx
    rw [walk_cons_of (symNext_congr hx (hc p k (le_refl _) hkN)) hps]
    exact ih (k + 1) _ r (fun p1 l h1 h2 => hc p1 l (by omega) h2) hrest

/-- The shape of the path that a walk reaches: the spans it adds are in increasing order and
lie between the start and the end of the walk, there is one label for each, the label is a
label of a bucket of the populated cell of the span, and the words of the spans together with
the words taken singly are the words from the start to the end. -/
theorem walk_geometry {t : LookupTableCFGLM} {ps : Bool} {sent : Sentence} {N : Nat}
    {chart : List CFGChartItem} (hsent : sent.length ≤ N) (syms : List WalkSym) :
    ∀ (p : Nat) (a : CFGPath) (q : Nat) (b : CFGPath),
      walk t ps sent N chart syms p a = some (q, b) →
      ∃ (spans : List (Nat × Nat)) (labels : List HieroHeadLabels),
        b.spans = a.spans ++ spans ∧ b.labels = a.labels ++ labels ∧
        spans.length = labels.length ∧
        spans.Pairwise (fun s1 s2 => s1.2 < s2.1) ∧
        (∀ sp ∈ spans, p ≤ sp.1 ∧ sp.1 ≤ sp.2 ∧ sp.2 < q ∧ sp.2 < N) ∧
        wordCount syms + (spans.map fun sp => sp.2 + 1 - sp.1).sum = q - p ∧ p ≤ q ∧
        (∀ (pid : Nat) sp lab, spans[pid]? = some sp → labels[pid]? = some lab →
          ∃ cell, chart[sp.1 * N + sp.2]? = some cell ∧ cell.populated_ = true ∧
            lab ∈ cell.nodes_.map Prod.fst) := by
  induction syms with
  | nil =>
    intro p a q b h
    simp only [walk, Option.some.injEq, Prod.mk.injEq] at h
    obtain ⟨rfl, rfl⟩ := h
    exact ⟨[], [], by simp, by simp, rfl, List.Pairwise.nil, by simp, by simp [wordCount],
      le_refl _, by simp⟩
  | cons s rest ih =>
    intro p a q b h
    obtain ⟨x, hx, _, hrest⟩ := walk_cons h
    obtain ⟨k, rfl, hk, hkN, hkind⟩ := symNext_bounds hsent hx
    obtain ⟨spans, labels, hs, hl, hlen, hpw, hin, hcount, hle, hcells⟩ := ih _ _ q b hrest
    rcases hkind with ⟨w, rfl, hkp, _⟩ | ⟨heads, cell, rfl, hcell, hpop, hheads⟩
    · subst hkp
      refine ⟨spans, labels, hs, hl, hlen, hpw, ?_, ?_, by omega, hcells⟩
      · intro sp hsp
        have := hin sp hsp
        omega
      · simp only [wordCount]
        omega
    · refine ⟨(p, k) :: spans, heads :: labels, ?_, ?_, by simp [hlen], ?_, ?_, ?_, by omega, ?_⟩
      · rw [hs]; simp [CFGPath.step, CFGPath.withLabels]
      · rw [hl]; simp [CFGPath.step, CFGPath.withLabels]
      · rw [List.pairwise_cons]
        refine ⟨?_, hpw⟩
        intro sp hsp
        have := hin sp hsp
        simp only
        omega
      · intro sp hsp
        rcases List.mem_cons.1 hsp with e | e
        · subst e
          simp only
          omega
        · have := hin sp e
          omega
      · simp only [wordCount, List.map_cons, List.sum_cons]
        omega
      · intro pid sp lab h1 h2
        cases pid with
        | zero =>
          simp only [List.getElem?_cons_zero, Option.some.injEq] at h1 h2
          subst h1; subst h2
          exact ⟨cell, hcell, hpop, hheads⟩
        | succ pid =>
          simp only [List.getElem?_cons_succ] at h1 h2
          exact hcells pid sp lab h1 h2

/-! ### Walks on tables that answer like tries -/

theorem step_agent_extends (a : CFGPath) (p : Nat) (s : WalkSym) :
    a.agent <+: (a.step p s).agent := by
  cases s with
  | word w => exact List.prefix_append _ _
  | nonterm heads last => exact List.prefix_append _ _

theorem walk_agent_extends {t : LookupTableCFGLM} {ps : Bool} {sent : Sentence} {N : Nat}
    {chart : List CFGChartItem} (syms : List WalkSym) :
    ∀ (p : Nat) (a : CFGPath) (q : Nat) (b : CFGPath),
      walk t ps sent N chart syms p a = some (q, b) → a.agent <+: b.agent := by
  induction syms with
  | nil =>
    intro p a q b h
    simp only [walk, Option.some.injEq, Prod.mk.injEq] at h
    rw [h.2]
  | cons s rest ih =>
    intro p a q b h
    obtain ⟨x, _, _, hrest⟩ := walk_cons h
    exact (step_agent_extends a p s).trans (ih x _ q b hrest)

/-- Where a rule table that answers like a trie has the query of the path that a walk
reaches as a key, the walk passes `PredictiveSearch` all the way. -/
theorem walk_true_of_lookup {t : LookupTableCFGLM} {sent : Sentence} {N : Nat}
    {chart : List CFGChartItem} {fsm : RuleFSM} (hf : fsm ∈ t.rule_fsms_)
    (htrie : fsm.TrieLike) (syms : List WalkSym) :
    ∀ (p : Nat) (a : CFGPath) (q : Nat) (b : CFGPath) (key : Nat),
      walk t false sent N chart syms p a = some (q, b) → fsm.lookup b.agent = some key →
      walk t true sent N chart syms p a = some (q, b) := by
  induction syms with
  | nil => intro p a q b key h _; exact h
  | cons s rest ih =>
    intro p a q b key h hkey
    obtain ⟨x, hx, _, hrest⟩ := walk_cons h
    have hpre := walk_agent_extends rest x _ q b hrest
    have hps : PredictiveSearch t (a.step p s).agent = true := by
      simp only [PredictiveSearch, List.any_eq_true]
      exact ⟨fsm, hf, htrie _ key hkey _ hpre⟩
    rw [walk_cons_of hx (fun _ => hps)]
    exact ih x _ q b key hrest hkey

/-! ### The collections while `TransformGraph` goes through the spans -/

theorem collectRules_le {t : LookupTableCFGLM} {sent : Sentence} {N i j : Nat} {d : Decode}
    {cs : List CFGCollection} (h : collectRules t sent N i j d = .ok cs) :
    CollLe d.collections cs := by
  unfold collectRules at h
  split at h
  · split at h
    · cases h
    · exact depositRules_le _ _ _ _ _ h
  · exact Consume_le t sent N d.chart N {} i i (j - 1) _ _ h

/-- Collecting the rules of the span `i..j` changes no collection but those of the spans from
`i` to `j` or a later position. -/
theorem collectRules_frame {t : LookupTableCFGLM} {sent : Sentence} {N i j : Nat} {d : Decode}
    {cs : List CFGCollection} (hj : j < N) (h : collectRules t sent N i j d = .ok cs) :
    ∀ idx, (∀ q, j ≤ q → q < N → idx ≠ i * N + q) → cs[idx]? = d.collections[idx]? := by
  intro idx hidx
  unfold collectRules at h
  split at h
  · split at h
    · cases h
    · exact depositRules_frame _ _ _ _ _ h idx (hidx j (le_refl _) hj)
  · exact Consume_frame t sent N d.chart N {} i (j - 1) _ _ (by omega) h idx
      (fun q h1 h2 => hidx q (by omega) h2)

/-- The rules of a span can be collected whenever the sentence, the chart and the collections
have their sizes. -/
theorem collectRules_total {t : LookupTableCFGLM} {sent : Sentence} {N i j : Nat} {d : Decode}
    (hsent : sent.length = N) (hchart : d.chart.length = N * N)
    (hcoll : d.collections.length = N * N) (hij : i ≤ j) (hj : j < N) :
    ∃ cs, collectRules t sent N i j d = .ok cs := by
  unfold collectRules
  split
  · rename_i e
    subst e
    rw [List.getElem?_eq_getElem (by omega)]
    obtain ⟨cs, hcs, _⟩ := depositRules_length (CFGPath.withWord {} sent[i]) (i * N + i)
      t.rule_fsms_ d.collections (by rw [hcoll]; exact index_lt hj hj)
    exact ⟨cs, hcs⟩
  · obtain ⟨cs, hcs, _⟩ := Consume_total t sent N d.chart hsent hchart N {} i i (j - 1)
      d.collections (by omega) (le_refl _) (by omega) (by omega) hcoll
    exact ⟨cs, hcs⟩

theorem mem_seen {N i j : Nat} {pre post : List (Nat × Nat)}
    (hsplit : spanOrder N = pre ++ (i, j) :: post) {i1 j1 : Nat}
    (h : (i1, j1) ∈ pre ++ [(i, j)]) :
    i1 ≤ j1 ∧ j1 < N ∧ (i < i1 ∨ (i1 = i ∧ j1 ≤ j)) := by
  obtain ⟨⟨hij, hj⟩, _, hpre, _⟩ := spanOrder_split hsplit
  rcases List.mem_append.1 h with h | h
  · obtain ⟨h1, h2, h3⟩ := hpre i1 j1 h
    exact ⟨h1, h2, by omega⟩
  · simp only [List.mem_singleton, Prod.mk.injEq] at h
    obtain ⟨rfl, rfl⟩ := h
    exact ⟨hij, hj, Or.inr ⟨rfl, le_refl _⟩⟩

/-- Collecting the rules of the next span keeps the invariant of the collections. -/
theorem WalkInv_collect {t : LookupTableCFGLM} {sent : Sentence} {N i j : Nat}
    {pre post : List (Nat × Nat)} {d : Decode} {cs : List CFGCollection}
    (hsent : sent.length = N) (hsplit : spanOrder N = pre ++ (i, j) :: post)
    (hd : ChartPop N pre d) (hinv : WalkInv t sent N pre d.chart d.collections)
    (h : collectRules t sent N i j d = .ok cs) :
    WalkInv t sent N (pre ++ [(i, j)]) d.chart cs := by
  obtain ⟨⟨hij, hj⟩, _⟩ := spanOrder_split hsplit
  have hle := collectRules_le h
  have hpar := parallel_le hle hinv.parallel
  refine { len := by rw [hle.1]; exact hinv.len, parallel := hpar, sound := ?_,
           complete := ?_, single := ?_ }
  · unfold collectRules at h
    split at h
    · rename_i e
      subst e
      split at h
      · cases h
      · rename_i w hw
        have hwalk : walk t false sent N d.chart [.word w] i {} = some (i + 1, CFGPath.withWord {} w) := by
          rw [walk_cons_of (symNext_word hw) (fun hc => absurd hc (by simp))]
          rfl
        exact (depositRules_sound hj hwalk ⟨fun _ => ⟨w, rfl⟩, fun hn => absurd rfl hn⟩
          hinv.parallel hinv.sound h).2
    · rename_i hne
      exact (Consume_sound t sent N d.chart N i (j - 1) _ cs (by omega) (by omega)
        (ChartPop_reads hsplit hd hne) hinv.parallel hinv.sound h).2
  · intro i1 m q s syms b hseen hs hps hsy hwalk
    rcases List.mem_append.1 hseen with hin | hin
    · exact Deposited_le hle (hinv.complete i1 m q s syms b hin hs hps hsy hwalk)
    · simp only [List.mem_singleton, Prod.mk.injEq] at hin
      obtain ⟨rfl, rfl⟩ := hin
      obtain ⟨k, hk, hik, _, _⟩ := symNext_bounds (le_of_eq hsent) hs
      have hne : i1 ≠ m + 1 := by omega
      unfold collectRules at h
      rw [if_neg hne] at h
      simp only [Nat.add_sub_cancel] at h
      exact Consume_complete t sent N d.chart (le_of_eq hsent) N {} i1 i1 m _ cs (le_refl _)
        hinv.parallel h s syms q b hs hps hwalk (Or.inr hsy)
  · intro i1 w hseen hw
    rcases List.mem_append.1 hseen with hin | hin
    · exact Deposited_le hle (hinv.single i1 w hin hw)
    · simp only [List.mem_singleton, Prod.mk.injEq] at hin
      obtain ⟨rfl, e⟩ := hin
      subst e
      unfold collectRules at h
      simp only [if_true, hw] at h
      exact fun fsm hf key hkey => depositRules_complete _ _ _ _ _ h hinv.parallel fsm hf key hkey

/-- `CubePrune` for the span whose rules have just been collected keeps the invariant of the
collections: it changes the cell of that span only, which no walk made so far has read. -/
theorem WalkInv_chart {t : LookupTableCFGLM} {sent : Sentence} {N i j : Nat}
    {pre post : List (Nat × Nat)} {chart chart1 : List CFGChartItem} {cs : List CFGCollection}
    (hsent : sent.length = N) (hsplit : spanOrder N = pre ++ (i, j) :: post)
    (hcell : ∀ c, chart[i * N + j]? = some c → c.populated_ = false)
    (hothers : ∀ k, k ≠ i * N + j → chart1[k]? = chart[k]?)
    (hinv : WalkInv t sent N (pre ++ [(i, j)]) chart cs) :
    WalkInv t sent N (pre ++ [(i, j)]) chart1 cs := by
  obtain ⟨⟨hij, hj⟩, _⟩ := spanOrder_split hsplit
  have hmono : ∀ (k : Nat) (c : CFGChartItem), chart[k]? = some c → c.populated_ = true →
      chart1[k]? = some c := by
    intro k c hc hp
    by_cases hk : k = i * N + j
    · subst hk
      rw [hcell c hc] at hp
      cases hp
    · rw [hothers k hk]; exact hc
  refine { len := hinv.len, parallel := hinv.parallel, sound := ?_, complete := ?_,
           single := hinv.single }
  · intro i1 j1 c h1 h2 hc r rule spans labels hr hs hl
    obtain ⟨syms, b, hwalk, e1, e2, hfsm, hshape⟩ := hinv.sound i1 j1 c h1 h2 hc r rule spans
      labels hr hs hl
    exact ⟨syms, b, walk_mono hmono syms _ _ _ hwalk, e1, e2, hfsm, hshape⟩
  · intro i1 m q s syms b hseen hs hps hsy hwalk
    obtain ⟨_, hm1, hpos⟩ := mem_seen hsplit hseen
    obtain ⟨k, hk, hik, _, _⟩ := symNext_bounds (le_of_eq hsent) hs
    have hkm : k = m := by omega
    subst hkm
    have hs0 : symNext sent N chart i1 s = some (k + 1) := by
      refine symNext_congr hs (hothers _ ?_)
      intro e
      obtain ⟨e1, e2⟩ := index_inj (by omega) hj e
      omega
    have hw0 : walk t true sent N chart syms (k + 1) (CFGPath.step {} i1 s) = some (q + 1, b) := by
      refine walk_congr (le_of_eq hsent) syms _ _ _ ?_ hwalk
      intro p1 l hp1 hl
      refine hothers _ ?_
      intro e
      obtain ⟨e1, e2⟩ := index_inj hl hj e
      omega
    exact hinv.complete i1 k q s syms b hseen hs0 hps hsy hw0

theorem WalkInv_init (t : LookupTableCFGLM) (sent : Sentence) :
    WalkInv t sent sent.length [] (initialDecode sent).chart (initialDecode sent).collections := by
  refine { len := by simp [initialDecode], parallel := ?_, sound := ?_, complete := ?_,
           single := ?_ }
  · intro c hc
    simp only [initialDecode] at hc
    rw [List.eq_of_mem_replicate hc]
    exact ⟨rfl, rfl⟩
  · intro i j c _ _ hc r rule spans labels hr
    have hmem := List.getElem?_mem hc
    simp only [initialDecode] at hmem
    rw [List.eq_of_mem_replicate hmem] at hr
    simp at hr
  · intro i m q s syms b hseen
    simp at hseen
  · intro i w hseen
    simp at hseen

/-- One turn of the loops of `TransformGraph` keeps the invariant of the collections. -/
theorem WalkInv_step {t : LookupTableCFGLM} {fuel : Nat} {sent : Sentence} {N i j : Nat}
    {pre post : List (Nat × Nat)} {d d1 : Decode}
    (hsent : sent.length = N) (hsplit : spanOrder N = pre ++ (i, j) :: post)
    (hd : ChartPop N pre d) (hinv : WalkInv t sent N pre d.chart d.collections)
    (h : spanStep t fuel sent N i j d = .ok d1) :
    WalkInv t sent N (pre ++ [(i, j)]) d1.chart d1.collections := by
  rw [spanStep_eq] at h
  cases hcs : collectRules t sent N i j d with
  | error e => simp [hcs] at h
  | ok cs =>
    simp only [hcs] at h
    obtain ⟨_, _, _, cell0, cellF, _, _, _, _, h0, hpop0, _, _, _, hothers, _, _, hcoll⟩ :=
      CubePrune_final h
    rw [hcoll]
    have hoth : ∀ k, k ≠ i * N + j → d1.chart[k]? = d.chart[k]? := hothers
    have hcell : ∀ c, d.chart[i * N + j]? = some c → c.populated_ = false := by
      intro c hc
      have h00 : d.chart[i * N + j]? = some cell0 := h0
      rw [h00] at hc
      cases hc
      exact hpop0
    exact WalkInv_chart hsent hsplit hcell hoth (WalkInv_collect hsent hsplit hd hinv hcs)

theorem WalkInv_run {t : LookupTableCFGLM} {fuel : Nat} {sent : Sentence} {N : Nat}
    (hsent : sent.length = N) (todo : List (Nat × Nat)) :
    ∀ (pre rest : List (Nat × Nat)) (d0 d : Decode),
      spanOrder N = pre ++ todo ++ rest → ChartPop N pre d0 →
      WalkInv t sent N pre d0.chart d0.collections →
      forEachE (fun sp d => spanStep t fuel sent N sp.1 sp.2 d) todo d0 = .ok d →
      WalkInv t sent N (pre ++ todo) d.chart d.collections := by
  induction todo with
  | nil =>
    intro pre rest d0 d _ _ hinv h
    simp only [forEachE, Except.ok.injEq] at h
    subst h
    simpa using hinv
  | cons x todo ih =>
    intro pre rest d0 d hs hd hinv h
    simp only [forEachE] at h
    split at h
    · rename_i d1 hd1
      have hsplit : spanOrder N = pre ++ (x.1, x.2) :: (todo ++ rest) := by
        rw [hs]; simp
      have h1 := ChartPop_step hsplit hd hd1
      have h2 := WalkInv_step hsent hsplit hd hinv hd1
      have := ih (pre ++ [(x.1, x.2)]) rest d1 d (by rw [hs]; simp) h1 h2 h
      simpa using this
    · exact absurd h (by simp)

/-- A turn of the loops for a later span leaves the collection of the span `i..j` as it is. -/
theorem spanStep_frame {t : LookupTableCFGLM} {fuel : Nat} {sent : Sentence}
    {N i j i2 j2 : Nat} {d d1 : Decode} (hj : j < N) (hj2 : j2 < N)
    (hlater : i2 < i ∨ (i2 = i ∧ j < j2))
    (h : spanStep t fuel sent N i2 j2 d = .ok d1) :
    d1.collections[i * N + j]? = d.collections[i * N + j]? := by
  rw [spanStep_eq] at h
  cases hcs : collectRules t sent N i2 j2 d with
  | error e => simp [hcs] at h
  | ok cs =>
    simp only [hcs] at h
    obtain ⟨_, _, _, _, _, _, _, _, _, _, _, _, _, _, _, _, _, hcoll⟩ := CubePrune_final h
    rw [hcoll]
    refine collectRules_frame hj2 hcs _ ?_
    intro q hq hqN e
    obtain ⟨e1, e2⟩ := index_inj hj hqN e
    omega

theorem later_frame {t : LookupTableCFGLM} {fuel : Nat} {sent : Sentence} {N i j : Nat}
    (hj : j < N) (todo : List (Nat × Nat)) :
    ∀ (d1 d2 : Decode), (∀ x ∈ todo, x.2 < N ∧ (x.1 < i ∨ (x.1 = i ∧ j < x.2))) →
      forEachE (fun sp d => spanStep t fuel sent N sp.1 sp.2 d) todo d1 = .ok d2 →
      d2.collections[i * N + j]? = d1.collections[i * N + j]? := by
  intro d1 d2 hall h
  refine forEachE_inv (fun d => d.collections[i * N + j]? = d1.collections[i * N + j]?)
    todo d1 d2 ?_ rfl h
  intro x hx a b ha hb
  rw [spanStep_frame hj (hall x hx).1 (hall x hx).2 hb, ha]

theorem DecodeInv_run {t : LookupTableCFGLM} {fuel : Nat} {sent : Sentence} {N : Nat}
    (todo : List (Nat × Nat)) {d : Decode}
    (h : forEachE (fun sp d => spanStep t fuel sent N sp.1 sp.2 d) todo (initialDecode sent)
      = .ok d) : DecodeInv t sent d :=
  forEachE_inv (DecodeInv t sent) todo _ d (fun _ _ _ _ ha hb => spanStep_decode ha hb)
    (DecodeInv_init t sent) h

/-- C32: when `TransformGraph` comes to the span `(i, j)`, having run its loops over the
spans `pre` before it, the rules of the span can be collected, which changes no collection of
a span of `pre`, whose `CubePrune` has run; `CubePrune` for `(i, j)` leaves the collections as
they are, and no later turn of the loops changes the collection of `(i, j)`: it is final when
`CubePrune` runs. By then it holds the rules of every path of at least two symbols from `i`
to `j` that passes `PredictiveSearch` all the way, whatever the end of its first symbol; for
a rule table that answers like a trie these are all paths of at least two symbols whose query
is a key of the table; and for a one-word span it holds the rules of every rule table for the
word. Every entry of the collection comes from such a path: a single word if `i = j`, at
least two symbols otherwise. -/
theorem collection_final_when_CubePrune_runs (t : LookupTableCFGLM) (fuel : Nat)
    (sent : Sentence) (pre post : List (Nat × Nat)) (i j : Nat) (d : Decode)
    (hsplit : spanOrder sent.length = pre ++ (i, j) :: post)
    (hrun : forEachE (fun sp d => spanStep t fuel sent sent.length sp.1 sp.2 d) pre
      (initialDecode sent) = .ok d) :
    ∃ cs coll, collectRules t sent sent.length i j d = .ok cs ∧
      cs[i * sent.length + j]? = some coll ∧
      (∀ i1 j1, (i1, j1) ∈ pre →
        cs[i1 * sent.length + j1]? = d.collections[i1 * sent.length + j1]?) ∧
      (∀ d1, CubePrune t fuel sent.length i j { d with collections := cs } = .ok d1 →
        d1.collections = cs ∧
        ∀ todo rest d2, post = todo ++ rest →
          forEachE (fun sp d => spanStep t fuel sent sent.length sp.1 sp.2 d) todo d1 = .ok d2 →
          d2.collections[i * sent.length + j]? = some coll) ∧
      (∀ syms b, 2 ≤ syms.length →
        walk t true sent sent.length d.chart syms i {} = some (j + 1, b) →
        ∀ fsm ∈ t.rule_fsms_, ∀ key, fsm.lookup b.agent = some key →
          ∀ rule ∈ fsm.rules key, HasEntry coll rule b.spans b.labels) ∧
      (∀ syms b, 2 ≤ syms.length →
        walk t false sent sent.length d.chart syms i {} = some (j + 1, b) →
        ∀ fsm ∈ t.rule_fsms_, fsm.TrieLike → ∀ key, fsm.lookup b.agent = some key →
          ∀ rule ∈ fsm.rules key, HasEntry coll rule b.spans b.labels) ∧
      (i = j → ∀ w, sent[i]? = some w →
        ∀ fsm ∈ t.rule_fsms_, ∀ key, fsm.lookup [w] = some key →
          ∀ rule ∈ fsm.rules key, HasEntry coll rule [] []) ∧
      (∀ (r : Nat) rule spans labels, coll.rules_[r]? = some rule →
        coll.spans_[r]? = some spans → coll.labels_[r]? = some labels →
        EntryOK t sent sent.length d.chart i j rule spans labels) := by
  have hd : ChartPop sent.length pre d := by
    have := @ChartPop_run t fuel sent sent.length pre [] ((i, j) :: post) (initialDecode sent) d
      (by rw [hsplit]; simp) (ChartPop_init sent) hrun
    simpa using this
  have hinv : WalkInv t sent sent.length pre d.chart d.collections := by
    have := @WalkInv_run t fuel sent sent.length rfl pre [] ((i, j) :: post)
      (initialDecode sent) d (by rw [hsplit]; simp) (ChartPop_init sent) (WalkInv_init t sent)
      hrun
    simpa using this
  obtain ⟨⟨hij, hj⟩, _, hpre, hin⟩ := spanOrder_split hsplit
  have htotal : ∃ cs, collectRules t sent sent.length i j d = .ok cs :=
    collectRules_total rfl hd.chart_len hinv.len hij hj
  obtain ⟨cs, hcs⟩ := htotal
  have hinv2 := WalkInv_collect rfl hsplit hd hinv hcs
  have hidx : i * sent.length + j < cs.length := by
    rw [hinv2.len]; exact index_lt (by omega) hj
  have hcoll : cs[i * sent.length + j]? = some cs[i * sent.length + j] :=
    List.getElem?_eq_getElem hidx
  have hsame : ∀ c, cs[i * sent.length + j]? = some c → c = cs[i * sent.length + j] := by
    intro c hc
    rw [hcoll] at hc
    cases hc; rfl
  have hfound : ∀ syms b, 2 ≤ syms.length →
      walk t true sent sent.length d.chart syms i {} = some (j + 1, b) →
      ∀ fsm ∈ t.rule_fsms_, ∀ key, fsm.lookup b.agent = some key →
        ∀ rule ∈ fsm.rules key, HasEntry cs[i * sent.length + j] rule b.spans b.labels := by
    intro syms b hlen hwalk fsm hf key hkey rule hrule
    cases syms with
    | nil => simp at hlen
    | cons s rest =>
      have hrest : rest ≠ [] := by
        intro e
        subst e
        simp at hlen
      obtain ⟨x, hx, hps, hw⟩ := walk_cons hwalk
      obtain ⟨m, rfl, him, _, _⟩ := symNext_bounds (le_refl _) hx
      have hadv := (walk_advance (le_refl _) rest _ _ _ _ hw).1
      have hpos := List.length_pos.2 hrest
      have hseen : (i, m + 1) ∈ pre ++ [(i, j)] := by
        by_cases hm : m + 1 = j
        · subst hm
          simp
        · exact List.mem_append_left _ (hin i (m + 1) (by omega) (by omega)
            (Or.inr ⟨rfl, by omega⟩))
      obtain ⟨c, hc, hall⟩ := hinv2.complete i m j s rest b hseen hx (hps rfl) hrest hw fsm hf
        key hkey
      rw [hsame c hc] at hall
      exact hall rule hrule
  refine ⟨cs, cs[i * sent.length + j], hcs, hcoll, ?_, ?_, hfound, ?_, ?_, ?_⟩
  · intro i1 j1 hmem
    obtain ⟨h1, h2, h3⟩ := hpre i1 j1 hmem
    refine collectRules_frame hj hcs _ ?_
    intro q hq hqN e
    obtain ⟨e1, e2⟩ := index_inj h2 hqN e
    omega
  · intro d1 hd1
    obtain ⟨_, _, _, _, _, _, _, _, _, _, _, _, _, _, _, _, _, hc1⟩ := CubePrune_final hd1
    have hc2 : d1.collections = cs := hc1
    refine ⟨hc2, ?_⟩
    intro todo rest d2 hpost hd2
    have hp := spanOrder_pairwise sent.length
    rw [hsplit, List.pairwise_append, List.pairwise_cons] at hp
    obtain ⟨_, ⟨hlater, _⟩, _⟩ := hp
    rw [later_frame hj todo d1 d2 ?_ hd2, hc2, hcoll]
    intro x hx
    have hxpost : x ∈ post := by rw [hpost]; exact List.mem_append_left _ hx
    have hxall : x ∈ spanOrder sent.length := by
      rw [hsplit]
      exact List.mem_append_right _ (List.mem_cons_of_mem _ hxpost)
    have := hlater x hxpost
    simp only at this
    exact ⟨(mem_spanOrder hxall).2, by omega⟩
  · intro syms b hlen hwalk fsm hf htrie key hkey rule hrule
    exact hfound syms b hlen (walk_true_of_lookup hf htrie syms _ _ _ _ key hwalk hkey) fsm hf
      key hkey rule hrule
  · intro e w hw fsm hf key hkey rule hrule
    subst e
    obtain ⟨c, hc, hall⟩ := hinv2.single i w (by simp) hw fsm hf key
      (by simpa [CFGPath.withWord] using hkey)
    rw [hsame c hc] at hall
    simpa [CFGPath.withWord] using hall rule hrule
  · intro r rule spans labels h1 h2 h3
    exact hinv2.sound i j _ hij hj hcoll r rule spans labels h1 h2 h3

/-! ### The entries of the collections and the chart -/

/-- A label of a bucket of a cell whose buckets are not empty: `GetHypScore` finds the bucket
and gives the score of its first node. -/
theorem GetHypScore_top (t : LookupTableCFGLM) (cell : CFGChartItem) (lab : HieroHeadLabels)
    (hb : ∀ lb ∈ cell.nodes_, lb.2 ≠ []) (hlab : lab ∈ cell.nodes_.map Prod.fst) :
    ∃ sn bucket, assocFind cell.nodes_ lab = some (sn :: bucket) ∧
      ∀ g m, GetHypScore t g m cell lab 0 = .ok (t.CalcViterbiScore g m sn.1) := by
  cases hfind : assocFind cell.nodes_ lab with
  | none => exact absurd hlab ((assocFind_none_iff _ _).1 hfind)
  | some bucket =>
    have hne := hb _ (assocFind_some_mem _ _ _ hfind)
    cases bucket with
    | nil => exact absurd rfl hne
    | cons sn rest =>
      refine ⟨sn, rest, rfl, ?_⟩
      intro g m
      simp [GetHypScore, hfind]

/-- The loop of lines 186-189 runs through when every child span has a cell with a bucket
for its label that is not empty. -/
theorem baseScore_ok (t : LookupTableCFGLM) (N : Nat) (chart : List CFGChartItem)
    (g : HyperGraph) :
    ∀ (spans : List (Nat × Nat)) (labels : List HieroHeadLabels) (m : ViterbiMemo)
      (score : Real), spans.length = labels.length →
      (∀ (pid : Nat) sp lab, spans[pid]? = some sp → labels[pid]? = some lab →
        ∃ cell, chart[sp.1 * N + sp.2]? = some cell ∧
          ∃ sn, ∀ g m, GetHypScore t g m cell lab 0 = .ok (t.CalcViterbiScore g m sn)) →
      ∃ r, baseScore t N chart g spans labels m score = .ok r := by
  intro spans
  induction spans with
  | nil => intro labels m score _ _; exact ⟨(m, score), rfl⟩
  | cons sp rest ih =>
    intro labels m score hlen hall
    cases labels with
    | nil => simp at hlen
    | cons lab labs =>
      obtain ⟨cell, hcell, sn, hget⟩ := hall 0 sp lab (by simp) (by simp)
      simp only [baseScore]
      split
      · exact ⟨_, rfl⟩
      · simp only [List.head?_cons, must, bind, Except.bind, hcell, hget, List.tail_cons]
        exact ih labs _ _ (by simpa using hlen)
          (fun pid sp2 lab2 h1 h2 => hall (pid + 1) sp2 lab2 (by simpa using h1)
            (by simpa using h2))

/-- C33: when `TransformGraph` has run its loops over the spans `pre` and collects the rules of
the next span, then in the collection of every span `i1..j1` the three vectors have the same
length, and every entry has as many child spans as child labels; its child spans are in
increasing order, each ending before the next begins, and lie in `i1..j1`; they are the spans
of a sequence of symbols, words of the sentence and labelled cells, that is taken from `i1`
up to `j1` without a gap, so that the words of the spans and the words taken singly are the
`j1 + 1 - i1` words of the span; every child label is the label of a bucket that is not empty
in the populated cell of its child span, so `GetHypScore` for it returns the score of the first
node of the bucket, and the loop of `CubePrune` that adds the top scores of the children runs
through. -/
theorem collection_entries_tile_span (t : LookupTableCFGLM) (fuel : Nat) (sent : Sentence)
    (pre post : List (Nat × Nat)) (i j : Nat) (d : Decode)
    (hsplit : spanOrder sent.length = pre ++ (i, j) :: post)
    (hrun : forEachE (fun sp d => spanStep t fuel sent sent.length sp.1 sp.2 d) pre
      (initialDecode sent) = .ok d) :
    ∃ cs, collectRules t sent sent.length i j d = .ok cs ∧
      ∀ (i1 j1 : Nat) (coll : CFGCollection), i1 ≤ j1 → j1 < sent.length →
        cs[i1 * sent.length + j1]? = some coll →
        coll.rules_.length = coll.spans_.length ∧ coll.rules_.length = coll.labels_.length ∧
        ∀ (r : Nat) spans labels, coll.spans_[r]? = some spans →
          coll.labels_[r]? = some labels →
          spans.length = labels.length ∧
          spans.Pairwise (fun s1 s2 => s1.2 < s2.1) ∧
          (∀ sp ∈ spans, i1 ≤ sp.1 ∧ sp.1 ≤ sp.2 ∧ sp.2 ≤ j1) ∧
          (∃ syms b, walk t false sent sent.length d.chart syms i1 {} = some (j1 + 1, b) ∧
            spans = b.spans ∧ labels = b.labels ∧
            wordCount syms + (spans.map fun sp => sp.2 + 1 - sp.1).sum = j1 + 1 - i1) ∧
          (∀ (pid : Nat) sp lab, spans[pid]? = some sp → labels[pid]? = some lab →
            ∃ cell sn bucket, d.chart[sp.1 * sent.length + sp.2]? = some cell ∧
              cell.populated_ = true ∧ assocFind cell.nodes_ lab = some (sn :: bucket) ∧
              ∀ g m, GetHypScore t g m cell lab 0 = .ok (t.CalcViterbiScore g m sn.1)) ∧
          (∀ g m score, ∃ res,
            baseScore t sent.length d.chart g spans labels m score = .ok res) := by
  have hd : ChartPop sent.length pre d := by
    have := @ChartPop_run t fuel sent sent.length pre [] ((i, j) :: post) (initialDecode sent) d
      (by rw [hsplit]; simp) (ChartPop_init sent) hrun
    simpa using this
  have hinv : WalkInv t sent sent.length pre d.chart d.collections := by
    have := @WalkInv_run t fuel sent sent.length rfl pre [] ((i, j) :: post)
      (initialDecode sent) d (by rw [hsplit]; simp) (ChartPop_init sent) (WalkInv_init t sent)
      hrun
    simpa using this
  have hdec : DecodeInv t sent d := DecodeInv_run pre hrun
  obtain ⟨⟨hij, hj⟩, _⟩ := spanOrder_split hsplit
  have htotal : ∃ cs, collectRules t sent sent.length i j d = .ok cs :=
    collectRules_total rfl hd.chart_len hinv.len hij hj
  obtain ⟨cs, hcs⟩ := htotal
  have hinv2 := WalkInv_collect rfl hsplit hd hinv hcs
  refine ⟨cs, hcs, ?_⟩
  intro i1 j1 coll h1 h2 hcoll
  obtain ⟨hp1, hp2⟩ := hinv2.parallel coll (List.getElem?_mem hcoll)
  refine ⟨hp1, hp2, ?_⟩
  intro r spans labels hs hl
  have hr : r < coll.rules_.length := by
    by_contra hge
    rw [List.getElem?_eq_none (by omega)] at hs
    cases hs
  obtain ⟨syms, b, hwalk, e1, e2, _, _⟩ := hinv2.sound i1 j1 coll h1 h2 hcoll r coll.rules_[r]
    spans labels (List.getElem?_eq_getElem hr) hs hl
  obtain ⟨sp2, lb2, hsp, hlb, hlen, hpw, hin, hcount, _, hcells⟩ :=
    walk_geometry (le_refl _) syms i1 {} (j1 + 1) b hwalk
  have es : spans = sp2 := by rw [e1, hsp]; rfl
  have el : labels = lb2 := by rw [e2, hlb]; rfl
  subst es; subst el
  have htop : ∀ (pid : Nat) sp lab, spans[pid]? = some sp → labels[pid]? = some lab →
      ∃ cell sn bucket, d.chart[sp.1 * sent.length + sp.2]? = some cell ∧
        cell.populated_ = true ∧ assocFind cell.nodes_ lab = some (sn :: bucket) ∧
        ∀ g m, GetHypScore t g m cell lab 0 = .ok (t.CalcViterbiScore g m sn.1) := by
    intro pid sp lab hsp1 hlab1
    obtain ⟨cell, hcell, hpop, hmem⟩ := hcells pid sp lab hsp1 hlab1
    obtain ⟨sn, bucket, hfind, hget⟩ := GetHypScore_top t cell lab
      (hdec.buckets cell (List.getElem?_mem hcell)) hmem
    exact ⟨cell, sn, bucket, hcell, hpop, hfind, hget⟩
  refine ⟨hlen, hpw, ?_, ⟨syms, b, hwalk, e1, e2, hcount⟩, htop, ?_⟩
  · intro sp hsp1
    have := hin sp hsp1
    omega
  · intro g m score
    refine baseScore_ok t sent.length d.chart g spans labels m score hlen ?_
    intro pid sp lab hsp1 hlab1
    obtain ⟨cell, sn, _, hcell, _, _, hget⟩ := htop pid sp lab hsp1 hlab1
    exact ⟨cell, hcell, sn.1, hget⟩

/-- The statement of C32 on the sentence `a b`, when `TransformGraph` comes to the span of both
words: the collection of the span holds the rule `S → X X` with the child spans of the two
words. -/
theorem collection_final_when_CubePrune_runs_witness :
    spanOrder ([0, 1] : Sentence).length = [(1, 1), (0, 0)] ++ (0, 1) :: [] ∧
    forEachE (fun sp d => spanStep Example.decoder 100 [0, 1] ([0, 1] : Sentence).length
      sp.1 sp.2 d) [(1, 1), (0, 0)] (initialDecode [0, 1]) = .ok Example.beforeLast ∧
    ∃ cs coll, collectRules Example.decoder [0, 1] ([0, 1] : Sentence).length 0 1
        Example.beforeLast = .ok cs ∧
      cs[0 * ([0, 1] : Sentence).length + 1]? = some coll ∧
      HasEntry coll Example.ruleS [(0, 0), (1, 1)] [Example.X, Example.X] :=
  ⟨by decide, by rfl,
   (collection_final_when_CubePrune_runs Example.decoder 100 [0, 1] [(1, 1), (0, 0)] [] 0 1
      Example.beforeLast (by decide) (by rfl)).imp fun _ h => h.imp fun _ h2 =>
        ⟨h2.1, h2.2.1,
         h2.2.2.2.2.1 [.nonterm Example.X 0, .nonterm Example.X 1]
           { agent := [-101, -101, -101, -101], spans := [(0, 0), (1, 1)],
             labels := [Example.X, Example.X] }
           (by decide) (by rfl) Example.fsm (List.mem_cons_self _ _) 2 (by rfl) Example.ruleS
           (List.mem_cons_self _ _)⟩⟩

/-- The statement of C33 on the sentence `a b`, when `TransformGraph` comes to the span of both
words: the vectors of the collection of the span have the same length. -/
theorem collection_entries_tile_span_witness :
    spanOrder ([0, 1] : Sentence).length = [(1, 1), (0, 0)] ++ (0, 1) :: [] ∧
    forEachE (fun sp d => spanStep Example.decoder 100 [0, 1] ([0, 1] : Sentence).length
      sp.1 sp.2 d) [(1, 1), (0, 0)] (initialDecode [0, 1]) = .ok Example.beforeLast ∧
    ∃ cs, collectRules Example.decoder [0, 1] ([0, 1] : Sentence).length 0 1
        Example.beforeLast = .ok cs ∧
      ∀ coll : CFGCollection, cs[0 * ([0, 1] : Sentence).length + 1]? = some coll →
        coll.rules_.length = coll.spans_.length ∧
        ∀ (r : Nat) spans labels, coll.spans_[r]? = some spans →
          coll.labels_[r]? = some labels → spans.length = labels.length :=
  ⟨by decide, by rfl,
   (collection_entries_tile_span Example.decoder 100 [0, 1] [(1, 1), (0, 0)] [] 0 1
      Example.beforeLast (by decide) (by rfl)).imp fun _ h =>
        ⟨h.1, fun coll hc =>
          ⟨(h.2 0 1 coll (by decide) (by decide) hc).1,
           fun r spans labels hs hl =>
             ((h.2 0 1 coll (by decide) (by decide) hc).2.2 r spans labels hs hl).1⟩⟩⟩

/-! ### `FinalizeNodes`: stored scores and served scores -/

end Travatar
